import Mathlib

/-!
# Sliding-window agreement core (`nano::agreement`)

A shallow embedding of `agreement.hpp`.

* The template parameters are fixed as follows: objects and validators are natural numbers
  (`object{}` is `0`), weights, time points and durations are unbounded integers
  (an integral type that does not overflow), and `time_point{}` is `0`.
* `std::unordered_map` is an association list; `operator[]` on a missing key adds the
  default value.
* `std::multimap` is a list kept in key order, a new element being placed after the elements
  with an equivalent key.  An iterator is the suffix of the list that starts at its position,
  `end ()` is the empty suffix, and two iterators of one container are equal when their
  suffixes have the same length.  Dereferencing `end ()` is undefined: the functions that may
  do so return `none` there.
* Callbacks are recorded: `scan` returns the sequence of `edge` and `fault` calls it makes,
  `agreement.tally` the sequence of `confirm` calls, `vote` the calls of its vote function.
* Nodes live in a heap (a list); a `std::shared_ptr` to a node is its index, and the
  `std::unordered_set` of parents is a list of indices.  The members that walk the graph
  (`for_each_ancestor`, `mark`, `replaceable`, `vote`) take the heap and the index of the
  node.
* A sequence of calls is a list of `node_call` (calls on the nodes) or of `tally_call`
  (calls on one tally), run from a start state.
-/

namespace nano

abbrev object := Nat
abbrev validator := Nat
/-- Values of the weight type.  `tally.rise` and `tally.fall` compute the sums of weights in
the integers; `tally.rise_w` and `tally.fall_w` compute them modulo `2^32`, as the weight type
`unsigned` of the validator sets of `test.cpp` does. -/
abbrev weight := Int
abbrev time_point := Int
abbrev duration := Int

/-- Value of a default-constructed time point, `time_point{}`. -/
def time_point_default : time_point := 0

/-- The validator set: `weight (v)` and `quorum ()`. -/
structure validators where
  weight : validator → nano.weight
  quorum : nano.weight

/-! ## Association lists (`std::unordered_map`) -/

/-- Value stored under key `k`, if any. -/
def map_find {κ ν : Type} [DecidableEq κ] : List (κ × ν) → κ → Option ν
  | [], _ => none
  | (k1, v1) :: rest, k => if k1 = k then some v1 else map_find rest k

/-- Assignment `m[k] = v`: replaces the value of an existing key, adds the key otherwise. -/
def map_set {κ ν : Type} [DecidableEq κ] : List (κ × ν) → κ → ν → List (κ × ν)
  | [], k, v => [(k, v)]
  | (k1, v1) :: rest, k, v =>
    if k1 = k then (k, v) :: rest else (k1, v1) :: map_set rest k v

/-! ## The tally -/

/-- Entry of `tally::votes`: the open vote of a validator, `(object, time, weight)`. -/
abbrev slot := object × time_point × weight

/-- State of `class tally`. -/
structure tally where
  rank : List (weight × object)
  totals_m : List (object × weight)
  votes : List (validator × slot)
  total_m : weight
deriving DecidableEq, Repr

namespace tally

/-- A default-constructed tally. -/
def fresh : tally := ⟨[], [], [], 0⟩

/-- Insertion `rank.insert ((w, o))` into the multimap ordered by `std::greater`: the new
element goes after every element whose key is not smaller. -/
def rank_insert (w : weight) (o : object) : List (weight × object) → List (weight × object)
  | [] => [(w, o)]
  | (w1, o1) :: rest =>
    if w ≤ w1 then (w1, o1) :: rank_insert w o rest else (w, o) :: (w1, o1) :: rest

/-- The search of `sort` through `rank.equal_range (w)` for the entry of `o`, and its
removal: the first entry `(w, o)` is erased, if there is one. -/
def rank_erase (w : weight) (o : object) : List (weight × object) → List (weight × object)
  | [] => []
  | (w1, o1) :: rest =>
    if w1 = w ∧ o1 = o then rest else (w1, o1) :: rank_erase w o rest

/-- Member `sort (weight, object, op)`: moves `object` in `rank` from its current total to
`op (total, weight)` and applies `op` to the grand total. -/
def sort (t : tally) (w : weight) (o : object) (op : weight → weight → weight) : tally :=
  let weight_object := (map_find t.totals_m o).getD 0
  let weight_new := op weight_object w
  { t with
    rank := rank_insert weight_new o (rank_erase weight_object o t.rank)
    totals_m := map_set t.totals_m o weight_new
    total_m := op t.total_m w }

/-- The reference `votes[validator]`: the stored slot, or a value-initialised one. -/
def slot_of (t : tally) (v : validator) : slot :=
  (map_find t.votes v).getD (0, time_point_default, 0)

/-- Member `fall (time, validator, object)`, with `std::minus` computed in the integers: this
is the member as long as no total leaves the range of the weight type (`fall_w` is the member
for the weight type `unsigned`). -/
def fall (t : tally) (time : time_point) (v : validator) (o : object) : tally :=
  let s := t.slot_of v
  if time = s.2.1 ∧ o = s.1 then
    let t1 := t.sort s.2.2 o (fun a b => a - b)
    { t1 with votes := map_set t1.votes v (s.1, time_point_default, s.2.2) }
  else
    { t with votes := map_set t.votes v s }

/-- Member `rise (time, validator, object, validators, fault)`, with `std::plus` computed in
the integers: this is the member as long as no total leaves the range of the weight type
(`rise_w` is the member for the weight type `unsigned`); the second component is the argument
of the `fault` call, if one is made. -/
def rise (t : tally) (time : time_point) (v : validator) (o : object) (vals : validators) :
    tally × Option validator :=
  let s := t.slot_of v
  if s.2.1 = time_point_default then
    let weight_l := vals.weight v
    let t1 : tally := { t with votes := map_set t.votes v (o, time, weight_l) }
    (t1.sort weight_l o (fun a b => a + b), none)
  else if s.1 = o then
    ({ t with votes := map_set t.votes v (s.1, time, s.2.2) }, none)
  else
    ({ t with votes := map_set t.votes v s }, some v)

/-- Member `empty ()`. -/
def empty (t : tally) : Bool :=
  t.votes.all (fun e => decide (e.2.2.1 = time_point_default))

/-- Member `max ()`. -/
def max (t : tally) : weight × object :=
  match t.rank with
  | [] => (0, 0)
  | e :: _ => e

/-- Member `total ()`. -/
def total (t : tally) : weight := t.total_m

/-- Member `totals ()`. -/
def totals (t : tally) : List (object × weight) := t.totals_m

/-- Member `reset ()`. -/
def reset (_t : tally) : tally := ⟨[], [], [], 0⟩

end tally

/-! ## The vote log and the scanner -/

/-- Element of `agreement::votes`: `(time, (validator, object))`. -/
abbrev vote_event := time_point × validator × object

/-- Iterator `votes.lower_bound (t)`. -/
def lower_bound (votes : List vote_event) (t : time_point) : List vote_event :=
  votes.dropWhile (fun e => decide (e.1 < t))

/-- Iterator `votes.upper_bound (t)`. -/
def upper_bound (votes : List vote_event) (t : time_point) : List vote_event :=
  votes.dropWhile (fun e => decide (e.1 ≤ t))

/-- Insertion `votes.emplace (e)` into the time-ordered multimap. -/
def log_insert (e : vote_event) : List vote_event → List vote_event
  | [] => [e]
  | x :: rest => if x.1 ≤ e.1 then x :: log_insert e rest else e :: x :: rest

/-- A call made by `scan`: `edge (time, tally.totals ())`, recorded with the tally it is made
on, or `fault (validator)`. -/
inductive event where
  | edge (time : time_point) (snapshot : tally)
  | fault (v : validator)
deriving DecidableEq, Repr

/-- The test `it == stop || it->first != time` that closes a group of equal times. -/
def group_end (stop it : List vote_event) (time : time_point) : Option Bool :=
  if it.length = stop.length then some true
  else
    match it with
    | [] => none
    | e :: _ => some (decide (e.1 ≠ time))

/-- The edge call made when a group is closed. -/
def edge_if (b : Bool) (time : time_point) (tl : tally) : List event :=
  if b then [event.edge time tl] else []

/-- Inner loop of `scan`, `while (lower->first <= time - W)`: returns the new `lower`, the
tally and the calls made. -/
def scan_expire (W : duration) (time : time_point) (stop : List vote_event) :
    List vote_event → tally → Option (List vote_event × tally × List event)
  | [], _ => none
  | (t1, v1, o1) :: rest, tl =>
    if t1 ≤ time - W then
      let tl1 := tl.fall t1 v1 o1
      match group_end stop rest t1 with
      | none => none
      | some b =>
        match scan_expire W time stop rest tl1 with
        | none => none
        | some (lower, tl2, evs) => some (lower, tl2, edge_if b (t1 + W) tl1 ++ evs)
    else some ((t1, v1, o1) :: rest, tl, [])

/-- The call of `fault` made by a rise, if any. -/
def fault_if : Option validator → List event
  | none => []
  | some v => [event.fault v]

/-- First loop of `scan`, `while (current != stop)`. -/
def scan_rise (W : duration) (vals : validators) (stop : List vote_event) :
    List vote_event → List vote_event → tally → Option (List vote_event × tally × List event)
  | [], lower, tl => if 0 = stop.length then some (lower, tl, []) else none
  | (time, v, o) :: rest, lower, tl =>
    if rest.length + 1 = stop.length then some (lower, tl, [])
    else
      match scan_expire W time stop lower tl with
      | none => none
      | some (lower1, tl1, evs1) =>
        let r := tl1.rise time v o vals
        match group_end stop rest time with
        | none => none
        | some b =>
          match scan_rise W vals stop rest lower1 r.1 with
          | none => none
          | some (lower2, tl2, evs2) =>
            some (lower2, tl2, evs1 ++ fault_if r.2 ++ edge_if b time r.1 ++ evs2)

/-- Second loop of `scan`, `while (lower != stop && lower->first + W < end)`. -/
def scan_drain (W : duration) (endt : time_point) (stop : List vote_event) :
    List vote_event → tally → Option (tally × List event)
  | [], tl => if 0 = stop.length then some (tl, []) else none
  | (t1, v1, o1) :: rest, tl =>
    if rest.length + 1 = stop.length then some (tl, [])
    else if t1 + W < endt then
      let tl1 := tl.fall t1 v1 o1
      match group_end stop rest t1 with
      | none => none
      | some b =>
        match scan_drain W endt stop rest tl1 with
        | none => none
        | some (tl2, evs) => some (tl2, edge_if b (t1 + W) tl1 ++ evs)
    else some (tl, [])

/-- State of an agreement node. -/
structure agreement where
  W : duration
  votes : List vote_event
  parents : List Nat
  time : time_point
  last : object
deriving DecidableEq, Repr

namespace agreement

/-- Constructor `agreement (window, item, first, last)`. -/
def mk_node (window : duration) (item : object) (parents : List Nat) : agreement :=
  ⟨window, [], parents, time_point_default, item⟩

/-- Member `reset (item)`. -/
def reset (a : agreement) (item : object) : agreement :=
  { a with time := time_point_default, last := item }

/-- Member `insert (item, time, validator)`. -/
def insert (a : agreement) (item : object) (time : time_point) (v : validator) : agreement :=
  { a with votes := log_insert (time, v, item) a.votes }

/-- Member `scan (tally, begin, end, validators, edge, fault)`: the final tally and the calls
of `edge` and `fault`, in order. -/
def scan (a : agreement) (tl : tally) (begin endt : time_point) (vals : validators) :
    Option (tally × List event) :=
  let current := lower_bound a.votes begin
  let stop := upper_bound a.votes endt
  match scan_rise a.W vals stop current current tl with
  | none => none
  | some (lower, tl1, evs1) =>
    match scan_drain a.W endt stop lower tl1 with
    | none => none
    | some (tl2, evs2) => some (tl2, evs1 ++ evs2)

/-- Variables of `agreement::tally` that the edge callback works on, with the node's parent set
and the record of the `confirm` and `fault` calls. -/
structure sampler where
  holding : Bool
  set : time_point
  obj : object
  parents : List Nat
  confirmed : List (object × weight)
  faults : List validator
deriving DecidableEq, Repr

/-- The lambda `hold_sampler` of `agreement::tally`, called at an edge at `time` on tally `tl`. -/
def hold_sampler (vals : validators) (hold : duration) (s : sampler) (time : time_point)
    (tl : tally) : sampler :=
  let m := tl.max
  let holding_new := decide (vals.quorum ≤ m.1)
  let s1 : sampler :=
    if s.holding = true ∧ hold ≤ time - s.set then
      { s with confirmed := s.confirmed ++ [(s.obj, m.1)], parents := [] }
    else s
  let s2 : sampler :=
    if s1.holding = false ∨ s1.obj ≠ m.2 then { s1 with set := time, obj := m.2 } else s1
  { s2 with holding := holding_new }

/-- Dispatch of one call made by `scan` inside `agreement::tally`. -/
def on_event (vals : validators) (hold : duration) (s : sampler) : event → sampler
  | event.edge time tl => hold_sampler vals hold s time tl
  | event.fault v => { s with faults := s.faults ++ [v] }

/-- Initial values of the locals of `agreement::tally`. -/
def sampler_init (a : agreement) : sampler :=
  ⟨false, time_point_default, a.last, a.parents, [], []⟩

/-- Member `tally (begin, end, validators, confirm, fault, hold)`: the node afterwards, the
`confirm` calls and the `fault` calls. -/
def tally (a : agreement) (begin endt : time_point) (vals : validators) (hold : duration) :
    Option (agreement × List (object × weight) × List validator) :=
  match a.scan nano.tally.fresh begin endt vals with
  | none => none
  | some (_, evs) =>
    let s := evs.foldl (on_event vals hold) (sampler_init a)
    some ({ a with parents := s.parents }, s.confirmed, s.faults)

end agreement

/-! ## Recorded calls -/

/-- The `edge` calls among a sequence of calls, as pairs of time and tally. -/
def edges_of : List event → List (time_point × tally)
  | [] => []
  | event.edge t s :: rest => (t, s) :: edges_of rest
  | event.fault _ :: rest => edges_of rest

/-- The `fault` calls among a sequence of calls. -/
def faults_of : List event → List validator
  | [] => []
  | event.edge _ _ :: rest => faults_of rest
  | event.fault v :: rest => v :: faults_of rest

/-- The edge callback applied to a recorded edge. -/
def sample (vals : validators) (hold : duration) (s : agreement.sampler) (e : time_point × tally) : agreement.sampler :=
  agreement.hold_sampler vals hold s e.1 e.2

/-- What the variables of `agreement::tally` hold after the edges `es`: nothing was sampled
yet, or `es` ends with a run `body ++ [el]` of edges whose maximum is the same object, all of
`body` with quorum, the run being as long as possible, and `set` is the time of its first
edge. -/
def run_inv (vals : validators) (es : List (time_point × tally)) (s : agreement.sampler) : Prop :=
  (es = [] ∧ s.holding = false) ∨
  ∃ pre body el, es = pre ++ body ++ [el] ∧
    s.holding = decide (vals.quorum ≤ el.2.max.1) ∧ s.obj = el.2.max.2 ∧
    (∃ ej, (body ++ [el]).head? = some ej ∧ s.set = ej.1) ∧
    (∀ e ∈ body, e.2.max.2 = el.2.max.2 ∧ vals.quorum ≤ e.2.max.1) ∧
    (∀ p, pre.getLast? = some p → ¬ (p.2.max.2 = el.2.max.2 ∧ vals.quorum ≤ p.2.max.1))

/-- The vote log is in time order, as a `std::multimap` keyed by time is. -/
def log_sorted (l : List vote_event) : Prop := l.Pairwise (fun x y => x.1 ≤ y.1)

/-- Times of the `edge` calls among a sequence of calls. -/
def edge_times (evs : List event) : List time_point := (edges_of evs).map Prod.fst

/-! ## Test fixtures (`test.cpp`) -/

/-- The validator set `uniform_validators` of the tests: every weight is 1 and the quorum is
`count - (count - 1) / 3`, for `count ≥ 1`, where the unsigned subtraction does not wrap. -/
def uniform_validators (count : Nat) : validators :=
  ⟨fun _ => 1, ((count - (count - 1) / 3 : Nat) : Int)⟩

/-- A node with window `W`, the given log, no parents and preferred object `item`. -/
def node_of (W : duration) (item : object) (log : List vote_event) : agreement :=
  ⟨W, log, [], time_point_default, item⟩

/-- The calls made by a scan of the whole range used in an example, empty if the scan is
undefined. -/
def calls_of (a : agreement) (begin endt : time_point) (vals : validators) : List event :=
  match a.scan tally.fresh begin endt vals with
  | none => []
  | some r => r.2

/-- The final tally of a scan used in an example. -/
def tally_of (a : agreement) (begin endt : time_point) (vals : validators) : tally :=
  match a.scan tally.fresh begin endt vals with
  | none => tally.fresh
  | some r => r.1

/-- Log of the test `hold_two_succeed`, with `now = 1000`. -/
def log_hold_two : List vote_event := [(1000, 0, 1), (1000, 1, 1), (1048, 2, 1)]

instance (l : List vote_event) : Decidable (log_sorted l) := by
  unfold log_sorted; exact inferInstance

/-- Node of the test `hold_two_succeed`. -/
def node_hold_two : agreement := node_of 50 0 log_hold_two

/-- Edges of the scan of `node_hold_two` over the range `[0, 2000]` with four validators. -/
def edges_hold_two : List (time_point × tally) :=
  edges_of (calls_of node_hold_two 0 2000 (uniform_validators 4))

/-! ## The scan on the selected range

With a positive window and `begin <= end` no iterator of `scan` leaves the range
`[lower_bound (begin), upper_bound (end))`; the loops can then be read on the list of the votes
of that range alone.  These are the same loops without the iterator `stop`. -/

/-- The votes between `votes.lower_bound (begin)` and `votes.upper_bound (end)`. -/
def selected (votes : List vote_event) (begin endt : time_point) : List vote_event :=
  (lower_bound votes begin).takeWhile (fun e => decide (e.1 ≤ endt))

/-- The test `it == stop || it->first != time`, for `it` at `rest` inside the range. -/
def boundary (rest : List vote_event) (time : time_point) : Bool :=
  match rest with
  | [] => true
  | e :: _ => decide (e.1 ≠ time)

/-- The loop `scan_expire` inside the range. -/
def expire_c (W : duration) (time : time_point) :
    List vote_event → tally → List vote_event × tally × List event
  | [], tl => ([], tl, [])
  | (t1, v1, o1) :: rest, tl =>
    if t1 ≤ time - W then
      let tl1 := tl.fall t1 v1 o1
      let r := expire_c W time rest tl1
      (r.1, r.2.1, edge_if (boundary rest t1) (t1 + W) tl1 ++ r.2.2)
    else ((t1, v1, o1) :: rest, tl, [])

/-- The loop `scan_rise` inside the range. -/
def rise_c (W : duration) (vals : validators) :
    List vote_event → List vote_event → tally → List vote_event × tally × List event
  | [], lower, tl => (lower, tl, [])
  | (time, v, o) :: rest, lower, tl =>
    let r1 := expire_c W time lower tl
    let r := r1.2.1.rise time v o vals
    let r2 := rise_c W vals rest r1.1 r.1
    (r2.1, r2.2.1, r1.2.2 ++ fault_if r.2 ++ edge_if (boundary rest time) time r.1 ++ r2.2.2)

/-- The loop `scan_drain` inside the range. -/
def drain_c (W : duration) (endt : time_point) : List vote_event → tally → tally × List event
  | [], tl => (tl, [])
  | (t1, v1, o1) :: rest, tl =>
    if t1 + W < endt then
      let tl1 := tl.fall t1 v1 o1
      let r := drain_c W endt rest tl1
      (r.1, edge_if (boundary rest t1) (t1 + W) tl1 ++ r.2)
    else (tl, [])

/-- The scan of the votes `seg` of the selected range. -/
def scan_c (W : duration) (endt : time_point) (vals : validators) (seg : List vote_event)
    (tl : tally) : tally × List event :=
  let r := rise_c W vals seg seg tl
  let d := drain_c W endt r.1 r.2.1
  (d.1, r.2.2 ++ d.2)

/-- Log of scenario S4: three votes for object `0` at time 1000. -/
def log_s4 : List vote_event := [(1000, 0, 0), (1000, 1, 0), (1000, 2, 0)]

/-- Node of scenario S4, with one parent. -/
def node_s4 : agreement := ⟨50, log_s4, [1], time_point_default, 0⟩

/-- A log in which a fourth vote arrives while three votes hold the quorum. -/
def log_two_confirms : List vote_event := [(1000, 0, 1), (1000, 1, 1), (1000, 2, 1), (1010, 3, 1)]

/-- Log of the test `tally_1_succeed`: one vote, which is a quorum of one validator. -/
def log_one : List vote_event := [(1000, 0, 0)]

/-! ## Invariants of the tally -/

/-- Weight that an entry of `tally::votes` gives to object `o`: its stored weight if the vote
is open (its time is not `time_point{}`) and names `o`. -/
def contrib (o : object) (s : slot) : weight :=
  if s.2.1 ≠ time_point_default ∧ s.1 = o then s.2.2 else 0

/-- Summed stored weight of the open votes for object `o`. -/
def active_weight (votes : List (validator × slot)) (o : object) : weight :=
  (votes.map (fun e => contrib o e.2)).sum

/-- `rank` holds exactly the entries of `totals_m`, each object once, in descending weight. -/
def rank_wf (t : tally) : Prop :=
  t.rank.Perm (t.totals_m.map Prod.swap) ∧ (t.totals_m.map Prod.fst).Nodup ∧
    t.rank.Pairwise (fun x y => y.1 ≤ x.1)

/-- Every validator has one entry in `votes`, and the total of every object is the summed
weight of the open votes for it. -/
def sum_wf (t : tally) : Prop :=
  (t.votes.map Prod.fst).Nodup ∧
    ∀ o, (map_find t.totals_m o).getD 0 = active_weight t.votes o

/-! ## Support of an object in a range of the log -/

/-- The distinct validators that have a vote for object `o` with a time in `[begin, end]`. -/
def supporters (votes : List vote_event) (begin endt : time_point) (o : object) :
    List validator :=
  ((votes.filter (fun e => decide (begin ≤ e.1 ∧ e.1 ≤ endt ∧ e.2.2 = o))).map
    (fun e => e.2.1)).dedup

/-- Summed weight of the distinct validators that have a vote for `o` in `[begin, end]`. -/
def support (vals : validators) (votes : List vote_event) (begin endt : time_point)
    (o : object) : weight :=
  ((supporters votes begin endt o).map vals.weight).sum

/-- Every open vote of the tally carries the weight of its validator and comes from a vote of
the log in `[begin, end]` for the same object. -/
def provenance (vals : validators) (votes : List vote_event) (begin endt : time_point)
    (t : tally) : Prop :=
  ∀ v s, map_find t.votes v = some s → s.2.1 ≠ time_point_default →
    s.2.2 = vals.weight v ∧ v ∈ supporters votes begin endt s.1

/-- Log of the test `tally_double_fail`: the same vote received twice. -/
def log_double : List vote_event := [(1000, 0, 0), (1000, 0, 0)]

/-! ## The tally of a log in which every validator votes once -/

/-- Entry of `tally::votes` for a vote that has fallen. -/
def closed_slot (vals : validators) (e : vote_event) : validator × slot :=
  (e.2.1, (e.2.2, time_point_default, vals.weight e.2.1))

/-- Entry of `tally::votes` for a vote that has risen and not fallen. -/
def open_slot (vals : validators) (e : vote_event) : validator × slot :=
  (e.2.1, (e.2.2, e.1, vals.weight e.2.1))

/-- The tally after the votes `f` have risen and fallen and the votes `m` have risen. -/
def window_state (vals : validators) (f m : List vote_event) (t : tally) : Prop :=
  rank_wf t ∧ sum_wf t ∧ t.votes = f.map (closed_slot vals) ++ m.map (open_slot vals)

/-- Summed weight of the votes of `l` for object `o`. -/
def summed (vals : validators) (l : List vote_event) (o : object) : weight :=
  ((l.filter (fun e => decide (e.2.2 = o))).map (fun e => vals.weight e.2.1)).sum

/-- The validators of a list of votes. -/
def voters (l : List vote_event) : List validator := l.map (fun e => e.2.1)

/-! ## The graph of agreement nodes

A `std::shared_ptr` to a node is the index of the node in the list of the nodes that exist;
the members of `parents` are such indices. -/

/-- The nodes that exist. -/
abbrev heap := List agreement

/-- Every parent pointer refers to a node that exists. -/
def heap_wf (h : heap) : Prop := ∀ a ∈ h, ∀ p ∈ a.parents, p < h.length

instance (h : heap) : Decidable (heap_wf h) := by
  unfold heap_wf; exact inferInstance

/-- Member `parents` of the node at `i`. -/
def parents_of (h : heap) (i : Nat) : List Nat :=
  match h[i]? with
  | some a => a.parents
  | none => []

/-- Member `time` of the node at `i`. -/
def time_of (h : heap) (i : Nat) : time_point :=
  match h[i]? with
  | some a => a.time
  | none => time_point_default

/-- Member `last` of the node at `i`. -/
def last_of (h : heap) (i : Nat) : Option object := (h[i]?).map agreement.last

/-- Assignment `value->time = now`. -/
def set_time (h : heap) (i : Nat) (now : time_point) : heap :=
  match h[i]? with
  | some a => h.set i { a with time := now }
  | none => h

/-- Assignment `last = object` in the node at `i`. -/
def set_last (h : heap) (i : Nat) (o : object) : heap :=
  match h[i]? with
  | some a => h.set i { a with last := o }
  | none => h

/-- The lambda of `std::for_each` in `for_each_ancestor`, on the pair of `marked` and `work`:
a parent that is not marked is marked and pushed. -/
def push_parent (st : List Nat × List Nat) (value : Nat) : List Nat × List Nat :=
  if value ∈ st.1 then st else (value :: st.1, value :: st.2)

/-- The loop `while (!work.empty ())` of `for_each_ancestor`, with the top of the stack at the
head of `work`.  The state carries the nodes and what `f` has captured; `none` if the loop
has not ended after `fuel` iterations. -/
def for_each_ancestor_loop {α : Type} (f : Nat → heap × α → heap × α) :
    Nat → List Nat → List Nat → heap × α → Option (heap × α)
  | _, _, [], st => some st
  | 0, _, _ :: _, _ => none
  | fuel + 1, marked, top :: work, st =>
    let mw := (parents_of st.1 top).foldl push_parent (marked, work)
    for_each_ancestor_loop f fuel mw.1 mw.2 (f top st)

/-- Member `for_each_ancestor (f)` of the node at `self`.  Every node is marked at most once
and `self` is pushed once more, so the loop runs at most once more than there are nodes. -/
def for_each_ancestor {α : Type} (h : heap) (self : Nat) (f : Nat → heap × α → heap × α)
    (x : α) : Option (heap × α) :=
  for_each_ancestor_loop f (h.length + 1) [] [self] (h, x)

/-- Member `mark (now)` of the node at `self`. -/
def mark (h : heap) (self : Nat) (now : time_point) : Option heap :=
  (for_each_ancestor h self (fun value st => (set_time st.1 value now, st.2)) ()).map Prod.fst

/-- Member `replaceable ()` of the node at `self`; the cutoff of every ancestor is taken with
the window `W` of `self`. -/
def replaceable (h : heap) (self : Nat) : Option time_point :=
  match h[self]? with
  | none => none
  | some a =>
    (for_each_ancestor h self
      (fun value st => (st.1, max st.2 (time_of st.1 value + a.W))) time_point_default).map
      Prod.snd

/-- Member `vote (vote, validators, now, fault)` of the node at `self`: the nodes afterwards,
the returned time, the calls of the `vote` callback and the `fault` calls. -/
def vote (h : heap) (self : Nat) (vals : validators) (now : time_point) :
    Option (heap × time_point × List (object × time_point) × List validator) :=
  match h[self]? with
  | none => none
  | some a =>
    match a.scan tally.fresh (now - a.W) now vals with
    | none => none
    | some (tl, evs) =>
      let m := tl.max
      let result := now + a.W
      if vals.quorum ≤ tl.total ∧ a.last ≠ m.2 then
        match replaceable h self with
        | none => none
        | some when_ =>
          if when_ ≤ now then
            match mark (set_last h self m.2) self now with
            | none => none
            | some h2 => some (h2, result, [(m.2, now)], faults_of evs)
          else some (h, when_, [], faults_of evs)
      else
        match mark h self now with
        | none => none
        | some h2 => some (h2, result, [(a.last, now)], faults_of evs)

/-- The order in which `for_each_ancestor` applies `f`, on the parent lists `g` of the
nodes. -/
def visit_loop (g : List (List Nat)) : Nat → List Nat → List Nat → Option (List Nat)
  | _, _, [] => some []
  | 0, _, _ :: _ => none
  | fuel + 1, marked, top :: work =>
    let mw := ((g[top]?).getD []).foldl push_parent (marked, work)
    (visit_loop g fuel mw.1 mw.2).map (fun vs => top :: vs)

/-- The node `i` is `self` or one of its transitive ancestors. -/
def ancestor_or_self (h : heap) (self i : Nat) : Prop :=
  Relation.ReflTransGen (fun x y => y ∈ parents_of h x) self i

/-- Child of scenario S8 (test `replace_single_fail`): its first `vote` at time 1000 has
marked it, then validators 0, 1 and 2 of four have voted for object `2` at time 1000; it
prefers object `1` and its parent is the node at index 1. -/
def node_s8 : agreement := ⟨50, [(1000, 0, 2), (1000, 1, 2), (1000, 2, 2)], [1], 1000, 1⟩

/-- Scenario S8: the child and its parent, which the first `vote` of the child has marked at
time 1000 too. -/
def heap_s8 : heap := [node_s8, ⟨50, [], [], 1000, 0⟩]

/-- The child of scenario S8 with every time 1100 earlier, so that it was marked at a time
before the default time point. -/
def node_early : agreement := ⟨50, [(-100, 0, 2), (-100, 1, 2), (-100, 2, 2)], [1], -100, 1⟩

/-- Scenario S8 with every time 1100 earlier. -/
def heap_early : heap := [node_early, ⟨50, [], [], -100, 0⟩]

/-- The validator set `fixed_validators` of `test.cpp`: the listed weights, weight `0` for a
validator that is not listed, and quorum 667. -/
def fixed_validators (items : List (validator × weight)) : validators :=
  ⟨fun v => (map_find items v).getD 0, 667⟩

/-- Test `update_two_parents`: two nodes and a third node that has both as parents. -/
def heap_two_parents : heap :=
  [agreement.mk_node 50 0 [], agreement.mk_node 50 1 [], agreement.mk_node 50 5 [0, 1]]

/-- Member `mark (now)` with the calls of its lambda recorded: the nodes afterwards and the
nodes the assignment `value->time = now` was applied to, in order. -/
def mark_calls (h : heap) (self : Nat) (now : time_point) : Option (heap × List Nat) :=
  for_each_ancestor h self (fun value st => (set_time st.1 value now, st.2 ++ [value])) []

/-- No node is its own transitive ancestor. -/
def acyclic (h : heap) : Prop :=
  ∀ i, ¬ Relation.TransGen (fun x y => y ∈ parents_of h x) i i

/-- The nodes of scenario S8 after the child has adopted object `2` in `vote (now = 1050)`. -/
def heap_s8_adopted : heap :=
  match vote heap_s8 0 (uniform_validators 4) 1050 with
  | some r => r.1
  | none => []

/-! ## Sequences of calls on the nodes -/

/-- A call of `insert`, `tally` or `vote` on the node at index `node`. -/
inductive node_call where
  | insert (node : Nat) (item : object) (time : time_point) (v : validator)
  | tally (node : Nat) (begin endt : time_point) (vals : validators) (hold : duration)
  | vote (node : Nat) (vals : validators) (now : time_point)

/-- The nodes after a call; `none` if the node does not exist or the call is undefined. -/
def apply_call (h : heap) : node_call → Option heap
  | node_call.insert i item time v =>
    match h[i]? with
    | some a => some (h.set i (a.insert item time v))
    | none => none
  | node_call.tally i begin endt vals hold =>
    match h[i]? with
    | some a =>
      match a.tally begin endt vals hold with
      | some r => some (h.set i r.1)
      | none => none
    | none => none
  | node_call.vote i vals now =>
    match vote h i vals now with
    | some r => some r.1
    | none => none

/-- The nodes after a sequence of calls. -/
def run_calls (h : heap) : List node_call → Option heap
  | [] => some h
  | c :: cs =>
    match apply_call h c with
    | some h1 => run_calls h1 cs
    | none => none

/-- The call is a `vote` that changes `last` of its node. -/
def adopts (h : heap) : node_call → Bool
  | node_call.vote i vals now =>
    match vote h i vals now with
    | some r => decide (last_of r.1 i ≠ last_of h i)
    | none => false
  | _ => false

/-- The `now` arguments of the `vote` calls of a sequence, in order. -/
def nows : List node_call → List time_point
  | [] => []
  | node_call.vote _ _ now :: cs => now :: nows cs
  | _ :: cs => nows cs

/-- The parent pointers are valid and every node has the window `W`. -/
def uniform_wf (W : duration) (h : heap) : Prop := heap_wf h ∧ ∀ b ∈ h, b.W = W

instance (W : duration) (h : heap) : Decidable (uniform_wf W h) := by
  unfold uniform_wf; exact inferInstance

/-- Two nodes as in scenario S8 before any call: a child that prefers object `1` and its
parent. -/
def heap_start : heap := [agreement.mk_node 50 1 [1], agreement.mk_node 50 0 []]

/-- Validators 0, 1 and 2 vote for `item` at `time` on node 0. -/
def three_votes (item : object) (time : time_point) : List node_call :=
  [node_call.insert 0 item time 0, node_call.insert 0 item time 1,
   node_call.insert 0 item time 2]

/-! ## Sequences of calls on a tally -/

/-- A call of `rise` or `fall` on a tally. -/
inductive tally_call where
  | rise (time : time_point) (v : validator) (o : object) (vals : validators)
  | fall (time : time_point) (v : validator) (o : object)

/-- The time argument of a call. -/
def call_time : tally_call → time_point
  | tally_call.rise time _ _ _ => time
  | tally_call.fall time _ _ => time

/-- The tally after a call. -/
def apply_tally_call (t : tally) : tally_call → tally
  | tally_call.rise time v o vals => (t.rise time v o vals).1
  | tally_call.fall time v o => t.fall time v o

/-- The tally after a sequence of calls on a fresh tally. -/
def run_tally (cs : List tally_call) : tally := cs.foldl apply_tally_call tally.fresh

/-- The position `current` that `sort` reaches in `rank` for the total `w` of `object`:
`rank.equal_range (w)` starts at the first entry whose weight is not greater than `w` and
ends at the first entry whose weight is smaller; the loop advances while `current != end`
and `current->second != object`. -/
def sort_search (w : weight) (o : object) (rank : List (weight × object)) :
    List (weight × object) :=
  (rank.dropWhile (fun e => decide (w < e.1))).dropWhile
    (fun e => decide (¬ e.1 < w ∧ e.2 ≠ o))

/-- First assertion of `sort`:
`(current == rank.end () && weight_object == 0) ||
(current->first == weight_object && current->second == object)`. -/
def sort_assert_found (t : tally) (o : object) : Prop :=
  match sort_search ((map_find t.totals_m o).getD 0) o t.rank with
  | [] => (map_find t.totals_m o).getD 0 = 0
  | e :: _ => e.1 = (map_find t.totals_m o).getD 0 ∧ e.2 = o

/-- Second assertion of `sort`, `totals_m.size () == rank.size ()`, after `rank.insert`;
`totals_m[object]` has added the entry of `object` if it was missing. -/
def sort_assert_size (t : tally) (w : weight) (o : object) (op : weight → weight → weight) :
    Prop :=
  (map_set t.totals_m o ((map_find t.totals_m o).getD 0)).length = (t.sort w o op).rank.length

/-- Stored weight of an entry of `tally::votes` if the vote is open. -/
def stored (s : slot) : weight := if s.2.1 ≠ time_point_default then s.2.2 else 0

/-- Summed stored weight of the validators that have an open vote. -/
def active_total (votes : List (validator × slot)) : weight :=
  (votes.map (fun e => stored e.2)).sum

/-- The calls of the test `insert_different`: two overlapping pulses by different
validators. -/
def calls_insert_different : List tally_call :=
  [tally_call.rise 1000 0 1 (uniform_validators 3), tally_call.rise 1001 1 1 (uniform_validators 3),
   tally_call.fall 1000 0 1, tally_call.fall 1001 1 1]

/-! ## The call sites of `scan`

The loops of `scan` inside the range, with every call of `edge` recorded with the place it is
made at: after a `fall` (in the inner loop or in the second loop), or after a `rise`. -/

/-- A call made by `scan`, with its call site: `edge` after a group of falls, `edge` after a
group of rises, or `fault`. -/
inductive scan_call where
  | expired (time : time_point) (snapshot : tally)
  | risen (time : time_point) (snapshot : tally)
  | fault (v : validator)
deriving DecidableEq, Repr

/-- The call without its call site. -/
def scan_call.untag : scan_call → event
  | scan_call.expired time tl => event.edge time tl
  | scan_call.risen time tl => event.edge time tl
  | scan_call.fault v => event.fault v

/-- A call made when a group is closed. -/
def call_if (b : Bool) (k : scan_call) : List scan_call := if b then [k] else []

/-- The calls of the loop `expire_c`. -/
def expire_k (W : duration) (time : time_point) : List vote_event → tally → List scan_call
  | [], _ => []
  | (t1, v1, o1) :: rest, tl =>
    if t1 ≤ time - W then
      let tl1 := tl.fall t1 v1 o1
      call_if (boundary rest t1) (scan_call.expired (t1 + W) tl1) ++ expire_k W time rest tl1
    else []

/-- The call of `fault` made by a rise, if any. -/
def fault_k : Option validator → List scan_call
  | none => []
  | some v => [scan_call.fault v]

/-- The calls of the loop `rise_c`. -/
def rise_k (W : duration) (vals : validators) :
    List vote_event → List vote_event → tally → List scan_call
  | [], _, _ => []
  | (time, v, o) :: rest, lower, tl =>
    let r1 := expire_c W time lower tl
    let r := r1.2.1.rise time v o vals
    expire_k W time lower tl ++ fault_k r.2 ++
      call_if (boundary rest time) (scan_call.risen time r.1) ++ rise_k W vals rest r1.1 r.1

/-- The calls of the loop `drain_c`. -/
def drain_k (W : duration) (endt : time_point) : List vote_event → tally → List scan_call
  | [], _ => []
  | (t1, v1, o1) :: rest, tl =>
    if t1 + W < endt then
      let tl1 := tl.fall t1 v1 o1
      call_if (boundary rest t1) (scan_call.expired (t1 + W) tl1) ++ drain_k W endt rest tl1
    else []

/-- The calls of the scan of the votes `seg` of the selected range, with their call sites. -/
def scan_k (W : duration) (endt : time_point) (vals : validators) (seg : List vote_event)
    (tl : tally) : List scan_call :=
  let r := rise_c W vals seg seg tl
  rise_k W vals seg seg tl ++ drain_k W endt r.1 r.2.1

/-- The calls of `rise` made by the loop `rise_c`: the vote, and the tally the call is made
on. -/
def rise_trace (W : duration) (vals : validators) :
    List vote_event → List vote_event → tally → List (vote_event × tally)
  | [], _, _ => []
  | (time, v, o) :: rest, lower, tl =>
    let r1 := expire_c W time lower tl
    ((time, v, o), r1.2.1) :: rise_trace W vals rest r1.1 (r1.2.1.rise time v o vals).1

/-- Times of the calls of `edge` made after a group of rises. -/
def risen_times : List scan_call → List time_point
  | [] => []
  | scan_call.risen t _ :: rest => t :: risen_times rest
  | _ :: rest => risen_times rest

/-- Times of the calls of `edge` made after a group of falls. -/
def expired_times : List scan_call → List time_point
  | [] => []
  | scan_call.expired t _ :: rest => t :: expired_times rest
  | _ :: rest => expired_times rest

/-- The distinct vote times of the log that lie in `[begin, end]`, in increasing order for a
time-ordered log. -/
def distinct_times (votes : List vote_event) (begin endt : time_point) : List time_point :=
  ((votes.filter (fun e => decide (begin ≤ e.1 ∧ e.1 ≤ endt))).map Prod.fst).dedup

/-- The naive window: the distinct validators that have a vote for `o` in the log with a time
in `[begin, end]` and in `(lo, hi]`, or in `(lo, hi)` when `closed` is false. -/
def window_voters (votes : List vote_event) (begin endt lo hi : time_point) (closed : Bool)
    (o : object) : List validator :=
  ((votes.filter (fun e => decide (begin ≤ e.1 ∧ e.1 ≤ endt ∧ lo < e.1 ∧
      (e.1 < hi ∨ (closed = true ∧ e.1 = hi)) ∧ e.2.2 = o))).map (fun e => e.2.1)).dedup

/-- The naive window sum: the summed weight of the validators of the window. -/
def window_sum (vals : validators) (votes : List vote_event) (begin endt lo hi : time_point)
    (closed : Bool) (o : object) : weight :=
  ((window_voters votes begin endt lo hi closed o).map vals.weight).sum

/-- The test of `rise` that leads to the call of `fault`: the validator of the vote `e` has an
active vote in the tally, for an object other than that of `e`. -/
def equivocates (e : vote_event) (tl : tally) : Bool :=
  decide ((tl.slot_of e.2.1).2.1 ≠ time_point_default ∧ (tl.slot_of e.2.1).1 ≠ e.2.2)

/-- A log in which validator 0 votes for two objects within one window, and validator 1 for
two objects a window apart. -/
def log_equivocation : List vote_event :=
  [(1000, 0, 1), (1000, 1, 1), (1010, 0, 2), (1050, 1, 2)]

/-- State of the scan for a validator `v` whose votes in the range are the entries `i1 < i2`
of the range, `(t1, v, o1)` and `(t2, v, o2)`, when the votes `F` have fallen and the votes
`M` have risen and not fallen: before the first vote rises `v` has no active vote; while the
first vote is up the entry of `v` holds it; after it has fallen `v` has no active vote; in
these three cases `fault (v)` was not called; after the second vote has risen `fault (v)` was
called once if `t2 < t1 + W`, and not otherwise. -/
def two_vote_inv (W : duration) (i1 i2 : Nat) (t1 t2 : time_point) (v : validator)
    (o1 : object) (F M : List vote_event) (T : tally) (fs : List validator) : Prop :=
  ((F ++ M).length ≤ i1 → (T.slot_of v).2.1 = time_point_default ∧ fs.count v = 0) ∧
  (i1 < (F ++ M).length → (F ++ M).length ≤ i2 → F.length ≤ i1 →
    (T.slot_of v).1 = o1 ∧ (T.slot_of v).2.1 = t1 ∧ fs.count v = 0) ∧
  (i1 < F.length → (F ++ M).length ≤ i2 →
    (T.slot_of v).2.1 = time_point_default ∧ fs.count v = 0) ∧
  (i2 < (F ++ M).length → fs.count v = if t2 < t1 + W then 1 else 0)

/-- State of the scan of a log in which no validator votes for two objects, when the votes
`F` have fallen and the votes `M` have risen and not fallen: the totals are the sums of the
open votes, `fault` was not called, the open vote of a validator carries its weight and is
its latest vote among `M`, and a validator without an open vote has, for each of its votes in
`M`, a vote in `F` that is not earlier. -/
def window_inv (vals : validators) (F M : List vote_event) (T : tally)
    (fs : List validator) : Prop :=
  sum_wf T ∧ fs = [] ∧ ∀ v : validator,
    ((T.slot_of v).2.1 ≠ time_point_default →
      (T.slot_of v).2.2 = vals.weight v ∧
      (∃ e ∈ M, e.2.1 = v ∧ e.1 = (T.slot_of v).2.1 ∧ e.2.2 = (T.slot_of v).1) ∧
      ∀ e ∈ M, e.2.1 = v → e.1 ≤ (T.slot_of v).2.1) ∧
    ((T.slot_of v).2.1 = time_point_default →
      ∀ e ∈ M, e.2.1 = v → ∃ f ∈ F, f.2.1 = v ∧ e.1 ≤ f.1)

/-- A log in which validator 0 repeats its vote within one window. -/
def log_repeat : List vote_event := [(1000, 0, 1), (1010, 0, 1), (1020, 1, 1)]

/-- Two nodes that are each other's parent: a parent graph with a cycle through `self`. -/
def heap_cycle : heap := [agreement.mk_node 50 0 [1], agreement.mk_node 50 0 [0]]

/-- Node of scenario S4 after its confirmation: the parent set has been cleared. -/
def node_s4_confirmed : agreement := { node_s4 with parents := [] }

/-- A log with one vote at `now - W`, for `now = 1050` and `W = 50`, and none at `now`. -/
def log_boundary : List vote_event := [(1000, 0, 1), (1020, 1, 1), (1049, 2, 1)]

/-- The log `log_boundary` with a vote at `now = 1050`. -/
def log_boundary_now : List vote_event := [(1000, 0, 1), (1020, 1, 1), (1050, 2, 1)]

/-! ## The cursors of `scan`

The positions of the cursors of `scan` at the reads of the inner loop, and the number of
times a cursor is advanced. -/

/-- The object whose total a call writes through `sort`, if it does: a `rise` of a validator
without an active vote, or a `fall` that matches the active vote. -/
def touched (t : tally) : tally_call → Option object
  | tally_call.rise _ v o _ =>
    if (t.slot_of v).2.1 = time_point_default then some o else none
  | tally_call.fall time v o =>
    if time = (t.slot_of v).2.1 ∧ o = (t.slot_of v).1 then some o else none

/-- One call, with the count of the calls made and, for every object, the number of the last
call that wrote its total (0 if there is none). -/
def stamp_step (s : tally × Nat × (object → Nat)) (c : tally_call) :
    tally × Nat × (object → Nat) :=
  (apply_tally_call s.1 c, s.2.1 + 1,
    match touched s.1 c with
    | some o => Function.update s.2.2 o (s.2.1 + 1)
    | none => s.2.2)

/-- A sequence of calls on a fresh tally, with the numbers of the last writes. -/
def stamped_run (cs : List tally_call) : tally × Nat × (object → Nat) :=
  cs.foldl stamp_step (tally.fresh, 0, fun _ => 0)

/-- The number of the last call of `cs` that wrote the total of `o`, 0 if there is none. -/
def last_write (cs : List tally_call) (o : object) : Nat := (stamped_run cs).2.2 o

/-- Order of two entries of `rank`: the first is heavier, or they have the same weight and
the total of the first was written earlier. -/
def rank_before (st : object → Nat) (x y : weight × object) : Prop :=
  y.1 < x.1 ∨ (x.1 = y.1 ∧ st x.2 < st y.2)

/-- Two rises of weight 1 for objects `1` and `2`, then the rise for object `1` of a
validator that is not in the validator set, whose weight is 0. -/
def calls_zero_weight : List tally_call :=
  [tally_call.rise 1000 0 1 (fixed_validators [(0, 1), (1, 1)]),
   tally_call.rise 1001 1 2 (fixed_validators [(0, 1), (1, 1)]),
   tally_call.rise 1002 9 1 (fixed_validators [(0, 1), (1, 1)])]

/-- The nodes of the test `multi_value`: a child that prefers object `1`, with votes for the
objects `2`, `3` and `4` at time 1001, and its parent. -/
def heap_multi_value : heap :=
  [⟨50, [(1001, 0, 2), (1001, 1, 3), (1001, 2, 4)], [1], time_point_default, 1⟩,
   agreement.mk_node 50 0 []]

/-! ## Logs that differ in the order of votes of equal time -/

/-- Two tallies hold the same totals and the same entry for every validator: they are equal
as far as `rise`, `fall` and `totals ()` go, whatever the order of their maps and of
`rank`. -/
def tally_equiv (t1 t2 : tally) : Prop :=
  (∀ o, map_find t1.totals_m o = map_find t2.totals_m o) ∧ ∀ v, t1.slot_of v = t2.slot_of v

/-- The rises of a list of votes, in order. -/
def rises (vals : validators) (g : List vote_event) (t : tally) : tally :=
  g.foldl (fun s e => (s.rise e.1 e.2.1 e.2.2 vals).1) t

/-- The falls of a list of votes, in order. -/
def falls (g : List vote_event) (t : tally) : tally :=
  g.foldl (fun s e => s.fall e.1 e.2.1 e.2.2) t

/-- The votes of a list of groups, in order. -/
def flat (gs : List (time_point × List vote_event)) : List vote_event :=
  (gs.map Prod.snd).flatten

/-- A list of groups of votes: every group is not empty and holds votes of one time, and the
times of the groups increase. -/
def grouped (gs : List (time_point × List vote_event)) : Prop :=
  gs.Pairwise (fun a b => a.1 < b.1) ∧ ∀ a ∈ gs, a.2 ≠ [] ∧ ∀ e ∈ a.2, e.1 = a.1

/-- No validator votes for two objects at one time. -/
def one_object_per_time (l : List vote_event) : Prop :=
  ∀ e1 ∈ l, ∀ e2 ∈ l, e1.1 = e2.1 → e1.2.1 = e2.2.1 → e1.2.2 = e2.2.2

instance (l : List vote_event) : Decidable (one_object_per_time l) := by
  unfold one_object_per_time; exact inferInstance

/-- Two edges carry the same time and the same totals. -/
def same_edge (x y : time_point × tally) : Prop :=
  x.1 = y.1 ∧ ∀ o, map_find x.2.totals o = map_find y.2.totals o

/-- Member `insert` for each vote `(item, time, validator)` of a list, in order. -/
def insert_all (a : agreement) (es : List (object × time_point × validator)) : agreement :=
  es.foldl (fun b e => b.insert e.1 e.2.1 e.2.2) a

/-- Two groups of one time that hold the same votes, each validator at most once up to
repetition of the same vote. -/
def group_rel (a b : time_point × List vote_event) : Prop :=
  a.1 = b.1 ∧ a.2.Perm b.2 ∧ ∀ x ∈ a.2, ∀ y ∈ a.2, x.2.1 = y.2.1 → x = y

/-- Two logs made of the same groups of votes of equal time, in the same order of time: they
differ only in the order of the votes inside a group. -/
def log_equiv (l1 l2 : List vote_event) : Prop :=
  ∃ gs1 gs2, l1 = flat gs1 ∧ l2 = flat gs2 ∧ List.Forall₂ group_rel gs1 gs2 ∧
    grouped gs1 ∧ grouped gs2

/-- The log entry `(time, (validator, item))` made by `insert (item, time, validator)`. -/
def entry (e : object × time_point × validator) : vote_event := (e.2.1, e.2.2, e.1)

/-- The calls of `insert` of the test `tally_2_time_succeed_reverse`, `now` being 1000. -/
def inserts_reverse : List (object × time_point × validator) :=
  [(0, 1049, 0), (0, 1000, 1), (0, 1000, 2)]

/-- The same calls of `insert`, made in the opposite order. -/
def inserts_forward : List (object × time_point × validator) :=
  [(0, 1000, 2), (0, 1000, 1), (0, 1049, 0)]

/-! ## The weight type `unsigned`

`agreement` takes its weight type from the validator set (`validators::mapped_type`), and
both validator sets of `test.cpp` have the weight type `unsigned`.  `std::plus<weight>` and
`std::minus<weight>`, which `rise` and `fall` hand to `sort`, then compute modulo `2^32`.
`tally.rise` and `tally.fall` above compute the sums in the integers, which is the same as
long as no total leaves the range of the type.  `tally.rise_w` and `tally.fall_w` are the two
members with the arithmetic of `unsigned`, and `scan_w` and `tally_w` are `scan` and `tally`
on them. -/

/-- Number of values of the type `unsigned`, `2^32`. -/
def weight_mod : Int := 4294967296

/-- Conversion of an integer to `unsigned`: reduction modulo `2^32`. -/
def wrap (x : Int) : weight := x % weight_mod

/-- Function object `std::plus<weight> ()` for `unsigned`. -/
def plus_w (a b : weight) : weight := wrap (a + b)

/-- Function object `std::minus<weight> ()` for `unsigned`. -/
def minus_w (a b : weight) : weight := wrap (a - b)

namespace tally

/-- Member `fall (time, validator, object)`, the weight type being `unsigned`. -/
def fall_w (t : tally) (time : time_point) (v : validator) (o : object) : tally :=
  let s := t.slot_of v
  if time = s.2.1 ∧ o = s.1 then
    let t1 := t.sort s.2.2 o minus_w
    { t1 with votes := map_set t1.votes v (s.1, time_point_default, s.2.2) }
  else
    { t with votes := map_set t.votes v s }

/-- Member `rise (time, validator, object, validators, fault)`, the weight type being
`unsigned`; the second component is the argument of the `fault` call, if one is made. -/
def rise_w (t : tally) (time : time_point) (v : validator) (o : object) (vals : validators) :
    tally × Option validator :=
  let s := t.slot_of v
  if s.2.1 = time_point_default then
    let weight_l := vals.weight v
    let t1 : tally := { t with votes := map_set t.votes v (o, time, weight_l) }
    (t1.sort weight_l o plus_w, none)
  else if s.1 = o then
    ({ t with votes := map_set t.votes v (s.1, time, s.2.2) }, none)
  else
    ({ t with votes := map_set t.votes v s }, some v)

end tally

/-- Inner loop of `scan`, `while (lower->first <= time - W)`, on a tally of `unsigned`
weights: the new `lower`, the tally and the calls made, each with its call site. -/
def scan_expire_w (W : duration) (time : time_point) (stop : List vote_event) :
    List vote_event → tally → Option (List vote_event × tally × List scan_call)
  | [], _ => none
  | (t1, v1, o1) :: rest, tl =>
    if t1 ≤ time - W then
      let tl1 := tl.fall_w t1 v1 o1
      match group_end stop rest t1 with
      | none => none
      | some b =>
        match scan_expire_w W time stop rest tl1 with
        | none => none
        | some (lower, tl2, ks) =>
          some (lower, tl2, call_if b (scan_call.expired (t1 + W) tl1) ++ ks)
    else some ((t1, v1, o1) :: rest, tl, [])

/-- First loop of `scan`, `while (current != stop)`, on a tally of `unsigned` weights. -/
def scan_rise_w (W : duration) (vals : validators) (stop : List vote_event) :
    List vote_event → List vote_event → tally →
      Option (List vote_event × tally × List scan_call)
  | [], lower, tl => if 0 = stop.length then some (lower, tl, []) else none
  | (time, v, o) :: rest, lower, tl =>
    if rest.length + 1 = stop.length then some (lower, tl, [])
    else
      match scan_expire_w W time stop lower tl with
      | none => none
      | some (lower1, tl1, ks1) =>
        let r := tl1.rise_w time v o vals
        match group_end stop rest time with
        | none => none
        | some b =>
          match scan_rise_w W vals stop rest lower1 r.1 with
          | none => none
          | some (lower2, tl2, ks2) =>
            some (lower2, tl2,
              ks1 ++ fault_k r.2 ++ call_if b (scan_call.risen time r.1) ++ ks2)

/-- Second loop of `scan`, `while (lower != stop && lower->first + W < end)`, on a tally of
`unsigned` weights. -/
def scan_drain_w (W : duration) (endt : time_point) (stop : List vote_event) :
    List vote_event → tally → Option (tally × List scan_call)
  | [], tl => if 0 = stop.length then some (tl, []) else none
  | (t1, v1, o1) :: rest, tl =>
    if rest.length + 1 = stop.length then some (tl, [])
    else if t1 + W < endt then
      let tl1 := tl.fall_w t1 v1 o1
      match group_end stop rest t1 with
      | none => none
      | some b =>
        match scan_drain_w W endt stop rest tl1 with
        | none => none
        | some (tl2, ks) => some (tl2, call_if b (scan_call.expired (t1 + W) tl1) ++ ks)
    else some (tl, [])

namespace agreement

/-- Member `scan (tally, begin, end, validators, edge, fault)` on a tally of `unsigned`
weights: the final tally and the calls of `edge` and `fault`, in order, each `edge` call with
its call site. -/
def scan_w (a : agreement) (tl : nano.tally) (begin endt : time_point) (vals : validators) :
    Option (nano.tally × List scan_call) :=
  let current := lower_bound a.votes begin
  let stop := upper_bound a.votes endt
  match scan_rise_w a.W vals stop current current tl with
  | none => none
  | some (lower, tl1, ks1) =>
    match scan_drain_w a.W endt stop lower tl1 with
    | none => none
    | some (tl2, ks2) => some (tl2, ks1 ++ ks2)

/-- Member `tally (begin, end, validators, confirm, fault, hold)` with `unsigned` weights: the
node afterwards, the `confirm` calls and the `fault` calls. -/
def tally_w (a : agreement) (begin endt : time_point) (vals : validators) (hold : duration) :
    Option (agreement × List (object × weight) × List validator) :=
  match a.scan_w nano.tally.fresh begin endt vals with
  | none => none
  | some (_, ks) =>
    let s := (ks.map scan_call.untag).foldl (on_event vals hold) (sampler_init a)
    some ({ a with parents := s.parents }, s.confirmed, s.faults)

end agreement

/-- The tally after a call, the weight type being `unsigned`. -/
def apply_tally_call_w (t : tally) : tally_call → tally
  | tally_call.rise time v o vals => (t.rise_w time v o vals).1
  | tally_call.fall time v o => t.fall_w time v o

/-- The tally after a sequence of calls on a fresh tally, the weight type being
`unsigned`. -/
def run_tally_w (cs : List tally_call) : tally := cs.foldl apply_tally_call_w tally.fresh

/-- The tally `tw` kept in `unsigned` and the tally `ti` kept in the integers go together:
they hold the same entries of `votes`, the totals and the grand total of `tw` are those of
`ti` modulo `2^32`, and `rank` of `tw` is in order. -/
def tally_sim (tw ti : tally) : Prop :=
  tw.votes = ti.votes ∧ tw.totals_m = ti.totals_m.map (fun e => (e.1, wrap e.2)) ∧
    tw.total_m = wrap ti.total_m ∧ rank_wf tw

/-- Two calls made at the same call site with the same argument, on tallies that go
together. -/
def call_sim : scan_call → scan_call → Prop
  | scan_call.expired s tw, scan_call.expired s1 ti => s = s1 ∧ tally_sim tw ti
  | scan_call.risen s tw, scan_call.risen s1 ti => s = s1 ∧ tally_sim tw ti
  | scan_call.fault v, scan_call.fault v1 => v = v1
  | _, _ => False

/-- A validator set with the greatest weight of the type `unsigned` for validator 0 and
weight 1 for validator 1. -/
def validators_wrap : validators := fixed_validators [(0, 4294967295), (1, 1)]

/-- Validators 0 and 1 vote for object `1` at time 1000. -/
def log_wrap : List vote_event := [(1000, 0, 1), (1000, 1, 1)]

/-- A node with window 50 and the log `log_wrap`. -/
def node_wrap : agreement := node_of 50 0 log_wrap

/-- The rises of validators 0 and 1 of `validators_wrap` for object `1`. -/
def calls_wrap : List tally_call :=
  [tally_call.rise 1000 0 1 validators_wrap, tally_call.rise 1000 1 1 validators_wrap]

/-- The rises of validators 0 and 1 of `validators_wrap` for the objects `1` and `2`. -/
def calls_wrap_two : List tally_call :=
  [tally_call.rise 1000 0 1 validators_wrap, tally_call.rise 1000 1 2 validators_wrap]

end nano

/-! ## The edge callback of `agreement::tally` -/

namespace nano
open agreement

theorem edges_of_append (xs ys : List event) : edges_of (xs ++ ys) = edges_of xs ++ edges_of ys := by
  induction xs with
  | nil => rfl
  | cons x xs ih => cases x <;> simp [edges_of, ih]

theorem faults_of_append (xs ys : List event) :
    faults_of (xs ++ ys) = faults_of xs ++ faults_of ys := by
  induction xs with
  | nil => rfl
  | cons x xs ih => cases x <;> simp [faults_of, ih]

theorem hold_sampler_holding (vals : validators) (hold : duration) (s : sampler) (t : time_point)
    (tl : tally) : (hold_sampler vals hold s t tl).holding = decide (vals.quorum ≤ tl.max.1) := rfl

theorem hold_sampler_set (vals : validators) (hold : duration) (s : sampler) (t : time_point)
    (tl : tally) : (hold_sampler vals hold s t tl).set
      = if s.holding = false ∨ s.obj ≠ tl.max.2 then t else s.set := by
  simp only [hold_sampler]
  split_ifs <;> rfl

theorem hold_sampler_obj (vals : validators) (hold : duration) (s : sampler) (t : time_point)
    (tl : tally) : (hold_sampler vals hold s t tl).obj
      = if s.holding = false ∨ s.obj ≠ tl.max.2 then tl.max.2 else s.obj := by
  simp only [hold_sampler]
  split_ifs <;> rfl

theorem hold_sampler_confirmed (vals : validators) (hold : duration) (s : sampler)
    (t : time_point) (tl : tally) : (hold_sampler vals hold s t tl).confirmed
      = if s.holding = true ∧ hold ≤ t - s.set then s.confirmed ++ [(s.obj, tl.max.1)]
        else s.confirmed := by
  simp only [hold_sampler]
  split_ifs <;> rfl

theorem hold_sampler_parents (vals : validators) (hold : duration) (s : sampler)
    (t : time_point) (tl : tally) : (hold_sampler vals hold s t tl).parents
      = if s.holding = true ∧ hold ≤ t - s.set then [] else s.parents := by
  simp only [hold_sampler]
  split_ifs <;> rfl

theorem hold_sampler_faults_eq (vals : validators) (hold : duration) (s : sampler)
    (t : time_point) (tl : tally) : (hold_sampler vals hold s t tl).faults = s.faults := by
  simp only [hold_sampler]
  split_ifs <;> rfl

theorem sampler_eq (s1 s2 : sampler) (h1 : s1.holding = s2.holding) (h2 : s1.set = s2.set)
    (h3 : s1.obj = s2.obj) (h4 : s1.parents = s2.parents) (h5 : s1.confirmed = s2.confirmed)
    (h6 : s1.faults = s2.faults) : s1 = s2 := by
  cases s1; cases s2; simp_all

theorem hold_sampler_faults (vals : validators) (hold : duration) (s : sampler) (t : time_point)
    (tl : tally) (f : List validator) :
    hold_sampler vals hold { s with faults := f } t tl
      = { hold_sampler vals hold s t tl with faults := f } := by
  apply sampler_eq
  · rfl
  · simp only [hold_sampler_set]
  · simp only [hold_sampler_obj]
  · simp only [hold_sampler_parents]
  · simp only [hold_sampler_confirmed]
  · simp only [hold_sampler_faults_eq]

theorem foldl_on_event (vals : validators) (hold : duration) (evs : List event) (s : sampler) :
    evs.foldl (on_event vals hold) s
      = { (edges_of evs).foldl (sample vals hold) s with faults := s.faults ++ faults_of evs } := by
  induction evs generalizing s with
  | nil => simp [edges_of, faults_of]
  | cons x xs ih =>
    cases x with
    | edge t tl =>
      simp only [List.foldl_cons, on_event, edges_of, faults_of, sample]
      rw [ih]
      rw [hold_sampler_faults_eq]
    | fault v =>
      simp only [List.foldl_cons, on_event, edges_of, faults_of]
      rw [ih]
      simp only [List.append_assoc, List.singleton_append]
      have key : ∀ (es : List (time_point × tally)) (s : sampler) (f : List validator),
          (es.foldl (sample vals hold) { s with faults := f })
            = { es.foldl (sample vals hold) s with faults := f } := by
        intro es
        induction es with
        | nil => intro s f; rfl
        | cons e es ih2 =>
          intro s f
          simp only [List.foldl_cons, sample]
          rw [hold_sampler_faults, ih2, ih2 (hold_sampler vals hold s e.1 e.2) (hold_sampler vals hold s e.1 e.2).faults]
      rw [key]

theorem sample_confirmed (vals : validators) (hold : duration) (s : sampler)
    (e : time_point × tally) : (sample vals hold s e).confirmed
      = if s.holding = true ∧ hold ≤ e.1 - s.set then s.confirmed ++ [(s.obj, e.2.max.1)]
        else s.confirmed := hold_sampler_confirmed vals hold s e.1 e.2

theorem sample_parents (vals : validators) (hold : duration) (s : sampler)
    (e : time_point × tally) : (sample vals hold s e).parents
      = if s.holding = true ∧ hold ≤ e.1 - s.set then [] else s.parents :=
  hold_sampler_parents vals hold s e.1 e.2

/-- Folding the edge callback only appends to the record of `confirm` calls, and the parent
set is emptied exactly when something is appended. -/
theorem foldl_sample_parents (vals : validators) (hold : duration)
    (es : List (time_point × tally)) (s : sampler) :
    ∃ ext, (es.foldl (sample vals hold) s).confirmed = s.confirmed ++ ext ∧
      (es.foldl (sample vals hold) s).parents = if ext = [] then s.parents else [] := by
  induction es generalizing s with
  | nil => exact ⟨[], by simp⟩
  | cons e es ih =>
    obtain ⟨ext, h1, h2⟩ := ih (sample vals hold s e)
    simp only [List.foldl_cons]
    by_cases c : s.holding = true ∧ hold ≤ e.1 - s.set
    · refine ⟨(s.obj, e.2.max.1) :: ext, ?_, ?_⟩
      · rw [h1, sample_confirmed, if_pos c]; simp
      · rw [h2, sample_parents, if_pos c]; simp
    · refine ⟨ext, ?_, ?_⟩
      · rw [h1, sample_confirmed, if_neg c]
      · rw [h2, sample_parents, if_neg c]

/-- Each edge adds at most one `confirm` call, and the first edge after a state that is not
holding adds none. -/
theorem foldl_sample_count (vals : validators) (hold : duration)
    (es : List (time_point × tally)) (s : sampler) :
    (es.foldl (sample vals hold) s).confirmed.length ≤ s.confirmed.length + es.length ∧
      (s.holding = false →
        (es.foldl (sample vals hold) s).confirmed.length ≤ s.confirmed.length + (es.length - 1)) := by
  induction es generalizing s with
  | nil => simp
  | cons e es ih =>
    obtain ⟨h1, -⟩ := ih (sample vals hold s e)
    simp only [List.foldl_cons, List.length_cons]
    have hc : (sample vals hold s e).confirmed.length ≤ s.confirmed.length + 1 := by
      rw [sample_confirmed]; split_ifs <;> simp
    refine ⟨by omega, ?_⟩
    intro hf
    have hc0 : (sample vals hold s e).confirmed.length = s.confirmed.length := by
      rw [sample_confirmed, if_neg (by simp [hf])]
    omega

theorem run_inv_step (vals : validators) (hold : duration) (es : List (time_point × tally))
    (s : sampler) (e : time_point × tally) (h : run_inv vals es s) :
    run_inv vals (es ++ [e]) (sample vals hold s e) := by
  right
  have hh : (sample vals hold s e).holding = decide (vals.quorum ≤ e.2.max.1) := rfl
  have hset := hold_sampler_set vals hold s e.1 e.2
  have hobj := hold_sampler_obj vals hold s e.1 e.2
  rcases h with ⟨rfl, hf⟩ | ⟨pre, body, el, rfl, h1, h2, ⟨ej, h3, h3'⟩, h4, h5⟩
  · refine ⟨[], [], e, by simp, hh, ?_, ⟨e, by simp, ?_⟩, by simp, by simp⟩
    · show (hold_sampler vals hold s e.1 e.2).obj = _
      rw [hobj, if_pos (Or.inl hf)]
    · show (hold_sampler vals hold s e.1 e.2).set = _
      rw [hset, if_pos (Or.inl hf)]
  · by_cases c : s.holding = false ∨ s.obj ≠ e.2.max.2
    · refine ⟨pre ++ body ++ [el], [], e, by simp, hh, ?_, ⟨e, by simp, ?_⟩, by simp, ?_⟩
      · show (hold_sampler vals hold s e.1 e.2).obj = _
        rw [hobj, if_pos c]
      · show (hold_sampler vals hold s e.1 e.2).set = _
        rw [hset, if_pos c]
      · intro p hp
        simp at hp
        subst hp
        rintro ⟨ho, hq⟩
        rcases c with c | c
        · rw [h1] at c; simp [hq] at c
        · exact c (h2.trans ho)
    · have c1 : s.holding = true := by
        by_contra hc; exact c (Or.inl (by simpa using hc))
      have c2 : s.obj = e.2.max.2 := by
        by_contra hc; exact c (Or.inr hc)
      have ho : el.2.max.2 = e.2.max.2 := h2.symm.trans c2
      have hq : vals.quorum ≤ el.2.max.1 := by rw [h1] at c1; simpa using c1
      refine ⟨pre, body ++ [el], e, by simp, hh, ?_, ⟨ej, ?_, ?_⟩, ?_, ?_⟩
      · show (hold_sampler vals hold s e.1 e.2).obj = _
        rw [hobj, if_neg c, c2]
      · rw [List.head?_append_of_ne_nil _ (by simp)]; exact h3
      · show (hold_sampler vals hold s e.1 e.2).set = _
        rw [hset, if_neg c, h3']
      · intro x hx
        rcases List.mem_append.1 hx with hx | hx
        · exact ⟨(h4 x hx).1.trans ho, (h4 x hx).2⟩
        · simp only [List.mem_singleton] at hx; subst hx; exact ⟨ho, hq⟩
      · intro p hp; rw [← ho]; exact h5 p hp

theorem run_inv_foldl (vals : validators) (hold : duration) (es : List (time_point × tally))
    (s : sampler) (hs : s.holding = false) : run_inv vals es (es.foldl (sample vals hold) s) := by
  induction es using List.reverseRecOn with
  | nil => exact Or.inl ⟨rfl, hs⟩
  | append_singleton es e ih =>
    rw [List.foldl_append]
    exact run_inv_step vals hold es _ e ih

/-- The edge callback at edge `ek`, after the edges `before` (in non-decreasing time order),
records a `confirm` call for `o` exactly when `before` ends with a non-empty run of edges at
which `max ()` was `o` with quorum, the first of them at least `hold` before `ek`. -/
theorem sample_fires_iff (vals : validators) (hold : duration)
    (before : List (time_point × tally)) (ek : time_point × tally) (s0 : sampler)
    (hs : s0.holding = false) (hmono : (before.map Prod.fst).Pairwise (fun x y => x ≤ y))
    (o : object) :
    (∃ w, (sample vals hold (before.foldl (sample vals hold) s0) ek).confirmed
        = (before.foldl (sample vals hold) s0).confirmed ++ [(o, w)]) ↔
    ∃ pre run ej, before = pre ++ run ∧ run.head? = some ej ∧
      (∀ e ∈ run, e.2.max.2 = o ∧ vals.quorum ≤ e.2.max.1) ∧ hold ≤ ek.1 - ej.1 := by
  have J := run_inv_foldl vals hold before s0 hs
  generalize before.foldl (sample vals hold) s0 = s at J
  rw [sample_confirmed]
  constructor
  · rintro ⟨w, hw⟩
    by_cases c : s.holding = true ∧ hold ≤ ek.1 - s.set
    · rw [if_pos c] at hw
      have hw' := List.append_cancel_left hw
      simp only [List.cons.injEq, Prod.mk.injEq, and_true] at hw'
      rcases J with ⟨-, hf⟩ | ⟨pre, body, el, rfl, h1, h2, ⟨ej, h3, h3'⟩, h4, h5⟩
      · rw [hf] at c; simp at c
      · refine ⟨pre, body ++ [el], ej, by simp, h3, ?_, by rw [← h3']; exact c.2⟩
        intro e he
        rcases List.mem_append.1 he with he | he
        · exact ⟨((h4 e he).1.trans h2.symm).trans hw'.1, (h4 e he).2⟩
        · simp only [List.mem_singleton] at he; subst he
          refine ⟨h2.symm.trans hw'.1, ?_⟩
          have := c.1; rw [h1] at this; simpa using this
    · rw [if_neg c] at hw
      have := congrArg List.length hw
      simp at this
  · rintro ⟨pre', run', ej', hb, hhead, hrun, hhold⟩
    have hne : run' ≠ [] := by rintro rfl; simp at hhead
    rcases J with ⟨he, -⟩ | ⟨pre, body, el, hb2, h1, h2, ⟨ej, h3, h3'⟩, h4, h5⟩
    · rw [he] at hb
      have := congrArg List.length hb
      simp at this
      exact absurd (List.length_eq_zero.1 (by omega)) hne
    · -- the given run is a final part of the maximal one
      have hsuf : ∃ x, body ++ [el] = x ++ run' := by
        rw [hb2, List.append_assoc] at hb
        rcases List.append_eq_append_iff.1 hb with ⟨a, ha1, ha2⟩ | ⟨c, hc1, hc2⟩
        · exact ⟨a, ha2⟩
        · rcases List.eq_nil_or_concat c with rfl | ⟨c', p, rfl⟩
          · exact ⟨[], by simpa using hc2.symm⟩
          · exfalso
            have hp : pre.getLast? = some p := by rw [hc1]; simp
            have hmem : p ∈ run' := by rw [hc2]; simp
            have hel : el ∈ run' := by rw [hc2]; simp
            have := hrun p hmem
            exact h5 p hp ⟨this.1.trans (hrun el hel).1.symm, this.2⟩
      obtain ⟨x, hx⟩ := hsuf
      have hel : el ∈ run' := by
        rcases List.eq_nil_or_concat run' with h | ⟨r, l, rfl⟩
        · exact absurd h hne
        · rw [List.concat_eq_append] at hx ⊢
          have : (body ++ [el]).getLast? = (x ++ (r ++ [l])).getLast? := by rw [hx]
          rw [← List.append_assoc] at this
          simp at this
          subst this; simp
      have hol := hrun el hel
      have hle : ej.1 ≤ ej'.1 := by
        rcases x with _ | ⟨x0, xs⟩
        · simp only [List.nil_append] at hx
          rw [hx, hhead] at h3
          simp only [Option.some.injEq] at h3
          rw [h3]
        · rw [hx] at h3
          simp only [List.cons_append, List.head?_cons, Option.some.injEq] at h3
          subst h3
          have hmem' : ej' ∈ run' := List.mem_of_mem_head? hhead
          have hp : ((pre ++ (x0 :: xs ++ run')).map Prod.fst).Pairwise (fun x y => x ≤ y) := by
            rw [← hx, ← List.append_assoc, ← hb2]; exact hmono
          rw [List.map_append, List.pairwise_append] at hp
          have hp2 := hp.2.1
          simp only [List.cons_append, List.map_cons, List.pairwise_cons] at hp2
          exact hp2.1 ej'.1 (List.mem_map_of_mem _ (List.mem_append_right _ hmem'))
      have c : s.holding = true ∧ hold ≤ ek.1 - s.set := by
        refine ⟨by rw [h1]; simpa using hol.2, ?_⟩
        rw [h3']; linarith
      rw [if_pos c]
      exact ⟨ek.2.max.1, by rw [h2, hol.1]⟩

/-! ## Edge times of a scan -/

theorem edge_times_append (xs ys : List event) :
    edge_times (xs ++ ys) = edge_times xs ++ edge_times ys := by
  simp [edge_times, edges_of_append]

theorem edge_times_edge_if (b : Bool) (t : time_point) (tl : tally) :
    edge_times (edge_if b t tl) = if b then [t] else [] := by
  cases b <;> rfl

theorem edge_times_fault_if (f : Option validator) : edge_times (fault_if f) = [] := by
  cases f <;> rfl

theorem log_sorted_tail {e : vote_event} {l : List vote_event} (h : log_sorted (e :: l)) :
    log_sorted l := (List.pairwise_cons.1 h).2

theorem log_sorted_head_le {e : vote_event} {l : List vote_event} (h : log_sorted (e :: l)) :
    ∀ x ∈ l, e.1 ≤ x.1 := (List.pairwise_cons.1 h).1

theorem log_sorted_of_append {x l : List vote_event} (h : log_sorted (x ++ l)) : log_sorted l :=
  (List.pairwise_append.1 h).2.1

theorem scan_expire_times (W : duration) (time : time_point) (stop : List vote_event) :
    ∀ (lower : List vote_event) (tl : tally) (lower1 : List vote_event) (tl1 : tally)
      (evs : List event), scan_expire W time stop lower tl = some (lower1, tl1, evs) →
      log_sorted lower →
      (edge_times evs).Pairwise (fun x y => x ≤ y) ∧
      (∀ t ∈ edge_times evs, ∃ e ∈ lower, t = e.1 + W ∧ e.1 ≤ time - W) ∧
      (∃ x, lower = x ++ lower1) ∧ (∀ e ∈ lower1, time - W < e.1) := by
  intro lower
  induction lower with
  | nil => intro tl lower1 tl1 evs h; simp [scan_expire] at h
  | cons e rest ih =>
    obtain ⟨t1, v1, o1⟩ := e
    intro tl lower1 tl1 evs h hs
    simp only [scan_expire] at h
    by_cases c : t1 ≤ time - W
    · rw [if_pos c] at h
      cases hg : group_end stop rest t1 with
      | none => simp [hg] at h
      | some b =>
        cases hr : scan_expire W time stop rest (tl.fall t1 v1 o1) with
        | none => simp [hg, hr] at h
        | some r =>
          obtain ⟨l2, t2, evs2⟩ := r
          simp only [hg, hr, Option.some.injEq, Prod.mk.injEq] at h
          obtain ⟨rfl, rfl, rfl⟩ := h
          obtain ⟨i1, i2, ⟨x, i3⟩, i4⟩ := ih _ _ _ _ hr (log_sorted_tail hs)
          refine ⟨?_, ?_, ⟨(t1, v1, o1) :: x, by rw [i3]; rfl⟩, i4⟩
          · rw [edge_times_append, edge_times_edge_if, List.pairwise_append]
            refine ⟨by cases b <;> simp, i1, ?_⟩
            intro a ha y hy
            obtain ⟨e, he, rfl, -⟩ := i2 y hy
            have : a = t1 + W := by cases b <;> simp at ha; exact ha
            rw [this]
            have := log_sorted_head_le hs e he
            simp only at this
            linarith
          · intro t ht
            rw [edge_times_append, edge_times_edge_if, List.mem_append] at ht
            rcases ht with ht | ht
            · have : t = t1 + W := by cases b <;> simp at ht; exact ht
              exact ⟨(t1, v1, o1), List.mem_cons_self _ _, this, c⟩
            · obtain ⟨e, he, h1, h2⟩ := i2 t ht
              exact ⟨e, List.mem_cons_of_mem _ he, h1, h2⟩
    · rw [if_neg c] at h
      simp only [Option.some.injEq, Prod.mk.injEq] at h
      obtain ⟨rfl, rfl, rfl⟩ := h
      refine ⟨by simp [edge_times, edges_of], by simp [edge_times, edges_of], ⟨[], rfl⟩, ?_⟩
      intro e he
      rcases List.mem_cons.1 he with rfl | he
      · simpa using c
      · have := log_sorted_head_le hs e he
        simp only at this
        have c' : time - W < t1 := by simpa using c
        linarith

theorem scan_drain_times (W : duration) (endt : time_point) (stop : List vote_event) :
    ∀ (lower : List vote_event) (tl tl1 : tally) (evs : List event),
      scan_drain W endt stop lower tl = some (tl1, evs) → log_sorted lower →
      (edge_times evs).Pairwise (fun x y => x ≤ y) ∧
      (∀ t ∈ edge_times evs, ∃ e ∈ lower, t = e.1 + W ∧ e.1 + W < endt) := by
  intro lower
  induction lower with
  | nil =>
    intro tl tl1 evs h _
    simp only [scan_drain] at h
    split_ifs at h
    simp only [Option.some.injEq, Prod.mk.injEq] at h
    obtain ⟨-, rfl⟩ := h
    simp [edge_times, edges_of]
  | cons e rest ih =>
    obtain ⟨t1, v1, o1⟩ := e
    intro tl tl1 evs h hs
    simp only [scan_drain] at h
    by_cases c0 : rest.length + 1 = stop.length
    · rw [if_pos c0] at h
      simp only [Option.some.injEq, Prod.mk.injEq] at h
      obtain ⟨-, rfl⟩ := h
      simp [edge_times, edges_of]
    · rw [if_neg c0] at h
      by_cases c : t1 + W < endt
      · rw [if_pos c] at h
        cases hg : group_end stop rest t1 with
        | none => simp [hg] at h
        | some b =>
          cases hr : scan_drain W endt stop rest (tl.fall t1 v1 o1) with
          | none => simp [hg, hr] at h
          | some r =>
            obtain ⟨t2, evs2⟩ := r
            simp only [hg, hr, Option.some.injEq, Prod.mk.injEq] at h
            obtain ⟨rfl, rfl⟩ := h
            obtain ⟨i1, i2⟩ := ih _ _ _ hr (log_sorted_tail hs)
            refine ⟨?_, ?_⟩
            · rw [edge_times_append, edge_times_edge_if, List.pairwise_append]
              refine ⟨by cases b <;> simp, i1, ?_⟩
              intro a ha y hy
              obtain ⟨e, he, rfl, -⟩ := i2 y hy
              have : a = t1 + W := by cases b <;> simp at ha; exact ha
              rw [this]
              have := log_sorted_head_le hs e he
              simp only at this
              linarith
            · intro t ht
              rw [edge_times_append, edge_times_edge_if, List.mem_append] at ht
              rcases ht with ht | ht
              · have : t = t1 + W := by cases b <;> simp at ht; exact ht
                exact ⟨(t1, v1, o1), List.mem_cons_self _ _, this, c⟩
              · obtain ⟨e, he, h1, h2⟩ := i2 t ht
                exact ⟨e, List.mem_cons_of_mem _ he, h1, h2⟩
      · rw [if_neg c] at h
        simp only [Option.some.injEq, Prod.mk.injEq] at h
        obtain ⟨-, rfl⟩ := h
        simp [edge_times, edges_of]

theorem scan_rise_times (W : duration) (vals : validators) (stop : List vote_event) :
    ∀ (current lower : List vote_event) (tl : tally) (lb : time_point)
      (lower1 : List vote_event) (tl1 : tally) (evs : List event),
      scan_rise W vals stop current lower tl = some (lower1, tl1, evs) →
      log_sorted current → log_sorted lower →
      (∀ e ∈ lower, lb ≤ e.1 + W) → (∀ e ∈ current, lb ≤ e.1) →
      (edge_times evs).Pairwise (fun x y => x ≤ y) ∧
      (∀ t ∈ edge_times evs, lb ≤ t) ∧
      (∃ x, lower = x ++ lower1) ∧ (∀ t ∈ edge_times evs, ∀ e ∈ lower1, t ≤ e.1 + W) := by
  intro current
  induction current with
  | nil =>
    intro lower tl lb lower1 tl1 evs h _ _ _ _
    simp only [scan_rise] at h
    split_ifs at h
    simp only [Option.some.injEq, Prod.mk.injEq] at h
    obtain ⟨rfl, -, rfl⟩ := h
    exact ⟨by simp [edge_times, edges_of], by simp [edge_times, edges_of], ⟨[], rfl⟩,
      by simp [edge_times, edges_of]⟩
  | cons e rest ih =>
    obtain ⟨time, v, o⟩ := e
    intro lower tl lb lower1 tl1 evs h hsc hsl hlb1 hlb2
    simp only [scan_rise] at h
    by_cases c0 : rest.length + 1 = stop.length
    · rw [if_pos c0] at h
      simp only [Option.some.injEq, Prod.mk.injEq] at h
      obtain ⟨rfl, -, rfl⟩ := h
      exact ⟨by simp [edge_times, edges_of], by simp [edge_times, edges_of], ⟨[], rfl⟩,
        by simp [edge_times, edges_of]⟩
    · rw [if_neg c0] at h
      cases hx : scan_expire W time stop lower tl with
      | none => simp [hx] at h
      | some r1 =>
        obtain ⟨l1, t1, evs1⟩ := r1
        cases hg : group_end stop rest time with
        | none => simp [hx, hg] at h
        | some b =>
          cases hr : scan_rise W vals stop rest l1 (t1.rise time v o vals).1 with
          | none => simp [hx, hg, hr] at h
          | some r2 =>
            obtain ⟨l2, t2, evs2⟩ := r2
            simp only [hx, hg, hr, Option.some.injEq, Prod.mk.injEq] at h
            obtain ⟨rfl, rfl, rfl⟩ := h
            obtain ⟨e1, e2, ⟨x1, e3⟩, e4⟩ := scan_expire_times W time stop _ _ _ _ _ hx hsl
            have hsl1 : log_sorted l1 := by rw [e3] at hsl; exact log_sorted_of_append hsl
            have hl1 : ∀ e ∈ l1, time ≤ e.1 + W := by
              intro e he; have := e4 e he; linarith
            have hrest : ∀ e ∈ rest, time ≤ e.1 := fun e he => by
              have := log_sorted_head_le hsc e he
              simpa using this
            obtain ⟨r1, r2, ⟨x2, r3⟩, r4⟩ :=
              ih l1 _ time _ _ _ hr (log_sorted_tail hsc) hsl1 hl1 hrest
            have hlb : lb ≤ time := hlb2 _ (List.mem_cons_self _ _)
            have hev1 : ∀ t ∈ edge_times evs1, lb ≤ t ∧ t ≤ time := by
              intro t ht
              obtain ⟨e, he, rfl, h2⟩ := e2 t ht
              exact ⟨hlb1 e he, by linarith⟩
            have hmid : ∀ t ∈ edge_times (edge_if b time (t1.rise time v o vals).1), t = time := by
              intro t ht
              rw [edge_times_edge_if] at ht
              cases b <;> simp at ht
              exact ht
            have hl2 : ∀ e ∈ l2, e ∈ l1 := by
              intro e he; rw [r3]; exact List.mem_append_right _ he
            refine ⟨?_, ?_, ⟨x1 ++ x2, by rw [e3, r3, List.append_assoc]⟩, ?_⟩
            · simp only [edge_times_append, edge_times_fault_if, List.append_nil]
              rw [List.pairwise_append, List.pairwise_append]
              refine ⟨⟨e1, ?_, ?_⟩, r1, ?_⟩
              · rw [edge_times_edge_if]; cases b <;> simp
              · intro a ha y hy; rw [hmid y hy]; exact (hev1 a ha).2
              · intro a ha y hy
                have hy' := r2 y hy
                rcases List.mem_append.1 ha with ha | ha
                · exact le_trans (hev1 a ha).2 hy'
                · rw [hmid a ha]; exact hy'
            · intro t ht
              simp only [edge_times_append, edge_times_fault_if, List.append_nil,
                List.mem_append] at ht
              rcases ht with (ht | ht) | ht
              · exact (hev1 t ht).1
              · rw [hmid t ht]; exact hlb
              · exact le_trans hlb (r2 t ht)
            · intro t ht e he
              simp only [edge_times_append, edge_times_fault_if, List.append_nil,
                List.mem_append] at ht
              rcases ht with (ht | ht) | ht
              · exact le_trans (hev1 t ht).2 (hl1 e (hl2 e he))
              · rw [hmid t ht]; exact hl1 e (hl2 e he)
              · exact r4 t ht e he

theorem log_sorted_dropWhile (p : vote_event → Bool) {l : List vote_event} (h : log_sorted l) :
    log_sorted (l.dropWhile p) :=
  List.Pairwise.sublist (List.dropWhile_sublist p) h

/-- Scan monotonicity: on a log in time order, the times of the successive edge calls of a
scan that runs to its end are non-decreasing, whatever the window. -/
theorem scan_edge_times_sorted (a : agreement) (tl : tally) (begin endt : time_point)
    (vals : validators) (tl1 : tally) (evs : List event) (hs : log_sorted a.votes)
    (h : a.scan tl begin endt vals = some (tl1, evs)) :
    (edge_times evs).Pairwise (fun x y => x ≤ y) := by
  simp only [agreement.scan] at h
  cases hr : scan_rise a.W vals (upper_bound a.votes endt) (lower_bound a.votes begin)
      (lower_bound a.votes begin) tl with
  | none => simp [hr] at h
  | some r =>
    obtain ⟨l1, t1, evs1⟩ := r
    cases hd : scan_drain a.W endt (upper_bound a.votes endt) l1 t1 with
    | none => simp [hr, hd] at h
    | some r2 =>
      obtain ⟨t2, evs2⟩ := r2
      simp only [hr, hd, Option.some.injEq, Prod.mk.injEq] at h
      obtain ⟨rfl, rfl⟩ := h
      have hsl : log_sorted (lower_bound a.votes begin) := log_sorted_dropWhile _ hs
      -- a lower bound for all coming edge times
      obtain ⟨lb, hlb1, hlb2⟩ : ∃ lb : time_point,
          (∀ e ∈ lower_bound a.votes begin, lb ≤ e.1 + a.W) ∧
          (∀ e ∈ lower_bound a.votes begin, lb ≤ e.1) := by
        cases hl : lower_bound a.votes begin with
        | nil => exact ⟨0, by simp, by simp⟩
        | cons e0 l0 =>
          rw [hl] at hsl
          refine ⟨min e0.1 (e0.1 + a.W), ?_, ?_⟩
          · intro e he
            rcases List.mem_cons.1 he with rfl | he
            · exact min_le_right _ _
            · have := log_sorted_head_le hsl e he
              exact le_trans (min_le_right _ _) (by linarith)
          · intro e he
            rcases List.mem_cons.1 he with rfl | he
            · exact min_le_left _ _
            · exact le_trans (min_le_left _ _) (log_sorted_head_le hsl e he)
      obtain ⟨r1, -, ⟨x, r3⟩, r4⟩ := scan_rise_times a.W vals _ _ _ _ lb _ _ _ hr hsl hsl hlb1 hlb2
      have hsl1 : log_sorted l1 := by rw [r3] at hsl; exact log_sorted_of_append hsl
      obtain ⟨d1, d2⟩ := scan_drain_times a.W endt _ _ _ _ _ hd hsl1
      rw [edge_times_append, List.pairwise_append]
      refine ⟨r1, d1, ?_⟩
      intro t ht y hy
      obtain ⟨e, he, rfl, -⟩ := d2 y hy
      exact r4 t ht e he

/-! ## Claims on `agreement::tally` -/

theorem tally_eq_foldl (a : agreement) (begin endt : time_point) (vals : validators)
    (hold : duration) (tl : tally) (evs : List event)
    (hscan : a.scan tally.fresh begin endt vals = some (tl, evs)) :
    a.tally begin endt vals hold =
      some ({ a with parents := ((edges_of evs).foldl (sample vals hold) (sampler_init a)).parents },
        ((edges_of evs).foldl (sample vals hold) (sampler_init a)).confirmed, faults_of evs) := by
  simp only [agreement.tally, hscan, foldl_on_event]
  simp [sampler_init]

/-- C1 (confirmation rule).  Let a scan of a log in time order run to its end, and let `ek` be
one of its edges, `before` the edges that precede it.  The edge callback at `ek` records a
`confirm` call for object `o` if and only if `before` ends with a non-empty run of edges (the
edges `j .. k-1`) at each of which `max ()` returned `o` with a weight of at least
the quorum, and the time of `ek` minus the time of the first edge of the run is at least
`hold`.  The `confirm` calls of `tally` are the ones recorded by the callback over all
edges. -/
theorem confirmation_rule (a : agreement) (begin endt : time_point) (vals : validators)
    (hold : duration) (tl : tally) (evs : List event) (hs : log_sorted a.votes)
    (hscan : a.scan tally.fresh begin endt vals = some (tl, evs))
    (before after : List (time_point × tally)) (ek : time_point × tally)
    (hk : edges_of evs = before ++ ek :: after) (o : object) :
    a.tally begin endt vals hold =
      some ({ a with parents := ((edges_of evs).foldl (sample vals hold) (sampler_init a)).parents },
        ((edges_of evs).foldl (sample vals hold) (sampler_init a)).confirmed, faults_of evs) ∧
    ((∃ w, (sample vals hold (before.foldl (sample vals hold) (sampler_init a)) ek).confirmed
        = (before.foldl (sample vals hold) (sampler_init a)).confirmed ++ [(o, w)]) ↔
      ∃ pre run ej, before = pre ++ run ∧ run.head? = some ej ∧
        (∀ e ∈ run, e.2.max.2 = o ∧ vals.quorum ≤ e.2.max.1) ∧ hold ≤ ek.1 - ej.1) := by
  refine ⟨tally_eq_foldl a begin endt vals hold tl evs hscan, ?_⟩
  have hmono := scan_edge_times_sorted a _ begin endt vals tl evs hs hscan
  have hb : (before.map Prod.fst).Pairwise (fun x y => x ≤ y) := by
    simp only [edge_times, hk, List.map_append] at hmono
    exact (List.pairwise_append.1 hmono).1
  exact sample_fires_iff vals hold before ek (sampler_init a) rfl hb o

theorem confirmation_rule_witness :
    log_sorted node_hold_two.votes ∧
    node_hold_two.scan tally.fresh 0 2000 (uniform_validators 4)
      = some (tally_of node_hold_two 0 2000 (uniform_validators 4),
          calls_of node_hold_two 0 2000 (uniform_validators 4)) ∧
    ((∃ w, (sample (uniform_validators 4) 2
        ((edges_hold_two.take 2).foldl (sample (uniform_validators 4) 2)
          (sampler_init node_hold_two))
        (edges_hold_two.getD 2 (0, tally.fresh))).confirmed
      = ((edges_hold_two.take 2).foldl (sample (uniform_validators 4) 2)
          (sampler_init node_hold_two)).confirmed ++ [(1, w)]) ↔
      ∃ pre run ej, edges_hold_two.take 2 = pre ++ run ∧ run.head? = some ej ∧
        (∀ e ∈ run, e.2.max.2 = 1 ∧ (uniform_validators 4).quorum ≤ e.2.max.1) ∧
        2 ≤ (edges_hold_two.getD 2 (0, tally.fresh)).1 - ej.1) :=
  ⟨by decide, by rfl,
    (confirmation_rule node_hold_two 0 2000 (uniform_validators 4) 2 _ _
      (by decide) (by rfl) (edges_hold_two.take 2) (edges_hold_two.drop 3)
      (edges_hold_two.getD 2 (0, tally.fresh)) (by rfl) 1).2⟩

/-! ## The scan stays inside the selected range -/

theorem group_end_append (stop r : List vote_event) (t : time_point) :
    group_end stop (r ++ stop) t = some (boundary r t) := by
  cases r with
  | nil => simp [group_end, boundary]
  | cons e r =>
    have : ¬ ((e :: (r ++ stop)).length = stop.length) := by simp; omega
    simp only [group_end, List.cons_append, if_neg this, boundary]

theorem scan_expire_eq (W : duration) (time : time_point) (stop : List vote_event) :
    ∀ (l : List vote_event) (tl : tally), (∃ e ∈ l, time - W < e.1) →
      scan_expire W time stop (l ++ stop) tl
        = some ((expire_c W time l tl).1 ++ stop, (expire_c W time l tl).2.1,
            (expire_c W time l tl).2.2) := by
  intro l
  induction l with
  | nil => intro tl h; simp at h
  | cons e rest ih =>
    obtain ⟨t1, v1, o1⟩ := e
    intro tl h
    rw [List.cons_append]
    simp only [scan_expire, expire_c]
    by_cases c : t1 ≤ time - W
    · have h' : ∃ e ∈ rest, time - W < e.1 := by
        obtain ⟨e, he, hlt⟩ := h
        rcases List.mem_cons.1 he with rfl | he
        · exact absurd c (not_le.2 hlt)
        · exact ⟨e, he, hlt⟩
      rw [if_pos c, if_pos c, group_end_append, ih _ h']
    · rw [if_neg c, if_neg c]; rfl

theorem expire_c_suffix (W : duration) (time : time_point) :
    ∀ (pfx c : List vote_event) (tl : tally), (∀ e, c.head? = some e → time - W < e.1) →
      ∃ p, (expire_c W time (pfx ++ c) tl).1 = p ++ c ∧ ∃ q, pfx = q ++ p := by
  intro pfx
  induction pfx with
  | nil =>
    intro c tl h
    refine ⟨[], ?_, [], rfl⟩
    cases c with
    | nil => rfl
    | cons e rest =>
      obtain ⟨t1, v1, o1⟩ := e
      have := h (t1, v1, o1) rfl
      simp only [List.nil_append, expire_c]
      rw [if_neg (not_le.2 this)]
  | cons e rest ih =>
    obtain ⟨t1, v1, o1⟩ := e
    intro c tl h
    simp only [List.cons_append, expire_c]
    by_cases c1 : t1 ≤ time - W
    · rw [if_pos c1]
      obtain ⟨p, hp, q, hq⟩ := ih c (tl.fall t1 v1 o1) h
      exact ⟨p, hp, (t1, v1, o1) :: q, by rw [hq]; rfl⟩
    · rw [if_neg c1]
      exact ⟨(t1, v1, o1) :: rest, rfl, [], rfl⟩

theorem scan_rise_eq (W : duration) (vals : validators) (stop : List vote_event) (hW : 0 < W) :
    ∀ (c pfx : List vote_event) (tl : tally),
      scan_rise W vals stop (c ++ stop) (pfx ++ c ++ stop) tl
        = some ((rise_c W vals c (pfx ++ c) tl).1 ++ stop, (rise_c W vals c (pfx ++ c) tl).2.1,
            (rise_c W vals c (pfx ++ c) tl).2.2) := by
  intro c
  induction c with
  | nil =>
    intro pfx tl
    simp only [List.nil_append, List.append_nil, rise_c]
    cases stop with
    | nil => simp [scan_rise]
    | cons s st => simp [scan_rise]
  | cons e rest ih =>
    obtain ⟨time, v, o⟩ := e
    intro pfx tl
    have hx : ∃ e ∈ pfx ++ (time, v, o) :: rest, time - W < e.1 :=
      ⟨(time, v, o), by simp, by simp; linarith⟩
    have hsuf := expire_c_suffix W time pfx ((time, v, o) :: rest) tl
      (by intro e he; simp at he; subst he; simp; linarith)
    obtain ⟨p, hp, -⟩ := hsuf
    rw [List.cons_append]
    simp only [scan_rise, rise_c]
    have hlen : ¬ ((rest ++ stop).length + 1 = stop.length) := by simp; omega
    rw [if_neg hlen, scan_expire_eq W time stop _ tl hx, group_end_append]
    simp only []
    rw [hp]
    have := ih (p ++ [(time, v, o)])
      ((expire_c W time (pfx ++ (time, v, o) :: rest) tl).2.1.rise time v o vals).1
    simp only [List.append_assoc, List.singleton_append, List.cons_append,
      List.nil_append] at this ⊢
    rw [this]

theorem scan_drain_eq (W : duration) (endt : time_point) (stop : List vote_event) :
    ∀ (l : List vote_event) (tl : tally),
      scan_drain W endt stop (l ++ stop) tl = some (drain_c W endt l tl) := by
  intro l
  induction l with
  | nil =>
    intro tl
    cases stop with
    | nil => simp [scan_drain, drain_c]
    | cons s st =>
      obtain ⟨t1, v1, o1⟩ := s
      simp [scan_drain, drain_c]
  | cons e rest ih =>
    obtain ⟨t1, v1, o1⟩ := e
    intro tl
    rw [List.cons_append]
    simp only [scan_drain, drain_c]
    have hlen : ¬ ((rest ++ stop).length + 1 = stop.length) := by simp; omega
    rw [if_neg hlen]
    by_cases c : t1 + W < endt
    · rw [if_pos c, if_pos c, group_end_append, ih]
    · rw [if_neg c, if_neg c]

theorem dropWhile_dropWhile_of_imp (p q : vote_event → Bool) (h : ∀ e, p e = true → q e = true) :
    ∀ l : List vote_event, (l.dropWhile p).dropWhile q = l.dropWhile q := by
  intro l
  induction l with
  | nil => rfl
  | cons e rest ih =>
    by_cases hp : p e = true
    · rw [List.dropWhile_cons_of_pos hp, List.dropWhile_cons_of_pos (h e hp), ih]
    · rw [List.dropWhile_cons_of_neg hp]

theorem lower_bound_eq (votes : List vote_event) (begin endt : time_point) (h : begin ≤ endt) :
    lower_bound votes begin = selected votes begin endt ++ upper_bound votes endt := by
  have h1 : upper_bound votes endt
      = (lower_bound votes begin).dropWhile (fun e => decide (e.1 ≤ endt)) := by
    unfold upper_bound lower_bound
    rw [dropWhile_dropWhile_of_imp]
    intro e he
    simp only [decide_eq_true_eq] at he ⊢
    linarith
  rw [h1, selected, List.takeWhile_append_dropWhile]

/-- With a positive window and `begin <= end` the scan is defined, and it is the scan of the
votes of the selected range. -/
theorem scan_eq (a : agreement) (tl : tally) (begin endt : time_point) (vals : validators)
    (hW : 0 < a.W) (h : begin ≤ endt) :
    a.scan tl begin endt vals
      = some (scan_c a.W endt vals (selected a.votes begin endt) tl) := by
  simp only [agreement.scan]
  rw [lower_bound_eq a.votes begin endt h]
  have h1 := scan_rise_eq a.W vals (upper_bound a.votes endt) hW
    (selected a.votes begin endt) [] tl
  simp only [List.nil_append] at h1
  rw [h1]
  simp only []
  rw [scan_drain_eq]
  rfl

/-! ## Properties kept by a scan -/

theorem mem_edges_of_edge_if {b : Bool} {t : time_point} {tl : tally} {x : time_point × tally}
    (h : x ∈ edges_of (edge_if b t tl)) : x = (t, tl) := by
  cases b <;> simp [edge_if, edges_of] at h
  exact h

theorem edges_of_fault_if (f : Option validator) : edges_of (fault_if f) = [] := by
  cases f <;> rfl

theorem expire_c_inv (Q : tally → Prop) (S : vote_event → Prop) (W : duration)
    (time : time_point) (hfall : ∀ tl e, S e → Q tl → Q (tl.fall e.1 e.2.1 e.2.2)) :
    ∀ (l : List vote_event) (tl : tally), (∀ e ∈ l, S e) → Q tl →
      Q (expire_c W time l tl).2.1 ∧ (∀ x ∈ edges_of (expire_c W time l tl).2.2, Q x.2) ∧
      (∀ e ∈ (expire_c W time l tl).1, S e) := by
  intro l
  induction l with
  | nil => intro tl _ hq; exact ⟨hq, by simp [expire_c, edges_of], by simp [expire_c]⟩
  | cons e rest ih =>
    obtain ⟨t1, v1, o1⟩ := e
    intro tl hS hq
    simp only [expire_c]
    by_cases c : t1 ≤ time - W
    · rw [if_pos c]
      have hq1 : Q (tl.fall t1 v1 o1) := hfall tl (t1, v1, o1) (hS _ (List.mem_cons_self _ _)) hq
      obtain ⟨i1, i2, i3⟩ := ih (tl.fall t1 v1 o1) (fun e he => hS e (List.mem_cons_of_mem _ he)) hq1
      refine ⟨i1, ?_, i3⟩
      intro x hx
      rw [edges_of_append, List.mem_append] at hx
      rcases hx with hx | hx
      · rw [mem_edges_of_edge_if hx]; exact hq1
      · exact i2 x hx
    · rw [if_neg c]
      exact ⟨hq, by simp [edges_of], hS⟩

theorem drain_c_inv (Q : tally → Prop) (S : vote_event → Prop) (W : duration)
    (endt : time_point) (hfall : ∀ tl e, S e → Q tl → Q (tl.fall e.1 e.2.1 e.2.2)) :
    ∀ (l : List vote_event) (tl : tally), (∀ e ∈ l, S e) → Q tl →
      Q (drain_c W endt l tl).1 ∧ (∀ x ∈ edges_of (drain_c W endt l tl).2, Q x.2) := by
  intro l
  induction l with
  | nil => intro tl _ hq; exact ⟨hq, by simp [drain_c, edges_of]⟩
  | cons e rest ih =>
    obtain ⟨t1, v1, o1⟩ := e
    intro tl hS hq
    simp only [drain_c]
    by_cases c : t1 + W < endt
    · rw [if_pos c]
      have hq1 : Q (tl.fall t1 v1 o1) := hfall tl (t1, v1, o1) (hS _ (List.mem_cons_self _ _)) hq
      obtain ⟨i1, i2⟩ := ih (tl.fall t1 v1 o1) (fun e he => hS e (List.mem_cons_of_mem _ he)) hq1
      refine ⟨i1, ?_⟩
      intro x hx
      rw [edges_of_append, List.mem_append] at hx
      rcases hx with hx | hx
      · rw [mem_edges_of_edge_if hx]; exact hq1
      · exact i2 x hx
    · rw [if_neg c]
      exact ⟨hq, by simp [edges_of]⟩

theorem rise_c_inv (Q : tally → Prop) (S : vote_event → Prop) (W : duration) (vals : validators)
    (hfall : ∀ tl e, S e → Q tl → Q (tl.fall e.1 e.2.1 e.2.2))
    (hrise : ∀ tl e, S e → Q tl → Q (tl.rise e.1 e.2.1 e.2.2 vals).1) :
    ∀ (c l : List vote_event) (tl : tally), (∀ e ∈ c, S e) → (∀ e ∈ l, S e) → Q tl →
      Q (rise_c W vals c l tl).2.1 ∧ (∀ x ∈ edges_of (rise_c W vals c l tl).2.2, Q x.2) ∧
      (∀ e ∈ (rise_c W vals c l tl).1, S e) := by
  intro c
  induction c with
  | nil => intro l tl _ hl hq; exact ⟨hq, by simp [rise_c, edges_of], hl⟩
  | cons e rest ih =>
    obtain ⟨time, v, o⟩ := e
    intro l tl hc hl hq
    simp only [rise_c]
    obtain ⟨e1, e2, e3⟩ := expire_c_inv Q S W time hfall l tl hl hq
    have hq1 := hrise _ (time, v, o) (hc _ (List.mem_cons_self _ _)) e1
    obtain ⟨i1, i2, i3⟩ := ih _ _ (fun e he => hc e (List.mem_cons_of_mem _ he)) e3 hq1
    refine ⟨i1, ?_, i3⟩
    intro x hx
    simp only [edges_of_append, edges_of_fault_if, List.append_nil, List.mem_append] at hx
    rcases hx with (hx | hx) | hx
    · exact e2 x hx
    · rw [mem_edges_of_edge_if hx]; exact hq1
    · exact i2 x hx

/-- A property of the tally that every `fall` and every `rise` of a vote of the range keeps
holds at every edge of the scan and at its end. -/
theorem scan_c_inv (Q : tally → Prop) (W : duration) (endt : time_point) (vals : validators)
    (seg : List vote_event)
    (hfall : ∀ tl e, e ∈ seg → Q tl → Q (tl.fall e.1 e.2.1 e.2.2))
    (hrise : ∀ tl e, e ∈ seg → Q tl → Q (tl.rise e.1 e.2.1 e.2.2 vals).1)
    (tl : tally) (hq : Q tl) :
    Q (scan_c W endt vals seg tl).1 ∧ ∀ x ∈ edges_of (scan_c W endt vals seg tl).2, Q x.2 := by
  simp only [scan_c]
  obtain ⟨r1, r2, r3⟩ := rise_c_inv Q (fun e => e ∈ seg) W vals hfall hrise seg seg tl
    (fun _ h => h) (fun _ h => h) hq
  obtain ⟨d1, d2⟩ := drain_c_inv Q (fun e => e ∈ seg) W endt hfall _ _ r3 r1
  refine ⟨d1, ?_⟩
  intro x hx
  rw [edges_of_append, List.mem_append] at hx
  rcases hx with hx | hx
  · exact r2 x hx
  · exact d2 x hx

theorem mem_selected (votes : List vote_event) (begin endt : time_point) (hs : log_sorted votes)
    (e : vote_event) (he : e ∈ selected votes begin endt) :
    e ∈ votes ∧ begin ≤ e.1 ∧ e.1 ≤ endt := by
  have h1 : e ∈ lower_bound votes begin := (List.takeWhile_sublist _).subset he
  have h3 : e.1 ≤ endt := by simpa using List.mem_takeWhile_imp he
  refine ⟨(List.dropWhile_sublist _).subset h1, ?_, h3⟩
  have hsl : log_sorted (lower_bound votes begin) := log_sorted_dropWhile _ hs
  cases hl : lower_bound votes begin with
  | nil => rw [hl] at h1; simp at h1
  | cons e0 l0 =>
    have h0 : begin ≤ e0.1 := by
      have := List.head_dropWhile_not (fun e : vote_event => decide (e.1 < begin)) votes
        (by unfold lower_bound at hl; rw [hl]; simp)
      unfold lower_bound at hl
      simp only [hl, List.head_cons, decide_eq_true_eq, not_lt] at this
      simpa using this
    rw [hl] at h1 hsl
    rcases List.mem_cons.1 h1 with rfl | h1
    · exact h0
    · exact le_trans h0 (log_sorted_head_le hsl e h1)

theorem selected_eq_self (votes : List vote_event) (begin endt : time_point)
    (h : ∀ e ∈ votes, begin ≤ e.1 ∧ e.1 ≤ endt) : selected votes begin endt = votes := by
  have h1 : lower_bound votes begin = votes := by
    unfold lower_bound
    cases votes with
    | nil => rfl
    | cons e l =>
      rw [List.dropWhile_cons_of_neg]
      simpa using (h e (List.mem_cons_self _ _)).1
  unfold selected
  rw [h1, List.takeWhile_eq_self_iff]
  intro e he
  simpa using (h e he).2

theorem log_sorted_selected (votes : List vote_event) (begin endt : time_point)
    (hs : log_sorted votes) : log_sorted (selected votes begin endt) :=
  List.Pairwise.sublist ((List.takeWhile_sublist _).trans (List.dropWhile_sublist _)) hs

theorem expire_c_noop (W : duration) (time : time_point) (l : List vote_event) (tl : tally)
    (h : ∀ e, l.head? = some e → time - W < e.1) : expire_c W time l tl = (l, tl, []) := by
  cases l with
  | nil => rfl
  | cons e rest =>
    obtain ⟨t1, v1, o1⟩ := e
    have := h (t1, v1, o1) rfl
    simp only [expire_c]
    rw [if_neg (not_le.2 this)]

theorem rise_c_same_time (W : duration) (vals : validators) (t : time_point) (hW : 0 < W) :
    ∀ (c l : List vote_event) (tl : tally), (∀ e ∈ c, e.1 = t) →
      (∀ e, l.head? = some e → e.1 = t) →
      (rise_c W vals c l tl).1 = l ∧ (edges_of (rise_c W vals c l tl).2.2).length ≤ 1 := by
  intro c
  induction c with
  | nil => intro l tl _ _; simp [rise_c, edges_of]
  | cons e rest ih =>
    obtain ⟨time, v, o⟩ := e
    intro l tl hc hl
    have ht : time = t := hc (time, v, o) (List.mem_cons_self _ _)
    subst ht
    have hno := expire_c_noop W time l tl (by intro e he; rw [hl e he]; linarith)
    simp only [rise_c, hno]
    obtain ⟨i1, i2⟩ := ih l (tl.rise time v o vals).1
      (fun e he => hc e (List.mem_cons_of_mem _ he)) hl
    refine ⟨i1, ?_⟩
    simp only [edges_of_append, edges_of_fault_if, List.nil_append, List.length_append]
    cases rest with
    | nil => simp [boundary, edge_if, edges_of, rise_c]
    | cons e2 rest2 =>
      have : e2.1 = time := hc e2 (by simp)
      simp only [boundary, this, ne_eq, not_true_eq_false, decide_False, edge_if, edges_of,
        List.length_nil, zero_add]
      exact i2

theorem scan_c_point (W : duration) (vals : validators) (t : time_point) (hW : 0 < W)
    (seg : List vote_event) (tl : tally) (h : ∀ e ∈ seg, e.1 = t) :
    (edges_of (scan_c W t vals seg tl).2).length ≤ 1 := by
  obtain ⟨r1, r2⟩ := rise_c_same_time W vals t hW seg seg tl h
    (fun e he => h e (List.mem_of_mem_head? he))
  simp only [scan_c, edges_of_append, List.length_append, r1]
  have : (drain_c W t seg (rise_c W vals seg seg tl).2.1).2 = [] := by
    cases seg with
    | nil => rfl
    | cons e rest =>
      obtain ⟨t1, v1, o1⟩ := e
      have : t1 = t := h (t1, v1, o1) (List.mem_cons_self _ _)
      simp only [drain_c]
      rw [if_neg (by rw [this]; linarith)]
  rw [this]
  simpa [edges_of] using r2

theorem confirm_count_le (a : agreement) (begin endt : time_point) (vals : validators)
    (hold : duration) (tl : tally) (evs : List event)
    (hscan : a.scan tally.fresh begin endt vals = some (tl, evs)) :
    ∃ r, a.tally begin endt vals hold = some r ∧ r.2.1.length ≤ (edges_of evs).length - 1 := by
  refine ⟨_, tally_eq_foldl a begin endt vals hold tl evs hscan, ?_⟩
  have := (foldl_sample_count vals hold (edges_of evs) (sampler_init a)).2 rfl
  simpa [sampler_init] using this

/-- C6, as amended: each edge of the scan delivers at most one confirmation and the first
edge delivers none, so a call of `tally` that scans `n` edges invokes `confirm` at most
`n - 1` times. -/
theorem confirm_once_per_edge (a : agreement) (begin endt : time_point) (vals : validators)
    (hold : duration) (tl : tally) (evs : List event)
    (hscan : a.scan tally.fresh begin endt vals = some (tl, evs)) :
    ∃ r, a.tally begin endt vals hold = some r ∧ r.2.1.length ≤ (edges_of evs).length - 1 :=
  confirm_count_le a begin endt vals hold tl evs hscan

theorem confirm_once_per_edge_witness :
    node_hold_two.scan tally.fresh 0 2000 (uniform_validators 4)
      = some (tally_of node_hold_two 0 2000 (uniform_validators 4),
          calls_of node_hold_two 0 2000 (uniform_validators 4)) ∧
    ∃ r, node_hold_two.tally 0 2000 (uniform_validators 4) 2 = some r ∧
      r.2.1.length ≤ (edges_of (calls_of node_hold_two 0 2000 (uniform_validators 4))).length - 1 :=
  ⟨by rfl, confirm_once_per_edge node_hold_two 0 2000 (uniform_validators 4) 2 _ _ (by rfl)⟩

/-- C6, counterexample: three votes hold the quorum from time 1000 on, a fourth vote arrives at
1010 and the first votes expire at 1050; `confirm` is invoked at the edge 1010 and again at the
edge 1050, twice in one call. -/
theorem confirm_twice :
    ((node_of 50 0 log_two_confirms).tally 0 2000 (uniform_validators 4) 0).map (fun r => r.2.1)
      = some [(1, 4), (1, 1)] := by
  rfl

/-- C7 (no confirmation on the first edge).  Whatever edge comes first, the callback records
no `confirm` call at it; and with a positive window a call `tally (t, t)` on a log in time
order is defined and invokes no `confirm` at all. -/
theorem no_confirmation_on_first_edge (a : agreement) (vals : validators) (hold : duration) :
    (∀ e : time_point × tally, (sample vals hold (sampler_init a) e).confirmed = []) ∧
    (0 < a.W → log_sorted a.votes →
      ∀ t : time_point, ∃ r, a.tally t t vals hold = some r ∧ r.2.1 = []) := by
  constructor
  · intro e
    rw [sample_confirmed]
    simp [sampler_init]
  · intro hW hs t
    have hscan := scan_eq a tally.fresh t t vals hW le_rfl
    obtain ⟨r, hr, hlen⟩ := confirm_count_le a t t vals hold _ _ hscan
    refine ⟨r, hr, ?_⟩
    have hpt := scan_c_point a.W vals t hW (selected a.votes t t) tally.fresh (by
      intro e he
      have := mem_selected a.votes t t hs e he
      exact le_antisymm this.2.2 this.2.1)
    have h1 : (edges_of (scan_c a.W t vals (selected a.votes t t) tally.fresh).2).length ≤ 1 :=
      hpt
    have h2 : r.2.1.length
        ≤ (edges_of (scan_c a.W t vals (selected a.votes t t) tally.fresh).2).length - 1 := hlen
    have : r.2.1.length = 0 := by omega
    exact List.length_eq_zero.1 this

theorem no_confirmation_on_first_edge_witness :
    0 < (node_of 50 0 log_one).W ∧ log_sorted (node_of 50 0 log_one).votes ∧
    ∃ r, (node_of 50 0 log_one).tally 1000 1000 (uniform_validators 1) 0 = some r ∧ r.2.1 = [] :=
  ⟨by decide, by decide,
    (no_confirmation_on_first_edge (node_of 50 0 log_one) (uniform_validators 1) 0).2
      (by decide) (by decide) 1000⟩

/-- C8 (confirmation clears parents).  After a call of `tally` the parent set of the node is
empty if `confirm` was invoked during the call, and is the parent set from before the call
otherwise. -/
theorem confirmation_clears_parents (a : agreement) (begin endt : time_point)
    (vals : validators) (hold : duration)
    (r : agreement × List (object × weight) × List validator)
    (h : a.tally begin endt vals hold = some r) :
    (r.2.1 ≠ [] → r.1.parents = []) ∧ (r.2.1 = [] → r.1.parents = a.parents) := by
  cases hscan : a.scan tally.fresh begin endt vals with
  | none => simp [agreement.tally, hscan] at h
  | some x =>
    obtain ⟨tl, evs⟩ := x
    rw [tally_eq_foldl a begin endt vals hold tl evs hscan] at h
    simp only [Option.some.injEq] at h
    subst h
    obtain ⟨ext, h1, h2⟩ := foldl_sample_parents vals hold (edges_of evs) (sampler_init a)
    have e1 : (sampler_init a).confirmed = [] := rfl
    have e2 : (sampler_init a).parents = a.parents := rfl
    rw [e1, List.nil_append] at h1
    rw [e2] at h2
    simp only [h1, h2]
    constructor
    · intro hne; rw [if_neg hne]
    · intro he; rw [if_pos he]

theorem confirmation_clears_parents_witness :
    node_s4.tally 0 2000 (uniform_validators 4) 0
      = some (⟨50, log_s4, [], time_point_default, 0⟩, [(0, 0)], []) ∧
    (([(0, 0)] : List (object × weight)) ≠ [] →
      (⟨50, log_s4, [], time_point_default, 0⟩ : agreement).parents = []) ∧
    (([(0, 0)] : List (object × weight)) = [] →
      (⟨50, log_s4, [], time_point_default, 0⟩ : agreement).parents = node_s4.parents) :=
  ⟨by rfl, confirmation_clears_parents node_s4 0 2000 (uniform_validators 4) 0
    (⟨50, log_s4, [], time_point_default, 0⟩, [(0, 0)], []) (by rfl)⟩

/-- C5 as stated fails at scenario S4: three unit-weight votes of distinct validators for
object `0` at time 1000 have total weight 3, the quorum is 3, and `tally (0, 2000)` invokes
`confirm` once, at the edge 1050 where the votes have expired, with the weight `0` of that
edge; `confirm (0, 3)` is not invoked.  This is so with the sums computed in the integers and
with the sums computed in the weight type `unsigned`.  In `unsigned` the total weight itself
is taken modulo `2^32`: the votes of validators 0 and 1, of the weights 4294967295 and 1, for
object `1` at time 1000 have the total weight 4294967296, which is at least the quorum 667,
and `tally (0, 2000)` invokes `confirm` at no time. -/
theorem confirm_weight_s4 :
    summed (uniform_validators 4) log_s4 0 = 3 ∧ (uniform_validators 4).quorum = 3 ∧
    (∃ r, (node_of 50 0 log_s4).tally 0 2000 (uniform_validators 4) 0 = some r ∧
      r.2.1 = [(0, 0)] ∧ ((0, 3) : object × weight) ∉ r.2.1) ∧
    (∃ r, (node_of 50 0 log_s4).tally_w 0 2000 (uniform_validators 4) 0 = some r ∧
      r.2.1 = [(0, 0)] ∧ ((0, 3) : object × weight) ∉ r.2.1) ∧
    (∀ e ∈ node_wrap.votes, e.1 = 1000 ∧ e.2.2 = 1) ∧ (voters node_wrap.votes).Nodup ∧
    summed validators_wrap node_wrap.votes 1 = 4294967296 ∧ validators_wrap.quorum = 667 ∧
    node_wrap.tally_w 0 2000 validators_wrap 0 = some (node_wrap, [], []) :=
  ⟨by decide, by decide, ⟨_, rfl, rfl, by decide⟩, ⟨_, rfl, rfl, by decide⟩, by decide,
    by decide, by rfl, by rfl, by rfl⟩

/-! ## Association lists -/

theorem map_find_map_set {κ ν : Type} [DecidableEq κ] (m : List (κ × ν)) (k k1 : κ) (v : ν) :
    map_find (map_set m k v) k1 = if k = k1 then some v else map_find m k1 := by
  induction m with
  | nil => simp [map_set, map_find]
  | cons e rest ih =>
    obtain ⟨k0, v0⟩ := e
    simp only [map_set]
    by_cases h : k0 = k
    · subst h
      by_cases h1 : k0 = k1 <;> simp [map_find, h1]
    · simp only [if_neg h, map_find, ih]
      by_cases h1 : k0 = k1
      · subst h1; simp [Ne.symm h]
      · simp [h1]

theorem map_find_none_iff {κ ν : Type} [DecidableEq κ] (m : List (κ × ν)) (k : κ) :
    map_find m k = none ↔ k ∉ m.map Prod.fst := by
  induction m with
  | nil => simp [map_find]
  | cons e rest ih =>
    obtain ⟨k0, v0⟩ := e
    simp only [map_find, List.map_cons, List.mem_cons, not_or]
    by_cases h : k0 = k
    · simp [h]
    · simp [h, ih, Ne.symm h]

theorem map_find_mem {κ ν : Type} [DecidableEq κ] (m : List (κ × ν)) (k : κ) (v : ν)
    (h : map_find m k = some v) : (k, v) ∈ m := by
  induction m with
  | nil => simp [map_find] at h
  | cons e rest ih =>
    obtain ⟨k0, v0⟩ := e
    simp only [map_find] at h
    by_cases h0 : k0 = k
    · simp only [if_pos h0, Option.some.injEq] at h
      subst h0; subst h; exact List.mem_cons_self _ _
    · simp only [if_neg h0] at h
      exact List.mem_cons_of_mem _ (ih h)

theorem map_find_of_mem {κ ν : Type} [DecidableEq κ] (m : List (κ × ν)) (k : κ) (v : ν)
    (hn : (m.map Prod.fst).Nodup) (h : (k, v) ∈ m) : map_find m k = some v := by
  induction m with
  | nil => simp at h
  | cons e rest ih =>
    obtain ⟨k0, v0⟩ := e
    simp only [List.map_cons, List.nodup_cons] at hn
    simp only [map_find]
    rcases List.mem_cons.1 h with h | h
    · simp only [Prod.mk.injEq] at h
      simp [h.1, h.2]
    · have : k0 ≠ k := by
        rintro rfl
        exact hn.1 (List.mem_map_of_mem Prod.fst h)
      simp only [if_neg this]
      exact ih hn.2 h

theorem map_set_of_none {κ ν : Type} [DecidableEq κ] (m : List (κ × ν)) (k : κ) (v : ν)
    (h : map_find m k = none) : map_set m k v = m ++ [(k, v)] := by
  induction m with
  | nil => rfl
  | cons e rest ih =>
    obtain ⟨k0, v0⟩ := e
    simp only [map_find] at h
    by_cases h0 : k0 = k
    · simp [h0] at h
    · simp only [if_neg h0] at h
      simp only [map_set, if_neg h0, ih h, List.cons_append]

theorem map_set_of_some {κ ν : Type} [DecidableEq κ] (m : List (κ × ν)) (k : κ) (v0 v : ν)
    (h : map_find m k = some v0) :
    ∃ A B, m = A ++ (k, v0) :: B ∧ map_set m k v = A ++ (k, v) :: B := by
  induction m with
  | nil => simp [map_find] at h
  | cons e rest ih =>
    obtain ⟨k1, v1⟩ := e
    simp only [map_find] at h
    by_cases h0 : k1 = k
    · simp only [if_pos h0, Option.some.injEq] at h
      subst h0; subst h
      exact ⟨[], rest, rfl, by simp [map_set]⟩
    · simp only [if_neg h0] at h
      obtain ⟨A, B, h1, h2⟩ := ih h
      exact ⟨(k1, v1) :: A, B, by rw [h1]; rfl, by simp [map_set, h0, h2]⟩

theorem map_set_keys_nodup {κ ν : Type} [DecidableEq κ] (m : List (κ × ν)) (k : κ) (v : ν)
    (hn : (m.map Prod.fst).Nodup) : ((map_set m k v).map Prod.fst).Nodup := by
  cases h : map_find m k with
  | none =>
    rw [map_set_of_none m k v h, List.map_append]
    have := (map_find_none_iff m k).1 h
    rw [List.nodup_append]
    refine ⟨hn, by simp, ?_⟩
    intro a ha hb
    simp only [List.map_cons, List.map_nil, List.mem_singleton] at hb
    subst hb
    exact this ha
  | some v0 =>
    obtain ⟨A, B, h1, h2⟩ := map_set_of_some m k v0 v h
    rw [h2]
    rw [h1] at hn
    simpa using hn

/-! ## The ranking -/

theorem rank_insert_perm (w : weight) (o : object) (l : List (weight × object)) :
    (tally.rank_insert w o l).Perm ((w, o) :: l) := by
  induction l with
  | nil => exact List.Perm.refl _
  | cons e rest ih =>
    obtain ⟨w1, o1⟩ := e
    simp only [tally.rank_insert]
    by_cases h : w ≤ w1
    · rw [if_pos h]
      exact (List.Perm.cons _ ih).trans (List.Perm.swap _ _ _)
    · rw [if_neg h]

theorem rank_insert_sorted (w : weight) (o : object) (l : List (weight × object))
    (h : l.Pairwise (fun x y => y.1 ≤ x.1)) :
    (tally.rank_insert w o l).Pairwise (fun x y => y.1 ≤ x.1) := by
  induction l with
  | nil => simp [tally.rank_insert]
  | cons e rest ih =>
    obtain ⟨w1, o1⟩ := e
    simp only [tally.rank_insert]
    rw [List.pairwise_cons] at h
    by_cases c : w ≤ w1
    · rw [if_pos c, List.pairwise_cons]
      refine ⟨?_, ih h.2⟩
      intro y hy
      have hy1 := (List.Perm.mem_iff (rank_insert_perm w o rest)).1 hy
      rcases List.mem_cons.1 hy1 with rfl | hy2
      · exact c
      · exact h.1 y hy2
    · rw [if_neg c, List.pairwise_cons]
      refine ⟨?_, List.pairwise_cons.2 h⟩
      intro y hy
      have c1 : w1 ≤ w := le_of_lt (not_le.1 c)
      rcases List.mem_cons.1 hy with rfl | hy
      · exact c1
      · exact le_trans (h.1 y hy) c1

theorem rank_erase_of_not_mem (w : weight) (o : object) (l : List (weight × object))
    (h : (w, o) ∉ l) : tally.rank_erase w o l = l := by
  induction l with
  | nil => rfl
  | cons e rest ih =>
    obtain ⟨w1, o1⟩ := e
    simp only [List.mem_cons, not_or] at h
    have hne : ¬ (w1 = w ∧ o1 = o) := by
      rintro ⟨rfl, rfl⟩; exact h.1 rfl
    simp only [tally.rank_erase, if_neg hne, ih h.2]

theorem rank_erase_perm (w : weight) (o : object) (l : List (weight × object))
    (h : (w, o) ∈ l) : l.Perm ((w, o) :: tally.rank_erase w o l) := by
  induction l with
  | nil => simp at h
  | cons e rest ih =>
    obtain ⟨w1, o1⟩ := e
    simp only [tally.rank_erase]
    by_cases c : w1 = w ∧ o1 = o
    · rw [if_pos c, c.1, c.2]
    · rw [if_neg c]
      have hm : (w, o) ∈ rest := by
        rcases List.mem_cons.1 h with h | h
        · simp only [Prod.mk.injEq] at h
          exact absurd ⟨h.1.symm, h.2.symm⟩ c
        · exact h
      exact (List.Perm.cons _ (ih hm)).trans (List.Perm.swap _ _ _)

theorem rank_erase_sublist (w : weight) (o : object) (l : List (weight × object)) :
    (tally.rank_erase w o l).Sublist l := by
  induction l with
  | nil => exact List.Sublist.refl _
  | cons e rest ih =>
    obtain ⟨w1, o1⟩ := e
    simp only [tally.rank_erase]
    split_ifs
    · exact List.sublist_cons_self _ _
    · exact List.Sublist.cons₂ _ ih

/-! ## `sort`, `rise` and `fall` keep the invariants -/

theorem rank_wf_fresh : rank_wf tally.fresh := by
  simp [rank_wf, tally.fresh]

theorem sum_wf_fresh : sum_wf tally.fresh := by
  simp [sum_wf, tally.fresh, map_find, active_weight]

theorem rank_wf_sort (t : tally) (w : weight) (o : object) (op : weight → weight → weight)
    (h : rank_wf t) : rank_wf (t.sort w o op) := by
  obtain ⟨hp, hn, hs⟩ := h
  refine ⟨?_, map_set_keys_nodup _ _ _ hn, ?_⟩
  · simp only [tally.sort]
    cases hf : map_find t.totals_m o with
    | none =>
      have hnot : ((0 : weight), o) ∉ t.rank := by
        intro hm
        have h1 := (List.Perm.mem_iff hp).1 hm
        simp only [List.mem_map, Prod.swap, Prod.mk.injEq] at h1
        obtain ⟨x, hx, -, hx2⟩ := h1
        exact (map_find_none_iff _ _).1 hf (hx2 ▸ List.mem_map_of_mem Prod.fst hx)
      simp only [Option.getD_none]
      rw [rank_erase_of_not_mem _ _ _ hnot, map_set_of_none _ _ _ hf, List.map_append]
      refine (rank_insert_perm _ _ _).trans ?_
      refine (List.Perm.cons _ hp).trans ?_
      exact (List.perm_append_singleton _ _).symm
    | some w0 =>
      obtain ⟨A, B, h1, h2⟩ := map_set_of_some _ _ _ (op w0 w) hf
      simp only [Option.getD_some]
      rw [h2]
      rw [h1] at hp
      have hmem : (w0, o) ∈ t.rank := (List.Perm.mem_iff hp).2 (by simp)
      have hp1 : t.rank.Perm ((w0, o) :: (A.map Prod.swap ++ B.map Prod.swap)) := by
        refine hp.trans ?_
        simp
      have hp2 : (tally.rank_erase w0 o t.rank).Perm (A.map Prod.swap ++ B.map Prod.swap) :=
        List.Perm.cons_inv ((rank_erase_perm _ _ _ hmem).symm.trans hp1)
      refine (rank_insert_perm _ _ _).trans ?_
      refine (List.Perm.cons _ hp2).trans ?_
      simpa using
        (@List.perm_middle _ (op w0 w, o) (A.map Prod.swap) (B.map Prod.swap)).symm
  · simp only [tally.sort]
    exact rank_insert_sorted _ _ _ (List.Pairwise.sublist (rank_erase_sublist _ _ _) hs)

theorem sort_votes (t : tally) (w : weight) (o : object) (op : weight → weight → weight) :
    (t.sort w o op).votes = t.votes := rfl

theorem sort_totals_find (t : tally) (w : weight) (o o1 : object)
    (op : weight → weight → weight) :
    (map_find (t.sort w o op).totals_m o1).getD 0
      = if o = o1 then op ((map_find t.totals_m o).getD 0) w
        else (map_find t.totals_m o1).getD 0 := by
  simp only [tally.sort, map_find_map_set]
  by_cases h : o = o1 <;> simp [h]

theorem rank_wf_rise (t : tally) (time : time_point) (v : validator) (o : object)
    (vals : validators) (h : rank_wf t) : rank_wf (t.rise time v o vals).1 := by
  simp only [tally.rise]
  split_ifs
  · exact rank_wf_sort _ _ _ _ h
  · exact h
  · exact h

theorem rank_wf_fall (t : tally) (time : time_point) (v : validator) (o : object)
    (h : rank_wf t) : rank_wf (t.fall time v o) := by
  simp only [tally.fall]
  split_ifs
  · exact rank_wf_sort _ _ _ _ h
  · exact h

theorem active_weight_map_set (m : List (validator × slot)) (v : validator) (s : slot)
    (o : object) :
    active_weight (map_set m v s) o + ((map_find m v).map (contrib o)).getD 0
      = active_weight m o + contrib o s := by
  induction m with
  | nil => simp [map_set, map_find, active_weight]
  | cons e rest ih =>
    obtain ⟨k0, s0⟩ := e
    simp only [map_set, map_find]
    by_cases h : k0 = v
    · simp only [if_pos h, active_weight, List.map_cons, List.sum_cons, Option.map_some',
        Option.getD_some]
      ring
    · simp only [if_neg h, active_weight, List.map_cons, List.sum_cons]
      simp only [active_weight] at ih
      linarith

theorem contrib_slot_of (t : tally) (v : validator) (o : object) :
    ((map_find t.votes v).map (contrib o)).getD 0 = contrib o (t.slot_of v) := by
  simp only [tally.slot_of]
  cases map_find t.votes v with
  | none => simp [contrib, time_point_default]
  | some s => simp

theorem sum_wf_rise (t : tally) (time : time_point) (v : validator) (o : object)
    (vals : validators) (ht : time ≠ time_point_default) (h : sum_wf t) :
    sum_wf (t.rise time v o vals).1 := by
  obtain ⟨hn, hs⟩ := h
  simp only [tally.rise]
  split_ifs with c1 c2
  · refine ⟨map_set_keys_nodup _ _ _ hn, ?_⟩
    intro o1
    rw [sort_totals_find, sort_votes]
    have h1 := active_weight_map_set t.votes v (o, time, vals.weight v) o1
    rw [contrib_slot_of] at h1
    have h0 : contrib o1 (t.slot_of v) = 0 := by simp [contrib, c1]
    have h2 : contrib o1 (o, time, vals.weight v) = if o = o1 then vals.weight v else 0 := by
      simp [contrib, ht]
    rw [h0, h2] at h1
    have h3 := hs o1
    have h4 := hs o
    by_cases c : o = o1
    · subst c
      simp only [if_true] at h1 ⊢
      linarith
    · simp only [if_neg c] at h1 ⊢
      linarith
  · refine ⟨map_set_keys_nodup _ _ _ hn, ?_⟩
    intro o1
    have h1 := active_weight_map_set t.votes v ((t.slot_of v).1, time, (t.slot_of v).2.2) o1
    rw [contrib_slot_of] at h1
    have h2 : contrib o1 ((t.slot_of v).1, time, (t.slot_of v).2.2) = contrib o1 (t.slot_of v) := by
      simp [contrib, ht, c1]
    rw [h2] at h1
    have h3 := hs o1
    show (map_find t.totals_m o1).getD 0 = _
    linarith
  · refine ⟨map_set_keys_nodup _ _ _ hn, ?_⟩
    intro o1
    have h1 := active_weight_map_set t.votes v (t.slot_of v) o1
    rw [contrib_slot_of] at h1
    have h3 := hs o1
    show (map_find t.totals_m o1).getD 0 = _
    linarith

theorem sum_wf_fall (t : tally) (time : time_point) (v : validator) (o : object)
    (ht : time ≠ time_point_default) (h : sum_wf t) : sum_wf (t.fall time v o) := by
  obtain ⟨hn, hs⟩ := h
  simp only [tally.fall]
  split_ifs with c1
  · refine ⟨map_set_keys_nodup _ _ _ hn, ?_⟩
    intro o1
    show (map_find (t.sort (t.slot_of v).2.2 o (fun a b => a - b)).totals_m o1).getD 0 = _
    rw [sort_totals_find, sort_votes]
    have h1 := active_weight_map_set t.votes v
      ((t.slot_of v).1, time_point_default, (t.slot_of v).2.2) o1
    rw [contrib_slot_of] at h1
    have h0 : contrib o1 ((t.slot_of v).1, time_point_default, (t.slot_of v).2.2) = 0 := by
      simp [contrib]
    have h2 : contrib o1 (t.slot_of v) = if o = o1 then (t.slot_of v).2.2 else 0 := by
      simp [contrib, ← c1.1, ht, ← c1.2]
    rw [h0, h2] at h1
    have h3 := hs o1
    have h4 := hs o
    by_cases c : o = o1
    · subst c
      simp only [if_true] at h1 ⊢
      linarith
    · simp only [if_neg c] at h1 ⊢
      linarith
  · refine ⟨map_set_keys_nodup _ _ _ hn, ?_⟩
    intro o1
    have h1 := active_weight_map_set t.votes v (t.slot_of v) o1
    rw [contrib_slot_of] at h1
    have h3 := hs o1
    show (map_find t.totals_m o1).getD 0 = _
    linarith

/-! ## No quorum, no confirmation -/

theorem foldl_sample_no_quorum (vals : validators) (hold : duration)
    (es : List (time_point × tally)) (s : sampler) (hs : s.holding = false)
    (h : ∀ e ∈ es, e.2.max.1 < vals.quorum) :
    (es.foldl (sample vals hold) s).confirmed = s.confirmed := by
  induction es generalizing s with
  | nil => rfl
  | cons e es ih =>
    simp only [List.foldl_cons]
    have h1 : (sample vals hold s e).holding = false := by
      show decide (vals.quorum ≤ e.2.max.1) = false
      have := h e (List.mem_cons_self _ _)
      simpa using this
    rw [ih _ h1 (fun x hx => h x (List.mem_cons_of_mem _ hx)), sample_confirmed,
      if_neg (by simp [hs])]

theorem mem_supporters (votes : List vote_event) (begin endt : time_point) (e : vote_event)
    (he : e ∈ votes) (h1 : begin ≤ e.1) (h2 : e.1 ≤ endt) :
    e.2.1 ∈ supporters votes begin endt e.2.2 := by
  simp only [supporters, List.mem_dedup, List.mem_map, List.mem_filter, decide_eq_true_eq]
  exact ⟨e, ⟨he, h1, h2, rfl⟩, rfl⟩

theorem provenance_rise (vals : validators) (votes : List vote_event) (begin endt : time_point)
    (t : tally) (e : vote_event) (he : e ∈ votes) (h1 : begin ≤ e.1) (h2 : e.1 ≤ endt)
    (h : provenance vals votes begin endt t) :
    provenance vals votes begin endt (t.rise e.1 e.2.1 e.2.2 vals).1 := by
  intro v s hf hne
  simp only [tally.rise] at hf
  split_ifs at hf with c1 c2
  · rw [sort_votes] at hf
    simp only [map_find_map_set] at hf
    by_cases c : e.2.1 = v
    · simp only [if_pos c, Option.some.injEq] at hf
      subst hf
      exact ⟨by rw [c], c ▸ mem_supporters votes begin endt e he h1 h2⟩
    · rw [if_neg c] at hf
      exact h v s hf hne
  · simp only [map_find_map_set] at hf
    by_cases c : e.2.1 = v
    · simp only [if_pos c, Option.some.injEq] at hf
      subst hf
      have hsl : map_find t.votes e.2.1 = some (t.slot_of e.2.1) := by
        simp only [tally.slot_of] at c1 ⊢
        cases hm : map_find t.votes e.2.1 with
        | none => simp [hm, time_point_default] at c1
        | some s0 => simp
      have := h e.2.1 _ hsl c1
      exact c ▸ this
    · rw [if_neg c] at hf
      exact h v s hf hne
  · simp only [map_find_map_set] at hf
    by_cases c : e.2.1 = v
    · simp only [if_pos c, Option.some.injEq] at hf
      subst hf
      have hsl : map_find t.votes e.2.1 = some (t.slot_of e.2.1) := by
        simp only [tally.slot_of] at c1 ⊢
        cases hm : map_find t.votes e.2.1 with
        | none => simp [hm, time_point_default] at c1
        | some s0 => simp
      have := h e.2.1 _ hsl c1
      exact c ▸ this
    · rw [if_neg c] at hf
      exact h v s hf hne

theorem provenance_fall (vals : validators) (votes : List vote_event) (begin endt : time_point)
    (t : tally) (time : time_point) (v0 : validator) (o : object)
    (h : provenance vals votes begin endt t) :
    provenance vals votes begin endt (t.fall time v0 o) := by
  intro v s hf hne
  simp only [tally.fall] at hf
  split_ifs at hf with c1
  · simp only [sort_votes, map_find_map_set] at hf
    by_cases c : v0 = v
    · simp only [if_pos c, Option.some.injEq] at hf
      subst hf
      exact absurd rfl hne
    · rw [if_neg c] at hf
      exact h v s hf hne
  · simp only [map_find_map_set] at hf
    by_cases c : v0 = v
    · simp only [if_pos c, Option.some.injEq] at hf
      subst hf
      have hsl : map_find t.votes v0 = some (t.slot_of v0) := by
        simp only [tally.slot_of] at hne ⊢
        cases hm : map_find t.votes v0 with
        | none => simp [hm, time_point_default] at hne
        | some s0 => simp
      have := h v0 _ hsl hne
      exact c ▸ this
    · rw [if_neg c] at hf
      exact h v s hf hne

theorem active_weight_le_support (vals : validators) (votes : List vote_event)
    (begin endt : time_point) (t : tally) (hw : ∀ v, 0 ≤ vals.weight v)
    (hn : (t.votes.map Prod.fst).Nodup) (hp : provenance vals votes begin endt t) (o : object) :
    active_weight t.votes o ≤ support vals votes begin endt o := by
  have h1 : active_weight t.votes o
      ≤ ((t.votes.map Prod.fst).map
          (fun v => if v ∈ supporters votes begin endt o then vals.weight v else 0)).sum := by
    simp only [active_weight, List.map_map]
    apply List.sum_le_sum
    intro e he
    have hf := map_find_of_mem t.votes e.1 e.2 hn he
    simp only [Function.comp, contrib]
    by_cases c : e.2.2.1 ≠ time_point_default ∧ e.2.1 = o
    · rw [if_pos c]
      obtain ⟨p1, p2⟩ := hp e.1 e.2 hf c.1
      rw [c.2] at p2
      rw [if_pos p2, p1]
    · rw [if_neg c]
      split_ifs
      · exact hw _
      · exact le_refl _
  refine le_trans h1 ?_
  rw [← List.sum_toFinset _ hn, support, supporters,
    ← List.sum_toFinset _ (List.nodup_dedup _), ← Finset.sum_filter]
  rw [← supporters]
  apply Finset.sum_le_sum_of_subset_of_nonneg
  · intro v hv
    simp only [Finset.mem_filter, List.mem_toFinset] at hv
    simpa using hv.2
  · intro v _ _
    exact hw v

theorem max_lt_quorum (vals : validators) (votes : List vote_event) (begin endt : time_point)
    (t : tally) (hw : ∀ v, 0 ≤ vals.weight v) (hq : 0 < vals.quorum)
    (hlow : ∀ o, support vals votes begin endt o < vals.quorum)
    (hr : rank_wf t) (hs : sum_wf t) (hp : provenance vals votes begin endt t) :
    t.max.1 < vals.quorum := by
  simp only [tally.max]
  cases hrk : t.rank with
  | nil => exact hq
  | cons e rest =>
    obtain ⟨w, o⟩ := e
    have hmem : (w, o) ∈ t.rank := by rw [hrk]; exact List.mem_cons_self _ _
    have h1 := (List.Perm.mem_iff hr.1).1 hmem
    simp only [List.mem_map, Prod.swap, Prod.mk.injEq] at h1
    obtain ⟨x, hx, hx1, hx2⟩ := h1
    have hf : map_find t.totals_m o = some w :=
      map_find_of_mem _ _ _ hr.2.1 (by rw [← hx1, ← hx2]; exact hx)
    have h2 := hs.2 o
    rw [hf] at h2
    simp only [Option.getD_some] at h2
    show w < vals.quorum
    rw [h2]
    exact lt_of_le_of_lt (active_weight_le_support vals votes begin endt t hw hs.1 hp o) (hlow o)

/-- C2 (no quorum, no confirmation).  With a positive window, a log in time order whose vote
times all differ from `time_point{}`, non-negative weights and a positive quorum: if for every
object the summed weight of the distinct validators that have a vote for it in `[begin, end]`
is below the quorum, the call `tally (begin, end)` is defined and never invokes `confirm`,
whatever `hold` is. -/
theorem no_quorum_no_confirmation (a : agreement) (vals : validators) (begin endt : time_point)
    (hold : duration) (hW : 0 < a.W) (hs : log_sorted a.votes) (hbe : begin ≤ endt)
    (ht : ∀ e ∈ a.votes, e.1 ≠ time_point_default) (hw : ∀ v, 0 ≤ vals.weight v)
    (hq : 0 < vals.quorum) (hlow : ∀ o, support vals a.votes begin endt o < vals.quorum) :
    ∃ r, a.tally begin endt vals hold = some r ∧ r.2.1 = [] := by
  have hscan := scan_eq a tally.fresh begin endt vals hW hbe
  refine ⟨_, tally_eq_foldl a begin endt vals hold _ _ hscan, ?_⟩
  have hinv := scan_c_inv
    (fun t => rank_wf t ∧ sum_wf t ∧ provenance vals a.votes begin endt t)
    a.W endt vals (selected a.votes begin endt)
    (by
      intro tl e he ⟨q1, q2, q3⟩
      have hm := mem_selected a.votes begin endt hs e he
      exact ⟨rank_wf_fall _ _ _ _ q1, sum_wf_fall _ _ _ _ (ht e hm.1) q2,
        provenance_fall _ _ _ _ _ _ _ _ q3⟩)
    (by
      intro tl e he ⟨q1, q2, q3⟩
      have hm := mem_selected a.votes begin endt hs e he
      exact ⟨rank_wf_rise _ _ _ _ _ q1, sum_wf_rise _ _ _ _ _ (ht e hm.1) q2,
        provenance_rise _ _ _ _ _ e hm.1 hm.2.1 hm.2.2 q3⟩)
    tally.fresh
    ⟨rank_wf_fresh, sum_wf_fresh, by intro v s hf; simp [tally.fresh, map_find] at hf⟩
  show ((edges_of (scan_c a.W endt vals (selected a.votes begin endt) tally.fresh).2).foldl
    (sample vals hold) (sampler_init a)).confirmed = []
  rw [foldl_sample_no_quorum vals hold _ _ rfl]
  · rfl
  · intro e he
    obtain ⟨q1, q2, q3⟩ := hinv.2 e he
    exact max_lt_quorum vals a.votes begin endt e.2 hw hq hlow q1 q2 q3

theorem support_log_double (o : object) :
    support (uniform_validators 2) log_double 0 2000 o < (uniform_validators 2).quorum := by
  by_cases h : o = 0
  · subst h; decide
  · have : supporters log_double 0 2000 o = [] := by
      simp [supporters, log_double, List.filter, Ne.symm h]
    rw [support, this]
    decide

theorem no_quorum_no_confirmation_witness :
    0 < (node_of 50 0 log_double).W ∧ log_sorted (node_of 50 0 log_double).votes ∧
    (∀ o, support (uniform_validators 2) (node_of 50 0 log_double).votes 0 2000 o
      < (uniform_validators 2).quorum) ∧
    ∃ r, (node_of 50 0 log_double).tally 0 2000 (uniform_validators 2) 0 = some r ∧ r.2.1 = [] :=
  ⟨by decide, by decide, support_log_double,
    no_quorum_no_confirmation (node_of 50 0 log_double) (uniform_validators 2) 0 2000 0
      (by decide) (by decide) (by decide) (by decide) (fun _ => by show (0 : Int) ≤ 1; decide) (by decide)
      support_log_double⟩

/-! ## Logs in which every validator votes once -/

theorem map_find_middle {κ ν : Type} [DecidableEq κ] (A B : List (κ × ν)) (k : κ) (v : ν)
    (h : k ∉ A.map Prod.fst) : map_find (A ++ (k, v) :: B) k = some v := by
  induction A with
  | nil => simp [map_find]
  | cons e rest ih =>
    obtain ⟨k0, v0⟩ := e
    simp only [List.map_cons, List.mem_cons, not_or] at h
    rw [List.cons_append]
    simp only [map_find, if_neg (Ne.symm h.1)]
    exact ih h.2

theorem map_set_middle {κ ν : Type} [DecidableEq κ] (A B : List (κ × ν)) (k : κ) (v v1 : ν)
    (h : k ∉ A.map Prod.fst) : map_set (A ++ (k, v) :: B) k v1 = A ++ (k, v1) :: B := by
  induction A with
  | nil => simp [map_set]
  | cons e rest ih =>
    obtain ⟨k0, v0⟩ := e
    simp only [List.map_cons, List.mem_cons, not_or] at h
    rw [List.cons_append]
    simp only [map_set, if_neg (Ne.symm h.1)]
    rw [ih h.2, List.cons_append]

theorem keys_closed_open (vals : validators) (f m : List vote_event) :
    (f.map (closed_slot vals) ++ m.map (open_slot vals)).map Prod.fst = voters (f ++ m) := by
  simp only [voters, List.map_append, List.map_map]
  rfl

theorem window_state_fresh (vals : validators) : window_state vals [] [] tally.fresh :=
  ⟨rank_wf_fresh, sum_wf_fresh, rfl⟩

theorem window_state_rise (vals : validators) (f m : List vote_event) (t : tally)
    (e : vote_event) (h : window_state vals f m t) (hv : e.2.1 ∉ voters (f ++ m))
    (ht : e.1 ≠ time_point_default) :
    window_state vals f (m ++ [e]) (t.rise e.1 e.2.1 e.2.2 vals).1 ∧
      (t.rise e.1 e.2.1 e.2.2 vals).2 = none := by
  obtain ⟨h1, h2, h3⟩ := h
  have hnone : map_find t.votes e.2.1 = none := by
    rw [map_find_none_iff, h3, keys_closed_open]; exact hv
  have hslot : (t.slot_of e.2.1).2.1 = time_point_default := by
    simp [tally.slot_of, hnone]
  refine ⟨⟨rank_wf_rise _ _ _ _ _ h1, sum_wf_rise _ _ _ _ _ ht h2, ?_⟩, ?_⟩
  · simp only [tally.rise, if_pos hslot, sort_votes]
    rw [map_set_of_none _ _ _ hnone, h3]
    simp [open_slot]
  · simp only [tally.rise, if_pos hslot]

theorem window_state_fall (vals : validators) (f m : List vote_event) (t : tally)
    (x : vote_event) (h : window_state vals f (x :: m) t) (hv : x.2.1 ∉ voters f)
    (ht : x.1 ≠ time_point_default) :
    window_state vals (f ++ [x]) m (t.fall x.1 x.2.1 x.2.2) := by
  obtain ⟨h1, h2, h3⟩ := h
  have hk : x.2.1 ∉ (f.map (closed_slot vals)).map Prod.fst := by
    simpa [voters, closed_slot, Function.comp] using hv
  have hfind : map_find t.votes x.2.1 = some (x.2.2, x.1, vals.weight x.2.1) := by
    rw [h3]
    exact map_find_middle _ _ _ _ hk
  have hslot : t.slot_of x.2.1 = (x.2.2, x.1, vals.weight x.2.1) := by
    simp [tally.slot_of, hfind]
  refine ⟨rank_wf_fall _ _ _ _ h1, sum_wf_fall _ _ _ _ ht h2, ?_⟩
  simp only [tally.fall, hslot, true_and, if_true, sort_votes]
  rw [h3]
  simp only [List.map_cons, open_slot]
  rw [map_set_middle _ _ _ _ _ hk]
  simp [closed_slot]

theorem active_weight_append (A B : List (validator × slot)) (o : object) :
    active_weight (A ++ B) o = active_weight A o + active_weight B o := by
  simp [active_weight]

theorem active_weight_closed (vals : validators) (f : List vote_event) (o : object) :
    active_weight (f.map (closed_slot vals)) o = 0 := by
  induction f with
  | nil => rfl
  | cons e rest ih =>
    simp only [active_weight, List.map_cons, List.sum_cons] at ih ⊢
    rw [ih]
    simp [contrib, closed_slot]

theorem active_weight_open (vals : validators) (m : List vote_event) (o : object)
    (ht : ∀ e ∈ m, e.1 ≠ time_point_default) :
    active_weight (m.map (open_slot vals)) o = summed vals m o := by
  induction m with
  | nil => rfl
  | cons e rest ih =>
    have ih' := ih (fun x hx => ht x (List.mem_cons_of_mem _ hx))
    have he := ht e (List.mem_cons_self _ _)
    simp only [active_weight, summed, List.map_cons, List.sum_cons] at ih' ⊢
    rw [ih']
    by_cases c : e.2.2 = o
    · simp [contrib, open_slot, he, c, List.filter_cons]
    · simp [contrib, open_slot, he, c, List.filter_cons]

theorem window_state_total (vals : validators) (f m : List vote_event) (t : tally)
    (h : window_state vals f m t) (ht : ∀ e ∈ m, e.1 ≠ time_point_default) (o : object) :
    (map_find t.totals_m o).getD 0 = summed vals m o := by
  rw [h.2.1.2 o, h.2.2, active_weight_append, active_weight_closed,
    active_weight_open vals m o ht, zero_add]

/-- What `max ()` returns, given the invariants: the default pair on an empty ranking, and
otherwise an entry of `totals` that no other entry exceeds. -/
theorem max_spec (t : tally) (h : rank_wf t) :
    (t.rank = [] ∧ t.totals_m = [] ∧ t.max = (0, 0)) ∨
    (map_find t.totals_m t.max.2 = some t.max.1 ∧
      ∀ o w, map_find t.totals_m o = some w → w ≤ t.max.1) := by
  obtain ⟨hp, hn, hs⟩ := h
  cases hrk : t.rank with
  | nil =>
    left
    rw [hrk] at hp
    have := List.Perm.length_eq hp
    simp only [List.length_nil, List.length_map] at this
    exact ⟨rfl, List.length_eq_zero.1 this.symm, by simp [tally.max, hrk]⟩
  | cons e rest =>
    right
    obtain ⟨w0, o0⟩ := e
    have hmax : t.max = (w0, o0) := by simp [tally.max, hrk]
    have tomem : ∀ w o, (w, o) ∈ t.rank ↔ (o, w) ∈ t.totals_m := by
      intro w o
      rw [List.Perm.mem_iff hp]
      simp only [List.mem_map, Prod.swap]
      constructor
      · rintro ⟨x, hx, hx2⟩
        obtain ⟨a, b⟩ := x
        simp only [Prod.mk.injEq] at hx2
        rw [← hx2.1, ← hx2.2]; exact hx
      · intro hx; exact ⟨(o, w), hx, rfl⟩
    rw [hmax]
    refine ⟨map_find_of_mem _ _ _ hn ((tomem w0 o0).1 (by rw [hrk]; exact List.mem_cons_self _ _)), ?_⟩
    intro o w hf
    have hm := (tomem w o).2 (map_find_mem _ _ _ hf)
    rw [hrk] at hm hs
    rcases List.mem_cons.1 hm with h1 | h1
    · simp only [Prod.mk.injEq] at h1
      rw [h1.1]
    · exact (List.pairwise_cons.1 hs).1 (w, o) h1

theorem faults_of_edge_if (b : Bool) (t : time_point) (tl : tally) :
    faults_of (edge_if b t tl) = [] := by
  cases b <;> rfl

theorem not_mem_voters_of_nodup {f m c : List vote_event} {x : vote_event}
    (h : (voters (f ++ x :: m ++ c)).Nodup) : x.2.1 ∉ voters f := by
  simp only [voters, List.map_append, List.map_cons, List.append_assoc, List.cons_append] at h
  rw [List.nodup_append] at h
  intro hx
  exact h.2.2 hx (List.mem_cons_self _ _)

theorem not_mem_voters_of_nodup_right {f c : List vote_event} {x : vote_event}
    (h : (voters (f ++ x :: c)).Nodup) : x.2.1 ∉ voters f := by
  have := @not_mem_voters_of_nodup f [] c x (by simpa using h)
  exact this

theorem expire_ws (W : duration) (time : time_point) (vals : validators)
    (seg : List vote_event) (hnd : (voters seg).Nodup)
    (hnt : ∀ e ∈ seg, e.1 ≠ time_point_default) :
    ∀ (m f c : List vote_event) (tl : tally), seg = f ++ m ++ c → window_state vals f m tl →
      (∀ e, c.head? = some e → time - W < e.1) →
      ∃ fx m1, m = fx ++ m1 ∧ (expire_c W time (m ++ c) tl).1 = m1 ++ c ∧
        window_state vals (f ++ fx) m1 (expire_c W time (m ++ c) tl).2.1 ∧
        (∀ x, m1.head? = some x → time - W < x.1) ∧
        faults_of (expire_c W time (m ++ c) tl).2.2 = [] ∧
        ∀ ed ∈ edges_of (expire_c W time (m ++ c) tl).2.2,
          ∃ f1 m2, seg = f1 ++ m2 ++ c ∧ f1 ≠ [] ∧ window_state vals f1 m2 ed.2 := by
  intro m
  induction m with
  | nil =>
    intro f c tl _ hws hc
    rw [List.nil_append, expire_c_noop W time c tl hc]
    exact ⟨[], [], rfl, rfl, by simpa using hws, by simp, rfl, by simp [edges_of]⟩
  | cons x m0 ih =>
    obtain ⟨t1, v1, o1⟩ := x
    intro f c tl hseg hws hc
    rw [List.cons_append]
    simp only [expire_c]
    by_cases c1 : t1 ≤ time - W
    · rw [if_pos c1]
      have hx : (t1, v1, o1) ∈ seg := by rw [hseg]; simp
      have hv : v1 ∉ voters f := by
        have := @not_mem_voters_of_nodup f m0 c (t1, v1, o1) (by rw [hseg] at hnd; simpa using hnd)
        exact this
      have hws1 := window_state_fall vals f m0 tl (t1, v1, o1) hws hv (hnt _ hx)
      have hseg1 : seg = (f ++ [(t1, v1, o1)]) ++ m0 ++ c := by rw [hseg]; simp
      obtain ⟨fx, m1, e1, e2, e3, e4, e5, e6⟩ := ih (f ++ [(t1, v1, o1)]) c _ hseg1 hws1 hc
      refine ⟨(t1, v1, o1) :: fx, m1, by rw [e1]; rfl, e2, by simpa using e3, e4, ?_, ?_⟩
      · rw [faults_of_append, faults_of_edge_if, e5]; rfl
      · intro ed hed
        rw [edges_of_append, List.mem_append] at hed
        rcases hed with hed | hed
        · rw [mem_edges_of_edge_if hed]
          exact ⟨f ++ [(t1, v1, o1)], m0, hseg1, by simp, hws1⟩
        · exact e6 ed hed
    · rw [if_neg c1]
      refine ⟨[], (t1, v1, o1) :: m0, rfl, rfl, by simpa using hws, ?_, rfl, by simp [edges_of]⟩
      intro x hx
      simp only [List.head?_cons, Option.some.injEq] at hx
      subst hx
      simpa using c1

theorem drain_ws (W : duration) (endt : time_point) (vals : validators)
    (seg : List vote_event) (hnd : (voters seg).Nodup)
    (hnt : ∀ e ∈ seg, e.1 ≠ time_point_default) :
    ∀ (m f : List vote_event) (tl : tally), seg = f ++ m → window_state vals f m tl →
      ∀ ed ∈ edges_of (drain_c W endt m tl).2,
        ∃ f1 m2, seg = f1 ++ m2 ∧ f1 ≠ [] ∧ window_state vals f1 m2 ed.2 := by
  intro m
  induction m with
  | nil => intro f tl _ _ ed hed; simp [drain_c, edges_of] at hed
  | cons x m0 ih =>
    obtain ⟨t1, v1, o1⟩ := x
    intro f tl hseg hws ed hed
    simp only [drain_c] at hed
    by_cases c1 : t1 + W < endt
    · rw [if_pos c1] at hed
      have hx : (t1, v1, o1) ∈ seg := by rw [hseg]; simp
      have hv : v1 ∉ voters f := by
        have := @not_mem_voters_of_nodup_right f m0 (t1, v1, o1) (by rw [hseg] at hnd; exact hnd)
        exact this
      have hws1 := window_state_fall vals f m0 tl (t1, v1, o1) hws hv (hnt _ hx)
      have hseg1 : seg = (f ++ [(t1, v1, o1)]) ++ m0 := by rw [hseg]; simp
      rw [edges_of_append, List.mem_append] at hed
      rcases hed with hed | hed
      · rw [mem_edges_of_edge_if hed]
        exact ⟨f ++ [(t1, v1, o1)], m0, hseg1, by simp, hws1⟩
      · exact ih _ _ hseg1 hws1 ed hed
    · rw [if_neg c1] at hed
      simp [edges_of] at hed

theorem drain_first (W : duration) (endt : time_point) :
    ∀ (m : List vote_event) (tl : tally) (t1 : time_point), (∀ e, m.head? = some e → e.1 = t1) →
      m ≠ [] → t1 + W < endt →
      ∃ T D, edges_of (drain_c W endt m tl).2 = (t1 + W, T) :: D := by
  intro m
  induction m with
  | nil => intro tl t1 _ h; exact absurd rfl h
  | cons x m0 ih =>
    obtain ⟨t0, v0, o0⟩ := x
    intro tl t1 hh _ hlt
    have h0 : t0 = t1 := hh (t0, v0, o0) rfl
    subst h0
    simp only [drain_c, if_pos hlt]
    cases m0 with
    | nil => exact ⟨_, _, rfl⟩
    | cons y m1 =>
      by_cases hb : y.1 = t0
      · have hbd : boundary (y :: m1) t0 = false := by simp [boundary, hb]
        rw [hbd]
        simp only [edge_if, Bool.false_eq_true, if_false, List.nil_append]
        exact ih _ t0 (by intro e he; simp at he; subst he; exact hb) (by simp) hlt
      · have hbd : boundary (y :: m1) t0 = true := by simp [boundary, hb]
        rw [hbd]
        exact ⟨_, _, rfl⟩

theorem drain_c_same_time (W : duration) (endt t : time_point) :
    ∀ (m : List vote_event) (tl : tally), (∀ e ∈ m, e.1 = t) →
      (edges_of (drain_c W endt m tl).2).length ≤ 1 := by
  intro m
  induction m with
  | nil => intro tl _; simp [drain_c, edges_of]
  | cons x m0 ih =>
    obtain ⟨t0, v0, o0⟩ := x
    intro tl h
    have h0 : t0 = t := h (t0, v0, o0) (List.mem_cons_self _ _)
    subst h0
    simp only [drain_c]
    split_ifs with c
    · cases m0 with
      | nil => simp [boundary, edge_if, edges_of, drain_c]
      | cons y m1 =>
        have hy : y.1 = t0 := h y (by simp)
        have hbd : boundary (y :: m1) t0 = false := by simp [boundary, hy]
        rw [hbd]
        simp only [edge_if, Bool.false_eq_true, if_false, List.nil_append]
        exact ih _ (fun e he => h e (List.mem_cons_of_mem _ he))
    · simp [edges_of]

theorem faults_of_fault_if_none : faults_of (fault_if none) = [] := rfl

theorem rise_noexp_ws (W : duration) (vals : validators) :
    ∀ (c m : List vote_event) (tl : tally), (voters (m ++ c)).Nodup →
      (∀ e ∈ m ++ c, e.1 ≠ time_point_default) → window_state vals [] m tl →
      (∀ e ∈ c, ∀ x, (m ++ c).head? = some x → e.1 - W < x.1) →
      (rise_c W vals c (m ++ c) tl).1 = m ++ c ∧
        window_state vals [] (m ++ c) (rise_c W vals c (m ++ c) tl).2.1 ∧
        faults_of (rise_c W vals c (m ++ c) tl).2.2 = [] ∧
        (c ≠ [] → ∃ A x, c.getLast? = some x ∧
          edges_of (rise_c W vals c (m ++ c) tl).2.2
            = A ++ [(x.1, (rise_c W vals c (m ++ c) tl).2.1)] ∧
          ∀ ed ∈ A, ∃ m1 c1, m ++ c = m1 ++ c1 ∧ c1 ≠ [] ∧ window_state vals [] m1 ed.2) := by
  intro c
  induction c with
  | nil =>
    intro m tl _ _ hws _
    simp only [rise_c, List.append_nil]
    exact ⟨trivial, hws, rfl, fun h => absurd rfl h⟩
  | cons e rest ih =>
    obtain ⟨time, v, o⟩ := e
    intro m tl hnd hnt hws hh
    have hm : m ++ (time, v, o) :: rest = (m ++ [(time, v, o)]) ++ rest := by simp
    have hno : expire_c W time (m ++ (time, v, o) :: rest) tl
        = (m ++ (time, v, o) :: rest, tl, []) :=
      expire_c_noop W time _ tl (fun x hx => hh (time, v, o) (List.mem_cons_self _ _) x hx)
    have hv : v ∉ voters ([] ++ m) := by
      have := @not_mem_voters_of_nodup_right m rest (time, v, o) hnd
      simpa using this
    have hr := window_state_rise vals [] m tl (time, v, o) hws hv
      (hnt _ (by simp))
    obtain ⟨hr1, hr2⟩ := hr
    simp only [rise_c]
    rw [hno]
    simp only []
    rw [hm]
    have hh1 : ∀ e ∈ rest, ∀ x, ((m ++ [(time, v, o)]) ++ rest).head? = some x → e.1 - W < x.1 := by
      intro e he x hx
      rw [← hm] at hx
      exact hh e (List.mem_cons_of_mem _ he) x hx
    obtain ⟨i1, i2, i3, i4⟩ := ih (m ++ [(time, v, o)]) (tl.rise time v o vals).1
      (by rw [← hm]; exact hnd) (by rw [← hm]; exact hnt) hr1 hh1
    refine ⟨i1, i2, ?_, ?_⟩
    · simp only [faults_of_append, List.nil_append]
      rw [hr2, faults_of_fault_if_none, faults_of_edge_if, i3]; rfl
    · intro _
      simp only [edges_of_append, List.nil_append]
      rw [hr2]
      cases rest with
      | nil =>
        refine ⟨[], (time, v, o), rfl, ?_, by simp⟩
        simp [rise_c, boundary, edge_if, edges_of, fault_if]
      | cons y rest1 =>
        obtain ⟨A, x, a1, a2, a3⟩ := i4 (by simp)
        refine ⟨edges_of (edge_if (boundary (y :: rest1) time) time (tl.rise time v o vals).1) ++ A,
          x, by simpa using a1, ?_, ?_⟩
        · rw [a2]; simp [fault_if, edges_of]
        · intro ed hed
          rcases List.mem_append.1 hed with hed | hed
          · rw [mem_edges_of_edge_if hed]
            exact ⟨m ++ [(time, v, o)], y :: rest1, rfl, by simp, hr1⟩
          · exact a3 ed hed

theorem rise_ws (W : duration) (vals : validators) (hW : 0 < W)
    (seg : List vote_event) (hnd : (voters seg).Nodup)
    (hnt : ∀ e ∈ seg, e.1 ≠ time_point_default) (hs : log_sorted seg) :
    ∀ (c f m : List vote_event) (tl : tally), seg = f ++ m ++ c → window_state vals f m tl →
      ∃ f1 m1, seg = f1 ++ m1 ∧ (rise_c W vals c (m ++ c) tl).1 = m1 ∧
        window_state vals f1 m1 (rise_c W vals c (m ++ c) tl).2.1 ∧
        faults_of (rise_c W vals c (m ++ c) tl).2.2 = [] ∧
        ∀ ed ∈ edges_of (rise_c W vals c (m ++ c) tl).2.2,
          ∃ f2 m2 c2, seg = f2 ++ m2 ++ c2 ∧ window_state vals f2 m2 ed.2 ∧
            (f2 ≠ [] ∨ c2 ≠ [] ∨ ∃ x, m2.getLast? = some x ∧ ∀ y ∈ m2, x.1 - W < y.1) := by
  intro c
  induction c with
  | nil =>
    intro f m tl hseg hws
    simp only [rise_c, List.append_nil]
    exact ⟨f, m, by simpa using hseg, rfl, hws, rfl, by simp [edges_of]⟩
  | cons e rest ih =>
    obtain ⟨time, v, o⟩ := e
    intro f m tl hseg hws
    obtain ⟨fx, m1, e1, e2, e3, e4, e5, e6⟩ := expire_ws W time vals seg hnd hnt m f
      ((time, v, o) :: rest) tl hseg hws
      (by intro x hx; simp only [List.head?_cons, Option.some.injEq] at hx; subst hx
          show time - W < time; linarith)
    have hseg1 : seg = (f ++ fx) ++ (m1 ++ [(time, v, o)]) ++ rest := by
      rw [hseg, e1]; simp
    have hv : v ∉ voters ((f ++ fx) ++ m1) := by
      have := @not_mem_voters_of_nodup_right ((f ++ fx) ++ m1) rest (time, v, o)
        (by rw [hseg1] at hnd; simpa using hnd)
      exact this
    have hx : (time, v, o) ∈ seg := by rw [hseg]; simp
    obtain ⟨hr1, hr2⟩ := window_state_rise vals (f ++ fx) m1 _ (time, v, o) e3 hv (hnt _ hx)
    simp only [rise_c]
    rw [e2]
    have hm : m1 ++ (time, v, o) :: rest = (m1 ++ [(time, v, o)]) ++ rest := by simp
    rw [hm]
    obtain ⟨f1, m2, i1, i2, i3, i4, i5⟩ := ih (f ++ fx) (m1 ++ [(time, v, o)]) _ hseg1 hr1
    refine ⟨f1, m2, i1, i2, i3, ?_, ?_⟩
    · simp only [faults_of_append]
      rw [hr2, faults_of_fault_if_none, faults_of_edge_if, i4, e5]; rfl
    · intro ed hed
      simp only [edges_of_append, List.mem_append] at hed
      rw [hr2] at hed
      rcases hed with ((hed | hed) | hed) | hed
      · obtain ⟨f2, m3, a1, a2, a3⟩ := e6 ed hed
        exact ⟨f2, m3, _, a1, a3, Or.inl a2⟩
      · simp [fault_if, edges_of] at hed
      · rw [mem_edges_of_edge_if hed]
        refine ⟨f ++ fx, m1 ++ [(time, v, o)], rest, hseg1, hr1, Or.inr (Or.inr ?_)⟩
        refine ⟨(time, v, o), by simp, ?_⟩
        intro y hy
        rcases List.mem_append.1 hy with hy | hy
        · have hsm : log_sorted m1 := by
            have h1 : m1.Sublist seg := by
              rw [hseg1]
              exact ((List.sublist_append_left m1 _).trans
                (List.sublist_append_right _ _)).trans (List.sublist_append_left _ _)
            exact List.Pairwise.sublist h1 hs
          cases m1 with
          | nil => simp at hy
          | cons z m4 =>
            have hz := e4 z rfl
            rcases List.mem_cons.1 hy with hy | hy
            · subst hy; exact hz
            · have := log_sorted_head_le hsm y hy
              show time - W < y.1
              linarith
        · simp only [List.mem_singleton] at hy; subst hy
          show time - W < time; linarith
      · exact i5 ed hed

theorem sample_pair (vals : validators) (hold : duration) (s : sampler)
    (hs : s.holding = false) (e1 e2 : time_point × tally) :
    (sample vals hold (sample vals hold s e1) e2).confirmed
      = if vals.quorum ≤ e1.2.max.1 ∧ hold ≤ e2.1 - e1.1
        then s.confirmed ++ [(e1.2.max.2, e2.2.max.1)] else s.confirmed := by
  have h1 : (sample vals hold s e1).confirmed = s.confirmed := by
    rw [sample_confirmed, if_neg (by rw [hs]; simp)]
  have h2 : (sample vals hold s e1).set = e1.1 := by
    show (hold_sampler vals hold s e1.1 e1.2).set = e1.1
    rw [hold_sampler_set, if_pos (Or.inl hs)]
  have h3 : (sample vals hold s e1).obj = e1.2.max.2 := by
    show (hold_sampler vals hold s e1.1 e1.2).obj = e1.2.max.2
    rw [hold_sampler_obj, if_pos (Or.inl hs)]
  have h4 : (sample vals hold s e1).holding = decide (vals.quorum ≤ e1.2.max.1) := rfl
  rw [sample_confirmed, h1, h2, h3, h4]
  simp only [decide_eq_true_eq]

theorem foldl_sample_holding_false (vals : validators) (hold : duration)
    (es : List (time_point × tally)) (s : sampler) (hs : s.holding = false)
    (h : ∀ e ∈ es, e.2.max.1 < vals.quorum) :
    (es.foldl (sample vals hold) s).holding = false := by
  induction es generalizing s with
  | nil => exact hs
  | cons e es ih =>
    simp only [List.foldl_cons]
    have h1 : (sample vals hold s e).holding = false := by
      show decide (vals.quorum ≤ e.2.max.1) = false
      have := h e (List.mem_cons_self _ _)
      simpa using this
    exact ih _ h1 (fun x hx => h x (List.mem_cons_of_mem _ hx))

theorem summed_nil (vals : validators) (o : object) : summed vals [] o = 0 := rfl

theorem summed_cons (vals : validators) (e : vote_event) (l : List vote_event) (o : object) :
    summed vals (e :: l) o
      = (if e.2.2 = o then vals.weight e.2.1 else 0) + summed vals l o := by
  unfold summed
  by_cases h : e.2.2 = o
  · simp [List.filter_cons, h]
  · simp [List.filter_cons, h]

theorem summed_ne_zero (vals : validators) (l : List vote_event) (o : object)
    (h : summed vals l o ≠ 0) : ∃ e ∈ l, e.2.2 = o := by
  induction l with
  | nil => exact absurd (summed_nil vals o) h
  | cons e l ih =>
    by_cases c : e.2.2 = o
    · exact ⟨e, List.mem_cons_self _ _, c⟩
    · rw [summed_cons, if_neg c, zero_add] at h
      obtain ⟨x, hx, hx1⟩ := ih h
      exact ⟨x, List.mem_cons_of_mem _ hx, hx1⟩

theorem summed_le_length (vals : validators) (l : List vote_event) (o : object)
    (h : ∀ e ∈ l, vals.weight e.2.1 = 1) : summed vals l o ≤ l.length := by
  induction l with
  | nil => simp [summed_nil]
  | cons e l ih =>
    have h1 := ih (fun x hx => h x (List.mem_cons_of_mem _ hx))
    have h2 := h e (List.mem_cons_self _ _)
    rw [summed_cons, h2, List.length_cons]
    push_cast
    split_ifs <;> linarith

theorem summed_eq_length (vals : validators) (l : List vote_event) (o : object)
    (h : ∀ e ∈ l, e.2.2 = o ∧ vals.weight e.2.1 = 1) : summed vals l o = l.length := by
  induction l with
  | nil => simp [summed_nil]
  | cons e l ih =>
    have h1 := ih (fun x hx => h x (List.mem_cons_of_mem _ hx))
    have h2 := h e (List.mem_cons_self _ _)
    rw [summed_cons, if_pos h2.1, h2.2, List.length_cons, h1]
    push_cast
    ring

theorem ws_max (vals : validators) (f m : List vote_event) (t : tally)
    (h : window_state vals f m t) (ht : ∀ e ∈ m, e.1 ≠ time_point_default) :
    summed vals m t.max.2 = t.max.1 ∧
      ∀ o, summed vals m o ≤ t.max.1 ∨ summed vals m o = 0 := by
  have htot := window_state_total vals f m t h ht
  rcases max_spec t h.1 with ⟨-, h2, h3⟩ | ⟨h2, h3⟩
  · have hz : ∀ o, summed vals m o = 0 := by
      intro o; rw [← htot o, h2]; rfl
    rw [h3]
    exact ⟨hz 0, fun o => Or.inr (hz o)⟩
  · refine ⟨by rw [← htot, h2]; rfl, ?_⟩
    intro o
    cases hf : map_find t.totals_m o with
    | none => right; rw [← htot o, hf]; rfl
    | some w => left; rw [← htot o, hf]; exact h3 o w hf

theorem ws_max_le_length (vals : validators) (f m : List vote_event) (t : tally)
    (h : window_state vals f m t)
    (hm : ∀ e ∈ m, vals.weight e.2.1 = 1 ∧ e.1 ≠ time_point_default) :
    t.max.1 ≤ m.length := by
  rw [← (ws_max vals f m t h (fun e he => (hm e he).2)).1]
  exact summed_le_length vals m _ (fun e he => (hm e he).1)

theorem log_sorted_le_last {l : List vote_event} (hs : log_sorted l) {x : vote_event}
    (hx : l.getLast? = some x) : ∀ e ∈ l, e.1 ≤ x.1 := by
  rcases List.eq_nil_or_concat l with h | ⟨r, y, h⟩
  · subst h; simp at hx
  · rw [List.concat_eq_append] at h
    subst h
    rw [List.getLast?_append_of_ne_nil _ (by simp), List.getLast?_singleton] at hx
    simp only [Option.some.injEq] at hx
    subst hx
    intro e he
    rcases List.mem_append.1 he with he | he
    · exact (List.pairwise_append.1 hs).2.2 e he y (List.mem_singleton_self _)
    · simp only [List.mem_singleton] at he; subst he; exact le_refl _

theorem log_sorted_head_le_all {l : List vote_event} (hs : log_sorted l) {x : vote_event}
    (hx : l.head? = some x) : ∀ e ∈ l, x.1 ≤ e.1 := by
  cases l with
  | nil => simp at hx
  | cons y r =>
    simp only [List.head?_cons, Option.some.injEq] at hx
    subst hx
    intro e he
    rcases List.mem_cons.1 he with he | he
    · subst he; exact le_refl _
    · exact log_sorted_head_le hs e he

theorem length_le_one_append_singleton {α : Type} (A : List α) (x : α)
    (h : (A ++ [x]).length ≤ 1) : A = [] := by
  cases A with
  | nil => rfl
  | cons y r => simp at h

theorem scan_c_same_time_edges (W : duration) (endt t : time_point) (vals : validators)
    (hW : 0 < W) (seg : List vote_event) (hne : seg ≠ []) (hall : ∀ e ∈ seg, e.1 = t)
    (ht : t ≠ time_point_default) (hnd : (voters seg).Nodup) (he : t + W < endt) :
    ∃ T1 T2, edges_of (scan_c W endt vals seg tally.fresh).2 = [(t, T1), (t + W, T2)] ∧
      window_state vals [] seg T1 := by
  have hr := rise_noexp_ws W vals seg [] tally.fresh (by simpa using hnd)
    (by intro e h1; rw [hall e (by simpa using h1)]; exact ht) (window_state_fresh vals)
    (by
      intro e h1 x hx
      have hx1 : x ∈ seg := List.mem_of_mem_head? (by simpa using hx)
      rw [hall e h1, hall x hx1]
      linarith)
  simp only [List.nil_append] at hr
  obtain ⟨r1, r2, -, r4⟩ := hr
  obtain ⟨A, x, a1, a2, -⟩ := r4 hne
  have hx : x.1 = t := hall x (List.mem_of_mem_getLast? a1)
  have hlen := (rise_c_same_time W vals t hW seg seg tally.fresh hall
    (fun e h1 => hall e (List.mem_of_mem_head? h1))).2
  rw [a2] at hlen
  have hA := length_le_one_append_singleton A _ hlen
  subst hA
  obtain ⟨T2, D, d1⟩ := drain_first W endt seg (rise_c W vals seg seg tally.fresh).2.1 t
    (fun e h1 => hall e (List.mem_of_mem_head? h1)) hne he
  have hd := drain_c_same_time W endt t seg (rise_c W vals seg seg tally.fresh).2.1 hall
  rw [d1] at hd
  have hD : D = [] := by
    cases D with
    | nil => rfl
    | cons y r => simp at hd
  subst hD
  refine ⟨(rise_c W vals seg seg tally.fresh).2.1, T2, ?_, r2⟩
  simp only [scan_c, edges_of_append]
  rw [a2, r1, d1, hx]
  rfl

/-- Same-time quorum, with the sums computed in the integers.  For `W > 0` and a log whose votes all carry one time `t`, not
the default time point, from pairwise distinct validators, with `begin ≤ t`, `t + W < end`,
`hold ≤ W` and a positive quorum, `tally` returns, and it invokes `confirm` if and only if
some object has a summed weight of at least the quorum.  It invokes `confirm` at most once,
and the confirmed object is voted for in the log and no object has a greater summed weight. -/
theorem same_time_quorum (a : agreement) (vals : validators) (begin endt t : time_point)
    (hold : duration) (hW : 0 < a.W) (hq : 0 < vals.quorum) (ht : t ≠ time_point_default)
    (hall : ∀ e ∈ a.votes, e.1 = t) (hnd : (voters a.votes).Nodup)
    (hb : begin ≤ t) (he : t + a.W < endt) (hh : hold ≤ a.W) :
    ∃ r, a.tally begin endt vals hold = some r ∧
      (r.2.1 ≠ [] ↔ ∃ o, vals.quorum ≤ summed vals a.votes o) ∧
      r.2.1.length ≤ 1 ∧
      ∀ c ∈ r.2.1, (∃ e ∈ a.votes, e.2.2 = c.1) ∧
        ∀ o, summed vals a.votes o ≤ summed vals a.votes c.1 := by
  have hle : begin ≤ endt := by linarith
  have hsel : selected a.votes begin endt = a.votes :=
    selected_eq_self a.votes begin endt
      (fun e h1 => by rw [hall e h1]; exact ⟨hb, by linarith⟩)
  have hscan := scan_eq a tally.fresh begin endt vals hW hle
  rw [hsel] at hscan
  rw [tally_eq_foldl a begin endt vals hold _ _ hscan]
  refine ⟨_, rfl, ?_⟩
  show ((List.foldl (sample vals hold) (sampler_init a)
      (edges_of (scan_c a.W endt vals a.votes nano.tally.fresh).2)).confirmed ≠ [] ↔ _) ∧
    (List.foldl (sample vals hold) (sampler_init a)
      (edges_of (scan_c a.W endt vals a.votes nano.tally.fresh).2)).confirmed.length ≤ 1 ∧
    ∀ c ∈ (List.foldl (sample vals hold) (sampler_init a)
      (edges_of (scan_c a.W endt vals a.votes nano.tally.fresh).2)).confirmed, _
  by_cases hne : a.votes = []
  · rw [hne]
    refine ⟨?_, by simp [scan_c, rise_c, drain_c, edges_of, sampler_init], ?_⟩
    · constructor
      · intro h; exact absurd rfl h
      · rintro ⟨o, ho⟩
        rw [summed_nil] at ho
        exact absurd ho (not_le.2 hq)
    · intro c hc
      simp [scan_c, rise_c, drain_c, edges_of, sampler_init] at hc
  · obtain ⟨T1, T2, hed, hws⟩ := scan_c_same_time_edges a.W endt t vals hW a.votes hne hall ht
      hnd he
    rw [hed]
    simp only [List.foldl_cons, List.foldl_nil]
    rw [sample_pair vals hold (sampler_init a) rfl]
    have hm := ws_max vals [] a.votes T1 hws (fun e h1 => by rw [hall e h1]; exact ht)
    have hhold : hold ≤ t + a.W - t := by linarith
    simp only [hhold, and_true]
    show ((if vals.quorum ≤ T1.max.1 then [] ++ [(T1.max.2, T2.max.1)] else []) ≠ [] ↔ _) ∧
      (if vals.quorum ≤ T1.max.1 then [] ++ [(T1.max.2, T2.max.1)] else []).length ≤ 1 ∧
      ∀ c ∈ (if vals.quorum ≤ T1.max.1 then [] ++ [(T1.max.2, T2.max.1)] else []), _
    by_cases hQ : vals.quorum ≤ T1.max.1
    · simp only [if_pos hQ, List.nil_append]
      refine ⟨⟨fun _ => ⟨T1.max.2, by rw [hm.1]; exact hQ⟩, fun _ => by simp⟩, by simp, ?_⟩
      intro c hc
      simp only [List.mem_singleton] at hc
      subst hc
      refine ⟨summed_ne_zero vals a.votes T1.max.2 (by rw [hm.1]; linarith), ?_⟩
      intro o
      show summed vals a.votes o ≤ summed vals a.votes T1.max.2
      rw [hm.1]
      rcases hm.2 o with h1 | h1
      · exact h1
      · rw [h1]; linarith
    · simp only [if_neg hQ]
      refine ⟨⟨fun h => absurd rfl h, ?_⟩, by simp, by simp⟩
      rintro ⟨o, ho⟩
      exfalso
      rcases hm.2 o with h1 | h1
      · exact hQ (le_trans ho h1)
      · rw [h1] at ho; exact absurd ho (not_le.2 hq)

theorem same_time_quorum_witness :
    0 < node_s4.W ∧ 0 < (uniform_validators 3).quorum ∧
    (∀ e ∈ node_s4.votes, e.1 = 1000) ∧ (voters node_s4.votes).Nodup ∧
    ∃ r, node_s4.tally 0 2000 (uniform_validators 3) 50 = some r ∧
      (r.2.1 ≠ [] ↔ ∃ o, (uniform_validators 3).quorum
        ≤ summed (uniform_validators 3) node_s4.votes o) ∧
      r.2.1.length ≤ 1 ∧
      ∀ c ∈ r.2.1, (∃ e ∈ node_s4.votes, e.2.2 = c.1) ∧
        ∀ o, summed (uniform_validators 3) node_s4.votes o
          ≤ summed (uniform_validators 3) node_s4.votes c.1 :=
  ⟨by decide, by decide, by decide, by decide,
    same_time_quorum node_s4 (uniform_validators 3) 0 2000 1000 50
      (by decide) (by decide) (by decide) (by decide) (by decide) (by decide) (by decide)
      (by decide)⟩

theorem scan_c_edges_ws (W : duration) (endt : time_point) (vals : validators) (hW : 0 < W)
    (seg : List vote_event) (hnd : (voters seg).Nodup)
    (hnt : ∀ e ∈ seg, e.1 ≠ time_point_default) (hs : log_sorted seg) :
    ∀ ed ∈ edges_of (scan_c W endt vals seg tally.fresh).2,
      ∃ f2 m2 c2, seg = f2 ++ m2 ++ c2 ∧ window_state vals f2 m2 ed.2 ∧
        (f2 ≠ [] ∨ c2 ≠ [] ∨ ∃ x, m2.getLast? = some x ∧ ∀ y ∈ m2, x.1 - W < y.1) := by
  obtain ⟨f1, m1, r1, r2, r3, -, r5⟩ := rise_ws W vals hW seg hnd hnt hs seg [] [] tally.fresh
    (by simp) (window_state_fresh vals)
  simp only [List.nil_append] at r2 r3 r5
  intro ed hed
  simp only [scan_c, edges_of_append, List.mem_append] at hed
  rcases hed with hed | hed
  · exact r5 ed hed
  · rw [r2] at hed
    obtain ⟨f2, m2, d1, d2, d3⟩ := drain_ws W endt vals seg hnd hnt m1 f1 _ r1 r3 ed hed
    exact ⟨f2, m2, [], by simpa using d1, d3, Or.inl d2⟩

theorem ws_full_max (vals : validators) (m : List vote_event) (t : tally) (o : object)
    (h : window_state vals [] m t) (hne : m ≠ [])
    (hm : ∀ e ∈ m, e.2.2 = o ∧ vals.weight e.2.1 = 1 ∧ e.1 ≠ time_point_default) :
    (m.length : Int) ≤ t.max.1 ∧ t.max.2 = o := by
  have hmx := ws_max vals [] m t h (fun e he => (hm e he).2.2)
  have hsum := summed_eq_length vals m o (fun e he => ⟨(hm e he).1, (hm e he).2.1⟩)
  have hpos : (0 : Int) < m.length := by
    have := List.length_pos.2 hne
    exact_mod_cast this
  have h1 : (m.length : Int) ≤ t.max.1 := by
    rcases hmx.2 o with h2 | h2
    · rw [hsum] at h2; exact h2
    · rw [hsum] at h2; linarith
  refine ⟨h1, ?_⟩
  obtain ⟨e, he, he1⟩ := summed_ne_zero vals m t.max.2 (by rw [hmx.1]; linarith)
  rw [← he1]
  exact (hm e he).1

theorem no_quorum_of_part (vals : validators) (seg f2 m2 c2 : List vote_event) (t : tally)
    (hseg : seg = f2 ++ m2 ++ c2) (h : window_state vals f2 m2 t)
    (hm : ∀ e ∈ seg, vals.weight e.2.1 = 1 ∧ e.1 ≠ time_point_default)
    (hq : vals.quorum = seg.length) (hp : f2 ≠ [] ∨ c2 ≠ []) : t.max.1 < vals.quorum := by
  have h1 := ws_max_le_length vals f2 m2 t h (fun e he => hm e (by rw [hseg]; simp [he]))
  have h2 : m2.length < seg.length := by
    rw [hseg]
    simp only [List.length_append]
    rcases hp with hp | hp
    · have := List.length_pos.2 hp; omega
    · have := List.length_pos.2 hp; omega
  rw [hq]
  have h3 : (m2.length : Int) < seg.length := by exact_mod_cast h2
  linarith

theorem overlap_confirmed (W : duration) (endt : time_point) (vals : validators)
    (hold : duration) (votes : List vote_event) (o : object) (e1 eq : vote_event)
    (hs : log_sorted votes) (hnd : (voters votes).Nodup)
    (hall : ∀ e ∈ votes, e.2.2 = o ∧ vals.weight e.2.1 = 1 ∧ e.1 ≠ time_point_default)
    (hq : vals.quorum = votes.length) (hfirst : votes.head? = some e1)
    (hlast : votes.getLast? = some eq) (he : e1.1 + W < endt) (hc : eq.1 < e1.1 + W)
    (s0 : sampler) (h0 : s0.holding = false) :
    ∃ w, ((edges_of (scan_c W endt vals votes tally.fresh).2).foldl (sample vals hold) s0).confirmed
      = if hold ≤ e1.1 + W - eq.1 then s0.confirmed ++ [(o, w)] else s0.confirmed := by
  have hne : votes ≠ [] := by intro h; rw [h] at hfirst; simp at hfirst
  have hnt : ∀ e ∈ votes, e.1 ≠ time_point_default := fun e h1 => (hall e h1).2.2
  have hw1 : ∀ e ∈ votes, vals.weight e.2.1 = 1 ∧ e.1 ≠ time_point_default :=
    fun e h1 => (hall e h1).2
  have hr := rise_noexp_ws W vals votes [] tally.fresh (by simpa using hnd)
    (by simpa using hnt) (window_state_fresh vals)
    (by
      intro e h1 x hx
      simp only [List.nil_append] at hx
      rw [hfirst] at hx
      simp only [Option.some.injEq] at hx
      subst hx
      have := log_sorted_le_last hs hlast e h1
      linarith)
  simp only [List.nil_append] at hr
  obtain ⟨r1, r2, -, r4⟩ := hr
  obtain ⟨A, x, a1, a2, a3⟩ := r4 hne
  rw [hlast] at a1
  simp only [Option.some.injEq] at a1
  subst a1
  obtain ⟨T2, D, d1⟩ := drain_first W endt votes (rise_c W vals votes votes tally.fresh).2.1 e1.1
    (fun e h1 => by rw [hfirst] at h1; simp only [Option.some.injEq] at h1; rw [h1]) hne he
  have hdr := drain_ws W endt vals votes hnd hnt votes [] _ (by simp) r2
  rw [d1] at hdr
  have hA : ∀ e ∈ A, e.2.max.1 < vals.quorum := by
    intro e h1
    obtain ⟨m1, c1, b1, b2, b3⟩ := a3 e h1
    exact no_quorum_of_part vals votes [] m1 c1 e.2 (by simpa using b1) b3 hw1 hq (Or.inr b2)
  have hT2 : ∀ e ∈ (e1.1 + W, T2) :: D, e.2.max.1 < vals.quorum := by
    intro e h1
    obtain ⟨f1, m2, b1, b2, b3⟩ := hdr e h1
    exact no_quorum_of_part vals votes f1 m2 [] e.2 (by simpa using b1) b3 hw1 hq (Or.inl b2)
  have hfull := ws_full_max vals votes (rise_c W vals votes votes tally.fresh).2.1 o r2 hne hall
  refine ⟨T2.max.1, ?_⟩
  simp only [scan_c, edges_of_append]
  rw [a2, r1, d1, List.foldl_append, List.foldl_append, List.foldl_cons]
  simp only [List.foldl_cons, List.foldl_nil]
  have hsA := foldl_sample_holding_false vals hold A s0 h0 hA
  have hcA := foldl_sample_no_quorum vals hold A s0 h0 hA
  have h2 : (sample vals hold (sample vals hold (A.foldl (sample vals hold) s0)
      (eq.1, (rise_c W vals votes votes tally.fresh).2.1)) (e1.1 + W, T2)).holding = false := by
    show decide (vals.quorum ≤ T2.max.1) = false
    have := hT2 (e1.1 + W, T2) (List.mem_cons_self _ _)
    simpa using this
  rw [foldl_sample_no_quorum vals hold D _ h2
    (fun e h1 => hT2 e (List.mem_cons_of_mem _ h1)), sample_pair vals hold _ hsA, hcA]
  have h3 : vals.quorum ≤ (rise_c W vals votes votes tally.fresh).2.1.max.1 := by
    rw [hq]; exact hfull.1
  simp only [h3, true_and, hfull.2]

theorem disjoint_no_quorum (W : duration) (endt : time_point) (vals : validators)
    (hW : 0 < W) (votes seg : List vote_event) (e1 eq : vote_event)
    (hsub : seg.Sublist votes) (hs : log_sorted votes) (hnd : (voters votes).Nodup)
    (hall : ∀ e ∈ votes, vals.weight e.2.1 = 1 ∧ e.1 ≠ time_point_default)
    (hq : vals.quorum = votes.length) (hfirst : votes.head? = some e1)
    (hlast : votes.getLast? = some eq) (hc : ¬ eq.1 < e1.1 + W) :
    ∀ ed ∈ edges_of (scan_c W endt vals seg tally.fresh).2, ed.2.max.1 < vals.quorum := by
  intro ed hed
  have hnd1 : (voters seg).Nodup := List.Nodup.sublist (List.Sublist.map _ hsub) hnd
  have hall1 : ∀ e ∈ seg, vals.weight e.2.1 = 1 ∧ e.1 ≠ time_point_default :=
    fun e h1 => hall e (hsub.subset h1)
  obtain ⟨f2, m2, c2, b1, b2, b3⟩ := scan_c_edges_ws W endt vals hW seg hnd1
    (fun e h1 => (hall1 e h1).2) (List.Pairwise.sublist hsub hs) ed hed
  by_contra hcon
  have hge : vals.quorum ≤ ed.2.max.1 := not_lt.1 hcon
  have h1 := ws_max_le_length vals f2 m2 ed.2 b2
    (fun e h2 => hall1 e (by rw [b1]; simp [h2]))
  have h2 : votes.length ≤ m2.length := by
    have : (votes.length : Int) ≤ m2.length := by rw [← hq]; linarith
    exact_mod_cast this
  have h3 := List.Sublist.length_le hsub
  have h4 : seg.length = f2.length + m2.length + c2.length := by
    rw [b1]; simp only [List.length_append]
  have hf : f2 = [] := List.length_eq_zero.1 (by omega)
  have hc2 : c2 = [] := List.length_eq_zero.1 (by omega)
  subst hf hc2
  simp only [List.nil_append, List.append_nil] at b1
  subst b1
  have h5 : seg = votes := List.Sublist.eq_of_length hsub (by omega)
  subst h5
  rcases b3 with h6 | h6 | ⟨x, h6, h7⟩
  · exact h6 rfl
  · exact h6 rfl
  · rw [hlast] at h6
    simp only [Option.some.injEq] at h6
    subst h6
    have := h7 e1 (List.mem_of_mem_head? hfirst)
    exact hc (by linarith)

/-- C4 (hold duration on overlapping votes).  Let the log, in time order, consist of votes of
pairwise distinct validators of weight 1 for one object `o` at non-default times, the first
at `t1 = e1.1` and the last at `tq = eq.1`, let the quorum be the number of votes, `W > 0`,
`begin ≤ t1` and `t1 + W < end`.  Then `tally` returns, it invokes `confirm` if and only if
`tq < t1 + W` and `hold ≤ (t1 + W) - tq`, and every `confirm` call names `o`. -/
theorem hold_duration (a : agreement) (vals : validators) (begin endt : time_point)
    (hold : duration) (o : object) (e1 eq : vote_event) (hW : 0 < a.W)
    (hs : log_sorted a.votes) (hnd : (voters a.votes).Nodup)
    (hall : ∀ e ∈ a.votes, e.2.2 = o ∧ vals.weight e.2.1 = 1 ∧ e.1 ≠ time_point_default)
    (hq : vals.quorum = a.votes.length) (hfirst : a.votes.head? = some e1)
    (hlast : a.votes.getLast? = some eq) (hb : begin ≤ e1.1) (he : e1.1 + a.W < endt) :
    ∃ r, a.tally begin endt vals hold = some r ∧
      (r.2.1 ≠ [] ↔ eq.1 < e1.1 + a.W ∧ hold ≤ e1.1 + a.W - eq.1) ∧
      ∀ c ∈ r.2.1, c.1 = o := by
  have hle : begin ≤ endt := by linarith
  have hscan := scan_eq a tally.fresh begin endt vals hW hle
  rw [tally_eq_foldl a begin endt vals hold _ _ hscan]
  refine ⟨_, rfl, ?_⟩
  show ((List.foldl (sample vals hold) (sampler_init a)
      (edges_of (scan_c a.W endt vals (selected a.votes begin endt) nano.tally.fresh).2)).confirmed
        ≠ [] ↔ _) ∧
    ∀ c ∈ (List.foldl (sample vals hold) (sampler_init a)
      (edges_of (scan_c a.W endt vals (selected a.votes begin endt)
        nano.tally.fresh).2)).confirmed, _
  by_cases hc : eq.1 < e1.1 + a.W
  · have hsel : selected a.votes begin endt = a.votes :=
      selected_eq_self a.votes begin endt (fun e h1 => by
        have h2 := log_sorted_head_le_all hs hfirst e h1
        have h3 := log_sorted_le_last hs hlast e h1
        exact ⟨by linarith, by linarith⟩)
    rw [hsel]
    obtain ⟨w, hw⟩ := overlap_confirmed a.W endt vals hold a.votes o e1 eq hs hnd hall hq
      hfirst hlast he hc (sampler_init a) rfl
    rw [hw]
    show ((if hold ≤ e1.1 + a.W - eq.1 then [] ++ [(o, w)] else []) ≠ [] ↔ _) ∧
      ∀ c ∈ (if hold ≤ e1.1 + a.W - eq.1 then [] ++ [(o, w)] else []), _
    by_cases hh : hold ≤ e1.1 + a.W - eq.1
    · simp only [if_pos hh, List.nil_append]
      refine ⟨⟨fun _ => ⟨hc, hh⟩, fun _ => by simp⟩, ?_⟩
      intro c h1
      simp only [List.mem_singleton] at h1
      rw [h1]
    · simp only [if_neg hh]
      exact ⟨⟨fun h => absurd rfl h, fun h => absurd h.2 hh⟩, by simp⟩
  · have hnq := disjoint_no_quorum a.W endt vals hW a.votes (selected a.votes begin endt) e1 eq
      ((List.takeWhile_sublist _).trans (List.dropWhile_sublist _)) hs hnd
      (fun e h1 => (hall e h1).2) hq hfirst hlast hc
    rw [foldl_sample_no_quorum vals hold _ (sampler_init a) rfl hnq]
    exact ⟨⟨fun h => absurd rfl h, fun h => absurd h.1 hc⟩, by simp [sampler_init]⟩

theorem hold_duration_witness :
    0 < node_hold_two.W ∧ log_sorted node_hold_two.votes ∧
    (voters node_hold_two.votes).Nodup ∧
    (uniform_validators 4).quorum = node_hold_two.votes.length ∧
    ∃ r, node_hold_two.tally 0 2000 (uniform_validators 4) 2 = some r ∧
      (r.2.1 ≠ [] ↔ (1048 : time_point) < 1000 + node_hold_two.W ∧
        (2 : duration) ≤ 1000 + node_hold_two.W - 1048) ∧
      ∀ c ∈ r.2.1, c.1 = 1 :=
  ⟨by decide, by decide, by decide, by decide,
    hold_duration node_hold_two (uniform_validators 4) 0 2000 2 1 (1000, 0, 1) (1048, 2, 1)
      (by decide) (by decide) (by decide) (by decide) (by decide) (by rfl) (by rfl)
      (by decide) (by decide)⟩

theorem drain_c_same_time_edge (W : duration) (endt t : time_point) (he : t + W < endt) :
    ∀ (m : List vote_event) (tl : tally), m ≠ [] → (∀ e ∈ m, e.1 = t) →
      edges_of (drain_c W endt m tl).2 = [(t + W, (drain_c W endt m tl).1)] := by
  intro m
  induction m with
  | nil => intro tl h; exact absurd rfl h
  | cons x m0 ih =>
    obtain ⟨t0, v0, o0⟩ := x
    intro tl _ h
    have h0 : t0 = t := h (t0, v0, o0) (List.mem_cons_self _ _)
    subst h0
    simp only [drain_c, if_pos he]
    cases m0 with
    | nil => rfl
    | cons y m1 =>
      have hy : y.1 = t0 := h y (by simp)
      have hbd : boundary (y :: m1) t0 = false := by simp [boundary, hy]
      rw [hbd]
      simp only [edge_if, Bool.false_eq_true, if_false, List.nil_append]
      exact ih _ (by simp) (fun e h1 => h e (List.mem_cons_of_mem _ h1))

theorem drain_ws_final (W : duration) (endt : time_point) (vals : validators)
    (seg : List vote_event) (hnd : (voters seg).Nodup)
    (hnt : ∀ e ∈ seg, e.1 ≠ time_point_default) :
    ∀ (m f : List vote_event) (tl : tally), seg = f ++ m → window_state vals f m tl →
      (∀ e ∈ m, e.1 + W < endt) → window_state vals seg [] (drain_c W endt m tl).1 := by
  intro m
  induction m with
  | nil =>
    intro f tl hseg hws _
    simp only [drain_c]
    rw [hseg, List.append_nil]
    exact hws
  | cons x m0 ih =>
    obtain ⟨t1, v1, o1⟩ := x
    intro f tl hseg hws hlt
    have c1 : t1 + W < endt := hlt (t1, v1, o1) (List.mem_cons_self _ _)
    simp only [drain_c, if_pos c1]
    have hx : (t1, v1, o1) ∈ seg := by rw [hseg]; simp
    have hv : v1 ∉ voters f := by
      have := @not_mem_voters_of_nodup_right f m0 (t1, v1, o1) (by rw [hseg] at hnd; exact hnd)
      exact this
    have hws1 := window_state_fall vals f m0 tl (t1, v1, o1) hws hv (hnt _ hx)
    exact ih (f ++ [(t1, v1, o1)]) _ (by rw [hseg]; simp) hws1
      (fun e h1 => hlt e (List.mem_cons_of_mem _ h1))

/-- The weight passed to `confirm`, with the sums computed in the integers.  The weight
passed to `confirm` is the weight that `max ()` returns at
the edge at which `confirm` is invoked: the edge callback either records no call or records
the held object with the weight of the maximum of the current edge.  For votes all at one
non-default time `t` from pairwise distinct validators that all name object `o`, of total
weight at least the quorum (positive), with `W > 0`, `begin ≤ t`, `t + W < end` and
`hold ≤ W`, `tally` invokes `confirm (o, 0)` exactly once: at the confirming edge `t + W` all
votes have expired. -/
theorem confirm_weight_at_edge (a : agreement) (vals : validators) (begin endt t : time_point)
    (hold : duration) (o : object) (hW : 0 < a.W) (hq : 0 < vals.quorum)
    (ht : t ≠ time_point_default) (hall : ∀ e ∈ a.votes, e.1 = t ∧ e.2.2 = o)
    (hnd : (voters a.votes).Nodup) (hsum : vals.quorum ≤ summed vals a.votes o)
    (hb : begin ≤ t) (he : t + a.W < endt) (hh : hold ≤ a.W) :
    (∀ (s : sampler) (time : time_point) (tl : tally),
      (hold_sampler vals hold s time tl).confirmed = s.confirmed ∨
      (hold_sampler vals hold s time tl).confirmed = s.confirmed ++ [(s.obj, tl.max.1)]) ∧
    ∃ r, a.tally begin endt vals hold = some r ∧ r.2.1 = [(o, 0)] := by
  constructor
  · intro s time tl
    rw [hold_sampler_confirmed]
    split_ifs
    · exact Or.inr rfl
    · exact Or.inl rfl
  have hle : begin ≤ endt := by linarith
  have hsel : selected a.votes begin endt = a.votes :=
    selected_eq_self a.votes begin endt
      (fun e h1 => by rw [(hall e h1).1]; exact ⟨hb, by linarith⟩)
  have hscan := scan_eq a tally.fresh begin endt vals hW hle
  rw [hsel] at hscan
  rw [tally_eq_foldl a begin endt vals hold _ _ hscan]
  refine ⟨_, rfl, ?_⟩
  show (List.foldl (sample vals hold) (sampler_init a)
      (edges_of (scan_c a.W endt vals a.votes nano.tally.fresh).2)).confirmed = [(o, 0)]
  have hne : a.votes ≠ [] := by
    intro h
    rw [h, summed_nil] at hsum
    exact absurd hsum (not_le.2 hq)
  have hall1 : ∀ e ∈ a.votes, e.1 = t := fun e h1 => (hall e h1).1
  have hnt : ∀ e ∈ a.votes, e.1 ≠ time_point_default := fun e h1 => by rw [hall1 e h1]; exact ht
  obtain ⟨T1, T2, hed, hws⟩ := scan_c_same_time_edges a.W endt t vals hW a.votes hne hall1 ht
    hnd he
  have hr := rise_c_same_time a.W vals t hW a.votes a.votes tally.fresh hall1
    (fun e h1 => hall1 e (List.mem_of_mem_head? h1))
  have hT2 : T2 = (drain_c a.W endt a.votes (rise_c a.W vals a.votes a.votes tally.fresh).2.1).1 := by
    have h1 := drain_c_same_time_edge a.W endt t he a.votes
      (rise_c a.W vals a.votes a.votes tally.fresh).2.1 hne hall1
    have h2 : edges_of (scan_c a.W endt vals a.votes tally.fresh).2
        = edges_of (rise_c a.W vals a.votes a.votes tally.fresh).2.2 ++
          edges_of (drain_c a.W endt a.votes (rise_c a.W vals a.votes a.votes tally.fresh).2.1).2 := by
      simp only [scan_c, edges_of_append, hr.1]
    rw [hed, h1] at h2
    have h3 := congrArg List.getLast? h2
    rw [List.getLast?_append_of_ne_nil _ (by simp)] at h3
    simp only [List.getLast?_cons_cons, List.getLast?_singleton, Option.some.injEq,
      Prod.mk.injEq, true_and] at h3
    exact h3
  have hr2 := rise_noexp_ws a.W vals a.votes [] tally.fresh (by simpa using hnd)
    (by simpa using hnt) (window_state_fresh vals)
    (by
      intro e h1 x hx
      have hx1 : x ∈ a.votes := List.mem_of_mem_head? (by simpa using hx)
      rw [hall1 e h1, hall1 x hx1]
      linarith)
  simp only [List.nil_append] at hr2
  have hwsf := drain_ws_final a.W endt vals a.votes hnd hnt a.votes [] _ (by simp) hr2.2.1
    (fun e h1 => by rw [hall1 e h1]; exact he)
  rw [← hT2] at hwsf
  have hm2 := (ws_max vals a.votes [] T2 hwsf (by simp)).1
  rw [summed_nil] at hm2
  have hm := ws_max vals [] a.votes T1 hws hnt
  have hQ : vals.quorum ≤ T1.max.1 := by
    rcases hm.2 o with h1 | h1
    · exact le_trans hsum h1
    · rw [h1] at hsum; exact absurd hsum (not_le.2 hq)
  have hO : T1.max.2 = o := by
    obtain ⟨e, h1, h2⟩ := summed_ne_zero vals a.votes T1.max.2 (by rw [hm.1]; linarith)
    rw [← h2]; exact (hall e h1).2
  rw [hed]
  simp only [List.foldl_cons, List.foldl_nil]
  rw [sample_pair vals hold (sampler_init a) rfl]
  have hhold : hold ≤ t + a.W - t := by linarith
  rw [if_pos ⟨hQ, hhold⟩, hO, ← hm2]
  rfl

theorem confirm_weight_at_edge_witness :
    0 < node_s4.W ∧ (∀ e ∈ node_s4.votes, e.1 = 1000 ∧ e.2.2 = 0) ∧
    (voters node_s4.votes).Nodup ∧
    (uniform_validators 4).quorum ≤ summed (uniform_validators 4) node_s4.votes 0 ∧
    ((∀ (s : sampler) (time : time_point) (tl : tally),
      (hold_sampler (uniform_validators 4) 0 s time tl).confirmed = s.confirmed ∨
      (hold_sampler (uniform_validators 4) 0 s time tl).confirmed
        = s.confirmed ++ [(s.obj, tl.max.1)]) ∧
    ∃ r, node_s4.tally 0 2000 (uniform_validators 4) 0 = some r ∧ r.2.1 = [(0, 0)]) :=
  ⟨by decide, by decide, by decide, by decide,
    confirm_weight_at_edge node_s4 (uniform_validators 4) 0 2000 1000 0 0
      (by decide) (by decide) (by decide) (by decide) (by decide) (by decide) (by decide)
      (by decide) (by decide)⟩

/-! ## Traversal of the ancestors -/

theorem pp_marked_mem (ps : List Nat) : ∀ (m w : List Nat) (x : Nat),
    x ∈ (ps.foldl push_parent (m, w)).1 ↔ x ∈ m ∨ x ∈ ps := by
  induction ps with
  | nil => intro m w x; simp
  | cons p ps ih =>
    intro m w x
    simp only [List.foldl_cons, push_parent]
    by_cases hp : p ∈ m
    · rw [if_pos hp, ih]
      constructor
      · rintro (h | h)
        · exact Or.inl h
        · exact Or.inr (List.mem_cons_of_mem _ h)
      · rintro (h | h)
        · exact Or.inl h
        · rcases List.mem_cons.1 h with h | h
          · subst h; exact Or.inl hp
          · exact Or.inr h
    · rw [if_neg hp, ih]
      simp only [List.mem_cons]
      tauto

theorem pp_work_of_mem (ps : List Nat) : ∀ (m w : List Nat) (x : Nat),
    x ∈ w → x ∈ (ps.foldl push_parent (m, w)).2 := by
  induction ps with
  | nil => intro m w x h; exact h
  | cons p ps ih =>
    intro m w x h
    simp only [List.foldl_cons, push_parent]
    split_ifs
    · exact ih _ _ _ h
    · exact ih _ _ _ (List.mem_cons_of_mem _ h)

theorem pp_work_mem (ps : List Nat) : ∀ (m w : List Nat) (x : Nat),
    x ∈ (ps.foldl push_parent (m, w)).2 → x ∈ w ∨ x ∈ ps := by
  induction ps with
  | nil => intro m w x h; exact Or.inl h
  | cons p ps ih =>
    intro m w x h
    simp only [List.foldl_cons, push_parent] at h
    split_ifs at h
    · rcases ih _ _ _ h with h1 | h1
      · exact Or.inl h1
      · exact Or.inr (List.mem_cons_of_mem _ h1)
    · rcases ih _ _ _ h with h1 | h1
      · rcases List.mem_cons.1 h1 with h2 | h2
        · subst h2; exact Or.inr (List.mem_cons_self _ _)
        · exact Or.inl h2
      · exact Or.inr (List.mem_cons_of_mem _ h1)

theorem pp_marked_sub (ps : List Nat) : ∀ (m w : List Nat) (x : Nat),
    x ∈ (ps.foldl push_parent (m, w)).1 → x ∈ m ∨ x ∈ (ps.foldl push_parent (m, w)).2 := by
  induction ps with
  | nil => intro m w x h; exact Or.inl h
  | cons p ps ih =>
    intro m w x h
    simp only [List.foldl_cons, push_parent] at h ⊢
    split_ifs at h ⊢
    · exact ih _ _ _ h
    · rcases ih _ _ _ h with h1 | h1
      · rcases List.mem_cons.1 h1 with h2 | h2
        · subst h2; exact Or.inr (pp_work_of_mem ps _ _ _ (List.mem_cons_self _ _))
        · exact Or.inl h2
      · exact Or.inr h1

theorem pp_nodup (ps : List Nat) : ∀ (m w : List Nat), m.Nodup →
    (ps.foldl push_parent (m, w)).1.Nodup := by
  induction ps with
  | nil => intro m w h; exact h
  | cons p ps ih =>
    intro m w h
    simp only [List.foldl_cons, push_parent]
    split_ifs with hp
    · exact ih _ _ h
    · exact ih _ _ (List.nodup_cons.2 ⟨hp, h⟩)

theorem pp_length (ps : List Nat) : ∀ (m w : List Nat),
    (ps.foldl push_parent (m, w)).1.length + w.length
      = (ps.foldl push_parent (m, w)).2.length + m.length := by
  induction ps with
  | nil => intro m w; simp [Nat.add_comm]
  | cons p ps ih =>
    intro m w
    simp only [List.foldl_cons, push_parent]
    split_ifs
    · exact ih _ _
    · have := ih (p :: m) (p :: w)
      simp only [List.length_cons] at this
      omega

theorem length_le_of_nodup_lt (l : List Nat) (n : Nat) (hn : l.Nodup) (hl : ∀ x ∈ l, x < n) :
    l.length ≤ n := by
  have h1 : l.toFinset ⊆ Finset.range n := by
    intro x hx
    rw [List.mem_toFinset] at hx
    exact Finset.mem_range.2 (hl x hx)
  have h2 := Finset.card_le_card h1
  rw [List.toFinset_card_of_nodup hn, Finset.card_range] at h2
  exact h2

theorem visit_terminates (g : List (List Nat)) (n : Nat) (hg : ∀ ps ∈ g, ∀ p ∈ ps, p < n) :
    ∀ (fuel : Nat) (marked work : List Nat), marked.Nodup → (∀ x ∈ marked, x < n) →
      (n - marked.length) + work.length ≤ fuel → ∃ vs, visit_loop g fuel marked work = some vs := by
  intro fuel
  induction fuel with
  | zero =>
    intro marked work _ _ h
    cases work with
    | nil => exact ⟨[], rfl⟩
    | cons t r => simp at h
  | succ k ih =>
    intro marked work hn hl h
    cases work with
    | nil => exact ⟨[], rfl⟩
    | cons t r =>
      simp only [visit_loop]
      have hps : ∀ p ∈ (g[t]?).getD [], p < n := by
        intro p hp
        cases hgt : g[t]? with
        | none => rw [hgt] at hp; simp at hp
        | some ps =>
          rw [hgt] at hp
          exact hg ps (List.getElem?_mem hgt) p hp
      have h1 := pp_nodup ((g[t]?).getD []) marked r hn
      have h2 : ∀ x ∈ (((g[t]?).getD []).foldl push_parent (marked, r)).1, x < n := by
        intro x hx
        rcases (pp_marked_mem _ marked r x).1 hx with h3 | h3
        · exact hl x h3
        · exact hps x h3
      have h3 := pp_length ((g[t]?).getD []) marked r
      have h4 := length_le_of_nodup_lt
        (((g[t]?).getD []).foldl push_parent (marked, r)).1 n h1 h2
      have h5 := length_le_of_nodup_lt marked n hn hl
      simp only [List.length_cons] at h
      obtain ⟨vs, hvs⟩ := ih (((g[t]?).getD []).foldl push_parent (marked, r)).1
        (((g[t]?).getD []).foldl push_parent (marked, r)).2 h1 h2 (by omega)
      exact ⟨t :: vs, by rw [hvs]; rfl⟩

theorem visit_closed (g : List (List Nat)) :
    ∀ (fuel : Nat) (marked work vs : List Nat), visit_loop g fuel marked work = some vs →
      (∀ x ∈ work, x ∈ vs) ∧
      (∀ i ∈ vs, ∀ p ∈ (g[i]?).getD [], p ∈ marked ∨ p ∈ vs) ∧
      (∀ i ∈ vs, ∃ j ∈ work, Relation.ReflTransGen (fun x y => y ∈ (g[x]?).getD []) j i) := by
  intro fuel
  induction fuel with
  | zero =>
    intro marked work vs h
    cases work with
    | nil =>
      simp only [visit_loop, Option.some.injEq] at h
      subst h
      simp
    | cons t r => simp [visit_loop] at h
  | succ k ih =>
    intro marked work vs h
    cases work with
    | nil =>
      simp only [visit_loop, Option.some.injEq] at h
      subst h
      simp
    | cons t r =>
      simp only [visit_loop] at h
      cases hv : visit_loop g k (((g[t]?).getD []).foldl push_parent (marked, r)).1
          (((g[t]?).getD []).foldl push_parent (marked, r)).2 with
      | none => rw [hv] at h; simp at h
      | some vs1 =>
        rw [hv] at h
        simp only [Option.map_some', Option.some.injEq] at h
        subst h
        obtain ⟨i1, i2, i3⟩ := ih _ _ _ hv
        refine ⟨?_, ?_, ?_⟩
        · intro x hx
          rcases List.mem_cons.1 hx with hx | hx
          · subst hx; exact List.mem_cons_self _ _
          · exact List.mem_cons_of_mem _ (i1 x (pp_work_of_mem _ _ _ _ hx))
        · intro i hi p hp
          have hm : ∀ q, q ∈ (((g[t]?).getD []).foldl push_parent (marked, r)).1 →
              q ∈ marked ∨ q ∈ t :: vs1 := by
            intro q hq
            rcases pp_marked_sub _ _ _ _ hq with h1 | h1
            · exact Or.inl h1
            · exact Or.inr (List.mem_cons_of_mem _ (i1 q h1))
          rcases List.mem_cons.1 hi with hi | hi
          · subst hi
            exact hm p ((pp_marked_mem _ marked r p).2 (Or.inr hp))
          · rcases i2 i hi p hp with h1 | h1
            · exact hm p h1
            · exact Or.inr (List.mem_cons_of_mem _ h1)
        · intro i hi
          rcases List.mem_cons.1 hi with hi | hi
          · subst hi
            exact ⟨i, List.mem_cons_self _ _, Relation.ReflTransGen.refl⟩
          · obtain ⟨j, hj, hji⟩ := i3 i hi
            rcases pp_work_mem _ _ _ _ hj with h1 | h1
            · exact ⟨j, List.mem_cons_of_mem _ h1, hji⟩
            · exact ⟨t, List.mem_cons_self _ _, Relation.ReflTransGen.head h1 hji⟩

theorem parents_of_eq (h : heap) (i : Nat) :
    parents_of h i = ((h.map agreement.parents)[i]?).getD [] := by
  unfold parents_of
  rw [List.getElem?_map]
  cases h[i]? <;> rfl

theorem visit_self (g : List (List Nat)) (hg : ∀ ps ∈ g, ∀ p ∈ ps, p < g.length)
    (self : Nat) :
    ∃ vs, visit_loop g (g.length + 1) [] [self] = some vs ∧
      ∀ i, i ∈ vs ↔ Relation.ReflTransGen (fun x y => y ∈ (g[x]?).getD []) self i := by
  obtain ⟨vs, hvs⟩ := visit_terminates g g.length hg (g.length + 1) [] [self]
    List.nodup_nil (by simp) (by simp)
  refine ⟨vs, hvs, ?_⟩
  obtain ⟨c1, c2, c3⟩ := visit_closed g _ _ _ _ hvs
  intro i
  constructor
  · intro hi
    obtain ⟨j, hj, hji⟩ := c3 i hi
    simp only [List.mem_singleton] at hj
    subst hj
    exact hji
  · intro hr
    induction hr with
    | refl => exact c1 self (List.mem_singleton_self _)
    | tail _ hbc ihb =>
      rcases c2 _ ihb _ hbc with h1 | h1
      · simp at h1
      · exact h1

theorem loop_eq_visit {α : Type} (f : Nat → heap × α → heap × α)
    (hf : ∀ i st, (f i st).1.map agreement.parents = st.1.map agreement.parents) :
    ∀ (fuel : Nat) (marked work : List Nat) (st : heap × α),
      for_each_ancestor_loop f fuel marked work st
        = (visit_loop (st.1.map agreement.parents) fuel marked work).map
            (fun vs => vs.foldl (fun s i => f i s) st) := by
  intro fuel
  induction fuel with
  | zero =>
    intro marked work st
    cases work with
    | nil => simp [for_each_ancestor_loop, visit_loop]
    | cons t r => simp [for_each_ancestor_loop, visit_loop]
  | succ k ih =>
    intro marked work st
    cases work with
    | nil => simp [for_each_ancestor_loop, visit_loop]
    | cons t r =>
      simp only [for_each_ancestor_loop, visit_loop]
      rw [ih, hf, parents_of_eq, Option.map_map]
      rfl

theorem for_each_ancestor_eq {α : Type} (f : Nat → heap × α → heap × α)
    (hf : ∀ i st, (f i st).1.map agreement.parents = st.1.map agreement.parents)
    (h : heap) (hwf : heap_wf h) (self : Nat) (x : α) :
    ∃ vs : List Nat, for_each_ancestor h self f x = some (vs.foldl (fun s i => f i s) (h, x)) ∧
      ∀ i, i ∈ vs ↔ ancestor_or_self h self i := by
  have hg : ∀ ps ∈ h.map agreement.parents, ∀ p ∈ ps, p < (h.map agreement.parents).length := by
    intro ps hps p hp
    rw [List.mem_map] at hps
    obtain ⟨a, ha, rfl⟩ := hps
    rw [List.length_map]
    exact hwf a ha p hp
  obtain ⟨vs, h1, h2⟩ := visit_self (h.map agreement.parents) hg self
  rw [List.length_map] at h1
  refine ⟨vs, ?_, ?_⟩
  · unfold for_each_ancestor
    rw [loop_eq_visit f hf, h1]
    rfl
  · intro i
    rw [h2]
    unfold ancestor_or_self
    have : (fun x y => y ∈ ((h.map agreement.parents)[x]?).getD [])
        = (fun x y => y ∈ parents_of h x) := by
      funext x y
      rw [parents_of_eq]
    rw [this]

theorem ancestor_valid (h : heap) (hwf : heap_wf h) (self : Nat) (a : agreement)
    (ha : h[self]? = some a) (i : Nat) (hi : ancestor_or_self h self i) :
    ∃ b, h[i]? = some b := by
  induction hi with
  | refl => exact ⟨a, ha⟩
  | tail _ hbc ihb =>
    obtain ⟨b, hb⟩ := ihb
    simp only [parents_of, hb] at hbc
    have := hwf b (List.getElem?_mem hb) _ hbc
    exact ⟨_, List.getElem?_eq_getElem this⟩

theorem set_time_get (h : heap) (j : Nat) (now : time_point) (i : Nat) :
    (set_time h j now)[i]?
      = if i = j then (h[i]?).map (fun b => { b with time := now }) else h[i]? := by
  unfold set_time
  cases hj : h[j]? with
  | none =>
    by_cases c : i = j
    · subst c; simp [hj]
    · simp [c]
  | some a =>
    by_cases c : i = j
    · subst c
      have hlt : i < h.length := by
        by_contra hge
        rw [List.getElem?_eq_none (by omega)] at hj
        exact Option.noConfusion hj
      simp [hj, List.getElem?_set, hlt]
    · simp [c, List.getElem?_set, Ne.symm c]

theorem set_time_parents (h : heap) (j : Nat) (now : time_point) :
    (set_time h j now).map agreement.parents = h.map agreement.parents := by
  apply List.ext_getElem?
  intro i
  rw [List.getElem?_map, List.getElem?_map, set_time_get]
  by_cases c : i = j
  · rw [if_pos c]; cases h[i]? <;> rfl
  · rw [if_neg c]

theorem set_last_get (h : heap) (j : Nat) (o : object) (i : Nat) :
    (set_last h j o)[i]?
      = if i = j then (h[i]?).map (fun b => { b with last := o }) else h[i]? := by
  unfold set_last
  cases hj : h[j]? with
  | none =>
    by_cases c : i = j
    · subst c; simp [hj]
    · simp [c]
  | some a =>
    by_cases c : i = j
    · subst c
      have hlt : i < h.length := by
        by_contra hge
        rw [List.getElem?_eq_none (by omega)] at hj
        exact Option.noConfusion hj
      simp [hj, List.getElem?_set, hlt]
    · simp [c, List.getElem?_set, Ne.symm c]

theorem foldl_set_time_get (now : time_point) (vs : List Nat) :
    ∀ (h : heap) (i : Nat),
      (vs.foldl (fun (s : heap × Unit) j => (set_time s.1 j now, s.2)) (h, ())).1[i]?
        = if i ∈ vs then (h[i]?).map (fun b => { b with time := now }) else h[i]? := by
  induction vs with
  | nil => intro h i; simp
  | cons v vs ih =>
    intro h i
    simp only [List.foldl_cons]
    rw [ih, set_time_get]
    by_cases c2 : i = v
    · subst c2
      rw [if_pos rfl, if_pos (List.mem_cons_self _ _)]
      split_ifs
      · cases h[i]? <;> rfl
      · rfl
    · rw [if_neg c2]
      by_cases c1 : i ∈ vs
      · rw [if_pos c1, if_pos (List.mem_cons_of_mem _ c1)]
      · rw [if_neg c1, if_neg (by simp [c1, c2])]

/-- What `mark (now)` does: it returns, and it sets the time of the node and of every
transitive ancestor to `now`, leaving everything else as it was. -/
theorem mark_spec (h : heap) (hwf : heap_wf h) (self : Nat) (now : time_point) :
    ∃ h1, mark h self now = some h1 ∧
      (∀ i b, h[i]? = some b → ancestor_or_self h self i →
        h1[i]? = some { b with time := now }) ∧
      (∀ i, ¬ ancestor_or_self h self i → h1[i]? = h[i]?) ∧
      (∀ i, last_of h1 i = last_of h i) := by
  obtain ⟨vs, h1, h2⟩ := for_each_ancestor_eq
    (fun value (st : heap × Unit) => (set_time st.1 value now, st.2))
    (fun i st => set_time_parents st.1 i now) h hwf self ()
  unfold mark
  rw [h1]
  refine ⟨_, rfl, ?_, ?_, ?_⟩
  · intro i b hb hi
    rw [foldl_set_time_get, if_pos ((h2 i).2 hi), hb]
    rfl
  · intro i hi
    rw [foldl_set_time_get, if_neg (fun hc => hi ((h2 i).1 hc))]
  · intro i
    unfold last_of
    rw [foldl_set_time_get]
    split_ifs
    · cases h[i]? <;> rfl
    · rfl

theorem foldl_cutoff (W : duration) (vs : List Nat) :
    ∀ (h : heap) (r : time_point),
      vs.foldl (fun (s : heap × time_point) i => (s.1, max s.2 (time_of s.1 i + W))) (h, r)
        = (h, vs.foldl (fun r i => max r (time_of h i + W)) r) := by
  induction vs with
  | nil => intro h r; rfl
  | cons v vs ih => intro h r; simp only [List.foldl_cons]; rw [ih]

theorem foldl_max_spec (c : Nat → time_point) (vs : List Nat) :
    ∀ (r : time_point), r ≤ vs.foldl (fun r i => max r (c i)) r ∧
      (∀ i ∈ vs, c i ≤ vs.foldl (fun r i => max r (c i)) r) ∧
      (vs.foldl (fun r i => max r (c i)) r = r ∨
        ∃ i ∈ vs, vs.foldl (fun r i => max r (c i)) r = c i) := by
  induction vs with
  | nil => intro r; simp
  | cons v vs ih =>
    intro r
    simp only [List.foldl_cons]
    obtain ⟨i1, i2, i3⟩ := ih (max r (c v))
    refine ⟨le_trans (le_max_left _ _) i1, ?_, ?_⟩
    · intro i hi
      rcases List.mem_cons.1 hi with hi | hi
      · subst hi; exact le_trans (le_max_right _ _) i1
      · exact i2 i hi
    · rcases i3 with h1 | ⟨i, hi, h1⟩
      · rcases max_cases r (c v) with ⟨h2, _⟩ | ⟨h2, _⟩
        · left; rw [h1, h2]
        · right; exact ⟨v, List.mem_cons_self _ _, by rw [h1, h2]⟩
      · right; exact ⟨i, List.mem_cons_of_mem _ hi, h1⟩

/-- What `replaceable ()` returns: the greatest of the default time point and the cutoffs
`time + W` of the node and of its transitive ancestors, `W` being the window of the node. -/
theorem replaceable_spec (h : heap) (hwf : heap_wf h) (self : Nat) (a : agreement)
    (ha : h[self]? = some a) :
    ∃ w, replaceable h self = some w ∧ time_point_default ≤ w ∧
      (∀ i b, ancestor_or_self h self i → h[i]? = some b → b.time + a.W ≤ w) ∧
      (w = time_point_default ∨
        ∃ i b, ancestor_or_self h self i ∧ h[i]? = some b ∧ w = b.time + a.W) := by
  obtain ⟨vs, h1, h2⟩ := for_each_ancestor_eq
    (fun value (st : heap × time_point) => (st.1, max st.2 (time_of st.1 value + a.W)))
    (fun _ _ => rfl) h hwf self time_point_default
  unfold replaceable
  rw [ha]
  simp only []
  rw [h1, foldl_cutoff]
  obtain ⟨m1, m2, m3⟩ := foldl_max_spec (fun i => time_of h i + a.W) vs time_point_default
  refine ⟨_, rfl, m1, ?_, ?_⟩
  · intro i b hi hb
    have := m2 i ((h2 i).2 hi)
    simp only [time_of, hb] at this
    exact this
  · rcases m3 with h3 | ⟨i, hi, h3⟩
    · exact Or.inl h3
    · right
      obtain ⟨b, hb⟩ := ancestor_valid h hwf self a ha i ((h2 i).1 hi)
      refine ⟨i, b, (h2 i).1 hi, hb, ?_⟩
      rw [h3]
      simp only [time_of, hb]

theorem set_last_parents (h : heap) (j : Nat) (o : object) :
    (set_last h j o).map agreement.parents = h.map agreement.parents := by
  apply List.ext_getElem?
  intro i
  rw [List.getElem?_map, List.getElem?_map, set_last_get]
  by_cases c : i = j
  · rw [if_pos c]; cases h[i]? <;> rfl
  · rw [if_neg c]

theorem heap_wf_iff (h : heap) :
    heap_wf h ↔ ∀ ps ∈ h.map agreement.parents, ∀ p ∈ ps, p < (h.map agreement.parents).length := by
  unfold heap_wf
  simp only [List.mem_map, List.length_map]
  constructor
  · rintro hw ps ⟨a, ha, rfl⟩ p hp
    exact hw a ha p hp
  · intro hw a ha p hp
    exact hw a.parents ⟨a, ha, rfl⟩ p hp

theorem heap_wf_set_last (h : heap) (j : Nat) (o : object) (hwf : heap_wf h) :
    heap_wf (set_last h j o) := by
  rw [heap_wf_iff, set_last_parents, ← heap_wf_iff]
  exact hwf

theorem ancestor_set_last (h : heap) (j : Nat) (o : object) (self i : Nat) :
    ancestor_or_self (set_last h j o) self i ↔ ancestor_or_self h self i := by
  unfold ancestor_or_self
  have : (fun x y => y ∈ parents_of (set_last h j o) x) = (fun x y => y ∈ parents_of h x) := by
    funext x y
    rw [parents_of_eq, parents_of_eq, set_last_parents]
  rw [this]

theorem vote_adoption_core (h : heap) (self : Nat) (vals : validators) (now : time_point)
    (a : agreement) (tl : tally) (evs : List event) (ha : h[self]? = some a)
    (hwf : heap_wf h) (hscan : a.scan tally.fresh (now - a.W) now vals = some (tl, evs))
    (hnow : time_point_default ≤ now) :
    ∃ r, vote h self vals now = some r ∧
      (last_of r.1 self ≠ some a.last ↔
        (vals.quorum ≤ tl.total ∧ tl.max.2 ≠ a.last ∧
          ∀ i b, ancestor_or_self h self i → h[i]? = some b → b.time + a.W ≤ now)) ∧
      (vals.quorum ≤ tl.total → tl.max.2 ≠ a.last →
        (∀ i b, ancestor_or_self h self i → h[i]? = some b → b.time + a.W ≤ now) →
        last_of r.1 self = some tl.max.2 ∧ r.2.2.1 = [(tl.max.2, now)] ∧
          r.2.1 = now + a.W) := by
  have hlast : last_of h self = some a.last := by simp [last_of, ha]
  unfold vote
  rw [ha]
  simp only []
  rw [hscan]
  simp only []
  by_cases c : vals.quorum ≤ tl.total ∧ a.last ≠ tl.max.2
  · rw [if_pos c]
    obtain ⟨w, w1, w2, w3, w4⟩ := replaceable_spec h hwf self a ha
    rw [w1]
    simp only []
    by_cases cw : w ≤ now
    · rw [if_pos cw]
      obtain ⟨h2, m1, -, -, m4⟩ := mark_spec (set_last h self tl.max.2)
        (heap_wf_set_last h self _ hwf) self now
      rw [m1]
      have hl2 : last_of h2 self = some tl.max.2 := by
        rw [m4]
        simp [last_of, set_last_get, ha]
      have hall : ∀ i b, ancestor_or_self h self i → h[i]? = some b → b.time + a.W ≤ now :=
        fun i b hi hb => le_trans (w3 i b hi hb) cw
      refine ⟨_, rfl, ⟨fun _ => ⟨c.1, Ne.symm c.2, hall⟩, fun _ => ?_⟩, fun _ _ _ => ⟨hl2, rfl, rfl⟩⟩
      show last_of h2 self ≠ some a.last
      rw [hl2]
      intro hc
      exact c.2 (Option.some.inj hc).symm
    · rw [if_neg cw]
      refine ⟨_, rfl, ⟨fun hc => absurd hlast hc, ?_⟩, ?_⟩
      · rintro ⟨-, -, hall⟩
        exfalso
        rcases w4 with h1 | ⟨i, b, hi, hb, h1⟩
        · rw [h1] at cw; exact cw hnow
        · rw [h1] at cw; exact cw (hall i b hi hb)
      · intro _ _ hall
        exfalso
        rcases w4 with h1 | ⟨i, b, hi, hb, h1⟩
        · rw [h1] at cw; exact cw hnow
        · rw [h1] at cw; exact cw (hall i b hi hb)
  · rw [if_neg c]
    obtain ⟨h2, m1, -, -, m4⟩ := mark_spec h hwf self now
    rw [m1]
    have hl2 : last_of h2 self = some a.last := by rw [m4, hlast]
    refine ⟨_, rfl, ⟨fun hc => absurd hl2 hc, ?_⟩, ?_⟩
    · rintro ⟨h1, h2, -⟩
      exact absurd ⟨h1, Ne.symm h2⟩ c
    · intro h1 h2 _
      exact absurd ⟨h1, Ne.symm h2⟩ c

theorem scan_max_greatest (a : agreement) (vals : validators) (begin endt : time_point)
    (tl : tally) (evs : List event) (hW : 0 < a.W) (hle : begin ≤ endt)
    (hscan : a.scan tally.fresh begin endt vals = some (tl, evs)) :
    (∀ o w, map_find tl.totals_m o = some w → w ≤ tl.max.1) ∧
      (tl.totals_m ≠ [] → map_find tl.totals_m tl.max.2 = some tl.max.1) := by
  rw [scan_eq a tally.fresh begin endt vals hW hle] at hscan
  have hrk := (scan_c_inv rank_wf a.W endt vals (selected a.votes begin endt)
    (fun t e _ hq => rank_wf_fall t e.1 e.2.1 e.2.2 hq)
    (fun t e _ hq => rank_wf_rise t e.1 e.2.1 e.2.2 vals hq) tally.fresh rank_wf_fresh).1
  have htl : (scan_c a.W endt vals (selected a.votes begin endt) tally.fresh).1 = tl := by
    have := Option.some.inj hscan
    rw [this]
  rw [htl] at hrk
  rcases max_spec tl hrk with ⟨-, h2, -⟩ | ⟨h2, h3⟩
  · rw [h2]
    exact ⟨fun o w hw => by simp [map_find] at hw, fun hc => absurd rfl hc⟩
  · exact ⟨h3, fun _ => h2⟩

/-- C9 (adoption rule of `vote`).  Let the scan of `[now - W, now]` into a fresh tally be
defined, with final tally `tl`, in a graph whose parent pointers are valid, and let `now` be
not earlier than the default time point.  Then `vote` returns, and `last` of the node has
changed if and only if `tl.total ()` is at least the quorum, the object of `tl.max ()` differs
from `last`, and every node `b` among the node and its transitive ancestors has
`b.time + W ≤ now`.  In that case `last` is the object of `tl.max ()`, the callback is invoked
exactly once, with that object and `now`, and the call returns `now + W`.  For `W > 0` no
object has a greater tallied weight than the one of `tl.max ()`. -/
theorem vote_adoption (h : heap) (self : Nat) (vals : validators) (now : time_point)
    (a : agreement) (tl : tally) (evs : List event) (ha : h[self]? = some a)
    (hwf : heap_wf h) (hscan : a.scan tally.fresh (now - a.W) now vals = some (tl, evs))
    (hnow : time_point_default ≤ now) :
    ∃ r, vote h self vals now = some r ∧
      (last_of r.1 self ≠ some a.last ↔
        (vals.quorum ≤ tl.total ∧ tl.max.2 ≠ a.last ∧
          ∀ i b, ancestor_or_self h self i → h[i]? = some b → b.time + a.W ≤ now)) ∧
      (vals.quorum ≤ tl.total → tl.max.2 ≠ a.last →
        (∀ i b, ancestor_or_self h self i → h[i]? = some b → b.time + a.W ≤ now) →
        last_of r.1 self = some tl.max.2 ∧ r.2.2.1 = [(tl.max.2, now)] ∧
          r.2.1 = now + a.W) ∧
      (0 < a.W → (∀ o w, map_find tl.totals_m o = some w → w ≤ tl.max.1) ∧
        (tl.totals_m ≠ [] → map_find tl.totals_m tl.max.2 = some tl.max.1)) := by
  obtain ⟨r, h1, h2, h3⟩ := vote_adoption_core h self vals now a tl evs ha hwf hscan hnow
  exact ⟨r, h1, h2, h3, fun hW =>
    scan_max_greatest a vals (now - a.W) now tl evs hW (by linarith) hscan⟩

theorem vote_adoption_witness :
    heap_s8[0]? = some node_s8 ∧ heap_wf heap_s8 ∧
    node_s8.scan tally.fresh (1050 - node_s8.W) 1050 (uniform_validators 4)
      = some (tally_of node_s8 1000 1050 (uniform_validators 4),
          calls_of node_s8 1000 1050 (uniform_validators 4)) ∧
    ∃ r, vote heap_s8 0 (uniform_validators 4) 1050 = some r ∧
      (last_of r.1 0 ≠ some node_s8.last ↔
        ((uniform_validators 4).quorum ≤ (tally_of node_s8 1000 1050 (uniform_validators 4)).total ∧
          (tally_of node_s8 1000 1050 (uniform_validators 4)).max.2 ≠ node_s8.last ∧
          ∀ i b, ancestor_or_self heap_s8 0 i → heap_s8[i]? = some b →
            b.time + node_s8.W ≤ 1050)) ∧
      ((uniform_validators 4).quorum ≤ (tally_of node_s8 1000 1050 (uniform_validators 4)).total →
        (tally_of node_s8 1000 1050 (uniform_validators 4)).max.2 ≠ node_s8.last →
        (∀ i b, ancestor_or_self heap_s8 0 i → heap_s8[i]? = some b →
          b.time + node_s8.W ≤ 1050) →
        last_of r.1 0 = some (tally_of node_s8 1000 1050 (uniform_validators 4)).max.2 ∧
          r.2.2.1 = [((tally_of node_s8 1000 1050 (uniform_validators 4)).max.2, 1050)] ∧
          r.2.1 = 1050 + node_s8.W) ∧
      (0 < node_s8.W →
        (∀ o w, map_find (tally_of node_s8 1000 1050 (uniform_validators 4)).totals_m o = some w →
          w ≤ (tally_of node_s8 1000 1050 (uniform_validators 4)).max.1) ∧
        ((tally_of node_s8 1000 1050 (uniform_validators 4)).totals_m ≠ [] →
          map_find (tally_of node_s8 1000 1050 (uniform_validators 4)).totals_m
            (tally_of node_s8 1000 1050 (uniform_validators 4)).max.2
            = some (tally_of node_s8 1000 1050 (uniform_validators 4)).max.1)) :=
  ⟨by rfl, by decide, by rfl,
    vote_adoption heap_s8 0 (uniform_validators 4) 1050 node_s8
      (tally_of node_s8 1000 1050 (uniform_validators 4))
      (calls_of node_s8 1000 1050 (uniform_validators 4)) (by rfl) (by decide) (by rfl)
      (by decide)⟩

/-- C10 as stated fails before the default time point: in scenario S8 moved 1100 earlier the
window tally of `vote (now = -51)` has a total of at least the quorum, its maximum differs
from `last`, and every node has `time + W = -50 > now`, so the maximum of the cutoffs is
`-50`; `vote` refuses the replacement but returns `0`, the default time point that
`replaceable ()` starts from. -/
theorem vote_refused_early :
    (uniform_validators 4).quorum
      ≤ (tally_of node_early (-51 - node_early.W) (-51) (uniform_validators 4)).total ∧
    (tally_of node_early (-51 - node_early.W) (-51) (uniform_validators 4)).max.2
      ≠ node_early.last ∧
    (∀ (i : Nat) (b : agreement), heap_early[i]? = some b → b.time + node_early.W = -50) ∧
    ((-51 : time_point) < -50) ∧
    vote heap_early 0 (uniform_validators 4) (-51) = some (heap_early, 0, [], []) ∧
    (0 : time_point) ≠ -50 := by
  refine ⟨by decide, by decide, ?_, by decide, by rfl, by decide⟩
  intro i b hb
  rcases i with _ | _ | i
  · simp only [heap_early, List.getElem?_cons_zero, Option.some.injEq] at hb
    subst hb; rfl
  · simp only [heap_early, List.getElem?_cons_succ, List.getElem?_cons_zero,
      Option.some.injEq] at hb
    subst hb; rfl
  · simp [heap_early] at hb

/-- C10, as amended (refused replacement is atomic, for `now` not earlier than the default
time point).  Let the scan of `[now - W, now]` into a fresh tally be defined, with final tally
`tl`, in a graph whose parent pointers are valid.  If `tl.total ()` is at least the quorum,
the object of `tl.max ()` differs from `last`, and some node among the node and its
transitive ancestors has `time + W > now`, then `vote` does not invoke the callback, leaves
every node as it was (`last`, the times and the logs), and returns the value `when` of
`replaceable ()`, which is the greatest `time + W` over the node and its transitive
ancestors; `when > now`, and the check `replaceable () ≤ t` passes exactly for `t ≥ when`. -/
theorem vote_refused (h : heap) (self : Nat) (vals : validators) (now : time_point)
    (a : agreement) (tl : tally) (evs : List event) (ha : h[self]? = some a)
    (hwf : heap_wf h) (hscan : a.scan tally.fresh (now - a.W) now vals = some (tl, evs))
    (hnow : time_point_default ≤ now) (hq : vals.quorum ≤ tl.total)
    (hne : tl.max.2 ≠ a.last)
    (hlate : ∃ i b, ancestor_or_self h self i ∧ h[i]? = some b ∧ now < b.time + a.W) :
    ∃ w, vote h self vals now = some (h, w, [], faults_of evs) ∧ now < w ∧
      (∃ i b, ancestor_or_self h self i ∧ h[i]? = some b ∧ w = b.time + a.W) ∧
      (∀ i b, ancestor_or_self h self i → h[i]? = some b → b.time + a.W ≤ w) ∧
      (∀ t, (∃ w1, replaceable h self = some w1 ∧ w1 ≤ t) ↔ w ≤ t) := by
  obtain ⟨w, w1, w2, w3, w4⟩ := replaceable_spec h hwf self a ha
  obtain ⟨i0, b0, hi0, hb0, hl0⟩ := hlate
  have hlt : now < w := lt_of_lt_of_le hl0 (w3 i0 b0 hi0 hb0)
  refine ⟨w, ?_, hlt, ?_, w3, ?_⟩
  · unfold vote
    rw [ha]
    simp only []
    rw [hscan]
    simp only []
    rw [if_pos ⟨hq, Ne.symm hne⟩, w1]
    simp only []
    rw [if_neg (not_le.2 hlt)]
  · rcases w4 with h1 | h1
    · rw [h1] at hlt
      exact absurd hnow (not_le.2 hlt)
    · exact h1
  · intro t
    rw [w1]
    constructor
    · rintro ⟨w5, h1, h2⟩
      rw [← Option.some.inj h1] at h2
      exact h2
    · intro h1
      exact ⟨w, rfl, h1⟩

theorem vote_refused_witness :
    heap_s8[0]? = some node_s8 ∧ heap_wf heap_s8 ∧
    node_s8.scan tally.fresh (1049 - node_s8.W) 1049 (uniform_validators 4)
      = some (tally_of node_s8 999 1049 (uniform_validators 4),
          calls_of node_s8 999 1049 (uniform_validators 4)) ∧
    (uniform_validators 4).quorum ≤ (tally_of node_s8 999 1049 (uniform_validators 4)).total ∧
    (tally_of node_s8 999 1049 (uniform_validators 4)).max.2 ≠ node_s8.last ∧
    ∃ w, vote heap_s8 0 (uniform_validators 4) 1049
        = some (heap_s8, w, [], faults_of (calls_of node_s8 999 1049 (uniform_validators 4))) ∧
      1049 < w ∧
      (∃ i b, ancestor_or_self heap_s8 0 i ∧ heap_s8[i]? = some b ∧ w = b.time + node_s8.W) ∧
      (∀ i b, ancestor_or_self heap_s8 0 i → heap_s8[i]? = some b → b.time + node_s8.W ≤ w) ∧
      (∀ t, (∃ w1, replaceable heap_s8 0 = some w1 ∧ w1 ≤ t) ↔ w ≤ t) :=
  ⟨by rfl, by decide, by rfl, by decide, by decide,
    vote_refused heap_s8 0 (uniform_validators 4) 1049 node_s8
      (tally_of node_s8 999 1049 (uniform_validators 4))
      (calls_of node_s8 999 1049 (uniform_validators 4)) (by rfl) (by decide) (by rfl)
      (by decide) (by decide) (by decide)
      ⟨0, node_s8, Relation.ReflTransGen.refl, by rfl, by decide⟩⟩

/-! ## The three outcomes of `vote` -/

theorem mark_parents (h : heap) (self : Nat) (now : time_point) (h1 : heap)
    (hm : mark h self now = some h1) :
    h1.map agreement.parents = h.map agreement.parents := by
  unfold mark for_each_ancestor at hm
  rw [loop_eq_visit _ (fun i st => set_time_parents st.1 i now)] at hm
  cases hv : visit_loop (List.map agreement.parents (h, ()).1) (h.length + 1) [] [self] with
  | none => rw [hv] at hm; simp at hm
  | some vs =>
    rw [hv] at hm
    simp only [Option.map_some', Option.some.injEq] at hm
    rw [← hm]
    have key : ∀ (l : List Nat) (g : heap),
        (l.foldl (fun (s : heap × Unit) i => (set_time s.1 i now, s.2)) (g, ())).1.map
          agreement.parents = g.map agreement.parents := by
      intro l
      induction l with
      | nil => intro g; rfl
      | cons x l ih => intro g; simp only [List.foldl_cons]; rw [ih, set_time_parents]
    exact key vs h

theorem heap_wf_of_parents (h h1 : heap)
    (hp : h1.map agreement.parents = h.map agreement.parents) (hwf : heap_wf h) :
    heap_wf h1 := by
  rw [heap_wf_iff, hp, ← heap_wf_iff]
  exact hwf

theorem ancestor_of_parents (h h1 : heap)
    (hp : h1.map agreement.parents = h.map agreement.parents) (self i : Nat) :
    ancestor_or_self h1 self i ↔ ancestor_or_self h self i := by
  unfold ancestor_or_self
  have : (fun x y => y ∈ parents_of h1 x) = (fun x y => y ∈ parents_of h x) := by
    funext x y
    rw [parents_of_eq, parents_of_eq, hp]
  rw [this]

/-- The three ways `vote` can go: it adopts the object of the maximum, it refuses the
replacement, or it declares `last` again. -/
theorem vote_cases (h : heap) (self : Nat) (vals : validators) (now : time_point)
    (a : agreement) (tl : tally) (evs : List event) (ha : h[self]? = some a)
    (hwf : heap_wf h) (hscan : a.scan tally.fresh (now - a.W) now vals = some (tl, evs)) :
    (vals.quorum ≤ tl.total ∧ a.last ≠ tl.max.2 ∧
      ∃ w h2, replaceable h self = some w ∧ w ≤ now ∧
        mark (set_last h self tl.max.2) self now = some h2 ∧
        vote h self vals now = some (h2, now + a.W, [(tl.max.2, now)], faults_of evs)) ∨
    (vals.quorum ≤ tl.total ∧ a.last ≠ tl.max.2 ∧
      ∃ w, replaceable h self = some w ∧ now < w ∧
        vote h self vals now = some (h, w, [], faults_of evs)) ∨
    (¬ (vals.quorum ≤ tl.total ∧ a.last ≠ tl.max.2) ∧
      ∃ h2, mark h self now = some h2 ∧
        vote h self vals now = some (h2, now + a.W, [(a.last, now)], faults_of evs)) := by
  unfold vote
  rw [ha]
  simp only []
  rw [hscan]
  simp only []
  by_cases c : vals.quorum ≤ tl.total ∧ a.last ≠ tl.max.2
  · rw [if_pos c]
    obtain ⟨w, w1, -, -, -⟩ := replaceable_spec h hwf self a ha
    rw [w1]
    simp only []
    by_cases cw : w ≤ now
    · rw [if_pos cw]
      obtain ⟨h2, m1, -⟩ := mark_spec (set_last h self tl.max.2)
        (heap_wf_set_last h self _ hwf) self now
      rw [m1]
      exact Or.inl ⟨c.1, c.2, w, h2, rfl, cw, rfl, rfl⟩
    · rw [if_neg cw]
      exact Or.inr (Or.inl ⟨c.1, c.2, w, rfl, not_le.1 cw, rfl⟩)
  · rw [if_neg c]
    obtain ⟨h2, m1, -⟩ := mark_spec h hwf self now
    rw [m1]
    exact Or.inr (Or.inr ⟨c, h2, rfl, rfl⟩)

theorem slot_of_weight_zero (t : tally) (v : validator)
    (h : ∀ v s, map_find t.votes v = some s → s.2.2 = 0) : (t.slot_of v).2.2 = 0 := by
  unfold tally.slot_of
  cases hf : map_find t.votes v with
  | none => rfl
  | some s => exact h v s hf

theorem zero_total_fall (t : tally) (time : time_point) (v : validator) (o : object)
    (h : t.total_m = 0 ∧ ∀ v s, map_find t.votes v = some s → s.2.2 = 0) :
    (t.fall time v o).total_m = 0 ∧
      ∀ v1 s, map_find (t.fall time v o).votes v1 = some s → s.2.2 = 0 := by
  have hs := slot_of_weight_zero t v h.2
  simp only [tally.fall]
  split_ifs
  · refine ⟨?_, ?_⟩
    · show t.total_m - (t.slot_of v).2.2 = 0
      rw [hs, h.1]; rfl
    · intro v1 s hv
      simp only [tally.sort, map_find_map_set] at hv
      split_ifs at hv
      · rw [← Option.some.inj hv]; exact hs
      · exact h.2 v1 s hv
  · refine ⟨h.1, ?_⟩
    intro v1 s hv
    simp only [map_find_map_set] at hv
    split_ifs at hv
    · rw [← Option.some.inj hv]; exact hs
    · exact h.2 v1 s hv

theorem zero_total_rise (t : tally) (time : time_point) (v : validator) (o : object)
    (vals : validators) (hz : ∀ v, vals.weight v = 0)
    (h : t.total_m = 0 ∧ ∀ v s, map_find t.votes v = some s → s.2.2 = 0) :
    (t.rise time v o vals).1.total_m = 0 ∧
      ∀ v1 s, map_find (t.rise time v o vals).1.votes v1 = some s → s.2.2 = 0 := by
  have hs := slot_of_weight_zero t v h.2
  simp only [tally.rise]
  split_ifs
  · refine ⟨?_, ?_⟩
    · show t.total_m + vals.weight v = 0
      rw [hz, h.1]; rfl
    · intro v1 s hv
      simp only [tally.sort, map_find_map_set] at hv
      split_ifs at hv
      · rw [← Option.some.inj hv]; exact hz v
      · exact h.2 v1 s hv
  · refine ⟨h.1, ?_⟩
    intro v1 s hv
    simp only [map_find_map_set] at hv
    split_ifs at hv
    · rw [← Option.some.inj hv]; exact hs
    · exact h.2 v1 s hv
  · refine ⟨h.1, ?_⟩
    intro v1 s hv
    simp only [map_find_map_set] at hv
    split_ifs at hv
    · rw [← Option.some.inj hv]; exact hs
    · exact h.2 v1 s hv

theorem scan_total_zero (a : agreement) (vals : validators) (begin endt : time_point)
    (tl : tally) (evs : List event) (hW : 0 < a.W) (hle : begin ≤ endt)
    (hscan : a.scan tally.fresh begin endt vals = some (tl, evs))
    (hz : a.votes = [] ∨ ∀ v, vals.weight v = 0) : tl.total = 0 := by
  rw [scan_eq a tally.fresh begin endt vals hW hle] at hscan
  have htl : (scan_c a.W endt vals (selected a.votes begin endt) tally.fresh).1 = tl := by
    have := Option.some.inj hscan
    rw [this]
  rw [← htl]
  rcases hz with hz | hz
  · rw [hz]
    rfl
  · exact ((scan_c_inv (fun t => t.total_m = 0 ∧ ∀ v s, map_find t.votes v = some s → s.2.2 = 0)
      a.W endt vals (selected a.votes begin endt)
      (fun t e _ hq => zero_total_fall t e.1 e.2.1 e.2.2 hq)
      (fun t e _ hq => zero_total_rise t e.1 e.2.1 e.2.2 vals hz hq) tally.fresh
      ⟨rfl, fun v s hv => by simp [tally.fresh, map_find] at hv⟩).1).1

/-- C11 (re-declaring vote).  Let the scan of `[now - W, now]` into a fresh tally be defined,
with final tally `tl`, in a graph whose parent pointers are valid, whatever the parents are.
If `tl.total ()` is below the quorum or the object of `tl.max ()` equals `last`, then `vote`
returns `now + W`, invokes the callback exactly once, with `(last, now)`, and leaves `last`
unchanged.  With `W > 0` and a positive quorum the total is below the quorum in particular
for an empty log and for a validator set in which every weight is `0`. -/
theorem vote_redeclare (h : heap) (self : Nat) (vals : validators) (now : time_point)
    (a : agreement) (tl : tally) (evs : List event) (ha : h[self]? = some a)
    (hwf : heap_wf h) (hscan : a.scan tally.fresh (now - a.W) now vals = some (tl, evs)) :
    (tl.total < vals.quorum ∨ tl.max.2 = a.last →
      ∃ h2, vote h self vals now = some (h2, now + a.W, [(a.last, now)], faults_of evs) ∧
        last_of h2 self = some a.last) ∧
    (0 < a.W → 0 < vals.quorum → (a.votes = [] ∨ ∀ v, vals.weight v = 0) →
      tl.total < vals.quorum) := by
  constructor
  · intro hc
    have hn : ¬ (vals.quorum ≤ tl.total ∧ a.last ≠ tl.max.2) := by
      rintro ⟨h1, h2⟩
      rcases hc with hc | hc
      · exact absurd h1 (not_le.2 hc)
      · exact h2 hc.symm
    rcases vote_cases h self vals now a tl evs ha hwf hscan with
      ⟨h1, h2, -⟩ | ⟨h1, h2, -⟩ | ⟨-, h2, hm, hv⟩
    · exact absurd ⟨h1, h2⟩ hn
    · exact absurd ⟨h1, h2⟩ hn
    · refine ⟨h2, hv, ?_⟩
      obtain ⟨h3, m1, -, -, m4⟩ := mark_spec h hwf self now
      rw [m1] at hm
      rw [← Option.some.inj hm, m4]
      simp [last_of, ha]
  · intro hW hq hz
    rw [scan_total_zero a vals (now - a.W) now tl evs hW (by linarith) hscan hz]
    exact hq

theorem vote_redeclare_witness :
    heap_two_parents[2]? = some (agreement.mk_node 50 5 [0, 1]) ∧ heap_wf heap_two_parents ∧
    (agreement.mk_node 50 5 [0, 1]).scan tally.fresh (1000 - 50) 1000 (fixed_validators [])
      = some (tally.fresh, []) ∧
    tally.fresh.total < (fixed_validators []).quorum ∧
    ∃ h2, vote heap_two_parents 2 (fixed_validators []) 1000
        = some (h2, 1000 + 50, [(5, 1000)], faults_of []) ∧
      last_of h2 2 = some 5 :=
  ⟨by rfl, by decide, by rfl, by decide,
    (vote_redeclare heap_two_parents 2 (fixed_validators []) 1000
      (agreement.mk_node 50 5 [0, 1]) tally.fresh [] (by rfl) (by decide) (by rfl)).1
      (Or.inl (by decide))⟩

/-! ## Each node is visited once -/

theorem pp_work_mem_new (ps : List Nat) : ∀ (m w : List Nat) (x : Nat),
    x ∈ (ps.foldl push_parent (m, w)).2 → x ∈ w ∨ (x ∈ ps ∧ x ∉ m) := by
  induction ps with
  | nil => intro m w x h; exact Or.inl h
  | cons p ps ih =>
    intro m w x h
    simp only [List.foldl_cons, push_parent] at h
    split_ifs at h with hp
    · rcases ih _ _ _ h with h1 | h1
      · exact Or.inl h1
      · exact Or.inr ⟨List.mem_cons_of_mem _ h1.1, h1.2⟩
    · rcases ih _ _ _ h with h1 | h1
      · rcases List.mem_cons.1 h1 with h2 | h2
        · subst h2; exact Or.inr ⟨List.mem_cons_self _ _, hp⟩
        · exact Or.inl h2
      · exact Or.inr ⟨List.mem_cons_of_mem _ h1.1,
          fun hc => h1.2 (List.mem_cons_of_mem _ hc)⟩

theorem pp_work_nodup (ps : List Nat) : ∀ (m w : List Nat), w.Nodup →
    (∀ x ∈ w, x ∈ m ∨ x ∉ ps) → (ps.foldl push_parent (m, w)).2.Nodup := by
  induction ps with
  | nil => intro m w h _; exact h
  | cons p ps ih =>
    intro m w h hw
    simp only [List.foldl_cons, push_parent]
    split_ifs with hp
    · refine ih _ _ h ?_
      intro x hx
      rcases hw x hx with h1 | h1
      · exact Or.inl h1
      · exact Or.inr (fun hc => h1 (List.mem_cons_of_mem _ hc))
    · refine ih _ _ (List.nodup_cons.2 ⟨?_, h⟩) ?_
      · intro hc
        rcases hw p hc with h1 | h1
        · exact hp h1
        · exact h1 (List.mem_cons_self _ _)
      · intro x hx
        rcases List.mem_cons.1 hx with hx | hx
        · subst hx; exact Or.inl (List.mem_cons_self _ _)
        · rcases hw x hx with h1 | h1
          · exact Or.inl (List.mem_cons_of_mem _ h1)
          · exact Or.inr (fun hc => h1 (List.mem_cons_of_mem _ hc))

theorem visit_nodup (g : List (List Nat)) (self : Nat)
    (hno : ∀ i, Relation.ReflTransGen (fun x y => y ∈ (g[x]?).getD []) self i →
      self ∉ (g[i]?).getD []) :
    ∀ (fuel : Nat) (marked work vs : List Nat), visit_loop g fuel marked work = some vs →
      work.Nodup → (∀ x ∈ work, x ≠ self → x ∈ marked) →
      (∀ x ∈ work, Relation.ReflTransGen (fun x y => y ∈ (g[x]?).getD []) self x) →
      self ∉ marked →
      vs.Nodup ∧ ∀ x ∈ vs, x ∈ work ∨ (x ∉ marked ∧ x ≠ self) := by
  intro fuel
  induction fuel with
  | zero =>
    intro marked work vs h _ _ _ _
    cases work with
    | nil =>
      simp only [visit_loop, Option.some.injEq] at h
      subst h
      simp
    | cons t r => simp [visit_loop] at h
  | succ k ih =>
    intro marked work vs h hnd hmk hre hself
    cases work with
    | nil =>
      simp only [visit_loop, Option.some.injEq] at h
      subst h
      simp
    | cons t r =>
      simp only [visit_loop] at h
      cases hv : visit_loop g k (((g[t]?).getD []).foldl push_parent (marked, r)).1
          (((g[t]?).getD []).foldl push_parent (marked, r)).2 with
      | none => rw [hv] at h; simp at h
      | some vs1 =>
        rw [hv] at h
        simp only [Option.map_some', Option.some.injEq] at h
        subst h
        have hrt := hre t (List.mem_cons_self _ _)
        have hsp : self ∉ (g[t]?).getD [] := hno t hrt
        have htr : t ∉ r := (List.nodup_cons.1 hnd).1
        have hr : r.Nodup := (List.nodup_cons.1 hnd).2
        have hw1 : (((g[t]?).getD []).foldl push_parent (marked, r)).2.Nodup := by
          refine pp_work_nodup _ _ _ hr ?_
          intro x hx
          by_cases c : x = self
          · subst c; exact Or.inr hsp
          · exact Or.inl (hmk x (List.mem_cons_of_mem _ hx) c)
        have hm1 : ∀ x ∈ (((g[t]?).getD []).foldl push_parent (marked, r)).2, x ≠ self →
            x ∈ (((g[t]?).getD []).foldl push_parent (marked, r)).1 := by
          intro x hx hxs
          rcases pp_work_mem _ _ _ _ hx with h1 | h1
          · exact (pp_marked_mem _ _ _ _).2 (Or.inl (hmk x (List.mem_cons_of_mem _ h1) hxs))
          · exact (pp_marked_mem _ _ _ _).2 (Or.inr h1)
        have hr1 : ∀ x ∈ (((g[t]?).getD []).foldl push_parent (marked, r)).2,
            Relation.ReflTransGen (fun x y => y ∈ (g[x]?).getD []) self x := by
          intro x hx
          rcases pp_work_mem _ _ _ _ hx with h1 | h1
          · exact hre x (List.mem_cons_of_mem _ h1)
          · exact Relation.ReflTransGen.tail hrt h1
        have hs1 : self ∉ (((g[t]?).getD []).foldl push_parent (marked, r)).1 := by
          intro hc
          rcases (pp_marked_mem _ _ _ _).1 hc with h1 | h1
          · exact hself h1
          · exact hsp h1
        obtain ⟨i1, i2⟩ := ih _ _ _ hv hw1 hm1 hr1 hs1
        refine ⟨List.nodup_cons.2 ⟨?_, i1⟩, ?_⟩
        · intro hc
          rcases i2 t hc with h1 | ⟨h1, h2⟩
          · rcases pp_work_mem_new _ _ _ _ h1 with h3 | ⟨h3, h4⟩
            · exact htr h3
            · by_cases c : t = self
              · exact hsp (by rw [← c]; exact h3)
              · exact h4 (hmk t (List.mem_cons_self _ _) c)
          · exact h1 ((pp_marked_mem _ _ _ _).2
              (Or.inl (hmk t (List.mem_cons_self _ _) h2)))
        · intro x hx
          rcases List.mem_cons.1 hx with hx | hx
          · subst hx; exact Or.inl (List.mem_cons_self _ _)
          · rcases i2 x hx with h1 | ⟨h1, h2⟩
            · rcases pp_work_mem_new _ _ _ _ h1 with h3 | ⟨h3, h4⟩
              · exact Or.inl (List.mem_cons_of_mem _ h3)
              · refine Or.inr ⟨h4, ?_⟩
                intro c
                rw [c] at h3
                exact hsp h3
            · exact Or.inr ⟨fun hc => h1 ((pp_marked_mem _ _ _ _).2 (Or.inl hc)), h2⟩

theorem for_each_ancestor_of_visit {α : Type} (f : Nat → heap × α → heap × α)
    (hf : ∀ i st, (f i st).1.map agreement.parents = st.1.map agreement.parents)
    (h : heap) (self : Nat) (x : α) (vs : List Nat)
    (hvs : visit_loop (h.map agreement.parents) (h.length + 1) [] [self] = some vs) :
    for_each_ancestor h self f x = some (vs.foldl (fun s i => f i s) (h, x)) := by
  unfold for_each_ancestor
  rw [loop_eq_visit f hf, hvs]
  rfl

theorem visit_heap (h : heap) (hwf : heap_wf h) (self : Nat) :
    ∃ vs, visit_loop (h.map agreement.parents) (h.length + 1) [] [self] = some vs ∧
      (∀ i, i ∈ vs ↔ ancestor_or_self h self i) ∧ (acyclic h → vs.Nodup) := by
  have hg := (heap_wf_iff h).1 hwf
  obtain ⟨vs, h1, h2⟩ := visit_self (h.map agreement.parents) hg self
  rw [List.length_map] at h1
  have hrel : (fun x y => y ∈ ((h.map agreement.parents)[x]?).getD [])
      = (fun x y => y ∈ parents_of h x) := by
    funext x y
    rw [parents_of_eq]
  refine ⟨vs, h1, ?_, ?_⟩
  · intro i
    rw [h2]
    unfold ancestor_or_self
    rw [hrel]
  · intro hac
    refine (visit_nodup (h.map agreement.parents) self ?_ _ _ _ _ h1 (List.nodup_singleton _)
      (by simp) ?_ (by simp)).1
    · intro i hi hc
      rw [hrel] at hi
      have hc1 : self ∈ parents_of h i := by rw [parents_of_eq]; exact hc
      exact hac self (Relation.TransGen.tail' hi hc1)
    · intro x hx
      simp only [List.mem_singleton] at hx
      subst hx
      exact Relation.ReflTransGen.refl

theorem foldl_mark_record (now : time_point) (vs : List Nat) :
    ∀ (g : heap) (acc : List Nat),
      vs.foldl (fun (s : heap × List Nat) i => (set_time s.1 i now, s.2 ++ [i])) (g, acc)
        = ((vs.foldl (fun (s : heap × Unit) i => (set_time s.1 i now, s.2)) (g, ())).1,
            acc ++ vs) := by
  induction vs with
  | nil => intro g acc; simp
  | cons v vs ih =>
    intro g acc
    simp only [List.foldl_cons]
    rw [ih]
    simp

/-- The calls of the lambda of `mark`: it is applied to the node and its transitive
ancestors, to each of them once if the graph is acyclic. -/
theorem mark_calls_spec (h : heap) (hwf : heap_wf h) (self : Nat) (now : time_point) :
    ∃ h1 vs, mark_calls h self now = some (h1, vs) ∧ mark h self now = some h1 ∧
      (∀ i, i ∈ vs ↔ ancestor_or_self h self i) ∧ (acyclic h → vs.Nodup) := by
  obtain ⟨vs, h1, h2, h3⟩ := visit_heap h hwf self
  refine ⟨(vs.foldl (fun (s : heap × Unit) i => (set_time s.1 i now, s.2)) (h, ())).1, vs,
    ?_, ?_, h2, h3⟩
  · unfold mark_calls
    rw [for_each_ancestor_of_visit _ (fun i st => set_time_parents st.1 i now) h self [] vs h1,
      foldl_mark_record]
    rfl
  · unfold mark
    rw [for_each_ancestor_of_visit _ (fun i st => set_time_parents st.1 i now) h self () vs h1]
    rfl

theorem acyclic_of_parents (h h1 : heap)
    (hp : h1.map agreement.parents = h.map agreement.parents) (hac : acyclic h) :
    acyclic h1 := by
  unfold acyclic at hac ⊢
  have : (fun x y => y ∈ parents_of h1 x) = (fun x y => y ∈ parents_of h x) := by
    funext x y
    rw [parents_of_eq, parents_of_eq, hp]
  rw [this]
  exact hac

/-- C12 (DAG marking).  Let the scan of `[now - W, now]` into a fresh tally be defined, in a
graph whose parent pointers are valid.  Then `vote (…, now)` on the node `self` returns, and
whenever it invokes the callback, afterwards the time of `self` and of every transitive
ancestor of `self` is `now`, while every node that is neither `self` nor an ancestor is as
it was.  On an acyclic graph the assignment of `mark` is applied to each of these nodes
exactly once: the recorded calls of the lambda have no repetition and are `self` and its
transitive ancestors. -/
theorem dag_marking (h : heap) (self : Nat) (vals : validators) (now : time_point)
    (a : agreement) (tl : tally) (evs : List event) (ha : h[self]? = some a)
    (hwf : heap_wf h) (hscan : a.scan tally.fresh (now - a.W) now vals = some (tl, evs)) :
    ∃ r, vote h self vals now = some r ∧
      (r.2.2.1 ≠ [] →
        (∀ i b, ancestor_or_self h self i → h[i]? = some b →
          ∃ b1, r.1[i]? = some b1 ∧ b1.time = now) ∧
        (∀ i, ¬ ancestor_or_self h self i → r.1[i]? = h[i]?) ∧
        (acyclic h → ∃ h0 vs, (h0 = h ∨ h0 = set_last h self tl.max.2) ∧
          mark_calls h0 self now = some (r.1, vs) ∧ vs.Nodup ∧
          ∀ i, i ∈ vs ↔ ancestor_or_self h self i)) := by
  rcases vote_cases h self vals now a tl evs ha hwf hscan with
    ⟨-, -, w, h2, -, -, hm, hv⟩ | ⟨-, -, w, -, -, hv⟩ | ⟨-, h2, hm, hv⟩
  · refine ⟨_, hv, fun _ => ?_⟩
    have hwf0 := heap_wf_set_last h self tl.max.2 hwf
    obtain ⟨h3, m1, m2, m3, -⟩ := mark_spec (set_last h self tl.max.2) hwf0 self now
    obtain ⟨h4, vs, c1, c2, c3, c4⟩ := mark_calls_spec (set_last h self tl.max.2) hwf0 self now
    rw [hm] at m1 c2
    have e3 : h2 = h3 := Option.some.inj m1
    have e4 : h2 = h4 := Option.some.inj c2
    subst e3
    subst e4
    refine ⟨?_, ?_, ?_⟩
    · intro i b hi hb
      have hi0 := (ancestor_set_last h self tl.max.2 self i).2 hi
      have hb0 : (set_last h self tl.max.2)[i]?
          = some (if i = self then { b with last := tl.max.2 } else b) := by
        rw [set_last_get, hb]
        split_ifs <;> rfl
      exact ⟨_, m2 i _ hb0 hi0, rfl⟩
    · intro i hi
      have hi0 : ¬ ancestor_or_self (set_last h self tl.max.2) self i :=
        fun hc => hi ((ancestor_set_last h self tl.max.2 self i).1 hc)
      have hne : i ≠ self := by
        intro hc
        rw [hc] at hi
        exact hi Relation.ReflTransGen.refl
      show h2[i]? = h[i]?
      rw [m3 i hi0, set_last_get, if_neg hne]
    · intro hac
      refine ⟨set_last h self tl.max.2, vs, Or.inr rfl, c1,
        c4 (acyclic_of_parents h _ (set_last_parents h self _) hac), ?_⟩
      intro i
      rw [c3, ancestor_set_last]
  · exact ⟨_, hv, fun hc => absurd rfl hc⟩
  · refine ⟨_, hv, fun _ => ?_⟩
    obtain ⟨h3, m1, m2, m3, -⟩ := mark_spec h hwf self now
    obtain ⟨h4, vs, c1, c2, c3, c4⟩ := mark_calls_spec h hwf self now
    rw [hm] at m1 c2
    have e3 : h2 = h3 := Option.some.inj m1
    have e4 : h2 = h4 := Option.some.inj c2
    subst e3
    subst e4
    refine ⟨?_, m3, ?_⟩
    · intro i b hi hb
      exact ⟨_, m2 i b hb hi, rfl⟩
    · intro hac
      exact ⟨h, vs, Or.inl rfl, c1, c4 hac, c3⟩

theorem dag_marking_witness :
    heap_two_parents[2]? = some (agreement.mk_node 50 5 [0, 1]) ∧ heap_wf heap_two_parents ∧
    (agreement.mk_node 50 5 [0, 1]).scan tally.fresh (1000 - 50) 1000 (fixed_validators [])
      = some (tally.fresh, []) ∧
    ∃ r, vote heap_two_parents 2 (fixed_validators []) 1000 = some r ∧
      (r.2.2.1 ≠ [] →
        (∀ i b, ancestor_or_self heap_two_parents 2 i → heap_two_parents[i]? = some b →
          ∃ b1, r.1[i]? = some b1 ∧ b1.time = 1000) ∧
        (∀ i, ¬ ancestor_or_self heap_two_parents 2 i → r.1[i]? = heap_two_parents[i]?) ∧
        (acyclic heap_two_parents → ∃ h0 vs,
          (h0 = heap_two_parents ∨ h0 = set_last heap_two_parents 2 tally.fresh.max.2) ∧
          mark_calls h0 2 1000 = some (r.1, vs) ∧ vs.Nodup ∧
          ∀ i, i ∈ vs ↔ ancestor_or_self heap_two_parents 2 i)) :=
  ⟨by rfl, by decide, by rfl,
    dag_marking heap_two_parents 2 (fixed_validators []) 1000
      (agreement.mk_node 50 5 [0, 1]) tally.fresh [] (by rfl) (by decide) (by rfl)⟩

/-! ## Spacing of replacements -/

theorem mark_last_of (h : heap) (hwf : heap_wf h) (self : Nat) (now : time_point) (h1 : heap)
    (hm : mark h self now = some h1) (i : Nat) : last_of h1 i = last_of h i := by
  obtain ⟨h3, m1, -, -, m4⟩ := mark_spec h hwf self now
  rw [hm] at m1
  rw [Option.some.inj m1]
  exact m4 i

/-- A `vote` that changes `last` has found every cutoff of the node and its ancestors passed,
and leaves the node marked with `now`. -/
theorem vote_adopts (h : heap) (self : Nat) (vals : validators) (now : time_point)
    (a : agreement) (tl : tally) (evs : List event) (ha : h[self]? = some a)
    (hwf : heap_wf h) (hscan : a.scan tally.fresh (now - a.W) now vals = some (tl, evs))
    (r : heap × time_point × List (object × time_point) × List validator)
    (hv : vote h self vals now = some r) (had : last_of r.1 self ≠ some a.last) :
    (∀ i b, ancestor_or_self h self i → h[i]? = some b → b.time + a.W ≤ now) ∧
      r.1[self]? = some { a with last := tl.max.2, time := now } ∧
      r.1.map agreement.parents = h.map agreement.parents := by
  have hlast : last_of h self = some a.last := by simp [last_of, ha]
  rcases vote_cases h self vals now a tl evs ha hwf hscan with
    ⟨-, -, w, h2, hw, hle, hm, hv1⟩ | ⟨-, -, w, -, -, hv1⟩ | ⟨-, h2, hm, hv1⟩
  · rw [hv1] at hv
    have hr : r = (h2, now + a.W, [(tl.max.2, now)], faults_of evs) := (Option.some.inj hv).symm
    subst hr
    obtain ⟨w1, w2, -, w4, -⟩ := replaceable_spec h hwf self a ha
    rw [hw] at w2
    have hww : w = w1 := Option.some.inj w2
    subst hww
    have hwf0 := heap_wf_set_last h self tl.max.2 hwf
    obtain ⟨h3, m1, m2, -, -⟩ := mark_spec (set_last h self tl.max.2) hwf0 self now
    rw [hm] at m1
    have e3 : h2 = h3 := Option.some.inj m1
    subst e3
    refine ⟨fun i b hi hb => le_trans (w4 i b hi hb) hle, ?_, ?_⟩
    · have hb0 : (set_last h self tl.max.2)[self]? = some { a with last := tl.max.2 } := by
        rw [set_last_get, if_pos rfl, ha]; rfl
      exact m2 self _ hb0 Relation.ReflTransGen.refl
    · show h2.map agreement.parents = h.map agreement.parents
      rw [mark_parents _ self now h2 hm, set_last_parents]
  · rw [hv1] at hv
    rw [← Option.some.inj hv] at had
    exact absurd hlast had
  · rw [hv1] at hv
    rw [← Option.some.inj hv] at had
    exact absurd ((mark_last_of h hwf self now h2 hm self).trans hlast) had

/-- A `vote` on a node whose time is `t0`, at a time before `t0 + W`, does not change `last`,
and returns at least `t0 + W` if it is not earlier than `t0`. -/
theorem vote_within_window (h : heap) (self : Nat) (vals : validators) (now t0 : time_point)
    (b : agreement) (tl : tally) (evs : List event) (hb : h[self]? = some b)
    (hwf : heap_wf h) (hscan : b.scan tally.fresh (now - b.W) now vals = some (tl, evs))
    (ht : t0 ≤ b.time) (hlt : now < t0 + b.W) :
    ∃ r, vote h self vals now = some r ∧ last_of r.1 self = some b.last ∧
      (t0 ≤ now → t0 + b.W ≤ r.2.1) ∧ (r.2.2.1 = [] → t0 + b.W ≤ r.2.1 ∧ r.1 = h) := by
  have hlast : last_of h self = some b.last := by simp [last_of, hb]
  obtain ⟨w1, w2, -, w4, -⟩ := replaceable_spec h hwf self b hb
  have hself := w4 self b Relation.ReflTransGen.refl hb
  rcases vote_cases h self vals now b tl evs hb hwf hscan with
    ⟨-, -, w, h2, hw, hle, -, -⟩ | ⟨-, -, w, hw, -, hv1⟩ | ⟨-, h2, hm, hv1⟩
  · rw [hw] at w2
    rw [← Option.some.inj w2] at hself
    exfalso
    linarith
  · rw [hw] at w2
    rw [← Option.some.inj w2] at hself
    exact ⟨_, hv1, hlast, fun _ => by show t0 + b.W ≤ w; linarith,
      fun _ => ⟨by show t0 + b.W ≤ w; linarith, rfl⟩⟩
  · refine ⟨_, hv1, (mark_last_of h hwf self now h2 hm self).trans hlast, ?_, ?_⟩
    · intro h1
      show t0 + b.W ≤ now + b.W
      linarith
    · intro hc
      exact absurd hc (by simp)

/-- C13 as stated fails for a `now'` earlier than `now`: in scenario S8 the child adopts
object `2` in `vote (now = 1050)`; a further `vote (now' = 1000)` on it, with
`now' < now + W = 1100`, declares `last` again and returns `1050`, which is less than
`1100`. -/
theorem vote_earlier_returns_less :
    (∃ r, vote heap_s8 0 (uniform_validators 4) 1050 = some r ∧ r.1 = heap_s8_adopted ∧
      last_of r.1 0 = some 2 ∧ last_of heap_s8 0 = some 1) ∧
    ((1000 : time_point) < 1050 + 50) ∧
    (∃ r, vote heap_s8_adopted 0 (uniform_validators 4) 1000 = some r ∧ r.2.1 = 1050 ∧
      r.2.1 < 1050 + 50) :=
  ⟨⟨_, rfl, rfl, rfl, rfl⟩, by decide, ⟨_, rfl, rfl, by decide⟩⟩

/-- C13, as amended (replacement spacing, single step, for `now ≤ now' < now + W`).  Let a
`vote` at `now` on a node change `last`.  Then the node is left with time `now`, and on every
state in which the node has this time and its window `W`, a further `vote (now')` on that
node with `now ≤ now' < now + W` returns a value of at least `now + W` and leaves `last`
unchanged. -/
theorem replacement_spacing (h : heap) (self : Nat) (vals : validators) (now : time_point)
    (a : agreement) (tl : tally) (evs : List event) (ha : h[self]? = some a)
    (hwf : heap_wf h) (hscan : a.scan tally.fresh (now - a.W) now vals = some (tl, evs))
    (r1 : heap × time_point × List (object × time_point) × List validator)
    (hv : vote h self vals now = some r1) (had : last_of r1.1 self ≠ some a.last) :
    (∃ b, r1.1[self]? = some b ∧ b.time = now ∧ b.W = a.W ∧ heap_wf r1.1) ∧
    ∀ (h2 : heap) (b : agreement) (vals2 : validators) (now2 : time_point) (tl2 : tally)
      (evs2 : List event), heap_wf h2 → h2[self]? = some b → b.W = a.W → b.time = now →
      b.scan tally.fresh (now2 - b.W) now2 vals2 = some (tl2, evs2) →
      now ≤ now2 → now2 < now + a.W →
      ∃ r2, vote h2 self vals2 now2 = some r2 ∧ now + a.W ≤ r2.2.1 ∧
        last_of r2.1 self = some b.last := by
  obtain ⟨-, a2, a3⟩ := vote_adopts h self vals now a tl evs ha hwf hscan r1 hv had
  refine ⟨⟨_, a2, rfl, rfl, heap_wf_of_parents h r1.1 a3 hwf⟩, ?_⟩
  intro h2 b vals2 now2 tl2 evs2 hwf2 hb hW ht hscan2 h1 h3
  obtain ⟨r2, v1, v2, v3, -⟩ := vote_within_window h2 self vals2 now2 now b tl2 evs2 hb hwf2
    hscan2 (le_of_eq ht.symm) (by rw [hW]; exact h3)
  refine ⟨r2, v1, ?_, v2⟩
  have := v3 h1
  rw [hW] at this
  exact this

theorem replacement_spacing_witness :
    heap_s8[0]? = some node_s8 ∧ heap_wf heap_s8 ∧
    node_s8.scan tally.fresh (1050 - node_s8.W) 1050 (uniform_validators 4)
      = some (tally_of node_s8 1000 1050 (uniform_validators 4),
          calls_of node_s8 1000 1050 (uniform_validators 4)) ∧
    vote heap_s8 0 (uniform_validators 4) 1050
      = some (heap_s8_adopted, 1100, [(2, 1050)], []) ∧
    last_of heap_s8_adopted 0 ≠ some node_s8.last ∧
    ∃ r2, vote heap_s8_adopted 0 (uniform_validators 4) 1060 = some r2 ∧
      1050 + node_s8.W ≤ r2.2.1 ∧ last_of r2.1 0 = some 2 :=
  ⟨by rfl, by decide, by rfl, by rfl, by decide,
    (replacement_spacing heap_s8 0 (uniform_validators 4) 1050 node_s8
      (tally_of node_s8 1000 1050 (uniform_validators 4))
      (calls_of node_s8 1000 1050 (uniform_validators 4)) (by rfl) (by decide) (by rfl)
      (heap_s8_adopted, 1100, [(2, 1050)], []) (by rfl) (by decide)).2
      heap_s8_adopted ⟨50, [(1000, 0, 2), (1000, 1, 2), (1000, 2, 2)], [1], 1050, 2⟩
      (uniform_validators 4) 1060
      (tally_of ⟨50, [(1000, 0, 2), (1000, 1, 2), (1000, 2, 2)], [1], 1050, 2⟩ 1010 1060
        (uniform_validators 4))
      (calls_of ⟨50, [(1000, 0, 2), (1000, 1, 2), (1000, 2, 2)], [1], 1050, 2⟩ 1010 1060
        (uniform_validators 4))
      (by decide) (by rfl) (by rfl) (by rfl) (by rfl) (by decide) (by decide)⟩

/-! ## Runs of calls -/

theorem tally_frame (a : agreement) (begin endt : time_point) (vals : validators)
    (hold : duration) (r : agreement × List (object × weight) × List validator)
    (h : a.tally begin endt vals hold = some r) :
    r.1.W = a.W ∧ r.1.time = a.time ∧ r.1.last = a.last ∧ r.1.votes = a.votes ∧
      (r.1.parents = [] ∨ r.1.parents = a.parents) := by
  cases hscan : a.scan tally.fresh begin endt vals with
  | none => simp [agreement.tally, hscan] at h
  | some x =>
    obtain ⟨tl, evs⟩ := x
    rw [tally_eq_foldl a begin endt vals hold tl evs hscan] at h
    simp only [Option.some.injEq] at h
    subst h
    obtain ⟨ext, -, h2⟩ := foldl_sample_parents vals hold (edges_of evs) (sampler_init a)
    refine ⟨rfl, rfl, rfl, rfl, ?_⟩
    show (List.foldl (sample vals hold) (sampler_init a) (edges_of evs)).parents = [] ∨
      (List.foldl (sample vals hold) (sampler_init a) (edges_of evs)).parents = a.parents
    rw [h2]
    split_ifs
    · exact Or.inr rfl
    · exact Or.inl rfl

theorem uniform_wf_set (W : duration) (h : heap) (i : Nat) (a b : agreement)
    (hw : uniform_wf W h) (ha : h[i]? = some a) (hW : b.W = a.W)
    (hp : b.parents = [] ∨ b.parents = a.parents) : uniform_wf W (h.set i b) := by
  have hmem : a ∈ h := List.getElem?_mem ha
  refine ⟨?_, ?_⟩
  · intro c hc p hpc
    rw [List.length_set]
    rcases List.mem_or_eq_of_mem_set hc with h1 | h1
    · exact hw.1 c h1 p hpc
    · rw [h1] at hpc
      rcases hp with h2 | h2
      · rw [h2] at hpc; simp at hpc
      · rw [h2] at hpc; exact hw.1 a hmem p hpc
  · intro c hc
    rcases List.mem_or_eq_of_mem_set hc with h1 | h1
    · exact hw.2 c h1
    · rw [h1, hW]; exact hw.2 a hmem

theorem get_set_time (h : heap) (i X : Nat) (a b bX : agreement) (ha : h[i]? = some a)
    (ht : b.time = a.time) (hX : h[X]? = some bX) :
    ∃ c, (h.set i b)[X]? = some c ∧ c.time = bX.time := by
  have hlt : i < h.length := by
    by_contra hge
    rw [List.getElem?_eq_none (by omega)] at ha
    exact Option.noConfusion ha
  rw [List.getElem?_set]
  by_cases c : i = X
  · subst c
    rw [if_pos rfl, if_pos hlt]
    rw [ha] at hX
    exact ⟨b, rfl, by rw [ht, Option.some.inj hX]⟩
  · rw [if_neg c]
    exact ⟨bX, hX, rfl⟩

theorem vote_some_inv (h : heap) (self : Nat) (vals : validators) (now : time_point)
    (r : heap × time_point × List (object × time_point) × List validator)
    (hv : vote h self vals now = some r) :
    ∃ a tl evs, h[self]? = some a ∧
      a.scan tally.fresh (now - a.W) now vals = some (tl, evs) := by
  unfold vote at hv
  cases ha : h[self]? with
  | none => rw [ha] at hv; simp at hv
  | some a =>
    rw [ha] at hv
    simp only [] at hv
    cases hs : a.scan tally.fresh (now - a.W) now vals with
    | none => rw [hs] at hv; simp at hv
    | some x => exact ⟨a, x.1, x.2, rfl, hs⟩

/-- What a defined `vote` leaves of the nodes: the parents and the windows are kept, and
the time of a node is kept or set to `now`. -/
theorem vote_frame (h : heap) (self : Nat) (vals : validators) (now : time_point)
    (hwf : heap_wf h)
    (r : heap × time_point × List (object × time_point) × List validator)
    (hv : vote h self vals now = some r) :
    r.1.map agreement.parents = h.map agreement.parents ∧
      ∀ (i : Nat) (b : agreement), h[i]? = some b →
        ∃ c : agreement, r.1[i]? = some c ∧ c.W = b.W ∧ (c.time = b.time ∨ c.time = now) := by
  obtain ⟨a, tl, evs, ha, hscan⟩ := vote_some_inv h self vals now r hv
  have hmk : ∀ (g g1 : heap), heap_wf g → g[self]? ≠ none → mark g self now = some g1 →
      ∀ (i : Nat) (b : agreement), g[i]? = some b →
        ∃ c : agreement, g1[i]? = some c ∧ c.W = b.W ∧ (c.time = b.time ∨ c.time = now) := by
    intro g g1 hg _ hm i b hb
    obtain ⟨h3, m1, m2, m3, -⟩ := mark_spec g hg self now
    rw [hm] at m1
    rw [Option.some.inj m1]
    by_cases c : ancestor_or_self g self i
    · exact ⟨_, m2 i b hb c, rfl, Or.inr rfl⟩
    · exact ⟨b, by rw [m3 i c, hb], rfl, Or.inl rfl⟩
  rcases vote_cases h self vals now a tl evs ha hwf hscan with
    ⟨-, -, w, h2, -, -, hm, hv1⟩ | ⟨-, -, w, -, -, hv1⟩ | ⟨-, h2, hm, hv1⟩
  · rw [hv1] at hv
    rw [← Option.some.inj hv]
    refine ⟨by rw [mark_parents _ self now h2 hm, set_last_parents], ?_⟩
    intro i b hb
    have hb0 : (set_last h self tl.max.2)[i]?
        = some (if i = self then { b with last := tl.max.2 } else b) := by
      rw [set_last_get, hb]
      split_ifs <;> rfl
    obtain ⟨c, c1, c2, c3⟩ := hmk _ h2 (heap_wf_set_last h self _ hwf)
      (by rw [set_last_get, if_pos rfl, ha]; simp) hm i _ hb0
    refine ⟨c, c1, ?_, ?_⟩
    · rw [c2]; split_ifs <;> rfl
    · rcases c3 with c3 | c3
      · left; rw [c3]; split_ifs <;> rfl
      · exact Or.inr c3
  · rw [hv1] at hv
    rw [← Option.some.inj hv]
    exact ⟨rfl, fun i b hb => ⟨b, hb, rfl, Or.inl rfl⟩⟩
  · rw [hv1] at hv
    rw [← Option.some.inj hv]
    exact ⟨mark_parents h self now h2 hm, hmk h h2 hwf (by rw [ha]; simp) hm⟩

theorem uniform_wf_vote (W : duration) (h : heap) (self : Nat) (vals : validators)
    (now : time_point) (hw : uniform_wf W h)
    (r : heap × time_point × List (object × time_point) × List validator)
    (hv : vote h self vals now = some r) : uniform_wf W r.1 := by
  obtain ⟨f1, f2⟩ := vote_frame h self vals now hw.1 r hv
  refine ⟨heap_wf_of_parents h r.1 f1 hw.1, ?_⟩
  intro c hc
  obtain ⟨i, hi, hci⟩ := List.getElem_of_mem hc
  have hlen : r.1.length = h.length := by
    have := congrArg List.length f1
    simpa using this
  have hi2 : i < h.length := by omega
  obtain ⟨c1, e1, e2, -⟩ := f2 i h[i] (List.getElem?_eq_getElem hi2)
  rw [List.getElem?_eq_getElem hi] at e1
  have : c = c1 := by rw [← hci]; exact Option.some.inj e1
  rw [this, e2]
  exact hw.2 _ (List.getElem_mem hi2)

theorem uniform_wf_apply (W : duration) (h h1 : heap) (c : node_call) (hw : uniform_wf W h)
    (hc : apply_call h c = some h1) : uniform_wf W h1 := by
  cases c with
  | insert i item time v =>
    simp only [apply_call] at hc
    cases ha : h[i]? with
    | none => rw [ha] at hc; simp at hc
    | some a =>
      rw [ha] at hc
      rw [← Option.some.inj hc]
      exact uniform_wf_set W h i a _ hw ha rfl (Or.inr rfl)
  | tally i begin endt vals hold =>
    simp only [apply_call] at hc
    cases ha : h[i]? with
    | none => rw [ha] at hc; simp at hc
    | some a =>
      rw [ha] at hc
      simp only [] at hc
      cases ht : a.tally begin endt vals hold with
      | none => rw [ht] at hc; simp at hc
      | some r =>
        rw [ht] at hc
        rw [← Option.some.inj hc]
        obtain ⟨t1, -, -, -, t5⟩ := tally_frame a begin endt vals hold r ht
        exact uniform_wf_set W h i a r.1 hw ha t1 t5
  | vote i vals now =>
    simp only [apply_call] at hc
    cases hv : vote h i vals now with
    | none => rw [hv] at hc; simp at hc
    | some r =>
      rw [hv] at hc
      rw [← Option.some.inj hc]
      exact uniform_wf_vote W h i vals now hw r hv

theorem time_ge_apply (h h1 : heap) (c : node_call) (hwf : heap_wf h) (X : Nat)
    (t0 : time_point) (hc : apply_call h c = some h1) (hn : ∀ t ∈ nows [c], t0 ≤ t)
    (hX : ∃ bX, h[X]? = some bX ∧ t0 ≤ bX.time) :
    ∃ bX, h1[X]? = some bX ∧ t0 ≤ bX.time := by
  obtain ⟨bX, x1, x2⟩ := hX
  cases c with
  | insert i item time v =>
    simp only [apply_call] at hc
    cases ha : h[i]? with
    | none => rw [ha] at hc; simp at hc
    | some a =>
      rw [ha] at hc
      rw [← Option.some.inj hc]
      obtain ⟨c, c1, c2⟩ := get_set_time h i X a (a.insert item time v) bX ha rfl x1
      exact ⟨c, c1, by rw [c2]; exact x2⟩
  | tally i begin endt vals hold =>
    simp only [apply_call] at hc
    cases ha : h[i]? with
    | none => rw [ha] at hc; simp at hc
    | some a =>
      rw [ha] at hc
      simp only [] at hc
      cases ht : a.tally begin endt vals hold with
      | none => rw [ht] at hc; simp at hc
      | some r =>
        rw [ht] at hc
        rw [← Option.some.inj hc]
        obtain ⟨-, t2, -⟩ := tally_frame a begin endt vals hold r ht
        obtain ⟨c, c1, c2⟩ := get_set_time h i X a r.1 bX ha t2 x1
        exact ⟨c, c1, by rw [c2]; exact x2⟩
  | vote i vals now =>
    simp only [apply_call] at hc
    cases hv : vote h i vals now with
    | none => rw [hv] at hc; simp at hc
    | some r =>
      rw [hv] at hc
      rw [← Option.some.inj hc]
      obtain ⟨-, f2⟩ := vote_frame h i vals now hwf r hv
      obtain ⟨c, c1, -, c3⟩ := f2 X bX x1
      refine ⟨c, c1, ?_⟩
      rcases c3 with c3 | c3
      · rw [c3]; exact x2
      · rw [c3]; exact hn now (by simp [nows])

theorem nows_append (xs ys : List node_call) : nows (xs ++ ys) = nows xs ++ nows ys := by
  induction xs with
  | nil => rfl
  | cons x xs ih => cases x <;> simp [nows, ih]

theorem run_calls_inv (W : duration) (X : Nat) (t0 : time_point) :
    ∀ (cs : List node_call) (h h1 : heap), uniform_wf W h → run_calls h cs = some h1 →
      uniform_wf W h1 ∧
      ((∀ t ∈ nows cs, t0 ≤ t) → (∃ bX, h[X]? = some bX ∧ t0 ≤ bX.time) →
        ∃ bX, h1[X]? = some bX ∧ t0 ≤ bX.time) := by
  intro cs
  induction cs with
  | nil =>
    intro h h1 hw hr
    simp only [run_calls, Option.some.injEq] at hr
    subst hr
    exact ⟨hw, fun _ hX => hX⟩
  | cons c cs ih =>
    intro h h1 hw hr
    simp only [run_calls] at hr
    cases hc : apply_call h c with
    | none => rw [hc] at hr; simp at hr
    | some h2 =>
      rw [hc] at hr
      simp only [] at hr
      have hw2 := uniform_wf_apply W h h2 c hw hc
      obtain ⟨i1, i2⟩ := ih h2 h1 hw2 hr
      refine ⟨i1, ?_⟩
      intro hn hX
      have hsplit : nows (c :: cs) = nows [c] ++ nows cs := by
        rw [← nows_append]; rfl
      rw [hsplit] at hn
      exact i2 (fun t ht => hn t (List.mem_append_right _ ht))
        (time_ge_apply h h2 c hw.1 X t0 hc (fun t ht => hn t (List.mem_append_left _ ht)) hX)

theorem adopts_inv (h : heap) (i : Nat) (vals : validators) (now : time_point)
    (had : adopts h (node_call.vote i vals now) = true) :
    ∃ r a tl evs, vote h i vals now = some r ∧ h[i]? = some a ∧
      a.scan tally.fresh (now - a.W) now vals = some (tl, evs) ∧
      last_of r.1 i ≠ some a.last := by
  simp only [adopts] at had
  cases hv : vote h i vals now with
  | none => rw [hv] at had; simp at had
  | some r =>
    rw [hv] at had
    simp only [decide_eq_true_eq] at had
    obtain ⟨a, tl, evs, ha, hscan⟩ := vote_some_inv h i vals now r hv
    refine ⟨r, a, tl, evs, rfl, ha, hscan, ?_⟩
    have : last_of h i = some a.last := by simp [last_of, ha]
    rw [← this]
    exact had

/-- C14 (replacement spacing over runs).  Take a graph with valid parent pointers in which
every node has the window `W`, and a sequence of defined `insert`, `tally` and `vote` calls
on its nodes whose `now` arguments are non-decreasing along the sequence.  If the node `X`
adopts a new object in `vote (now1)`, and later in the sequence a `vote (now2)` adopts on
`X` itself or on a node `Y` that has `X` among its transitive ancestors at that moment, then
`now2 ≥ now1 + W`. -/
theorem spacing_over_runs (W : duration) (h0 h1 h2 : heap) (ops1 ops2 : List node_call)
    (X Y : Nat) (vals1 vals2 : validators) (now1 now2 : time_point)
    (hw : uniform_wf W h0) (hr1 : run_calls h0 ops1 = some h1)
    (had1 : adopts h1 (node_call.vote X vals1 now1) = true)
    (hr2 : run_calls h1 (node_call.vote X vals1 now1 :: ops2) = some h2)
    (had2 : adopts h2 (node_call.vote Y vals2 now2) = true)
    (hanc : ancestor_or_self h2 Y X)
    (hmono : (nows (ops1 ++ node_call.vote X vals1 now1 :: ops2
      ++ [node_call.vote Y vals2 now2])).Pairwise (fun s t => s ≤ t)) :
    now1 + W ≤ now2 := by
  have hw1 := (run_calls_inv W X now1 ops1 h0 h1 hw hr1).1
  obtain ⟨r1, a1, tl1, evs1, v1, g1, s1, l1⟩ := adopts_inv h1 X vals1 now1 had1
  obtain ⟨-, t1, -⟩ := vote_adopts h1 X vals1 now1 a1 tl1 evs1 g1 hw1.1 s1 r1 v1 l1
  have hw1r := uniform_wf_vote W h1 X vals1 now1 hw1 r1 v1
  have hr2b : run_calls r1.1 ops2 = some h2 := by
    simp only [run_calls, apply_call, v1] at hr2
    exact hr2
  have hn2 : ∀ t ∈ nows ops2, now1 ≤ t := by
    rw [List.append_assoc, nows_append, List.pairwise_append] at hmono
    have hm2 := hmono.2.1
    rw [List.cons_append] at hm2
    simp only [nows] at hm2
    rw [nows_append] at hm2
    intro t ht
    exact (List.pairwise_cons.1 hm2).1 t (List.mem_append_left _ ht)
  obtain ⟨hw2, hx2⟩ := run_calls_inv W X now1 ops2 r1.1 h2 hw1r hr2b
  obtain ⟨bX, x1, x2⟩ := hx2 hn2 ⟨_, t1, le_refl _⟩
  obtain ⟨r2, a2, tl2, evs2, v2, g2, s2, l2⟩ := adopts_inv h2 Y vals2 now2 had2
  obtain ⟨c1, -, -⟩ := vote_adopts h2 Y vals2 now2 a2 tl2 evs2 g2 hw2.1 s2 r2 v2 l2
  have hc := c1 X bX hanc x1
  have hWa : a2.W = W := hw2.2 a2 (List.getElem?_mem g2)
  rw [hWa] at hc
  linarith

theorem spacing_over_runs_witness :
    uniform_wf 50 heap_start ∧
    (∃ h1 h2, run_calls heap_start (three_votes 2 1000) = some h1 ∧
      adopts h1 (node_call.vote 0 (uniform_validators 4) 1000) = true ∧
      run_calls h1 (node_call.vote 0 (uniform_validators 4) 1000 :: three_votes 3 1050)
        = some h2 ∧
      adopts h2 (node_call.vote 0 (uniform_validators 4) 1060) = true) ∧
    (1000 : time_point) + 50 ≤ 1060 :=
  ⟨by decide, ⟨_, _, rfl, by rfl, rfl, by rfl⟩,
    spacing_over_runs 50 heap_start
      [⟨50, [(1000, 0, 2), (1000, 1, 2), (1000, 2, 2)], [1], 0, 1⟩, ⟨50, [], [], 0, 0⟩]
      [⟨50, [(1000, 0, 2), (1000, 1, 2), (1000, 2, 2), (1050, 0, 3), (1050, 1, 3),
          (1050, 2, 3)], [1], 1000, 2⟩, ⟨50, [], [], 1000, 0⟩]
      (three_votes 2 1000) (three_votes 3 1050) 0 0 (uniform_validators 4)
      (uniform_validators 4) 1000 1060 (by decide) (by rfl) (by rfl) (by rfl) (by rfl)
      Relation.ReflTransGen.refl (by decide)⟩

/-! ## Consistency of the tally -/

theorem sum_map_set (m : List (object × weight)) (o : object) (w : weight) :
    ((map_set m o w).map Prod.snd).sum + (map_find m o).getD 0 = (m.map Prod.snd).sum + w := by
  induction m with
  | nil => simp [map_set, map_find]
  | cons e rest ih =>
    obtain ⟨k0, w0⟩ := e
    simp only [map_set, map_find]
    by_cases h : k0 = o
    · simp only [if_pos h, List.map_cons, List.sum_cons, Option.getD_some]
      ring
    · simp only [if_neg h, List.map_cons, List.sum_cons]
      linarith

theorem map_set_length {κ ν : Type} [DecidableEq κ] (m : List (κ × ν)) (k : κ) (v v1 : ν) :
    (map_set m k v).length = (map_set m k v1).length := by
  induction m with
  | nil => simp [map_set]
  | cons e rest ih =>
    obtain ⟨k0, v0⟩ := e
    simp only [map_set]
    split_ifs
    · simp
    · simp [ih]

theorem total_sum_sort_add (t : tally) (w : weight) (o : object)
    (h : t.total_m = (t.totals_m.map Prod.snd).sum) :
    (t.sort w o (fun a b => a + b)).total_m
      = ((t.sort w o (fun a b => a + b)).totals_m.map Prod.snd).sum := by
  have h1 := sum_map_set t.totals_m o ((map_find t.totals_m o).getD 0 + w)
  show t.total_m + w = ((map_set t.totals_m o ((map_find t.totals_m o).getD 0 + w)).map
    Prod.snd).sum
  linarith

theorem total_sum_sort_sub (t : tally) (w : weight) (o : object)
    (h : t.total_m = (t.totals_m.map Prod.snd).sum) :
    (t.sort w o (fun a b => a - b)).total_m
      = ((t.sort w o (fun a b => a - b)).totals_m.map Prod.snd).sum := by
  have h1 := sum_map_set t.totals_m o ((map_find t.totals_m o).getD 0 - w)
  show t.total_m - w = ((map_set t.totals_m o ((map_find t.totals_m o).getD 0 - w)).map
    Prod.snd).sum
  linarith

theorem total_sum_apply (t : tally) (c : tally_call)
    (h : t.total_m = (t.totals_m.map Prod.snd).sum) :
    (apply_tally_call t c).total_m = ((apply_tally_call t c).totals_m.map Prod.snd).sum := by
  cases c with
  | rise time v o vals =>
    simp only [apply_tally_call, tally.rise]
    split_ifs
    · exact total_sum_sort_add _ _ _ h
    · exact h
    · exact h
  | fall time v o =>
    simp only [apply_tally_call, tally.fall]
    split_ifs
    · exact total_sum_sort_sub _ _ _ h
    · exact h

theorem rank_wf_apply (t : tally) (c : tally_call) (h : rank_wf t) :
    rank_wf (apply_tally_call t c) := by
  cases c with
  | rise time v o vals => exact rank_wf_rise t time v o vals h
  | fall time v o => exact rank_wf_fall t time v o h

theorem foldl_apply_inv (Q : tally → Prop) (S : tally_call → Prop)
    (hstep : ∀ t c, S c → Q t → Q (apply_tally_call t c)) :
    ∀ (cs : List tally_call) (t : tally), (∀ c ∈ cs, S c) → Q t →
      Q (cs.foldl apply_tally_call t) := by
  intro cs
  induction cs with
  | nil => intro t _ h; exact h
  | cons c cs ih =>
    intro t hS h
    simp only [List.foldl_cons]
    exact ih _ (fun x hx => hS x (List.mem_cons_of_mem _ hx))
      (hstep t c (hS c (List.mem_cons_self _ _)) h)

theorem dropWhile_dropWhile_of_mem_imp {α : Type} (p q : α → Bool) :
    ∀ l : List α, (∀ e ∈ l, p e = true → q e = true) →
      (l.dropWhile p).dropWhile q = l.dropWhile q := by
  intro l
  induction l with
  | nil => intro _; rfl
  | cons e rest ih =>
    intro h
    by_cases hp : p e = true
    · have hq := h e (List.mem_cons_self _ _) hp
      rw [List.dropWhile_cons_of_pos hp, List.dropWhile_cons_of_pos hq]
      exact ih (fun x hx => h x (List.mem_cons_of_mem _ hx))
    · rw [List.dropWhile_cons_of_neg hp]

theorem dropWhile_append_stop {α : Type} (p : α → Bool) (A B : List α) (x : α)
    (hA : ∀ e ∈ A, p e = true) (hx : p x = false) :
    (A ++ x :: B).dropWhile p = x :: B := by
  induction A with
  | nil => simp [List.dropWhile, hx]
  | cons a A ih =>
    rw [List.cons_append, List.dropWhile_cons_of_pos (hA a (List.mem_cons_self _ _))]
    exact ih (fun e he => hA e (List.mem_cons_of_mem _ he))

theorem rank_entry_iff (t : tally) (h : rank_wf t) (w : weight) (o : object) :
    (w, o) ∈ t.rank ↔ map_find t.totals_m o = some w := by
  obtain ⟨hp, hn, -⟩ := h
  rw [hp.mem_iff]
  constructor
  · intro hm
    rw [List.mem_map] at hm
    obtain ⟨e, he, hsw⟩ := hm
    obtain ⟨o1, w1⟩ := e
    simp only [Prod.swap_prod_mk, Prod.mk.injEq] at hsw
    obtain ⟨rfl, rfl⟩ := hsw
    exact map_find_of_mem _ _ _ hn he
  · intro hf
    exact List.mem_map.2 ⟨(o, w), map_find_mem _ _ _ hf, rfl⟩

theorem rank_objects_nodup (t : tally) (h : rank_wf t) : (t.rank.map Prod.snd).Nodup := by
  obtain ⟨hp, hn, -⟩ := h
  have h1 : (t.rank.map Prod.snd).Perm ((t.totals_m.map Prod.swap).map Prod.snd) :=
    hp.map Prod.snd
  rw [List.map_map] at h1
  have h2 : (Prod.snd ∘ Prod.swap : object × weight → object) = Prod.fst := by
    funext x; rfl
  rw [h2] at h1
  exact h1.nodup_iff.2 hn

theorem sort_assert_found_of (t : tally) (o : object) (h : rank_wf t)
    (hpos : ∀ e ∈ t.rank, 0 ≤ e.1) : sort_assert_found t o := by
  have hobj := rank_objects_nodup t h
  have hsorted := h.2.2
  unfold sort_assert_found sort_search
  cases hf : map_find t.totals_m o with
  | some w =>
    simp only [Option.getD_some]
    have hmem := (rank_entry_iff t h w o).2 hf
    have himp : ∀ e ∈ t.rank, decide (w < e.1) = true →
        decide (¬ e.1 < w ∧ e.2 ≠ o) = true := by
      intro e he h1
      simp only [decide_eq_true_eq] at h1 ⊢
      refine ⟨by linarith, ?_⟩
      intro hc
      have h2 : (e.1, o) ∈ t.rank := by rw [← hc]; exact he
      have h3 := (rank_entry_iff t h e.1 o).1 h2
      rw [hf] at h3
      have h4 := Option.some.inj h3
      linarith
    rw [dropWhile_dropWhile_of_mem_imp _ _ t.rank himp]
    obtain ⟨A, B, hAB⟩ := List.append_of_mem hmem
    rw [hAB] at hsorted hobj ⊢
    have hA : ∀ e ∈ A, decide (¬ e.1 < w ∧ e.2 ≠ o) = true := by
      intro e he
      simp only [decide_eq_true_eq]
      refine ⟨?_, ?_⟩
      · have := (List.pairwise_append.1 hsorted).2.2 e he (w, o) (List.mem_cons_self _ _)
        exact not_lt.2 this
      · intro hc
        simp only [List.map_append, List.map_cons] at hobj
        have h5 := (List.nodup_append.1 hobj).2.2
        exact h5 (List.mem_map.2 ⟨e, he, hc⟩) (List.mem_cons_self _ _)
    rw [dropWhile_append_stop _ A B (w, o) hA (by simp)]
    exact ⟨rfl, rfl⟩
  | none =>
    simp only [Option.getD_none]
    have hno : ∀ e ∈ t.rank, e.2 ≠ o := by
      intro e he hc
      have h2 : (e.1, o) ∈ t.rank := by rw [← hc]; exact he
      have h3 := (rank_entry_iff t h e.1 o).1 h2
      rw [hf] at h3
      exact Option.noConfusion h3
    have himp : ∀ e ∈ t.rank, decide ((0 : weight) < e.1) = true →
        decide (¬ e.1 < (0 : weight) ∧ e.2 ≠ o) = true := by
      intro e he h1
      simp only [decide_eq_true_eq] at h1 ⊢
      exact ⟨by linarith, hno e he⟩
    rw [dropWhile_dropWhile_of_mem_imp _ _ t.rank himp]
    have hall : t.rank.dropWhile (fun e => decide (¬ e.1 < (0 : weight) ∧ e.2 ≠ o)) = [] := by
      rw [List.dropWhile_eq_nil_iff]
      intro e he
      simp only [decide_eq_true_eq]
      exact ⟨not_lt.2 (hpos e he), hno e he⟩
    rw [hall]
    trivial

theorem sort_assert_size_of (t : tally) (w : weight) (o : object)
    (op : weight → weight → weight) (h : rank_wf t) : sort_assert_size t w o op := by
  unfold sort_assert_size
  have h1 := (rank_wf_sort t w o op h).1.length_eq
  rw [List.length_map] at h1
  rw [h1]
  exact map_set_length _ _ _ _

theorem run_tally_rank_wf (cs : List tally_call) : rank_wf (run_tally cs) :=
  foldl_apply_inv rank_wf (fun _ => True) (fun t c _ h => rank_wf_apply t c h) cs tally.fresh
    (fun _ _ => trivial) rank_wf_fresh

/-- Tally consistency, with the sums computed in the integers.  After any sequence of `rise` and `fall` calls on a fresh tally,
`rank` and `totals` have the same number of entries, every entry `(w, o)` of `rank` has
`totals[o] = w`, each object occurs once in `rank`, and `total ()` is the sum of the values
of `totals ()`.  The second assertion of `sort` holds in every call of `sort` made in this
state, and so does the first one as long as no total is negative (the weights being a
non-negative type). -/
theorem tally_consistency (cs : List tally_call) :
    (run_tally cs).rank.length = (run_tally cs).totals.length ∧
    (∀ e ∈ (run_tally cs).rank, map_find (run_tally cs).totals e.2 = some e.1) ∧
    ((run_tally cs).rank.map Prod.snd).Nodup ∧
    (run_tally cs).total = ((run_tally cs).totals.map Prod.snd).sum ∧
    (∀ w o op, sort_assert_size (run_tally cs) w o op) ∧
    ((∀ e ∈ (run_tally cs).rank, 0 ≤ e.1) → ∀ o, sort_assert_found (run_tally cs) o) := by
  have hrk := run_tally_rank_wf cs
  have htot : (run_tally cs).total_m = ((run_tally cs).totals_m.map Prod.snd).sum :=
    foldl_apply_inv (fun t => t.total_m = (t.totals_m.map Prod.snd).sum) (fun _ => True)
      (fun t c _ h => total_sum_apply t c h) cs tally.fresh (fun _ _ => trivial) rfl
  refine ⟨?_, ?_, rank_objects_nodup _ hrk, htot, ?_, ?_⟩
  · have := hrk.1.length_eq
    rw [List.length_map] at this
    exact this
  · intro e he
    exact (rank_entry_iff _ hrk e.1 e.2).1 he
  · intro w o op
    exact sort_assert_size_of _ w o op hrk
  · intro hpos o
    exact sort_assert_found_of _ o hrk hpos

/-! ## One active vote per validator -/

theorem active_total_map_set (m : List (validator × slot)) (v : validator) (s : slot) :
    active_total (map_set m v s) + ((map_find m v).map stored).getD 0
      = active_total m + stored s := by
  induction m with
  | nil => simp [map_set, map_find, active_total]
  | cons e rest ih =>
    obtain ⟨k0, s0⟩ := e
    simp only [map_set, map_find]
    by_cases h : k0 = v
    · simp only [if_pos h, active_total, List.map_cons, List.sum_cons, Option.map_some',
        Option.getD_some]
      ring
    · simp only [if_neg h, active_total, List.map_cons, List.sum_cons]
      simp only [active_total] at ih
      linarith

theorem stored_slot_of (t : tally) (v : validator) :
    ((map_find t.votes v).map stored).getD 0 = stored (t.slot_of v) := by
  simp only [tally.slot_of]
  cases map_find t.votes v with
  | none => simp [stored, time_point_default]
  | some s => simp

theorem total_active_rise (t : tally) (time : time_point) (v : validator) (o : object)
    (vals : validators) (ht : time ≠ time_point_default)
    (h : t.total_m = active_total t.votes) :
    (t.rise time v o vals).1.total_m = active_total (t.rise time v o vals).1.votes := by
  simp only [tally.rise]
  split_ifs with c1 c2
  · show t.total_m + vals.weight v = active_total (map_set t.votes v (o, time, vals.weight v))
    have h1 := active_total_map_set t.votes v (o, time, vals.weight v)
    rw [stored_slot_of] at h1
    have h0 : stored (t.slot_of v) = 0 := by simp [stored, c1]
    have h2 : stored (o, time, vals.weight v) = vals.weight v := by simp [stored, ht]
    rw [h0, h2] at h1
    linarith
  · show t.total_m = active_total (map_set t.votes v ((t.slot_of v).1, time, (t.slot_of v).2.2))
    have h1 := active_total_map_set t.votes v ((t.slot_of v).1, time, (t.slot_of v).2.2)
    rw [stored_slot_of] at h1
    have h2 : stored ((t.slot_of v).1, time, (t.slot_of v).2.2) = stored (t.slot_of v) := by
      simp [stored, ht, c1]
    rw [h2] at h1
    linarith
  · show t.total_m = active_total (map_set t.votes v (t.slot_of v))
    have h1 := active_total_map_set t.votes v (t.slot_of v)
    rw [stored_slot_of] at h1
    linarith

theorem total_active_fall (t : tally) (time : time_point) (v : validator) (o : object)
    (ht : time ≠ time_point_default) (h : t.total_m = active_total t.votes) :
    (t.fall time v o).total_m = active_total (t.fall time v o).votes := by
  simp only [tally.fall]
  split_ifs with c1
  · show t.total_m - (t.slot_of v).2.2
      = active_total (map_set t.votes v ((t.slot_of v).1, time_point_default, (t.slot_of v).2.2))
    have h1 := active_total_map_set t.votes v
      ((t.slot_of v).1, time_point_default, (t.slot_of v).2.2)
    rw [stored_slot_of] at h1
    have h0 : stored ((t.slot_of v).1, time_point_default, (t.slot_of v).2.2) = 0 := by
      simp [stored]
    have h2 : stored (t.slot_of v) = (t.slot_of v).2.2 := by
      simp [stored, ← c1.1, ht]
    rw [h0, h2] at h1
    linarith
  · show t.total_m = active_total (map_set t.votes v (t.slot_of v))
    have h1 := active_total_map_set t.votes v (t.slot_of v)
    rw [stored_slot_of] at h1
    linarith

theorem sum_wf_apply (t : tally) (c : tally_call) (ht : call_time c ≠ time_point_default)
    (h : sum_wf t) : sum_wf (apply_tally_call t c) := by
  cases c with
  | rise time v o vals => exact sum_wf_rise t time v o vals ht h
  | fall time v o => exact sum_wf_fall t time v o ht h

theorem total_active_apply (t : tally) (c : tally_call)
    (ht : call_time c ≠ time_point_default) (h : t.total_m = active_total t.votes) :
    (apply_tally_call t c).total_m = active_total (apply_tally_call t c).votes := by
  cases c with
  | rise time v o vals => exact total_active_rise t time v o vals ht h
  | fall time v o => exact total_active_fall t time v o ht h

theorem contrib_nonneg (o : object) (s : slot) (h : 0 ≤ s.2.2) : 0 ≤ contrib o s := by
  unfold contrib
  split_ifs
  · exact h
  · exact le_refl _

theorem contrib_le_active_weight (votes : List (validator × slot)) (o : object)
    (hpos : ∀ e ∈ votes, 0 ≤ e.2.2.2) (e : validator × slot) (he : e ∈ votes) :
    contrib o e.2 ≤ active_weight votes o := by
  induction votes with
  | nil => simp at he
  | cons x rest ih =>
    simp only [active_weight, List.map_cons, List.sum_cons]
    have hrest : 0 ≤ active_weight rest o := by
      unfold active_weight
      apply List.sum_nonneg
      intro y hy
      rw [List.mem_map] at hy
      obtain ⟨z, hz, rfl⟩ := hy
      exact contrib_nonneg o z.2 (hpos z (List.mem_cons_of_mem _ hz))
    rcases List.mem_cons.1 he with h1 | h1
    · rw [h1]
      unfold active_weight at hrest
      linarith
    · have h2 := ih (fun y hy => hpos y (List.mem_cons_of_mem _ hy)) h1
      have h3 := contrib_nonneg o x.2 (hpos x (List.mem_cons_self _ _))
      unfold active_weight at h2
      linarith

theorem empty_sums (votes : List (validator × slot))
    (h : votes.all (fun e => decide (e.2.2.1 = time_point_default)) = true) :
    active_total votes = 0 ∧ ∀ o, active_weight votes o = 0 := by
  induction votes with
  | nil => exact ⟨rfl, fun _ => rfl⟩
  | cons x rest ih =>
    simp only [List.all_cons, Bool.and_eq_true, decide_eq_true_eq] at h
    obtain ⟨i1, i2⟩ := ih h.2
    refine ⟨?_, ?_⟩
    · simp only [active_total, List.map_cons, List.sum_cons]
      simp only [active_total] at i1
      rw [i1]
      simp [stored, h.1]
    · intro o
      simp only [active_weight, List.map_cons, List.sum_cons]
      have := i2 o
      simp only [active_weight] at this
      rw [this]
      simp [contrib, h.1]

/-- One active vote per validator, with the sums computed in the integers.  After any
sequence of `rise` and `fall` calls on a
fresh tally whose time arguments all differ from the default time point, `total ()` is the
sum of the stored weights of the validators that have an active vote, `totals[o]` is that sum
over the validators whose active vote names `o`, and every validator has one entry, so none
is counted twice.  If no stored weight is negative, `totals[o]` is at least the stored
weight of every validator active on `o`; and `empty ()` implies that `total ()` is `0` and
every value of `totals ()` is `0`. -/
theorem one_vote_per_validator (cs : List tally_call)
    (hnt : ∀ c ∈ cs, call_time c ≠ time_point_default) :
    (run_tally cs).total = active_total (run_tally cs).votes ∧
    (∀ o, (map_find (run_tally cs).totals o).getD 0 = active_weight (run_tally cs).votes o) ∧
    ((run_tally cs).votes.map Prod.fst).Nodup ∧
    ((∀ e ∈ (run_tally cs).votes, 0 ≤ e.2.2.2) →
      ∀ v s, map_find (run_tally cs).votes v = some s → s.2.1 ≠ time_point_default →
        s.2.2 ≤ (map_find (run_tally cs).totals s.1).getD 0) ∧
    ((run_tally cs).empty = true →
      (run_tally cs).total = 0 ∧ ∀ e ∈ (run_tally cs).totals, e.2 = 0) := by
  have hrk := run_tally_rank_wf cs
  have hsum : sum_wf (run_tally cs) :=
    foldl_apply_inv sum_wf (fun c => call_time c ≠ time_point_default)
      (fun t c hc h => sum_wf_apply t c hc h) cs tally.fresh hnt sum_wf_fresh
  have htot : (run_tally cs).total_m = active_total (run_tally cs).votes :=
    foldl_apply_inv (fun t => t.total_m = active_total t.votes)
      (fun c => call_time c ≠ time_point_default)
      (fun t c hc h => total_active_apply t c hc h) cs tally.fresh hnt rfl
  refine ⟨htot, hsum.2, hsum.1, ?_, ?_⟩
  · intro hpos v s hv hs
    have hmem := map_find_mem _ _ _ hv
    have h1 := contrib_le_active_weight (run_tally cs).votes s.1 hpos (v, s) hmem
    have h2 : contrib s.1 s = s.2.2 := by simp [contrib, hs]
    show s.2.2 ≤ (map_find (run_tally cs).totals_m s.1).getD 0
    rw [hsum.2 s.1, ← h2]
    exact h1
  · intro hem
    obtain ⟨e1, e2⟩ := empty_sums (run_tally cs).votes hem
    refine ⟨htot.trans e1, ?_⟩
    intro e he
    have h1 := map_find_of_mem _ _ _ hrk.2.1 he
    have h2 := hsum.2 e.1
    rw [h1, e2] at h2
    exact h2

theorem one_vote_per_validator_witness :
    (∀ c ∈ calls_insert_different.take 2, call_time c ≠ time_point_default) ∧
    (run_tally (calls_insert_different.take 2)).total = 2 ∧
    (run_tally (calls_insert_different.take 2)).total
      = active_total (run_tally (calls_insert_different.take 2)).votes ∧
    (∀ o, (map_find (run_tally (calls_insert_different.take 2)).totals o).getD 0
      = active_weight (run_tally (calls_insert_different.take 2)).votes o) :=
  ⟨by decide, by rfl,
    (one_vote_per_validator (calls_insert_different.take 2) (by decide)).1,
    (one_vote_per_validator (calls_insert_different.take 2) (by decide)).2.1⟩

/-! ## Single calls of `rise` and `fall` -/

theorem map_set_self {κ ν : Type} [DecidableEq κ] (m : List (κ × ν)) (k : κ) (v : ν)
    (h : map_find m k = some v) : map_set m k v = m := by
  induction m with
  | nil => simp [map_find] at h
  | cons e rest ih =>
    obtain ⟨k0, v0⟩ := e
    simp only [map_find] at h
    simp only [map_set]
    by_cases c : k0 = k
    · rw [if_pos c] at h ⊢
      rw [← Option.some.inj h, c]
    · rw [if_neg c] at h ⊢
      rw [ih h]

theorem slot_of_find (t : tally) (v : validator) (h : (t.slot_of v).2.1 ≠ time_point_default) :
    map_find t.votes v = some (t.slot_of v) := by
  unfold tally.slot_of at h ⊢
  cases hf : map_find t.votes v with
  | none => rw [hf] at h; exact absurd rfl h
  | some s => rfl

theorem slot_of_map_set (t : tally) (v : validator) (s : slot) (t1 : tally)
    (h : t1.votes = map_set t.votes v s) : t1.slot_of v = s := by
  unfold tally.slot_of
  rw [h, map_find_map_set, if_pos rfl]
  rfl

/-- Rise of a new vote, with the sums computed in the integers.  If validator `v` has no active vote and `time` is not the
default time point, `rise (time, v, o, validators, fault)` does not invoke `fault`, stores
`(o, time, weight (v))` as the active vote of `v`, increases `totals[o]` and `total ()` by
`validators.weight (v)`, and leaves the total of every other object unchanged. -/
theorem rise_new_vote (t : tally) (time : time_point) (v : validator) (o : object)
    (vals : validators) (hv : (t.slot_of v).2.1 = time_point_default)
    (ht : time ≠ time_point_default) :
    (t.rise time v o vals).2 = none ∧
    map_find (t.rise time v o vals).1.votes v = some (o, time, vals.weight v) ∧
    ((t.rise time v o vals).1.slot_of v).2.1 ≠ time_point_default ∧
    (map_find (t.rise time v o vals).1.totals o).getD 0
      = (map_find t.totals o).getD 0 + vals.weight v ∧
    (t.rise time v o vals).1.total = t.total + vals.weight v ∧
    ∀ o1, o1 ≠ o → map_find (t.rise time v o vals).1.totals o1 = map_find t.totals o1 := by
  have key : t.rise time v o vals
      = (({ t with votes := map_set t.votes v (o, time, vals.weight v) } : tally).sort
          (vals.weight v) o (fun a b => a + b), none) := by
    simp only [tally.rise, if_pos hv]
  rw [key]
  have hvotes : map_find (map_set t.votes v (o, time, vals.weight v)) v
      = some (o, time, vals.weight v) := by
    rw [map_find_map_set, if_pos rfl]
  refine ⟨rfl, hvotes, ?_, ?_, rfl, ?_⟩
  · show ((map_find (map_set t.votes v (o, time, vals.weight v)) v).getD
      (0, time_point_default, 0)).2.1 ≠ time_point_default
    rw [hvotes]
    exact ht
  · show (map_find (map_set t.totals_m o ((map_find t.totals_m o).getD 0 + vals.weight v))
      o).getD 0 = _
    rw [map_find_map_set, if_pos rfl]
    rfl
  · intro o1 ho
    show map_find (map_set t.totals_m o ((map_find t.totals_m o).getD 0 + vals.weight v)) o1
      = map_find t.totals_m o1
    rw [map_find_map_set, if_neg (Ne.symm ho)]

theorem rise_new_vote_witness :
    (tally.fresh.slot_of 0).2.1 = time_point_default ∧
    (tally.fresh.rise 1000 0 1 (uniform_validators 3)).2 = none ∧
    map_find (tally.fresh.rise 1000 0 1 (uniform_validators 3)).1.votes 0
      = some (1, 1000, (uniform_validators 3).weight 0) ∧
    ((tally.fresh.rise 1000 0 1 (uniform_validators 3)).1.slot_of 0).2.1
      ≠ time_point_default ∧
    (map_find (tally.fresh.rise 1000 0 1 (uniform_validators 3)).1.totals 1).getD 0
      = (map_find tally.fresh.totals 1).getD 0 + (uniform_validators 3).weight 0 ∧
    (tally.fresh.rise 1000 0 1 (uniform_validators 3)).1.total
      = tally.fresh.total + (uniform_validators 3).weight 0 ∧
    ∀ o1, o1 ≠ 1 → map_find (tally.fresh.rise 1000 0 1 (uniform_validators 3)).1.totals o1
      = map_find tally.fresh.totals o1 :=
  ⟨by rfl, rise_new_vote tally.fresh 1000 0 1 (uniform_validators 3) (by rfl) (by decide)⟩

theorem rise_other_object (t : tally) (time : time_point) (v : validator) (o2 : object)
    (vals : validators) (h2 : (t.slot_of v).2.1 ≠ time_point_default)
    (hne : (t.slot_of v).1 ≠ o2) : t.rise time v o2 vals = (t, some v) := by
  simp only [tally.rise, if_neg h2]
  rw [if_neg hne, map_set_self _ _ _ (slot_of_find t v h2)]

/-- C18 (fault purity).  If validator `v` has an active vote for object `o1`, then
`rise (time, v, o2, ...)` with `o2 ≠ o1` invokes `fault (v)` once and leaves the whole tally
as it was: `total ()`, `totals ()`, `max ()` and the entry of `v`, whatever the weight of
`v` in the validator set is. -/
theorem fault_purity (t : tally) (time : time_point) (v : validator) (o1 o2 : object)
    (vals : validators) (h1 : (t.slot_of v).1 = o1)
    (h2 : (t.slot_of v).2.1 ≠ time_point_default) (hne : o2 ≠ o1) :
    t.rise time v o2 vals = (t, some v) ∧
    (t.rise time v o2 vals).1.total = t.total ∧
    (t.rise time v o2 vals).1.totals = t.totals ∧
    (t.rise time v o2 vals).1.max = t.max ∧
    (t.rise time v o2 vals).1.slot_of v = t.slot_of v := by
  have key : t.rise time v o2 vals = (t, some v) :=
    rise_other_object t time v o2 vals h2 (by rw [h1]; exact Ne.symm hne)
  rw [key]
  exact ⟨rfl, rfl, rfl, rfl, rfl⟩

theorem fault_purity_witness :
    ((tally.fresh.rise 1000 0 1 (uniform_validators 3)).1.slot_of 0).1 = 1 ∧
    ((tally.fresh.rise 1000 0 1 (uniform_validators 3)).1.slot_of 0).2.1
      ≠ time_point_default ∧
    (tally.fresh.rise 1000 0 1 (uniform_validators 3)).1.rise 1001 0 2 (fixed_validators [])
      = ((tally.fresh.rise 1000 0 1 (uniform_validators 3)).1, some 0) :=
  ⟨by rfl, by decide,
    (fault_purity (tally.fresh.rise 1000 0 1 (uniform_validators 3)).1 1001 0 1 2
      (fixed_validators []) (by rfl) (by decide) (by decide)).1⟩

theorem fresh_rise (time : time_point) (v : validator) (o : object) (vals : validators) :
    tally.fresh.rise time v o vals
      = (⟨[(vals.weight v, o)], [(o, vals.weight v)], [(v, (o, time, vals.weight v))],
          vals.weight v⟩, none) := by
  simp [tally.rise, tally.fresh, tally.slot_of, map_find, tally.sort, map_set,
    tally.rank_erase, tally.rank_insert, time_point_default]

theorem fresh_rise_slot (time : time_point) (v : validator) (o : object) (vals : validators) :
    (tally.fresh.rise time v o vals).1.slot_of v = (o, time, vals.weight v) := by
  rw [fresh_rise]
  simp [tally.slot_of, map_find]

theorem two_contradicting_faults (W : duration) (vals : validators) (time : time_point)
    (v : validator) (o o2 : object) (hW : 0 < W) (ht : time ≠ time_point_default)
    (hne : o ≠ o2) :
    faults_of (scan_c W time vals [(time, v, o), (time, v, o2)] tally.fresh).2 = [v] := by
  have hno : ∀ tl, expire_c W time [(time, v, o), (time, v, o2)] tl
      = ([(time, v, o), (time, v, o2)], tl, []) := by
    intro tl
    apply expire_c_noop
    intro e he
    simp only [List.head?_cons, Option.some.injEq] at he
    subst he
    show time - W < time
    linarith
  have hr1 := fresh_rise time v o vals
  have hr2 : (tally.fresh.rise time v o vals).1.rise time v o2 vals
      = ((tally.fresh.rise time v o vals).1, some v) := by
    apply rise_other_object
    · rw [fresh_rise_slot]; exact ht
    · rw [fresh_rise_slot]; exact hne
  have hd : ∀ tl, drain_c W time [(time, v, o), (time, v, o2)] tl = (tl, []) := by
    intro tl
    simp only [drain_c]
    rw [if_neg (by linarith)]
  simp only [scan_c, rise_c, hno, hd, hr2, faults_of_append, faults_of_edge_if]
  rfl

/-- C19 as stated fails at the default time point: on a fresh tally
`rise (time_point{}, 0, 1)` leaves `empty ()` true, a following `rise (1000, 0, 2)` invokes
no `fault` and changes `total ()`, and two contradicting votes of validator `0` at the
default time point make `tally (t, t)` report no fault. -/
theorem rise_default_not_active :
    (tally.fresh.rise time_point_default 0 1 (uniform_validators 3)).1.empty = true ∧
    ((tally.fresh.rise time_point_default 0 1 (uniform_validators 3)).1.rise 1000 0 2
      (uniform_validators 3)).2 = none ∧
    ((tally.fresh.rise time_point_default 0 1 (uniform_validators 3)).1.rise 1000 0 2
      (uniform_validators 3)).1.total
      ≠ (tally.fresh.rise time_point_default 0 1 (uniform_validators 3)).1.total ∧
    ((node_of 50 0 [(time_point_default, 0, 1), (time_point_default, 0, 2)]).tally
      time_point_default time_point_default (uniform_validators 3) 0).map (fun r => r.2.2)
      = some [] :=
  ⟨by rfl, by rfl, by decide, by rfl⟩

/-- C19, as amended (a rise at a time other than the default time point opens an active
vote).  For every time `time` other than the default time point, validator `v` and objects
`o ≠ o2`, on a fresh tally `rise (time, v, o)` leaves `v` with an active vote: afterwards
`empty ()` is false, and a following `rise (time2, v, o2)` invokes `fault (v)` and leaves the
tally, so `total ()` and `totals ()`, unchanged.  At log level, for `W > 0`, a log of two
contradicting votes of `v` at the time `time` makes `tally (time, time)` report exactly one
fault, for `v`. -/
theorem rise_opens_vote (time time2 : time_point) (v : validator) (o o2 : object)
    (vals vals2 : validators) (ht : time ≠ time_point_default) (hne : o ≠ o2) :
    (tally.fresh.rise time v o vals).1.empty = false ∧
    (tally.fresh.rise time v o vals).1.rise time2 v o2 vals2
      = ((tally.fresh.rise time v o vals).1, some v) ∧
    ∀ (a : agreement) (hold : duration), 0 < a.W →
      a.votes = [(time, v, o), (time, v, o2)] →
      ∃ r, a.tally time time vals hold = some r ∧ r.2.2 = [v] := by
  have hr1 := fresh_rise time v o vals
  refine ⟨?_, ?_, ?_⟩
  · rw [hr1]
    simp [tally.empty, ht]
  · apply rise_other_object
    · rw [fresh_rise_slot]; exact ht
    · rw [fresh_rise_slot]; exact hne
  · intro a hold hW hvotes
    have hsel : selected a.votes time time = a.votes :=
      selected_eq_self a.votes time time (fun e he => by
        rw [hvotes] at he
        simp only [List.mem_cons, List.mem_singleton, List.not_mem_nil, or_false] at he
        rcases he with h1 | h1 <;> rw [h1] <;> exact ⟨le_refl _, le_refl _⟩)
    have hscan := scan_eq a tally.fresh time time vals hW (le_refl _)
    rw [hsel, hvotes] at hscan
    rw [tally_eq_foldl a time time vals hold _ _ hscan]
    exact ⟨_, rfl, two_contradicting_faults a.W vals time v o o2 hW ht hne⟩

theorem rise_opens_vote_witness :
    (1000 : time_point) ≠ time_point_default ∧
    (tally.fresh.rise 1000 0 1 (uniform_validators 3)).1.empty = false ∧
    (tally.fresh.rise 1000 0 1 (uniform_validators 3)).1.rise 1001 0 2 (uniform_validators 3)
      = ((tally.fresh.rise 1000 0 1 (uniform_validators 3)).1, some 0) ∧
    ∃ r, (node_of 50 0 [(1000, 0, 1), (1000, 0, 2)]).tally 1000 1000 (uniform_validators 3) 0
        = some r ∧ r.2.2 = [0] :=
  ⟨by decide,
    (rise_opens_vote 1000 1001 0 1 2 (uniform_validators 3) (uniform_validators 3)
      (by decide) (by decide)).1,
    (rise_opens_vote 1000 1001 0 1 2 (uniform_validators 3) (uniform_validators 3)
      (by decide) (by decide)).2.1,
    (rise_opens_vote 1000 1001 0 1 2 (uniform_validators 3) (uniform_validators 3)
      (by decide) (by decide)).2.2 (node_of 50 0 [(1000, 0, 1), (1000, 0, 2)]) 0
      (by decide) rfl⟩

/-- C20 (idempotent rise).  If `v` has an active vote for `o` opened at time `t0`, then
`rise (t1, v, o)` with `t1 > t0` invokes no `fault`, leaves `total ()`, `totals ()` and
`rank` unchanged, and only replaces the stored time of `v` by `t1`.  Afterwards
`fall (t0, v, o)` leaves the tally as it is, and `fall (t1, v, o)` removes the vote: it closes
the entry of `v` and takes its stored weight from `totals[o]` and `total ()`. -/
theorem idempotent_rise (t : tally) (t0 t1 : time_point) (v : validator) (o : object)
    (vals : validators) (h1 : (t.slot_of v).1 = o) (h2 : (t.slot_of v).2.1 = t0)
    (h0 : t0 ≠ time_point_default) (hlt : t0 < t1) :
    (t.rise t1 v o vals).2 = none ∧
    (t.rise t1 v o vals).1.total = t.total ∧
    (t.rise t1 v o vals).1.totals = t.totals ∧
    (t.rise t1 v o vals).1.rank = t.rank ∧
    (t.rise t1 v o vals).1.votes = map_set t.votes v (o, t1, (t.slot_of v).2.2) ∧
    (t.rise t1 v o vals).1.fall t0 v o = (t.rise t1 v o vals).1 ∧
    (((t.rise t1 v o vals).1.fall t1 v o).slot_of v).2.1 = time_point_default ∧
    ((t.rise t1 v o vals).1.fall t1 v o).total = t.total - (t.slot_of v).2.2 ∧
    (map_find ((t.rise t1 v o vals).1.fall t1 v o).totals o).getD 0
      = (map_find t.totals o).getD 0 - (t.slot_of v).2.2 := by
  have hact : (t.slot_of v).2.1 ≠ time_point_default := by rw [h2]; exact h0
  have key : t.rise t1 v o vals
      = ({ t with votes := map_set t.votes v (o, t1, (t.slot_of v).2.2) }, none) := by
    simp only [tally.rise, if_neg hact, if_pos h1]
    rw [h1]
  rw [key]
  have hslot : ({ t with votes := map_set t.votes v (o, t1, (t.slot_of v).2.2) } : tally).slot_of v
      = (o, t1, (t.slot_of v).2.2) := slot_of_map_set t v _ _ rfl
  refine ⟨rfl, rfl, rfl, rfl, rfl, ?_, ?_, ?_, ?_⟩
  · show ({ t with votes := map_set t.votes v (o, t1, (t.slot_of v).2.2) } : tally).fall t0 v o
      = { t with votes := map_set t.votes v (o, t1, (t.slot_of v).2.2) }
    simp only [tally.fall, hslot]
    rw [if_neg (by intro hc; exact absurd hc.1 (ne_of_lt hlt))]
    rw [map_set_self]
    rw [map_find_map_set, if_pos rfl]
  · show ((({ t with votes := map_set t.votes v (o, t1, (t.slot_of v).2.2) } : tally).fall
      t1 v o).slot_of v).2.1 = time_point_default
    simp only [tally.fall, hslot]
    rw [if_pos ⟨trivial, trivial⟩]
    rw [slot_of_map_set _ v (o, time_point_default, (t.slot_of v).2.2) _ rfl]
  · show (({ t with votes := map_set t.votes v (o, t1, (t.slot_of v).2.2) } : tally).fall
      t1 v o).total_m = t.total_m - (t.slot_of v).2.2
    simp only [tally.fall, hslot]
    rw [if_pos ⟨trivial, trivial⟩]
    rfl
  · show (map_find (({ t with votes := map_set t.votes v (o, t1, (t.slot_of v).2.2) } :
      tally).fall t1 v o).totals_m o).getD 0 = (map_find t.totals_m o).getD 0 - (t.slot_of v).2.2
    simp only [tally.fall, hslot]
    rw [if_pos ⟨trivial, trivial⟩]
    show (map_find (map_set t.totals_m o ((map_find t.totals_m o).getD 0 - (t.slot_of v).2.2))
      o).getD 0 = _
    rw [map_find_map_set, if_pos rfl]
    rfl

theorem idempotent_rise_witness :
    ((tally.fresh.rise 1000 0 1 (uniform_validators 3)).1.slot_of 0).1 = 1 ∧
    ((tally.fresh.rise 1000 0 1 (uniform_validators 3)).1.slot_of 0).2.1 = 1000 ∧
    (((tally.fresh.rise 1000 0 1 (uniform_validators 3)).1.rise 1001 0 1
      (uniform_validators 3)).1.fall 1000 0 1).max = (1, 1) ∧
    ((tally.fresh.rise 1000 0 1 (uniform_validators 3)).1.rise 1001 0 1
      (uniform_validators 3)).1.fall 1000 0 1
      = ((tally.fresh.rise 1000 0 1 (uniform_validators 3)).1.rise 1001 0 1
          (uniform_validators 3)).1 :=
  ⟨by rfl, by rfl, by rfl,
    (idempotent_rise (tally.fresh.rise 1000 0 1 (uniform_validators 3)).1 1000 1001 0 1
      (uniform_validators 3) (by rfl) (by rfl) (by decide) (by decide)).2.2.2.2.2.1⟩

/-! ## Round trips and rejected falls -/

theorem map_find_keys {κ ν : Type} [DecidableEq κ] (m : List (κ × ν)) (k : κ) :
    k ∈ m.map Prod.fst ↔ ∃ v, map_find m k = some v := by
  constructor
  · intro h
    cases hf : map_find m k with
    | none => exact absurd h ((map_find_none_iff m k).1 hf)
    | some v => exact ⟨v, rfl⟩
  · rintro ⟨v, hv⟩
    by_contra hc
    rw [(map_find_none_iff m k).2 hc] at hv
    exact Option.noConfusion hv

/-- C21 (rise/fall round trip).  In every tally state in which `v` has no active vote, for
every non-default time, `rise (time, v, o)` opens a vote of `v` and the following
`fall (time, v, o)` restores `total ()` and the weight of every object: the entry of `o` is
present with its previous value, or `0` if it had none, the other entries are as before, and
`v` is left without an active vote. -/
theorem rise_fall_round_trip (t : tally) (time : time_point) (v : validator) (o : object)
    (vals : validators) (hv : (t.slot_of v).2.1 = time_point_default)
    (ht : time ≠ time_point_default) :
    ((t.rise time v o vals).1.slot_of v).2.1 ≠ time_point_default ∧
    ((t.rise time v o vals).1.fall time v o).total = t.total ∧
    (∀ o1, (map_find ((t.rise time v o vals).1.fall time v o).totals o1).getD 0
      = (map_find t.totals o1).getD 0) ∧
    map_find ((t.rise time v o vals).1.fall time v o).totals o
      = some ((map_find t.totals o).getD 0) ∧
    (∀ o1, o1 ≠ o →
      map_find ((t.rise time v o vals).1.fall time v o).totals o1 = map_find t.totals o1) ∧
    (((t.rise time v o vals).1.fall time v o).slot_of v).2.1 = time_point_default := by
  have key : (t.rise time v o vals).1
      = ({ t with votes := map_set t.votes v (o, time, vals.weight v) } : tally).sort
          (vals.weight v) o (fun a b => a + b) := by
    simp only [tally.rise, if_pos hv]
  have hslot : (t.rise time v o vals).1.slot_of v = (o, time, vals.weight v) := by
    rw [key]
    exact slot_of_map_set t v _ _ rfl
  have hfall : (t.rise time v o vals).1.fall time v o
      = { (t.rise time v o vals).1.sort (vals.weight v) o (fun a b => a - b) with
          votes := map_set ((t.rise time v o vals).1.sort (vals.weight v) o
            (fun a b => a - b)).votes v (o, time_point_default, vals.weight v) } := by
    simp only [tally.fall, hslot]
    rw [if_pos ⟨trivial, trivial⟩]
  have hfind : map_find ((t.rise time v o vals).1.fall time v o).totals_m o
      = some ((map_find t.totals_m o).getD 0) := by
    rw [hfall, key]
    simp only [tally.sort, map_find_map_set, if_true, Option.getD_some]
    congr 1
    ring
  have hother : ∀ o1, o1 ≠ o →
      map_find ((t.rise time v o vals).1.fall time v o).totals_m o1 = map_find t.totals_m o1 := by
    intro o1 ho
    rw [hfall, key]
    simp only [tally.sort, map_find_map_set, if_neg (Ne.symm ho)]
  refine ⟨by rw [hslot]; exact ht, ?_, ?_, hfind, hother, ?_⟩
  · rw [hfall, key]
    show t.total_m + vals.weight v - vals.weight v = t.total_m
    ring
  · intro o1
    by_cases c : o1 = o
    · subst c
      show (map_find ((t.rise time v o1 vals).1.fall time v o1).totals_m o1).getD 0 = _
      rw [hfind]
      rfl
    · show (map_find ((t.rise time v o vals).1.fall time v o).totals_m o1).getD 0 = _
      rw [hother o1 c]
      rfl
  · rw [hfall]
    rw [slot_of_map_set _ v (o, time_point_default, vals.weight v) _ rfl]

theorem rise_fall_round_trip_witness :
    (tally.fresh.slot_of 0).2.1 = time_point_default ∧
    ((tally.fresh.rise 1000 0 1 (uniform_validators 3)).1.fall 1000 0 1).total
      = tally.fresh.total ∧
    map_find ((tally.fresh.rise 1000 0 1 (uniform_validators 3)).1.fall 1000 0 1).totals 1
      = some ((map_find tally.fresh.totals 1).getD 0) :=
  ⟨by rfl,
    (rise_fall_round_trip tally.fresh 1000 0 1 (uniform_validators 3) (by rfl)
      (by decide)).2.1,
    (rise_fall_round_trip tally.fresh 1000 0 1 (uniform_validators 3) (by rfl)
      (by decide)).2.2.2.1⟩

/-- C22 as stated fails for a fall at the default time point: after the calls
`rise (1000, 0, 1)` and `fall (1000, 0, 1)` of the test `insert_erase` validator `0` has no
active vote, and `fall (time_point{}, 0, 1)` changes `total ()`. -/
theorem fall_default_not_noop :
    ((run_tally [tally_call.rise 1000 0 1 (uniform_validators 3),
      tally_call.fall 1000 0 1]).slot_of 0).2.1 = time_point_default ∧
    ((run_tally [tally_call.rise 1000 0 1 (uniform_validators 3),
      tally_call.fall 1000 0 1]).fall time_point_default 0 1).total
      ≠ (run_tally [tally_call.rise 1000 0 1 (uniform_validators 3),
          tally_call.fall 1000 0 1]).total :=
  ⟨by rfl, by decide⟩

/-- C22, as amended (rejected fall).  In every tally state, if `v` has no active vote and
`time` is not the default time point, or the active vote of `v` does not match both `time`
and `o`, then `fall (time, v, o)` changes nothing: `total ()`, `totals ()`, `rank` and so
`max ()`, and the vote stored for every validator are as before.  So the fall scheduled for
a rise that was rejected as a fault, the active vote naming another object, never
decrements. -/
theorem rejected_fall (t : tally) (time : time_point) (v : validator) (o : object)
    (h : ((t.slot_of v).2.1 = time_point_default ∧ time ≠ time_point_default) ∨
      ((t.slot_of v).2.1 ≠ time_point_default ∧
        ¬ (time = (t.slot_of v).2.1 ∧ o = (t.slot_of v).1))) :
    (t.fall time v o).total = t.total ∧ (t.fall time v o).totals = t.totals ∧
    (t.fall time v o).rank = t.rank ∧ (t.fall time v o).max = t.max ∧
    ∀ v1, (t.fall time v o).slot_of v1 = t.slot_of v1 := by
  have hc : ¬ (time = (t.slot_of v).2.1 ∧ o = (t.slot_of v).1) := by
    rcases h with ⟨h1, h2⟩ | ⟨-, h2⟩
    · rw [h1]; exact fun hc => h2 hc.1
    · exact h2
  have key : t.fall time v o = { t with votes := map_set t.votes v (t.slot_of v) } := by
    simp only [tally.fall, if_neg hc]
  rw [key]
  refine ⟨rfl, rfl, rfl, rfl, ?_⟩
  intro v1
  unfold tally.slot_of
  show (map_find (map_set t.votes v ((map_find t.votes v).getD (0, time_point_default, 0)))
    v1).getD (0, time_point_default, 0) = _
  rw [map_find_map_set]
  split_ifs with c
  · subst c; rfl
  · rfl

theorem rejected_fall_witness :
    (((tally.fresh.rise 1000 0 1 (uniform_validators 3)).1.slot_of 0).2.1
      ≠ time_point_default ∧
      ¬ ((1001 : time_point) = ((tally.fresh.rise 1000 0 1 (uniform_validators 3)).1.slot_of 0).2.1
        ∧ 2 = ((tally.fresh.rise 1000 0 1 (uniform_validators 3)).1.slot_of 0).1)) ∧
    ((tally.fresh.rise 1000 0 1 (uniform_validators 3)).1.fall 1001 0 2).total
      = (tally.fresh.rise 1000 0 1 (uniform_validators 3)).1.total ∧
    ((tally.fresh.rise 1000 0 1 (uniform_validators 3)).1.fall 1001 0 2).totals
      = (tally.fresh.rise 1000 0 1 (uniform_validators 3)).1.totals :=
  ⟨by decide,
    (rejected_fall (tally.fresh.rise 1000 0 1 (uniform_validators 3)).1 1001 0 2
      (Or.inr (by decide))).1,
    (rejected_fall (tally.fresh.rise 1000 0 1 (uniform_validators 3)).1 1001 0 2
      (Or.inr (by decide))).2.1⟩

/-! ## The maximum and the retained entries -/

/-- C23 (`max` returns the heaviest object).  In every tally state reached by `rise` and
`fall` calls from a fresh tally in which `totals ()` is not empty, `max ()` returns a pair
`(w, o)` with `totals[o] = w`, and `w` is at least the total of every object of
`totals ()`. -/
theorem max_heaviest (cs : List tally_call) (hne : (run_tally cs).totals ≠ []) :
    map_find (run_tally cs).totals (run_tally cs).max.2 = some (run_tally cs).max.1 ∧
    (∀ o w, map_find (run_tally cs).totals o = some w → w ≤ (run_tally cs).max.1) ∧
    ∀ e ∈ (run_tally cs).totals, e.2 ≤ (run_tally cs).max.1 := by
  have hrk := run_tally_rank_wf cs
  rcases max_spec (run_tally cs) hrk with ⟨-, h2, -⟩ | ⟨h2, h3⟩
  · exact absurd h2 hne
  · refine ⟨h2, h3, ?_⟩
    intro e he
    exact h3 e.1 e.2 (map_find_of_mem _ _ _ hrk.2.1 he)

theorem max_heaviest_witness :
    (run_tally (calls_insert_different.take 3)).totals ≠ [] ∧
    (run_tally (calls_insert_different.take 3)).max = (1, 1) ∧
    map_find (run_tally (calls_insert_different.take 3)).totals
      (run_tally (calls_insert_different.take 3)).max.2
      = some (run_tally (calls_insert_different.take 3)).max.1 :=
  ⟨by decide, by rfl, (max_heaviest (calls_insert_different.take 3) (by decide)).1⟩

/-- C24 as stated fails: after `rise (1000, 0, 1)` and `fall (1000, 0, 1)` (test
`insert_erase`) `empty ()` holds and `max ()` returns `(0, 1)`, the retained entry of object
`1`, not the default-constructed object `0`; and after `rise (time_point{}, 0, 1)`
`empty ()` holds and `max ()` returns the weight `1`. -/
theorem max_after_erase :
    (run_tally [tally_call.rise 1000 0 1 (uniform_validators 3),
      tally_call.fall 1000 0 1]).empty = true ∧
    (run_tally [tally_call.rise 1000 0 1 (uniform_validators 3),
      tally_call.fall 1000 0 1]).max = (0, 1) ∧
    ((0, 1) : weight × object) ≠ (0, 0) ∧
    (run_tally [tally_call.rise time_point_default 0 1 (uniform_validators 3)]).empty = true ∧
    (run_tally [tally_call.rise time_point_default 0 1 (uniform_validators 3)]).max = (1, 1) :=
  ⟨by rfl, by rfl, by decide, by rfl, by rfl⟩

/-- C24, as amended (`max` on an empty tally).  In every tally state reached from a fresh
tally by `rise` and `fall` calls at times other than the default time point in which
`empty ()` holds, `max ()` returns the weight `0`; its object is the default-constructed
object if `totals ()` is empty, and otherwise an object retained in `totals ()` with the
value `0`. -/
theorem max_when_empty (cs : List tally_call)
    (hnt : ∀ c ∈ cs, call_time c ≠ time_point_default)
    (hem : (run_tally cs).empty = true) :
    (run_tally cs).max.1 = 0 ∧
    ((run_tally cs).totals = [] → (run_tally cs).max = (0, 0)) ∧
    ((run_tally cs).totals ≠ [] →
      map_find (run_tally cs).totals (run_tally cs).max.2 = some 0) := by
  have hrk := run_tally_rank_wf cs
  have hsum : sum_wf (run_tally cs) :=
    foldl_apply_inv sum_wf (fun c => call_time c ≠ time_point_default)
      (fun t c hc h => sum_wf_apply t c hc h) cs tally.fresh hnt sum_wf_fresh
  obtain ⟨-, e2⟩ := empty_sums (run_tally cs).votes hem
  rcases max_spec (run_tally cs) hrk with ⟨-, h2, h3⟩ | ⟨h2, -⟩
  · refine ⟨by rw [h3], fun _ => h3, fun hc => absurd h2 hc⟩
  · have h4 := hsum.2 (run_tally cs).max.2
    rw [h2, e2] at h4
    have h5 : (run_tally cs).max.1 = 0 := h4
    refine ⟨h5, ?_, fun _ => by rw [← h5]; exact h2⟩
    intro hc
    have h6 : (run_tally cs).totals_m = [] := hc
    rw [h6] at h2
    simp [map_find] at h2

theorem max_when_empty_witness :
    (∀ c ∈ calls_insert_different, call_time c ≠ time_point_default) ∧
    (run_tally calls_insert_different).empty = true ∧
    (run_tally calls_insert_different).max.1 = 0 ∧
    ((run_tally calls_insert_different).totals ≠ [] →
      map_find (run_tally calls_insert_different).totals
        (run_tally calls_insert_different).max.2 = some 0) :=
  ⟨by decide, by rfl,
    (max_when_empty calls_insert_different (by decide) (by rfl)).1,
    (max_when_empty calls_insert_different (by decide) (by rfl)).2.2⟩

theorem map_set_keys_mono {κ ν : Type} [DecidableEq κ] (m : List (κ × ν)) (k k1 : κ) (v : ν)
    (h : k1 ∈ m.map Prod.fst) : k1 ∈ (map_set m k v).map Prod.fst := by
  rw [map_find_keys] at h ⊢
  obtain ⟨w, hw⟩ := h
  rw [map_find_map_set]
  split_ifs
  · exact ⟨v, rfl⟩
  · exact ⟨w, hw⟩

theorem map_set_key_self {κ ν : Type} [DecidableEq κ] (m : List (κ × ν)) (k : κ) (v : ν) :
    k ∈ (map_set m k v).map Prod.fst := by
  rw [map_find_keys]
  exact ⟨v, by rw [map_find_map_set, if_pos rfl]⟩

theorem totals_keys_apply (t : tally) (c : tally_call) (o : object)
    (h : o ∈ t.totals_m.map Prod.fst) : o ∈ (apply_tally_call t c).totals_m.map Prod.fst := by
  cases c with
  | rise time v o1 vals =>
    simp only [apply_tally_call, tally.rise]
    split_ifs
    · exact map_set_keys_mono _ _ _ _ h
    · exact h
    · exact h
  | fall time v o1 =>
    simp only [apply_tally_call, tally.fall]
    split_ifs
    · exact map_set_keys_mono _ _ _ _ h
    · exact h

/-- The object of every open vote has an entry in `totals`. -/
theorem open_object_has_entry (cs : List tally_call) :
    ∀ v s, map_find (run_tally cs).votes v = some s → s.2.1 ≠ time_point_default →
      s.1 ∈ (run_tally cs).totals_m.map Prod.fst := by
  refine foldl_apply_inv
    (fun t => ∀ v s, map_find t.votes v = some s → s.2.1 ≠ time_point_default →
      s.1 ∈ t.totals_m.map Prod.fst) (fun _ => True) ?_ cs tally.fresh (fun _ _ => trivial)
    (fun v s hv => by simp [tally.fresh, map_find] at hv)
  intro t c _ hq
  cases c with
  | rise time v o vals =>
    intro v1 s hv hs
    simp only [apply_tally_call, tally.rise] at hv ⊢
    split_ifs at hv ⊢ with c1 c2
    · simp only [tally.sort, map_find_map_set] at hv
      show s.1 ∈ (map_set t.totals_m o _).map Prod.fst
      split_ifs at hv with c3
      · rw [← Option.some.inj hv]
        exact map_set_key_self _ _ _
      · exact map_set_keys_mono _ _ _ _ (hq v1 s hv hs)
    · simp only [map_find_map_set] at hv
      split_ifs at hv with c3
      · rw [← Option.some.inj hv]
        exact hq v (t.slot_of v) (slot_of_find t v c1) c1
      · exact hq v1 s hv hs
    · simp only [map_find_map_set] at hv
      split_ifs at hv with c3
      · rw [← Option.some.inj hv]
        exact hq v (t.slot_of v) (slot_of_find t v c1) c1
      · exact hq v1 s hv hs
  | fall time v o =>
    intro v1 s hv hs
    simp only [apply_tally_call, tally.fall] at hv ⊢
    split_ifs at hv ⊢ with c1
    · simp only [tally.sort, map_find_map_set] at hv
      show s.1 ∈ (map_set t.totals_m o _).map Prod.fst
      split_ifs at hv with c3
      · rw [← Option.some.inj hv] at hs
        exact absurd rfl hs
      · exact map_set_keys_mono _ _ _ _ (hq v1 s hv hs)
    · simp only [map_find_map_set] at hv
      split_ifs at hv with c3
      · rw [← Option.some.inj hv] at hs ⊢
        exact hq v (t.slot_of v) (slot_of_find t v hs) hs
      · exact hq v1 s hv hs

theorem single_vote_edges (W : duration) (endt time : time_point) (vals : validators)
    (v : validator) (o : object) (hW : 0 < W) (he : time + W < endt) :
    (edges_of (scan_c W endt vals [(time, v, o)] tally.fresh).2).map
        (fun e => (e.1, e.2.totals))
      = [(time, [(o, vals.weight v)]), (time + W, [(o, 0)])] := by
  have hno : expire_c W time [(time, v, o)] tally.fresh = ([(time, v, o)], tally.fresh, []) := by
    apply expire_c_noop
    intro e h1
    simp only [List.head?_cons, Option.some.injEq] at h1
    subst h1
    show time - W < time
    linarith
  simp only [scan_c, rise_c, hno, drain_c, if_pos he, fresh_rise, boundary, edge_if, fault_if,
    if_true, List.nil_append, List.append_nil, edges_of, List.map_cons, List.map_nil]
  simp [tally.fall, tally.slot_of, map_find, tally.sort, map_set, tally.totals]

theorem totals_keys_run (cs cs2 : List tally_call) (o : object)
    (h : o ∈ (run_tally cs).totals_m.map Prod.fst) :
    o ∈ (run_tally (cs ++ cs2)).totals_m.map Prod.fst := by
  simp only [run_tally, List.foldl_append]
  exact foldl_apply_inv (fun t => o ∈ t.totals_m.map Prod.fst) (fun _ => True)
    (fun t c _ hq => totals_keys_apply t c o hq) cs2 _ (fun _ _ => trivial) h

theorem active_weight_zero (votes : List (validator × slot)) (o : object)
    (h : ∀ e ∈ votes, e.2.2.1 ≠ time_point_default → e.2.1 ≠ o) :
    active_weight votes o = 0 := by
  unfold active_weight
  apply List.sum_eq_zero
  intro x hx
  obtain ⟨e, he, rfl⟩ := List.mem_map.1 hx
  unfold contrib
  split_ifs with c
  · exact absurd c.2 (h e he c.1)
  · rfl

/-- C25 (zero-weight retention).  Neither `rise` nor `fall` removes a key from `totals ()`, in
any state of the tally.  In a state reached from a fresh tally, a `rise` for `o` that reports
no fault leaves `o` with an entry, and an entry stays through every later sequence of calls.
When the calls were made at times other than `time_point{}` and no open vote names `o`, the
entry of `o` has the value 0.  A scan of the single vote `(t, v, o)` of weight 1, with
`t + W < end`, gives the edges `(t, {o: 1})` and `(t + W, {o: 0})`. -/
theorem zero_weight_retention (cs : List tally_call) (o : object)
    (hnt : ∀ c ∈ cs, call_time c ≠ time_point_default) :
    (∀ (t : tally) (c : tally_call), o ∈ t.totals.map Prod.fst →
      o ∈ (apply_tally_call t c).totals.map Prod.fst) ∧
    (∀ time v vals, ((run_tally cs).rise time v o vals).2 = none →
      o ∈ ((run_tally cs).rise time v o vals).1.totals.map Prod.fst) ∧
    (∀ cs2, o ∈ (run_tally cs).totals.map Prod.fst →
      o ∈ (run_tally (cs ++ cs2)).totals.map Prod.fst) ∧
    (o ∈ (run_tally cs).totals.map Prod.fst →
      (∀ e ∈ (run_tally cs).votes, e.2.2.1 ≠ time_point_default → e.2.1 ≠ o) →
      map_find (run_tally cs).totals o = some 0) ∧
    (∀ (W : duration) (endt time : time_point) (vals : validators) (v : validator),
      0 < W → time + W < endt → vals.weight v = 1 →
      (edges_of (scan_c W endt vals [(time, v, o)] tally.fresh).2).map
          (fun e => (e.1, e.2.totals))
        = [(time, [(o, 1)]), (time + W, [(o, 0)])]) := by
  have hsum : sum_wf (run_tally cs) :=
    foldl_apply_inv sum_wf (fun c => call_time c ≠ time_point_default)
      (fun t c hc h => sum_wf_apply t c hc h) cs tally.fresh hnt sum_wf_fresh
  refine ⟨fun t c h => totals_keys_apply t c o h, ?_, fun cs2 h => totals_keys_run cs cs2 o h,
    ?_, ?_⟩
  · intro time v vals hf
    have hop := open_object_has_entry cs
    show o ∈ ((run_tally cs).rise time v o vals).1.totals_m.map Prod.fst
    simp only [tally.rise] at hf ⊢
    split_ifs at hf ⊢ with c1 c2
    · exact map_set_key_self _ _ _
    · rw [← c2]
      exact hop v _ (slot_of_find _ v c1) c1
  · intro hk hno
    obtain ⟨w, hw⟩ := (map_find_keys _ _).1 hk
    have h1 := hsum.2 o
    rw [active_weight_zero _ o hno] at h1
    show map_find (run_tally cs).totals_m o = some 0
    have hw2 : map_find (run_tally cs).totals_m o = some w := hw
    rw [hw2] at h1 ⊢
    simp only [Option.getD_some] at h1
    rw [h1]
  · intro W endt time vals v hW he hw
    rw [single_vote_edges W endt time vals v o hW he, hw]

theorem zero_weight_retention_witness :
    (∀ c ∈ calls_insert_different, call_time c ≠ time_point_default) ∧
    (1 ∈ (run_tally (calls_insert_different.take 1)).totals.map Prod.fst) ∧
    (1 ∈ (run_tally calls_insert_different).totals.map Prod.fst) ∧
    map_find (run_tally calls_insert_different).totals 1 = some 0 ∧
    (edges_of (scan_c 50 2000 (uniform_validators 3) [(1000, 0, 7)] tally.fresh).2).map
        (fun e => (e.1, e.2.totals))
      = [(1000, [(7, 1)]), (1050, [(7, 0)])] :=
  ⟨by decide, by decide, by decide,
    (zero_weight_retention calls_insert_different 1 (by decide)).2.2.2.1 (by decide)
      (by decide),
    (zero_weight_retention [] 7 (by decide)).2.2.2.2 50 2000 1000 (uniform_validators 3) 0
      (by decide) (by decide) (by rfl)⟩

/-! ## Order of the edges, and ranges without votes -/

/-- C27 (scan monotonicity).  For a positive window, a time-ordered log (the log is a
`std::multimap` keyed by time) and a range `[begin, end]`, `scan` returns, and the times of
its `edge` calls, in the order of the calls, are non-decreasing. -/
theorem scan_monotonicity (a : agreement) (tl : tally) (begin endt : time_point)
    (vals : validators) (hW : 0 < a.W) (hb : begin ≤ endt) (hs : log_sorted a.votes) :
    ∃ tl1 evs, a.scan tl begin endt vals = some (tl1, evs) ∧
      (edge_times evs).Pairwise (fun x y => x ≤ y) :=
  ⟨_, _, scan_eq a tl begin endt vals hW hb,
    scan_edge_times_sorted a tl begin endt vals _ _ hs (scan_eq a tl begin endt vals hW hb)⟩

theorem scan_monotonicity_witness :
    0 < node_hold_two.W ∧ (0 : time_point) ≤ 2000 ∧ log_sorted node_hold_two.votes ∧
    (((node_hold_two.scan tally.fresh 0 2000 (uniform_validators 3)).map
        (fun r => edge_times r.2)) = some [1000, 1048, 1050, 1098]) ∧
    ∃ tl1 evs, node_hold_two.scan tally.fresh 0 2000 (uniform_validators 3) = some (tl1, evs) ∧
      (edge_times evs).Pairwise (fun x y => x ≤ y) :=
  ⟨by decide, by decide, by unfold log_sorted; decide, by rfl,
    scan_monotonicity node_hold_two tally.fresh 0 2000 (uniform_validators 3) (by decide)
      (by decide) (by unfold log_sorted; decide)⟩

theorem untag_call_if (b : Bool) (time : time_point) (tl : tally) :
    (call_if b (scan_call.expired time tl)).map scan_call.untag = edge_if b time tl ∧
    (call_if b (scan_call.risen time tl)).map scan_call.untag = edge_if b time tl := by
  cases b <;> exact ⟨rfl, rfl⟩

theorem untag_fault_k (f : Option validator) :
    (fault_k f).map scan_call.untag = fault_if f := by
  cases f <;> rfl

theorem expire_k_untag (W : duration) (time : time_point) :
    ∀ (l : List vote_event) (tl : tally),
      (expire_k W time l tl).map scan_call.untag = (expire_c W time l tl).2.2 := by
  intro l
  induction l with
  | nil => intro tl; rfl
  | cons e rest ih =>
    obtain ⟨t1, v1, o1⟩ := e
    intro tl
    simp only [expire_k, expire_c]
    split_ifs with c
    · simp only [List.map_append, (untag_call_if _ _ _).1, ih]
    · rfl

theorem drain_k_untag (W : duration) (endt : time_point) :
    ∀ (l : List vote_event) (tl : tally),
      (drain_k W endt l tl).map scan_call.untag = (drain_c W endt l tl).2 := by
  intro l
  induction l with
  | nil => intro tl; rfl
  | cons e rest ih =>
    obtain ⟨t1, v1, o1⟩ := e
    intro tl
    simp only [drain_k, drain_c]
    split_ifs with c
    · simp only [List.map_append, (untag_call_if _ _ _).1, ih]
    · rfl

theorem rise_k_untag (W : duration) (vals : validators) :
    ∀ (c l : List vote_event) (tl : tally),
      (rise_k W vals c l tl).map scan_call.untag = (rise_c W vals c l tl).2.2 := by
  intro c
  induction c with
  | nil => intro l tl; rfl
  | cons e rest ih =>
    obtain ⟨time, v, o⟩ := e
    intro l tl
    simp only [rise_k, rise_c, List.map_append, expire_k_untag, untag_fault_k,
      (untag_call_if _ _ _).2, ih]

/-- The calls of `scan_k`, without their call sites, are the calls of `scan_c`. -/
theorem scan_k_untag (W : duration) (endt : time_point) (vals : validators)
    (seg : List vote_event) (tl : tally) :
    (scan_k W endt vals seg tl).map scan_call.untag = (scan_c W endt vals seg tl).2 := by
  simp only [scan_k, scan_c, List.map_append, rise_k_untag, drain_k_untag]

theorem log_sorted_split {A B : List vote_event} {x : vote_event}
    (hs : log_sorted (A ++ x :: B)) :
    (∀ a ∈ A, a.1 ≤ x.1) ∧ (∀ b ∈ B, x.1 ≤ b.1) ∧ ∀ a ∈ A, ∀ b ∈ B, a.1 ≤ b.1 := by
  unfold log_sorted at hs
  rw [List.pairwise_append, List.pairwise_cons] at hs
  obtain ⟨-, ⟨h2, -⟩, h3⟩ := hs
  exact ⟨fun a ha => h3 a ha x (List.mem_cons_self _ _), h2,
    fun a ha b hb => h3 a ha b (List.mem_cons_of_mem _ hb)⟩

theorem boundary_gt {x : vote_event} {B : List vote_event} (hB : ∀ b ∈ B, x.1 ≤ b.1)
    (hs : log_sorted B) (hb : boundary B x.1 = true) : ∀ b ∈ B, x.1 < b.1 := by
  cases B with
  | nil => intro b hb1; simp at hb1
  | cons y rest =>
    simp only [boundary, decide_eq_true_eq] at hb
    have h1 : x.1 < y.1 := lt_of_le_of_ne (hB y (List.mem_cons_self _ _)) (Ne.symm hb)
    intro b hb1
    rcases List.mem_cons.1 hb1 with rfl | hb1
    · exact h1
    · exact lt_of_lt_of_le h1 (log_sorted_head_le hs b hb1)

theorem mem_call_if {b : Bool} {k k1 : scan_call} (h : k1 ∈ call_if b k) :
    k1 = k ∧ b = true := by
  cases b
  · simp [call_if] at h
  · simp only [call_if, if_true, List.mem_singleton] at h
    exact ⟨h, rfl⟩

/-- The inner loop of `scan` at the vote `e`, by position in the range: `F` are the votes that
have fallen, `M` those that have risen and not fallen, `e :: C` those still to rise. -/
theorem expire_pos (W : duration) (hW : 0 < W) (seg : List vote_event) (hs : log_sorted seg)
    (P : List vote_event → List vote_event → List vote_event → tally → List validator → Prop)
    (Q : scan_call → Prop)
    (hfall : ∀ F x M C T fs, seg = F ++ x :: M ++ C → P F (x :: M) C T fs →
      P (F ++ [x]) M C (T.fall x.1 x.2.1 x.2.2) fs)
    (hexp : ∀ F M C T fs s, seg = F ++ M ++ C → P F M C T fs →
      (∀ f ∈ F, f.1 ≤ s - W) → (∀ m ∈ M, s - W < m.1 ∧ m.1 < s) → (∀ c ∈ C, s ≤ c.1) →
      (∃ f, F.getLast? = some f ∧ f.1 + W = s) → Q (scan_call.expired s T))
    (e : vote_event) (C : List vote_event) (fs : List validator) :
    ∀ (M F : List vote_event) (T : tally), seg = F ++ M ++ e :: C → P F M (e :: C) T fs →
      (∀ r ∈ F ++ M, ∀ u ∈ M, r.1 - W < u.1) → (∀ f ∈ F, f.1 ≤ e.1 - W) →
      ∃ F1 M1, seg = F1 ++ M1 ++ e :: C ∧ (expire_c W e.1 (M ++ e :: C) T).1 = M1 ++ e :: C ∧
        P F1 M1 (e :: C) (expire_c W e.1 (M ++ e :: C) T).2.1 fs ∧
        (∀ r ∈ F1 ++ M1, ∀ u ∈ M1, r.1 - W < u.1) ∧ (∀ f ∈ F1, f.1 ≤ e.1 - W) ∧
        (∀ m ∈ M1, e.1 - W < m.1) ∧
        faults_of (expire_c W e.1 (M ++ e :: C) T).2.2 = [] ∧
        ∀ k ∈ expire_k W e.1 (M ++ e :: C) T, Q k := by
  intro M
  induction M with
  | nil =>
    intro F T hseg hP hG1 hG2
    have hno : ¬ e.1 ≤ e.1 - W := by linarith
    obtain ⟨t, v, o⟩ := e
    refine ⟨F, [], hseg, ?_, ?_, hG1, hG2, fun m hm => by simp at hm, ?_, ?_⟩
    · simp only [List.nil_append, expire_c, if_neg hno]
    · simpa only [List.nil_append, expire_c, if_neg hno] using hP
    · simp only [List.nil_append, expire_c, if_neg hno]
      rfl
    · simp only [List.nil_append, expire_k, if_neg hno]
      intro k hk
      simp at hk
  | cons x M2 ih =>
    intro F T hseg hP hG1 hG2
    obtain ⟨t1, v1, o1⟩ := x
    have hseg1 : seg = F ++ (t1, v1, o1) :: (M2 ++ e :: C) := by
      rw [hseg]; simp
    have hsp := log_sorted_split (hseg1 ▸ hs)
    have hsrest : log_sorted (M2 ++ e :: C) := by
      have := log_sorted_of_append (hseg1 ▸ hs)
      exact log_sorted_tail this
    by_cases c : t1 ≤ e.1 - W
    · have hP1 := hfall F (t1, v1, o1) M2 (e :: C) T fs hseg hP
      obtain ⟨F1, M1, i1, i2, i3, i4, i5, i6, i7, i8⟩ := ih (F ++ [(t1, v1, o1)])
        (T.fall t1 v1 o1) (by rw [hseg]; simp) hP1
        (fun r hr u hu => hG1 r (by
            simp only [List.mem_append, List.mem_cons, List.mem_singleton, List.not_mem_nil,
              or_false] at hr ⊢
            tauto) u (List.mem_cons_of_mem _ hu))
        (fun f hf => by
          rcases List.mem_append.1 hf with hf | hf
          · exact hG2 f hf
          · rw [List.mem_singleton.1 hf]; exact c)
      refine ⟨F1, M1, i1, ?_, ?_, i4, i5, i6, ?_, ?_⟩
      · simp only [List.cons_append, expire_c, if_pos c]
        exact i2
      · simpa only [List.cons_append, expire_c, if_pos c] using i3
      · simp only [List.cons_append, expire_c, if_pos c, faults_of_append, faults_of_edge_if,
          List.nil_append]
        exact i7
      · simp only [List.cons_append, expire_k, if_pos c]
        intro k hk
        rcases List.mem_append.1 hk with hk | hk
        · obtain ⟨rfl, hb⟩ := mem_call_if hk
          have hgt := boundary_gt (x := (t1, v1, o1)) hsp.2.1 hsrest hb
          refine hexp (F ++ [(t1, v1, o1)]) M2 (e :: C) _ fs _ (by rw [hseg]; simp) hP1 ?_ ?_ ?_
            ⟨(t1, v1, o1), by simp, rfl⟩
          · intro f hf
            rcases List.mem_append.1 hf with hf | hf
            · have := hsp.1 f hf
              simp only at this
              linarith
            · rw [List.mem_singleton.1 hf]
              simp
          · intro m hm
            have h1 := hgt m (List.mem_append_left _ hm)
            have h2 := hG1 m (List.mem_append_right _ (List.mem_cons_of_mem _ hm))
              (t1, v1, o1) (List.mem_cons_self _ _)
            simp only at h1 h2
            constructor <;> linarith
          · intro c1 hc1
            have h1 : e.1 ≤ c1.1 := by
              rcases List.mem_cons.1 hc1 with rfl | hc1
              · exact le_refl _
              · exact (log_sorted_split (x := e) (A := F ++ (t1, v1, o1) :: M2) (B := C)
                  (by have := hs; rw [hseg] at this; simpa using this)).2.1 c1 hc1
            linarith
        · exact i8 k hk
    · refine ⟨F, (t1, v1, o1) :: M2, hseg, ?_, ?_, hG1, hG2, ?_, ?_, ?_⟩
      · simp only [List.cons_append, expire_c, if_neg c]
        rfl
      · simpa only [List.cons_append, expire_c, if_neg c] using hP
      · intro m hm
        have : t1 ≤ m.1 := by
          rcases List.mem_cons.1 hm with rfl | hm
          · exact le_refl _
          · exact hsp.2.1 m (List.mem_append_left _ hm)
        linarith
      · simp only [List.cons_append, expire_c, if_neg c]
        rfl
      · simp only [List.cons_append, expire_k, if_neg c]
        intro k hk
        simp at hk

/-- The second loop of `scan`, by position in the range. -/
theorem drain_pos (W : duration) (endt : time_point) (seg : List vote_event)
    (hs : log_sorted seg)
    (P : List vote_event → List vote_event → List vote_event → tally → List validator → Prop)
    (Q : scan_call → Prop)
    (hfall : ∀ F x M C T fs, seg = F ++ x :: M ++ C → P F (x :: M) C T fs →
      P (F ++ [x]) M C (T.fall x.1 x.2.1 x.2.2) fs)
    (hexp : ∀ F M C T fs s, seg = F ++ M ++ C → P F M C T fs →
      (∀ f ∈ F, f.1 ≤ s - W) → (∀ m ∈ M, s - W < m.1 ∧ m.1 < s) → (∀ c ∈ C, s ≤ c.1) →
      (∃ f, F.getLast? = some f ∧ f.1 + W = s) → Q (scan_call.expired s T))
    (fs : List validator) :
    ∀ (M F : List vote_event) (T : tally), seg = F ++ M → P F M [] T fs →
      (∀ r ∈ F ++ M, ∀ u ∈ M, r.1 - W < u.1) →
      ∃ F1 M1, seg = F1 ++ M1 ∧ P F1 M1 [] (drain_c W endt M T).1 fs ∧
        (∀ m, M1.head? = some m → endt ≤ m.1 + W) ∧
        faults_of (drain_c W endt M T).2 = [] ∧
        ∀ k ∈ drain_k W endt M T, Q k := by
  intro M
  induction M with
  | nil =>
    intro F T hseg hP _
    exact ⟨F, [], hseg, hP, fun m hm => by simp at hm, rfl, fun k hk => by simp [drain_k] at hk⟩
  | cons x M2 ih =>
    intro F T hseg hP hG1
    obtain ⟨t1, v1, o1⟩ := x
    have hsp := log_sorted_split (hseg ▸ hs)
    have hsrest : log_sorted M2 := log_sorted_tail (log_sorted_of_append (hseg ▸ hs))
    by_cases c : t1 + W < endt
    · have hP1 := hfall F (t1, v1, o1) M2 [] T fs (by rw [hseg]; simp) (by simpa using hP)
      obtain ⟨F1, M1, i1, i3, i6, i7, i8⟩ := ih (F ++ [(t1, v1, o1)])
        (T.fall t1 v1 o1) (by rw [hseg]; simp) hP1
        (fun r hr u hu => hG1 r (by
            simp only [List.mem_append, List.mem_cons, List.mem_singleton, List.not_mem_nil,
              or_false] at hr ⊢
            tauto) u (List.mem_cons_of_mem _ hu))
      refine ⟨F1, M1, i1, ?_, i6, ?_, ?_⟩
      · simpa only [drain_c, if_pos c] using i3
      · simp only [drain_c, if_pos c, faults_of_append, faults_of_edge_if, List.nil_append]
        exact i7
      · simp only [drain_k, if_pos c]
        intro k hk
        rcases List.mem_append.1 hk with hk | hk
        · obtain ⟨rfl, hb⟩ := mem_call_if hk
          have hgt := boundary_gt (x := (t1, v1, o1)) hsp.2.1 hsrest hb
          refine hexp (F ++ [(t1, v1, o1)]) M2 [] _ fs _ (by rw [hseg]; simp) hP1 ?_ ?_
            (fun c1 hc1 => by simp at hc1) ⟨(t1, v1, o1), by simp, rfl⟩
          · intro f hf
            rcases List.mem_append.1 hf with hf | hf
            · have := hsp.1 f hf
              simp only at this
              linarith
            · rw [List.mem_singleton.1 hf]
              simp
          · intro m hm
            have h1 := hgt m hm
            have h2 := hG1 m (List.mem_append_right _ (List.mem_cons_of_mem _ hm))
              (t1, v1, o1) (List.mem_cons_self _ _)
            simp only at h1 h2
            constructor <;> linarith
        · exact i8 k hk
    · refine ⟨F, (t1, v1, o1) :: M2, hseg, ?_, ?_, ?_, ?_⟩
      · simpa only [drain_c, if_neg c] using hP
      · intro m hm
        simp only [List.head?_cons, Option.some.injEq] at hm
        subst hm
        exact not_lt.1 c
      · simp only [drain_c, if_neg c]
        rfl
      · simp only [drain_k, if_neg c]
        intro k hk
        simp at hk

/-- The first loop of `scan`, by position in the range. -/
theorem rise_pos (W : duration) (hW : 0 < W) (vals : validators) (seg : List vote_event)
    (hs : log_sorted seg)
    (P : List vote_event → List vote_event → List vote_event → tally → List validator → Prop)
    (Q : scan_call → Prop)
    (hfall : ∀ F x M C T fs, seg = F ++ x :: M ++ C → P F (x :: M) C T fs →
      P (F ++ [x]) M C (T.fall x.1 x.2.1 x.2.2) fs)
    (hrise : ∀ F M e C T fs, seg = F ++ M ++ e :: C → P F M (e :: C) T fs →
      (∀ f ∈ F, f.1 ≤ e.1 - W) → (∀ m ∈ M, e.1 - W < m.1) →
      P F (M ++ [e]) C (T.rise e.1 e.2.1 e.2.2 vals).1
          (fs ++ faults_of (fault_if (T.rise e.1 e.2.1 e.2.2 vals).2)) ∧
        ∀ v, (T.rise e.1 e.2.1 e.2.2 vals).2 = some v → Q (scan_call.fault v))
    (hexp : ∀ F M C T fs s, seg = F ++ M ++ C → P F M C T fs →
      (∀ f ∈ F, f.1 ≤ s - W) → (∀ m ∈ M, s - W < m.1 ∧ m.1 < s) → (∀ c ∈ C, s ≤ c.1) →
      (∃ f, F.getLast? = some f ∧ f.1 + W = s) → Q (scan_call.expired s T))
    (hris : ∀ F M C T fs s, seg = F ++ M ++ C → P F M C T fs →
      (∀ f ∈ F, f.1 ≤ s - W) → (∀ m ∈ M, s - W < m.1 ∧ m.1 ≤ s) → (∀ c ∈ C, s < c.1) →
      (∃ e, M.getLast? = some e ∧ e.1 = s) → Q (scan_call.risen s T)) :
    ∀ (C M F : List vote_event) (T : tally) (fs : List validator), seg = F ++ M ++ C →
      P F M C T fs → (∀ r ∈ F ++ M, ∀ u ∈ M, r.1 - W < u.1) →
      (∀ f ∈ F, ∀ c ∈ C, f.1 ≤ c.1 - W) →
      ∃ F1 M1, seg = F1 ++ M1 ∧ (rise_c W vals C (M ++ C) T).1 = M1 ∧
        P F1 M1 [] (rise_c W vals C (M ++ C) T).2.1
          (fs ++ faults_of (rise_c W vals C (M ++ C) T).2.2) ∧
        (∀ r ∈ F1 ++ M1, ∀ u ∈ M1, r.1 - W < u.1) ∧
        ∀ k ∈ rise_k W vals C (M ++ C) T, Q k := by
  intro C
  induction C with
  | nil =>
    intro M F T fs hseg hP hG1 _
    refine ⟨F, M, by simpa using hseg, by simp [rise_c], ?_, hG1, ?_⟩
    · simpa [rise_c, faults_of] using hP
    · intro k hk
      simp [rise_k] at hk
  | cons e C2 ih =>
    intro M F T fs hseg hP hG1 hG2
    obtain ⟨F1, M1, e1, e2, e3, e4, e5, e6, e7, e8⟩ := expire_pos W hW seg hs P Q hfall hexp
      e C2 fs M F T hseg hP hG1 (fun f hf => hG2 f hf e (List.mem_cons_self _ _))
    have hsp := log_sorted_split (x := e) (A := F1 ++ M1) (B := C2)
      (by have := hs; rw [e1] at this; simpa using this)
    have hsrest : log_sorted C2 := by
      have := log_sorted_of_append (e1 ▸ hs)
      exact log_sorted_tail this
    obtain ⟨r1, r2⟩ := hrise F1 M1 e C2 _ fs e1 e3 e5 e6
    have hG1n : ∀ r ∈ F1 ++ (M1 ++ [e]), ∀ u ∈ M1 ++ [e], r.1 - W < u.1 := by
      intro r hr u hu
      rw [← List.append_assoc] at hr
      rcases List.mem_append.1 hu with hu | hu
      · rcases List.mem_append.1 hr with hr | hr
        · exact e4 r hr u hu
        · rw [List.mem_singleton.1 hr]
          exact e6 u hu
      · rw [List.mem_singleton.1 hu]
        rcases List.mem_append.1 hr with hr | hr
        · have := hsp.1 r hr
          linarith
        · rw [List.mem_singleton.1 hr]
          linarith
    have hG2n : ∀ f ∈ F1, ∀ c ∈ C2, f.1 ≤ c.1 - W := by
      intro f hf c hc
      have h1 := e5 f hf
      have h2 := hsp.2.1 c hc
      linarith
    obtain ⟨F2, M2, i1, i2, i3, i4, i5⟩ := ih (M1 ++ [e]) F1 _ _ (by rw [e1]; simp) r1 hG1n
      hG2n
    obtain ⟨t, v, o⟩ := e
    have hl : expire_c W t (M ++ (t, v, o) :: C2) T
        = (M1 ++ (t, v, o) :: C2, (expire_c W t (M ++ (t, v, o) :: C2) T).2.1,
          (expire_c W t (M ++ (t, v, o) :: C2) T).2.2) := by
      rw [← e2]
    have hap : M1 ++ [(t, v, o)] ++ C2 = M1 ++ (t, v, o) :: C2 := by simp
    rw [hap] at i2 i3 i5
    refine ⟨F2, M2, i1, ?_, ?_, i4, ?_⟩
    · simp only [rise_c]
      rw [e2]
      exact i2
    · simp only [rise_c]
      rw [e2]
      simp only [faults_of_append, faults_of_edge_if, e7, List.nil_append, List.append_nil]
      simpa only [List.append_assoc] using i3
    · simp only [rise_k]
      rw [e2]
      intro k hk
      simp only [List.mem_append] at hk
      rcases hk with ((hk | hk) | hk) | hk
      · exact e8 k hk
      · cases hf : ((expire_c W t (M ++ (t, v, o) :: C2) T).2.1.rise t v o vals).2 with
        | none => rw [hf] at hk; simp [fault_k] at hk
        | some v1 =>
          rw [hf] at hk
          simp only [fault_k, List.mem_singleton] at hk
          rw [hk]
          exact r2 v1 hf
      · obtain ⟨rfl, hb⟩ := mem_call_if hk
        have hgt := boundary_gt (x := (t, v, o)) hsp.2.1 hsrest hb
        refine hris F1 (M1 ++ [(t, v, o)]) C2 _ _ t (by rw [e1]; simp) r1 ?_ ?_ hgt
          ⟨(t, v, o), by simp, rfl⟩
        · exact e5
        · intro m hm
          rcases List.mem_append.1 hm with hm | hm
          · exact ⟨e6 m hm, hsp.1 m (List.mem_append_right _ hm)⟩
          · rw [List.mem_singleton.1 hm]
            exact ⟨by show t - W < t; linarith, le_refl _⟩
      · exact i5 k hk

/-- The scan by position in the range.  A property `P` of the position and the tally that
every `fall` and every `rise` keeps holds at the end of the scan, and a property `Q` of the
calls that `P` implies at each call site holds for every call. -/
theorem scan_pos (W : duration) (hW : 0 < W) (endt : time_point) (vals : validators)
    (seg : List vote_event) (hs : log_sorted seg)
    (P : List vote_event → List vote_event → List vote_event → tally → List validator → Prop)
    (Q : scan_call → Prop)
    (hfall : ∀ F x M C T fs, seg = F ++ x :: M ++ C → P F (x :: M) C T fs →
      P (F ++ [x]) M C (T.fall x.1 x.2.1 x.2.2) fs)
    (hrise : ∀ F M e C T fs, seg = F ++ M ++ e :: C → P F M (e :: C) T fs →
      (∀ f ∈ F, f.1 ≤ e.1 - W) → (∀ m ∈ M, e.1 - W < m.1) →
      P F (M ++ [e]) C (T.rise e.1 e.2.1 e.2.2 vals).1
          (fs ++ faults_of (fault_if (T.rise e.1 e.2.1 e.2.2 vals).2)) ∧
        ∀ v, (T.rise e.1 e.2.1 e.2.2 vals).2 = some v → Q (scan_call.fault v))
    (hexp : ∀ F M C T fs s, seg = F ++ M ++ C → P F M C T fs →
      (∀ f ∈ F, f.1 ≤ s - W) → (∀ m ∈ M, s - W < m.1 ∧ m.1 < s) → (∀ c ∈ C, s ≤ c.1) →
      (∃ f, F.getLast? = some f ∧ f.1 + W = s) → Q (scan_call.expired s T))
    (hris : ∀ F M C T fs s, seg = F ++ M ++ C → P F M C T fs →
      (∀ f ∈ F, f.1 ≤ s - W) → (∀ m ∈ M, s - W < m.1 ∧ m.1 ≤ s) → (∀ c ∈ C, s < c.1) →
      (∃ e, M.getLast? = some e ∧ e.1 = s) → Q (scan_call.risen s T))
    (tl : tally) (h0 : P [] [] seg tl []) :
    (∀ k ∈ scan_k W endt vals seg tl, Q k) ∧
    ∃ F M, seg = F ++ M ∧
      P F M [] (scan_c W endt vals seg tl).1 (faults_of (scan_c W endt vals seg tl).2) ∧
      ∀ m, M.head? = some m → endt ≤ m.1 + W := by
  obtain ⟨F1, M1, r1, r2, r3, r4, r5⟩ := rise_pos W hW vals seg hs P Q hfall hrise hexp hris
    seg [] [] tl [] (by simp) h0 (fun r hr => by simp at hr) (fun f hf => by simp at hf)
  simp only [List.nil_append] at r2 r3 r5
  obtain ⟨F2, M2, d1, d2, d3, d4, d5⟩ := drain_pos W endt seg hs P Q hfall hexp
    (faults_of (rise_c W vals seg seg tl).2.2) M1 F1 (rise_c W vals seg seg tl).2.1 r1 r3 r4
  refine ⟨?_, F2, M2, d1, ?_, d3⟩
  · intro k hk
    simp only [scan_k, List.mem_append] at hk
    rcases hk with hk | hk
    · exact r5 k hk
    · rw [r2] at hk
      exact d5 k hk
  · simp only [scan_c, faults_of_append]
    rw [r2, d4, List.append_nil]
    exact d2

/-! ## One edge for each distinct time -/

theorem dropWhile_eq_filter_sorted (p : vote_event → Bool) :
    ∀ (l : List vote_event), l.Pairwise (fun x y => p x = false → p y = false) →
      l.dropWhile p = l.filter (fun e => !p e) := by
  intro l
  induction l with
  | nil => intro _; rfl
  | cons x rest ih =>
    intro h
    rw [List.pairwise_cons] at h
    cases hp : p x with
    | true =>
      rw [List.dropWhile_cons_of_pos hp, List.filter_cons_of_neg (by simp [hp])]
      exact ih h.2
    | false =>
      rw [List.dropWhile_cons_of_neg (by simp [hp]), List.filter_cons_of_pos (by simp [hp])]
      congr 1
      symm
      rw [List.filter_eq_self]
      intro y hy
      simp [h.1 y hy hp]

theorem takeWhile_eq_filter_sorted (q : vote_event → Bool) :
    ∀ (l : List vote_event), l.Pairwise (fun x y => q x = false → q y = false) →
      l.takeWhile q = l.filter q := by
  intro l
  induction l with
  | nil => intro _; rfl
  | cons x rest ih =>
    intro h
    rw [List.pairwise_cons] at h
    cases hq : q x with
    | true =>
      rw [List.takeWhile_cons_of_pos hq, List.filter_cons_of_pos hq, ih h.2]
    | false =>
      rw [List.takeWhile_cons_of_neg (by simp [hq]), List.filter_cons_of_neg (by simp [hq])]
      symm
      rw [List.filter_eq_nil_iff]
      intro y hy
      simp [h.1 y hy hq]

/-- In a time-ordered log the selected range holds the votes with a time in `[begin, end]`. -/
theorem selected_eq_filter (votes : List vote_event) (begin endt : time_point)
    (hs : log_sorted votes) :
    selected votes begin endt
      = votes.filter (fun e => decide (begin ≤ e.1 ∧ e.1 ≤ endt)) := by
  unfold selected lower_bound
  rw [takeWhile_eq_filter_sorted, dropWhile_eq_filter_sorted, List.filter_filter]
  · apply List.filter_congr
    intro e _
    by_cases c1 : begin ≤ e.1
    · simp [c1, not_lt.2 c1]
    · simp [c1, not_le.1 c1]
  · exact hs.imp (fun {x y} hxy hx => by
      simp only [decide_eq_false_iff_not, not_lt] at hx ⊢
      linarith)
  · have h1 : log_sorted (votes.dropWhile (fun e => decide (e.1 < begin))) :=
      log_sorted_dropWhile _ hs
    exact h1.imp (fun {x y} hxy hx => by
      simp only [decide_eq_false_iff_not, not_le] at hx ⊢
      linarith)

theorem mem_selected_iff (votes : List vote_event) (begin endt : time_point)
    (hs : log_sorted votes) (e : vote_event) :
    e ∈ selected votes begin endt ↔ e ∈ votes ∧ begin ≤ e.1 ∧ e.1 ≤ endt := by
  rw [selected_eq_filter votes begin endt hs, List.mem_filter]
  simp

theorem dedup_times_cons (x : vote_event) (rest : List vote_event)
    (hs : log_sorted (x :: rest)) :
    ((x :: rest).map Prod.fst).dedup
      = (if boundary rest x.1 = true then [x.1] else []) ++ (rest.map Prod.fst).dedup := by
  have hle : ∀ b ∈ rest, x.1 ≤ b.1 := fun b hb => log_sorted_head_le hs b hb
  by_cases hb : boundary rest x.1 = true
  · have hgt := boundary_gt hle (log_sorted_tail hs) hb
    rw [if_pos hb, List.map_cons, List.dedup_cons_of_not_mem]
    · rfl
    · intro hm
      obtain ⟨b, hb1, hb2⟩ := List.mem_map.1 hm
      have := hgt b hb1
      rw [hb2] at this
      exact lt_irrefl _ this
  · rw [if_neg hb, List.map_cons, List.dedup_cons_of_mem]
    · rfl
    · cases rest with
      | nil => simp [boundary] at hb
      | cons y r2 =>
        simp only [boundary, decide_eq_true_eq, not_not] at hb
        rw [← hb]
        simp

theorem risen_times_append (xs ys : List scan_call) :
    risen_times (xs ++ ys) = risen_times xs ++ risen_times ys := by
  induction xs with
  | nil => rfl
  | cons x rest ih => cases x <;> simp [risen_times, ih]

theorem expired_times_append (xs ys : List scan_call) :
    expired_times (xs ++ ys) = expired_times xs ++ expired_times ys := by
  induction xs with
  | nil => rfl
  | cons x rest ih => cases x <;> simp [expired_times, ih]

theorem times_call_if (b : Bool) (t : time_point) (tl : tally) :
    risen_times (call_if b (scan_call.risen t tl)) = (if b = true then [t] else []) ∧
    expired_times (call_if b (scan_call.risen t tl)) = [] ∧
    risen_times (call_if b (scan_call.expired t tl)) = [] ∧
    expired_times (call_if b (scan_call.expired t tl)) = (if b = true then [t] else []) := by
  cases b <;> simp [call_if, risen_times, expired_times]

theorem times_fault_k (f : Option validator) :
    risen_times (fault_k f) = [] ∧ expired_times (fault_k f) = [] := by
  cases f <;> simp [fault_k, risen_times, expired_times]

theorem expire_c_isSuffix (W : duration) (time : time_point) :
    ∀ (l : List vote_event) (tl : tally), (expire_c W time l tl).1 <:+ l := by
  intro l
  induction l with
  | nil => intro tl; exact List.suffix_refl _
  | cons x rest ih =>
    obtain ⟨t1, v1, o1⟩ := x
    intro tl
    simp only [expire_c]
    split_ifs with c
    · exact (ih _).trans (List.suffix_cons _ _)
    · exact List.suffix_refl _

theorem rise_c_isSuffix (W : duration) (vals : validators) :
    ∀ (c l : List vote_event) (tl : tally), (rise_c W vals c l tl).1 <:+ l := by
  intro c
  induction c with
  | nil => intro l tl; exact List.suffix_refl _
  | cons x rest ih =>
    obtain ⟨t1, v1, o1⟩ := x
    intro l tl
    simp only [rise_c]
    exact (ih _ _).trans (expire_c_isSuffix W t1 l tl)

theorem log_sorted_suffix {l1 l : List vote_event} (h : l1 <:+ l) (hs : log_sorted l) :
    log_sorted l1 :=
  List.Pairwise.sublist h.sublist hs

theorem expire_k_times (W : duration) (time : time_point) :
    ∀ (l : List vote_event) (tl : tally), log_sorted l →
      risen_times (expire_k W time l tl) = [] ∧
      expired_times (expire_k W time l tl)
          ++ (((expire_c W time l tl).1.map Prod.fst).dedup).map (fun t => t + W)
        = ((l.map Prod.fst).dedup).map (fun t => t + W) := by
  intro l
  induction l with
  | nil => intro tl _; exact ⟨rfl, rfl⟩
  | cons x rest ih =>
    obtain ⟨t1, v1, o1⟩ := x
    intro tl hs
    simp only [expire_k, expire_c]
    split_ifs with c
    · obtain ⟨i1, i2⟩ := ih (tl.fall t1 v1 o1) (log_sorted_tail hs)
      refine ⟨?_, ?_⟩
      · rw [risen_times_append, i1, (times_call_if _ _ _).2.2.1]
        rfl
      · rw [expired_times_append, (times_call_if _ _ _).2.2.2, List.append_assoc, i2,
          dedup_times_cons _ _ hs, List.map_append]
        congr 1
        split_ifs <;> rfl
    · exact ⟨rfl, rfl⟩

theorem drain_k_times (W : duration) (endt : time_point) :
    ∀ (l : List vote_event) (tl : tally), log_sorted l → (∀ e ∈ l, e.1 + W < endt) →
      risen_times (drain_k W endt l tl) = [] ∧
      expired_times (drain_k W endt l tl) = ((l.map Prod.fst).dedup).map (fun t => t + W) := by
  intro l
  induction l with
  | nil => intro tl _ _; exact ⟨rfl, rfl⟩
  | cons x rest ih =>
    obtain ⟨t1, v1, o1⟩ := x
    intro tl hs hall
    have c : t1 + W < endt := hall _ (List.mem_cons_self _ _)
    simp only [drain_k, if_pos c]
    obtain ⟨i1, i2⟩ := ih (tl.fall t1 v1 o1) (log_sorted_tail hs)
      (fun e he => hall e (List.mem_cons_of_mem _ he))
    refine ⟨?_, ?_⟩
    · rw [risen_times_append, i1, (times_call_if _ _ _).2.2.1]
      rfl
    · rw [expired_times_append, (times_call_if _ _ _).2.2.2, i2, dedup_times_cons _ _ hs,
        List.map_append]
      congr 1
      split_ifs <;> rfl

theorem rise_k_times (W : duration) (vals : validators) :
    ∀ (c l : List vote_event) (tl : tally), log_sorted c → log_sorted l →
      risen_times (rise_k W vals c l tl) = (c.map Prod.fst).dedup ∧
      expired_times (rise_k W vals c l tl)
          ++ (((rise_c W vals c l tl).1.map Prod.fst).dedup).map (fun t => t + W)
        = ((l.map Prod.fst).dedup).map (fun t => t + W) := by
  intro c
  induction c with
  | nil => intro l tl _ _; exact ⟨rfl, rfl⟩
  | cons x rest ih =>
    obtain ⟨t1, v1, o1⟩ := x
    intro l tl hc hl
    obtain ⟨e1, e2⟩ := expire_k_times W t1 l tl hl
    obtain ⟨i1, i2⟩ := ih (expire_c W t1 l tl).1
      ((expire_c W t1 l tl).2.1.rise t1 v1 o1 vals).1 (log_sorted_tail hc)
      (log_sorted_suffix (expire_c_isSuffix W t1 l tl) hl)
    simp only [rise_k, rise_c]
    refine ⟨?_, ?_⟩
    · rw [risen_times_append, risen_times_append, risen_times_append, e1,
        (times_fault_k _).1, (times_call_if _ _ _).1, i1, dedup_times_cons _ _ hc]
      rfl
    · rw [expired_times_append, expired_times_append, expired_times_append,
        (times_fault_k _).2, (times_call_if _ _ _).2.1, List.append_nil, List.append_nil,
        List.append_assoc, i2, e2]

theorem edges_of_untag_length (ks : List scan_call) :
    (edges_of (ks.map scan_call.untag)).length
      = (risen_times ks).length + (expired_times ks).length := by
  induction ks with
  | nil => rfl
  | cons k rest ih =>
    cases k <;>
      simp only [List.map_cons, scan_call.untag, edges_of, risen_times, expired_times,
        List.length_cons, ih] <;> omega

theorem scan_k_times (W : duration) (endt : time_point) (vals : validators)
    (seg : List vote_event) (tl : tally) (hs : log_sorted seg)
    (hall : ∀ e ∈ seg, e.1 + W < endt) :
    risen_times (scan_k W endt vals seg tl) = (seg.map Prod.fst).dedup ∧
    expired_times (scan_k W endt vals seg tl)
      = ((seg.map Prod.fst).dedup).map (fun t => t + W) := by
  obtain ⟨r1, r2⟩ := rise_k_times W vals seg seg tl hs hs
  have hsuf := rise_c_isSuffix W vals seg seg tl
  obtain ⟨d1, d2⟩ := drain_k_times W endt (rise_c W vals seg seg tl).1
    (rise_c W vals seg seg tl).2.1 (log_sorted_suffix hsuf hs)
    (fun e he => hall e (hsuf.subset he))
  simp only [scan_k]
  refine ⟨?_, ?_⟩
  · rw [risen_times_append, r1, d1, List.append_nil]
  · rw [expired_times_append, d2, r2]

/-- C28 (one edge per distinct event time).  For a positive window, a time-ordered log and
`begin <= end`, let `D` be the distinct vote times of the log in `[begin, end]`.  If
`t + W < end` for every `t` in `D`, then `scan` returns, its calls of `edge` after a group of
rises are made at the times of `D`, once each and in increasing order, its calls of `edge`
after a group of falls are made at the times `t + W` for `t` in `D`, once each and in
increasing order, and there are `2 * |D|` calls of `edge` in all. -/
theorem one_edge_per_time (a : agreement) (tl : tally) (begin endt : time_point)
    (vals : validators) (hW : 0 < a.W) (hb : begin ≤ endt) (hs : log_sorted a.votes)
    (hmax : ∀ t ∈ distinct_times a.votes begin endt, t + a.W < endt) :
    ∃ tl1 ks, a.scan tl begin endt vals = some (tl1, ks.map scan_call.untag) ∧
      ks = scan_k a.W endt vals (selected a.votes begin endt) tl ∧
      risen_times ks = distinct_times a.votes begin endt ∧
      expired_times ks = (distinct_times a.votes begin endt).map (fun t => t + a.W) ∧
      (edges_of (ks.map scan_call.untag)).length
        = 2 * (distinct_times a.votes begin endt).length ∧
      (distinct_times a.votes begin endt).Pairwise (fun x y => x < y) := by
  have hD : distinct_times a.votes begin endt
      = ((selected a.votes begin endt).map Prod.fst).dedup := by
    rw [selected_eq_filter _ _ _ hs]
    rfl
  have hss := log_sorted_selected a.votes begin endt hs
  have hall : ∀ e ∈ selected a.votes begin endt, e.1 + a.W < endt := by
    intro e he
    apply hmax
    rw [hD, List.mem_dedup]
    exact List.mem_map_of_mem _ he
  obtain ⟨k1, k2⟩ := scan_k_times a.W endt vals (selected a.votes begin endt) tl hss hall
  refine ⟨(scan_c a.W endt vals (selected a.votes begin endt) tl).1, _, ?_, rfl, ?_, ?_, ?_, ?_⟩
  · rw [scan_eq a tl begin endt vals hW hb, scan_k_untag]
  · rw [k1, hD]
  · rw [k2, hD]
  · rw [edges_of_untag_length, k1, k2, List.length_map, ← hD]
    omega
  · rw [hD]
    have h1 : ((selected a.votes begin endt).map Prod.fst).Pairwise (fun x y => x ≤ y) := by
      rw [List.pairwise_map]
      exact hss
    have h2 := List.Pairwise.sublist (List.dedup_sublist _) h1
    have h3 := List.nodup_dedup ((selected a.votes begin endt).map Prod.fst)
    exact (h2.and h3).imp (fun {x y} h => lt_of_le_of_ne h.1 h.2)

theorem one_edge_per_time_witness :
    0 < node_hold_two.W ∧ log_sorted node_hold_two.votes ∧
    distinct_times node_hold_two.votes 0 2000 = [1000, 1048] ∧
    (∀ t ∈ distinct_times node_hold_two.votes 0 2000, t + node_hold_two.W < 2000) ∧
    ∃ tl1 ks, node_hold_two.scan tally.fresh 0 2000 (uniform_validators 3)
        = some (tl1, ks.map scan_call.untag) ∧
      ks = scan_k node_hold_two.W 2000 (uniform_validators 3)
        (selected node_hold_two.votes 0 2000) tally.fresh ∧
      risen_times ks = distinct_times node_hold_two.votes 0 2000 ∧
      expired_times ks
        = (distinct_times node_hold_two.votes 0 2000).map (fun t => t + node_hold_two.W) ∧
      (edges_of (ks.map scan_call.untag)).length
        = 2 * (distinct_times node_hold_two.votes 0 2000).length ∧
      (distinct_times node_hold_two.votes 0 2000).Pairwise (fun x y => x < y) :=
  ⟨by decide, by unfold log_sorted; decide, by decide, by decide,
    one_edge_per_time node_hold_two tally.fresh 0 2000 (uniform_validators 3) (by decide)
      (by decide) (by unfold log_sorted; decide) (by decide)⟩

/-! ## The entry of a validator through `rise` and `fall` -/

theorem slot_of_votes (t t1 : tally) (u v : validator) (s : slot)
    (h : t1.votes = map_set t.votes v s) :
    t1.slot_of u = if u = v then s else t.slot_of u := by
  unfold tally.slot_of
  rw [h, map_find_map_set]
  by_cases c : u = v
  · rw [if_pos c, if_pos c.symm]
    rfl
  · rw [if_neg c, if_neg (fun h1 => c h1.symm)]

theorem rise_slot (t : tally) (time : time_point) (v : validator) (o : object)
    (vals : validators) (u : validator) :
    (t.rise time v o vals).1.slot_of u
      = if u = v then
          (if (t.slot_of v).2.1 = time_point_default then (o, time, vals.weight v)
            else if (t.slot_of v).1 = o then ((t.slot_of v).1, time, (t.slot_of v).2.2)
            else t.slot_of v)
        else t.slot_of u := by
  simp only [tally.rise]
  split_ifs <;> (rw [slot_of_votes t _ u v _ rfl]; simp [*])

theorem rise_fault (t : tally) (time : time_point) (v : validator) (o : object)
    (vals : validators) :
    (t.rise time v o vals).2
      = if (t.slot_of v).2.1 ≠ time_point_default ∧ (t.slot_of v).1 ≠ o then some v
        else none := by
  simp only [tally.rise]
  split_ifs <;> simp_all

theorem fall_slot (t : tally) (time : time_point) (v : validator) (o : object)
    (u : validator) :
    (t.fall time v o).slot_of u
      = if u = v then
          (if time = (t.slot_of v).2.1 ∧ o = (t.slot_of v).1 then
            ((t.slot_of v).1, time_point_default, (t.slot_of v).2.2)
            else t.slot_of v)
        else t.slot_of u := by
  simp only [tally.fall]
  split_ifs <;> (rw [slot_of_votes t _ u v _ rfl]; simp [*])

/-! ## Equivocation -/

theorem faults_of_expire_c (W : duration) (time : time_point) :
    ∀ (l : List vote_event) (tl : tally), faults_of (expire_c W time l tl).2.2 = [] := by
  intro l
  induction l with
  | nil => intro tl; rfl
  | cons x rest ih =>
    obtain ⟨t1, v1, o1⟩ := x
    intro tl
    simp only [expire_c]
    split_ifs with c
    · simp only [faults_of_append, faults_of_edge_if, List.nil_append]
      exact ih _
    · rfl

theorem faults_of_drain_c (W : duration) (endt : time_point) :
    ∀ (l : List vote_event) (tl : tally), faults_of (drain_c W endt l tl).2 = [] := by
  intro l
  induction l with
  | nil => intro tl; rfl
  | cons x rest ih =>
    obtain ⟨t1, v1, o1⟩ := x
    intro tl
    simp only [drain_c]
    split_ifs with c
    · simp only [faults_of_append, faults_of_edge_if, List.nil_append]
      exact ih _
    · rfl

theorem faults_of_rise (t : tally) (time : time_point) (v : validator) (o : object)
    (vals : validators) :
    faults_of (fault_if (t.rise time v o vals).2)
      = if equivocates (time, v, o) t = true then [v] else [] := by
  rw [rise_fault]
  unfold equivocates
  by_cases c : (t.slot_of v).2.1 ≠ time_point_default ∧ (t.slot_of v).1 ≠ o
  · rw [if_pos c, if_pos (by simpa using c)]
    rfl
  · rw [if_neg c, if_neg (by simpa using c)]
    rfl

theorem rise_trace_spec (W : duration) (vals : validators) :
    ∀ (c l : List vote_event) (tl : tally),
      (rise_trace W vals c l tl).map Prod.fst = c ∧
      faults_of (rise_c W vals c l tl).2.2
        = ((rise_trace W vals c l tl).filter (fun p => equivocates p.1 p.2)).map
            (fun p => p.1.2.1) := by
  intro c
  induction c with
  | nil => intro l tl; exact ⟨rfl, rfl⟩
  | cons x rest ih =>
    obtain ⟨t1, v1, o1⟩ := x
    intro l tl
    obtain ⟨i1, i2⟩ := ih (expire_c W t1 l tl).1
      ((expire_c W t1 l tl).2.1.rise t1 v1 o1 vals).1
    refine ⟨?_, ?_⟩
    · simp only [rise_trace, List.map_cons, i1]
    · simp only [rise_c, rise_trace, faults_of_append, faults_of_expire_c, faults_of_edge_if,
        List.nil_append, List.append_nil, faults_of_rise, i2, List.filter_cons]
      split_ifs <;> simp

theorem getElem?_at_length {α : Type} (A : List α) (x : α) (B : List α) :
    (A ++ x :: B)[A.length]? = some x := by
  rw [List.getElem?_append_right (le_refl _)]
  simp

theorem mem_of_getElem?_left {α : Type} (A B : List α) (i : Nat) (x : α)
    (hi : i < A.length) (h : (A ++ B)[i]? = some x) : x ∈ A := by
  rw [List.getElem?_append_left hi] at h
  exact List.getElem?_mem h

theorem mem_of_getElem?_middle {α : Type} (A B C : List α) (i : Nat) (x : α)
    (h1 : A.length ≤ i) (h2 : i < A.length + B.length) (h : (A ++ B ++ C)[i]? = some x) :
    x ∈ B := by
  rw [List.getElem?_append_left (by rw [List.length_append]; exact h2),
    List.getElem?_append_right h1] at h
  exact List.getElem?_mem h

theorem count_faults_rise (t : tally) (e : vote_event) (vals : validators) (v : validator)
    (fs : List validator) :
    (fs ++ faults_of (fault_if (t.rise e.1 e.2.1 e.2.2 vals).2)).count v
      = fs.count v + if e.2.1 = v ∧ equivocates e t = true then 1 else 0 := by
  rw [List.count_append, faults_of_rise]
  by_cases c : equivocates e t = true
  · have c1 : equivocates (e.1, e.2.1, e.2.2) t = true := c
    rw [if_pos c1]
    by_cases c2 : e.2.1 = v
    · rw [if_pos ⟨c2, c⟩, c2]
      simp
    · rw [if_neg (fun h => c2 h.1)]
      simp only [add_zero, add_right_eq_self]
      exact List.count_eq_zero.2 (by simpa using fun h => c2 h.symm)
  · have c1 : ¬ equivocates (e.1, e.2.1, e.2.2) t = true := c
    rw [if_neg c1, if_neg (fun h => c h.2)]
    simp

theorem two_vote_fall (W : duration) (seg : List vote_event) (i1 i2 : Nat)
    (t1 t2 : time_point) (v : validator) (o1 : object) (hi : i1 < i2)
    (h1 : seg[i1]? = some (t1, v, o1))
    (honly : ∀ (n : Nat) (e : vote_event), seg[n]? = some e → e.2.1 = v → n = i1 ∨ n = i2)
    (F : List vote_event) (x : vote_event) (M C : List vote_event) (T : tally)
    (fs : List validator) (hseg : seg = F ++ x :: M ++ C)
    (hP : two_vote_inv W i1 i2 t1 t2 v o1 F (x :: M) T fs) :
    two_vote_inv W i1 i2 t1 t2 v o1 (F ++ [x]) M (T.fall x.1 x.2.1 x.2.2) fs := by
  have hx : seg[F.length]? = some x := by
    rw [hseg, List.append_assoc]
    exact getElem?_at_length F x (M ++ C)
  obtain ⟨pA, pB, pC, pD⟩ := hP
  simp only [List.length_append, List.length_cons, List.length_singleton,
    List.length_nil] at pA pB pC pD
  unfold two_vote_inv
  simp only [List.length_append, List.length_cons, List.length_singleton, List.length_nil]
  by_cases hv : x.2.1 = v
  · rcases honly _ x hx hv with hn | hn
    · have hxe : x = (t1, v, o1) := by
        rw [hn, h1] at hx
        exact (Option.some.inj hx).symm
      refine ⟨fun a => by omega, fun a b c => by omega, fun a b => ?_, fun a => pD (by omega)⟩
      obtain ⟨q1, q2, q3⟩ := pB (by omega) (by omega) (by omega)
      refine ⟨?_, q3⟩
      rw [fall_slot, if_pos hv.symm, hxe, if_pos ⟨q2.symm, q1.symm⟩]
    · exact ⟨fun a => by omega, fun a b c => by omega, fun a b => by omega,
        fun a => pD (by omega)⟩
  · have hsl : (T.fall x.1 x.2.1 x.2.2).slot_of v = T.slot_of v := by
      rw [fall_slot, if_neg (fun h => hv h.symm)]
    have hne : F.length ≠ i1 := by
      intro hn
      rw [hn, h1] at hx
      rw [← Option.some.inj hx] at hv
      exact hv rfl
    rw [hsl]
    exact ⟨fun a => pA (by omega), fun a b c => pB (by omega) (by omega) (by omega),
      fun a b => pC (by omega) (by omega), fun a => pD (by omega)⟩

theorem two_vote_rise (W : duration) (vals : validators) (seg : List vote_event)
    (i1 i2 : Nat) (t1 t2 : time_point) (v : validator) (o1 o2 : object) (hi : i1 < i2)
    (h1 : seg[i1]? = some (t1, v, o1)) (h2 : seg[i2]? = some (t2, v, o2)) (ho : o1 ≠ o2)
    (ht : t1 ≠ time_point_default)
    (honly : ∀ (n : Nat) (e : vote_event), seg[n]? = some e → e.2.1 = v → n = i1 ∨ n = i2)
    (F M : List vote_event) (e : vote_event) (C : List vote_event) (T : tally)
    (fs : List validator) (hseg : seg = F ++ M ++ e :: C)
    (hP : two_vote_inv W i1 i2 t1 t2 v o1 F M T fs)
    (sF : ∀ f ∈ F, f.1 ≤ e.1 - W) (sM : ∀ m ∈ M, e.1 - W < m.1) :
    two_vote_inv W i1 i2 t1 t2 v o1 F (M ++ [e]) (T.rise e.1 e.2.1 e.2.2 vals).1
      (fs ++ faults_of (fault_if (T.rise e.1 e.2.1 e.2.2 vals).2)) := by
  have he : seg[(F ++ M).length]? = some e := by
    rw [hseg]
    exact getElem?_at_length (F ++ M) e C
  obtain ⟨pA, pB, pC, pD⟩ := hP
  simp only [List.length_append] at pA pB pC pD he
  unfold two_vote_inv
  simp only [List.length_append, List.length_cons, List.length_singleton, List.length_nil,
    count_faults_rise]
  by_cases hv : e.2.1 = v
  · rcases honly _ e he hv with hn | hn
    · have hee : e = (t1, v, o1) := by
        rw [hn, h1] at he
        exact (Option.some.inj he).symm
      obtain ⟨q1, q2⟩ := pA (by omega)
      have hnq : ¬ equivocates (t1, v, o1) T = true := by
        unfold equivocates
        simp [q1]
      rw [hee]
      dsimp only
      refine ⟨fun a => by omega, fun a b c => ?_, fun a b => by omega, fun a => by omega⟩
      rw [rise_slot, if_pos rfl, if_pos q1, if_neg (fun h => hnq h.2), q2]
      exact ⟨rfl, rfl, rfl⟩
    · have hee : e = (t2, v, o2) := by
        rw [hn, h2] at he
        exact (Option.some.inj he).symm
      refine ⟨fun a => by omega, fun a b c => by omega, fun a b => by omega, fun _ => ?_⟩
      by_cases hm : F.length ≤ i1
      · obtain ⟨q1, q2, q3⟩ := pB (by omega) (by omega) hm
        have hmem : (t1, v, o1) ∈ M :=
          mem_of_getElem?_middle F M (e :: C) i1 _ hm (by omega) (by rw [← hseg]; exact h1)
        have hlt := sM _ hmem
        rw [hee] at hlt
        simp only at hlt
        have heq : equivocates (t2, v, o2) T = true := by
          unfold equivocates
          simp only [q1, q2]
          simp [ht, ho]
        rw [hee]
        dsimp only
        rw [if_pos (And.intro rfl heq), q3, if_pos (by linarith)]
      · obtain ⟨q1, q2⟩ := pC (by omega) (by omega)
        have hmem : (t1, v, o1) ∈ F :=
          mem_of_getElem?_left F (M ++ e :: C) i1 _ (by omega)
            (by rw [← List.append_assoc, ← hseg]; exact h1)
        have hle := sF _ hmem
        rw [hee] at hle
        simp only at hle
        have hnq : ¬ equivocates (t2, v, o2) T = true := by
          unfold equivocates
          simp [q1]
        rw [hee]
        dsimp only
        rw [if_neg (fun h => hnq h.2), q2, if_neg (by linarith)]
  · have hsl : (T.rise e.1 e.2.1 e.2.2 vals).1.slot_of v = T.slot_of v := by
      rw [rise_slot, if_neg (fun h => hv h.symm)]
    have hne1 : F.length + M.length ≠ i1 := by
      intro hn
      rw [hn, h1] at he
      rw [← Option.some.inj he] at hv
      exact hv rfl
    have hne2 : F.length + M.length ≠ i2 := by
      intro hn
      rw [hn, h2] at he
      rw [← Option.some.inj he] at hv
      exact hv rfl
    rw [hsl, if_neg (fun h => hv h.1), add_zero]
    exact ⟨fun a => pA (by omega), fun a b c => pB (by omega) (by omega) (by omega),
      fun a b => pC (by omega) (by omega), fun a => pD (by omega)⟩

/-- A validator with two votes in the range, for different objects, is reported once if the
second vote is cast before the first one expires, and not at all otherwise. -/
theorem two_votes_fault (W : duration) (hW : 0 < W) (endt : time_point) (vals : validators)
    (seg : List vote_event) (hs : log_sorted seg) (i1 i2 : Nat) (t1 t2 : time_point)
    (v : validator) (o1 o2 : object) (hi : i1 < i2)
    (h1 : seg[i1]? = some (t1, v, o1)) (h2 : seg[i2]? = some (t2, v, o2)) (ho : o1 ≠ o2)
    (ht : t1 ≠ time_point_default)
    (honly : ∀ (n : Nat) (e : vote_event), seg[n]? = some e → e.2.1 = v → n = i1 ∨ n = i2)
    (tl : tally) (h0 : (tl.slot_of v).2.1 = time_point_default) :
    (faults_of (scan_c W endt vals seg tl).2).count v
      = if t2 < t1 + W then 1 else 0 := by
  obtain ⟨-, F, M, hseg, hP, -⟩ := scan_pos W hW endt vals seg hs
    (fun F M _ T fs => two_vote_inv W i1 i2 t1 t2 v o1 F M T fs) (fun _ => True)
    (fun F x M C T fs hsg hP =>
      two_vote_fall W seg i1 i2 t1 t2 v o1 hi h1 honly F x M C T fs hsg hP)
    (fun F M e C T fs hsg hP sF sM =>
      ⟨two_vote_rise W vals seg i1 i2 t1 t2 v o1 o2 hi h1 h2 ho ht honly F M e C T fs hsg hP
        sF sM, fun _ _ => trivial⟩)
    (fun _ _ _ _ _ _ _ _ _ _ _ _ => trivial) (fun _ _ _ _ _ _ _ _ _ _ _ _ => trivial)
    tl
    ⟨fun _ => ⟨h0, rfl⟩, fun a => by simp at a, fun a => by simp at a,
      fun a => by simp at a⟩
  have hlen : i2 < seg.length := by
    by_contra hc
    rw [List.getElem?_eq_none (not_lt.1 hc)] at h2
    exact Option.noConfusion h2
  rw [hseg] at hlen
  exact hP.2.2.2 hlen

theorem two_votes_index (A B C : List vote_event) (e1 e2 : vote_event) (v : validator)
    (hA : v ∉ voters A) (hB : v ∉ voters B) (hC : v ∉ voters C) :
    (A ++ e1 :: B ++ e2 :: C)[A.length]? = some e1 ∧
    (A ++ e1 :: B ++ e2 :: C)[A.length + 1 + B.length]? = some e2 ∧
    ∀ (n : Nat) (e : vote_event), (A ++ e1 :: B ++ e2 :: C)[n]? = some e → e.2.1 = v →
      n = A.length ∨ n = A.length + 1 + B.length := by
  have hmem : ∀ (X : List vote_event) (e : vote_event), e ∈ X → e.2.1 = v → v ∈ voters X :=
    fun X e he hv => List.mem_map.2 ⟨e, he, hv⟩
  refine ⟨?_, ?_, ?_⟩
  · rw [List.append_assoc]
    exact getElem?_at_length A e1 (B ++ e2 :: C)
  · have := getElem?_at_length (A ++ e1 :: B) e2 C
    simpa [Nat.add_assoc, Nat.add_comm 1] using this
  · intro n e hn hv
    by_contra hc
    rw [not_or] at hc
    rcases Nat.lt_or_ge n A.length with c1 | c1
    · rw [List.append_assoc] at hn
      exact hA (hmem A e (mem_of_getElem?_left A _ n e c1 hn) hv)
    · rcases Nat.lt_or_ge n (A.length + 1 + B.length) with c2 | c2
      · have h1 : A.length + 1 ≤ n := by omega
        have h3 : (A ++ [e1] ++ B ++ e2 :: C)[n]? = some e := by simpa using hn
        rw [List.append_assoc (A ++ [e1])] at h3
        have h4 := mem_of_getElem?_middle (A ++ [e1]) B (e2 :: C) n e (by simpa using h1)
          (by simpa using c2) (by simpa using hn)
        exact hB (hmem B e h4 hv)
      · have h1 : A.length + 1 + B.length + 1 ≤ n := by omega
        have h3 : (A ++ e1 :: B ++ [e2] ++ C)[n]? = some e := by simpa using hn
        rw [List.getElem?_append_right (by simp; omega)] at h3
        exact hC (hmem C e (List.getElem?_mem h3) hv)

/-- C29 (equivocation is reported within the window).  For a positive window, a time-ordered
log, `begin <= end` and times other than `time_point{}`, `scan` returns; its calls of `fault`
are, in order, one call `fault (v)` for each vote `(t, v, o)` of the range whose `rise` is
made while `v` has an active vote for another object, and no other call, the falls making
none.  If the votes of a validator `v` in the range are `(t1, v, o1)` and, later in the log,
`(t2, v, o2)` with `o1 != o2`, and `v` has no active vote in the tally at the start, then
`fault (v)` is called once if `t2 < t1 + W` and not at all otherwise. -/
theorem equivocation_in_window (a : agreement) (tl : tally) (vals : validators)
    (begin endt : time_point) (hW : 0 < a.W) (hb : begin ≤ endt) (hs : log_sorted a.votes)
    (hnt : ∀ e ∈ a.votes, e.1 ≠ time_point_default) :
    ∃ tl1 evs, a.scan tl begin endt vals = some (tl1, evs) ∧
      (rise_trace a.W vals (selected a.votes begin endt) (selected a.votes begin endt)
        tl).map Prod.fst = selected a.votes begin endt ∧
      faults_of evs
        = ((rise_trace a.W vals (selected a.votes begin endt) (selected a.votes begin endt)
            tl).filter (fun p => equivocates p.1 p.2)).map (fun p => p.1.2.1) ∧
      ∀ (A B C : List vote_event) (t1 t2 : time_point) (v : validator) (o1 o2 : object),
        selected a.votes begin endt = A ++ (t1, v, o1) :: B ++ (t2, v, o2) :: C →
        v ∉ voters A → v ∉ voters B → v ∉ voters C → o1 ≠ o2 →
        (tl.slot_of v).2.1 = time_point_default →
        t1 ≤ t2 ∧ (faults_of evs).count v = if t2 < t1 + a.W then 1 else 0 := by
  have hss := log_sorted_selected a.votes begin endt hs
  refine ⟨_, _, scan_eq a tl begin endt vals hW hb, (rise_trace_spec _ _ _ _ _).1, ?_, ?_⟩
  · simp only [scan_c, faults_of_append, faults_of_drain_c, List.append_nil]
    exact (rise_trace_spec _ _ _ _ _).2
  · intro A B C t1 t2 v o1 o2 hseg hA hB hC ho h0
    obtain ⟨x1, x2, x3⟩ := two_votes_index A B C (t1, v, o1) (t2, v, o2) v hA hB hC
    rw [← hseg] at x1 x2 x3
    have hmem : (t1, v, o1) ∈ selected a.votes begin endt := List.getElem?_mem x1
    have ht : t1 ≠ time_point_default :=
      hnt _ (mem_selected a.votes begin endt hs _ hmem).1
    refine ⟨?_, two_votes_fault a.W hW endt vals _ hss A.length (A.length + 1 + B.length)
      t1 t2 v o1 o2 (by omega) x1 x2 ho ht x3 tl h0⟩
    have h5 := hss
    rw [hseg, List.append_assoc] at h5
    exact (log_sorted_split h5).2.1 (t2, v, o2) (by simp)

theorem equivocation_in_window_witness :
    0 < (node_of 50 0 log_equivocation).W ∧
    log_sorted (node_of 50 0 log_equivocation).votes ∧
    (∀ e ∈ (node_of 50 0 log_equivocation).votes, e.1 ≠ time_point_default) ∧
    ((node_of 50 0 log_equivocation).scan tally.fresh 0 2000 (uniform_validators 3)).map
        (fun r => faults_of r.2) = some [0] ∧
    ∃ tl1 evs, (node_of 50 0 log_equivocation).scan tally.fresh 0 2000 (uniform_validators 3)
        = some (tl1, evs) ∧
      (faults_of evs).count 0 = 1 ∧ (faults_of evs).count 1 = 0 := by
  refine ⟨by decide, by unfold log_sorted; decide, by decide, by rfl, ?_⟩
  obtain ⟨tl1, evs, h1, -, -, h4⟩ := equivocation_in_window (node_of 50 0 log_equivocation)
    tally.fresh (uniform_validators 3) 0 2000 (by decide) (by decide)
    (by unfold log_sorted; decide) (by decide)
  exact ⟨tl1, evs, h1,
    (h4 [] [(1000, 1, 1)] [(1050, 1, 2)] 1000 1010 0 1 2 (by rfl) (by decide) (by decide)
      (by decide) (by decide) (by rfl)).2,
    (h4 [(1000, 0, 1)] [(1010, 0, 2)] [] 1000 1050 1 1 2 (by rfl) (by decide) (by decide)
      (by decide) (by decide) (by rfl)).2⟩

/-! ## The rolling tally and the naive window sum -/

theorem window_fall (vals : validators) (seg : List vote_event)
    (hnt : ∀ e ∈ seg, e.1 ≠ time_point_default)
    (F : List vote_event) (x : vote_event) (M C : List vote_event) (T : tally)
    (fs : List validator) (hseg : seg = F ++ x :: M ++ C)
    (hP : window_inv vals F (x :: M) T fs) :
    window_inv vals (F ++ [x]) M (T.fall x.1 x.2.1 x.2.2) fs := by
  have hxt : x.1 ≠ time_point_default := hnt x (by rw [hseg]; simp)
  obtain ⟨p1, p2, p3⟩ := hP
  refine ⟨sum_wf_fall T x.1 x.2.1 x.2.2 hxt p1, p2, ?_⟩
  intro v
  obtain ⟨a1, a2⟩ := p3 v
  by_cases hv : v = x.2.1
  · subst hv
    rw [fall_slot, if_pos rfl]
    by_cases hm : x.1 = (T.slot_of x.2.1).2.1 ∧ x.2.2 = (T.slot_of x.2.1).1
    · rw [if_pos hm]
      refine ⟨fun h => absurd rfl h, fun _ e he hev => ?_⟩
      have hact : (T.slot_of x.2.1).2.1 ≠ time_point_default := by
        rw [← hm.1]
        exact hxt
      obtain ⟨-, -, b3⟩ := a1 hact
      refine ⟨x, by simp, rfl, ?_⟩
      rw [hm.1]
      exact b3 e (List.mem_cons_of_mem _ he) hev
    · rw [if_neg hm]
      refine ⟨fun h => ?_, fun h e he hev => ?_⟩
      · obtain ⟨b1, ⟨e, he, b2, b3, b4⟩, b5⟩ := a1 h
        refine ⟨b1, ⟨e, ?_, b2, b3, b4⟩,
          fun e1 he1 hev => b5 e1 (List.mem_cons_of_mem _ he1) hev⟩
        rcases List.mem_cons.1 he with rfl | he
        · exact absurd ⟨b3, b4⟩ hm
        · exact he
      · obtain ⟨f, hf, c1, c2⟩ := a2 h e (List.mem_cons_of_mem _ he) hev
        exact ⟨f, List.mem_append_left _ hf, c1, c2⟩
  · rw [fall_slot, if_neg hv]
    refine ⟨fun h => ?_, fun h e he hev => ?_⟩
    · obtain ⟨b1, ⟨e, he, b2, b3, b4⟩, b5⟩ := a1 h
      refine ⟨b1, ⟨e, ?_, b2, b3, b4⟩, fun e1 he1 hev => b5 e1 (List.mem_cons_of_mem _ he1) hev⟩
      rcases List.mem_cons.1 he with rfl | he
      · exact absurd b2.symm hv
      · exact he
    · obtain ⟨f, hf, c1, c2⟩ := a2 h e (List.mem_cons_of_mem _ he) hev
      exact ⟨f, List.mem_append_left _ hf, c1, c2⟩

theorem window_rise (vals : validators) (seg : List vote_event) (hs : log_sorted seg)
    (hnt : ∀ e ∈ seg, e.1 ≠ time_point_default)
    (hone : ∀ e1 ∈ seg, ∀ e2 ∈ seg, e1.2.1 = e2.2.1 → e1.2.2 = e2.2.2)
    (F M : List vote_event) (e : vote_event) (C : List vote_event) (T : tally)
    (fs : List validator) (hseg : seg = F ++ M ++ e :: C) (hP : window_inv vals F M T fs) :
    window_inv vals F (M ++ [e]) (T.rise e.1 e.2.1 e.2.2 vals).1
        (fs ++ faults_of (fault_if (T.rise e.1 e.2.1 e.2.2 vals).2)) ∧
      (T.rise e.1 e.2.1 e.2.2 vals).2 = none := by
  have het : e.1 ≠ time_point_default := hnt e (by rw [hseg]; simp)
  have hes : e ∈ seg := by rw [hseg]; simp
  have hMs : ∀ m ∈ M, m ∈ seg := fun m hm => by rw [hseg]; simp [hm]
  have hle : ∀ m ∈ M, m.1 ≤ e.1 := fun m hm =>
    (log_sorted_split (hseg ▸ hs)).1 m (List.mem_append_right _ hm)
  obtain ⟨p1, p2, p3⟩ := hP
  have hobj : (T.slot_of e.2.1).2.1 ≠ time_point_default → (T.slot_of e.2.1).1 = e.2.2 := by
    intro h
    obtain ⟨-, ⟨e0, he0, b2, -, b4⟩, -⟩ := (p3 e.2.1).1 h
    rw [← b4]
    exact hone e0 (hMs e0 he0) e hes b2
  have hnone : (T.rise e.1 e.2.1 e.2.2 vals).2 = none := by
    rw [rise_fault, if_neg]
    rintro ⟨h1, h2⟩
    exact h2 (hobj h1)
  refine ⟨⟨sum_wf_rise T e.1 e.2.1 e.2.2 vals het p1, ?_, ?_⟩, hnone⟩
  · rw [hnone, p2]
    rfl
  · intro v
    obtain ⟨a1, a2⟩ := p3 v
    by_cases hv : v = e.2.1
    · subst hv
      rw [rise_slot, if_pos rfl]
      have hJ3 : ∀ e1 ∈ M ++ [e], e1.2.1 = e.2.1 → e1.1 ≤ e.1 := by
        intro e1 he1 _
        rcases List.mem_append.1 he1 with he1 | he1
        · exact hle e1 he1
        · rw [List.mem_singleton.1 he1]
      by_cases c1 : (T.slot_of e.2.1).2.1 = time_point_default
      · rw [if_pos c1]
        exact ⟨fun _ => ⟨rfl, ⟨e, by simp, rfl, rfl, rfl⟩, hJ3⟩, fun h => absurd h het⟩
      · rw [if_neg c1, if_pos (hobj c1)]
        obtain ⟨b1, -, -⟩ := a1 c1
        exact ⟨fun _ => ⟨b1, ⟨e, by simp, rfl, rfl, (hobj c1).symm⟩, hJ3⟩,
          fun h => absurd h het⟩
    · rw [rise_slot, if_neg hv]
      refine ⟨fun h => ?_, fun h e1 he1 hev => ?_⟩
      · obtain ⟨b1, ⟨e0, he0, b2, b3, b4⟩, b5⟩ := a1 h
        refine ⟨b1, ⟨e0, List.mem_append_left _ he0, b2, b3, b4⟩, fun e1 he1 hev => ?_⟩
        rcases List.mem_append.1 he1 with he1 | he1
        · exact b5 e1 he1 hev
        · rw [List.mem_singleton.1 he1] at hev
          exact absurd hev.symm hv
      · rcases List.mem_append.1 he1 with he1 | he1
        · exact a2 h e1 he1 hev
        · rw [List.mem_singleton.1 he1] at hev
          exact absurd hev.symm hv

theorem sum_map_ite_filter (l : List validator) (p : validator → Prop) [DecidablePred p]
    (f : validator → weight) :
    (l.map (fun v => if p v then f v else 0)).sum
      = ((l.filter (fun v => decide (p v))).map f).sum := by
  induction l with
  | nil => rfl
  | cons x rest ih =>
    by_cases c : p x
    · rw [List.filter_cons_of_pos (by simpa using c)]
      simp only [List.map_cons, List.sum_cons, if_pos c, ih]
    · rw [List.filter_cons_of_neg (by simpa using c)]
      simp only [List.map_cons, List.sum_cons, if_neg c, ih, zero_add]

theorem active_weight_eq_sum (T : tally) (o : object) (hn : (T.votes.map Prod.fst).Nodup) :
    active_weight T.votes o
      = ((T.votes.map Prod.fst).map (fun v => contrib o (T.slot_of v))).sum := by
  unfold active_weight
  rw [List.map_map]
  congr 1
  apply List.map_congr_left
  intro e he
  have : map_find T.votes e.1 = some e.2 := map_find_of_mem T.votes e.1 e.2 hn he
  simp only [Function.comp, tally.slot_of, this, Option.getD_some]

/-- In a state of the scan in which the votes `M` that are up are those of the window, the
total of every object is the naive sum over the window. -/
theorem window_inv_totals (vals : validators) (votes : List vote_event)
    (begin endt : time_point) (hs : log_sorted votes)
    (hone : ∀ e1 ∈ selected votes begin endt, ∀ e2 ∈ selected votes begin endt,
      e1.2.1 = e2.2.1 → e1.2.2 = e2.2.2)
    (F M C : List vote_event) (T : tally) (fs : List validator)
    (hseg : selected votes begin endt = F ++ M ++ C) (hP : window_inv vals F M T fs)
    (lo hi : time_point) (closed : Bool) (hF : ∀ f ∈ F, f.1 ≤ lo)
    (hM : ∀ m ∈ M, lo < m.1 ∧ (m.1 < hi ∨ (closed = true ∧ m.1 = hi)))
    (hC : ∀ c ∈ C, ¬ (c.1 < hi ∨ (closed = true ∧ c.1 = hi))) (o : object) :
    (map_find T.totals o).getD 0 = window_sum vals votes begin endt lo hi closed o := by
  obtain ⟨p1, -, p3⟩ := hP
  have hMs : ∀ m ∈ M, m ∈ selected votes begin endt := fun m hm => by rw [hseg]; simp [hm]
  have key : ∀ v, ((T.slot_of v).2.1 ≠ time_point_default ∧ (T.slot_of v).1 = o) ↔
      v ∈ window_voters votes begin endt lo hi closed o := by
    intro v
    unfold window_voters
    rw [List.mem_dedup, List.mem_map]
    constructor
    · rintro ⟨h1, h2⟩
      obtain ⟨-, ⟨e, he, b2, -, b4⟩, -⟩ := (p3 v).1 h1
      obtain ⟨m1, m2, m3⟩ := mem_selected votes begin endt hs e (hMs e he)
      refine ⟨e, ?_, b2⟩
      rw [List.mem_filter]
      refine ⟨m1, ?_⟩
      rw [decide_eq_true_eq]
      exact ⟨m2, m3, (hM e he).1, (hM e he).2, b4.trans h2⟩
    · rintro ⟨e, he, hev⟩
      rw [List.mem_filter, decide_eq_true_eq] at he
      obtain ⟨m1, m2, m3, m4, m5, m6⟩ := he
      have hsel : e ∈ selected votes begin endt :=
        (mem_selected_iff votes begin endt hs e).2 ⟨m1, m2, m3⟩
      have heM : e ∈ M := by
        have := hsel
        rw [hseg] at this
        rcases List.mem_append.1 this with h | h
        · rcases List.mem_append.1 h with h | h
          · exact absurd (hF e h) (not_le.2 m4)
          · exact h
        · exact absurd m5 (hC e h)
      have hact : (T.slot_of v).2.1 ≠ time_point_default := by
        intro hin
        obtain ⟨f, hf, -, c2⟩ := (p3 v).2 hin e heM hev
        have := hF f hf
        linarith
      obtain ⟨-, ⟨e0, he0, b2, -, b4⟩, -⟩ := (p3 v).1 hact
      refine ⟨hact, ?_⟩
      rw [← b4, ← m6]
      exact hone e0 (hMs e0 he0) e hsel (b2.trans hev.symm)
  have hc : ∀ v, contrib o (T.slot_of v)
      = if v ∈ window_voters votes begin endt lo hi closed o then vals.weight v else 0 := by
    intro v
    unfold contrib
    by_cases c : (T.slot_of v).2.1 ≠ time_point_default ∧ (T.slot_of v).1 = o
    · rw [if_pos c, if_pos ((key v).1 c)]
      exact ((p3 v).1 c.1).1
    · rw [if_neg c, if_neg (fun h => c ((key v).2 h))]
  have hsub : ∀ v, v ∈ window_voters votes begin endt lo hi closed o →
      v ∈ T.votes.map Prod.fst := by
    intro v hv
    have h1 := slot_of_find T v ((key v).2 hv).1
    exact List.mem_map.2 ⟨(v, T.slot_of v), map_find_mem _ _ _ h1, rfl⟩
  show (map_find T.totals_m o).getD 0 = _
  rw [p1.2 o, active_weight_eq_sum T o p1.1]
  simp only [hc]
  rw [sum_map_ite_filter]
  unfold window_sum
  apply List.Perm.sum_eq
  apply List.Perm.map
  have hnd : (window_voters votes begin endt lo hi closed o).Nodup := by
    unfold window_voters
    exact List.nodup_dedup _
  rw [List.perm_ext_iff_of_nodup (p1.1.filter _) hnd]
  intro v
  rw [List.mem_filter, decide_eq_true_eq]
  exact ⟨fun h => h.2, fun h => ⟨hsub v h, h⟩⟩

/-- The rolling tally is the naive window sum, with the sums computed in the integers.  For
a positive window, a fresh tally, a
time-ordered log with times other than `time_point{}` in which no validator votes for two
objects within `[begin, end]`, and `begin <= end`, `scan` returns and calls `fault` at no
time.  At every call of `edge` made after the rises at a time `s`, each object `o` has for
total (0 if it has no entry) the summed weight of the distinct validators that have a vote
for `o` with a time in `(s - W, s]` and in `[begin, end]`; at every call of `edge` made
after the falls at a time `s` the same holds with the window `(s - W, s)`. -/
theorem rolling_tally_window_sum (a : agreement) (vals : validators)
    (begin endt : time_point) (hW : 0 < a.W) (hb : begin ≤ endt) (hs : log_sorted a.votes)
    (hnt : ∀ e ∈ a.votes, e.1 ≠ time_point_default)
    (hone : ∀ e1 ∈ a.votes, ∀ e2 ∈ a.votes, begin ≤ e1.1 → e1.1 ≤ endt → begin ≤ e2.1 →
      e2.1 ≤ endt → e1.2.1 = e2.2.1 → e1.2.2 = e2.2.2) :
    ∃ tl1 ks, a.scan tally.fresh begin endt vals = some (tl1, ks.map scan_call.untag) ∧
      ks = scan_k a.W endt vals (selected a.votes begin endt) tally.fresh ∧
      (∀ s T, scan_call.risen s T ∈ ks → ∀ o, (map_find T.totals o).getD 0
        = window_sum vals a.votes begin endt (s - a.W) s true o) ∧
      (∀ s T, scan_call.expired s T ∈ ks → ∀ o, (map_find T.totals o).getD 0
        = window_sum vals a.votes begin endt (s - a.W) s false o) ∧
      ∀ v, scan_call.fault v ∉ ks := by
  have hss := log_sorted_selected a.votes begin endt hs
  have hnts : ∀ e ∈ selected a.votes begin endt, e.1 ≠ time_point_default :=
    fun e he => hnt e (mem_selected a.votes begin endt hs e he).1
  have hones : ∀ e1 ∈ selected a.votes begin endt, ∀ e2 ∈ selected a.votes begin endt,
      e1.2.1 = e2.2.1 → e1.2.2 = e2.2.2 := by
    intro e1 h1 e2 h2 hv
    obtain ⟨a1, a2, a3⟩ := mem_selected a.votes begin endt hs e1 h1
    obtain ⟨b1, b2, b3⟩ := mem_selected a.votes begin endt hs e2 h2
    exact hone e1 a1 e2 b1 a2 a3 b2 b3 hv
  obtain ⟨hq, -⟩ := scan_pos a.W hW endt vals (selected a.votes begin endt) hss
    (fun F M _ T fs => window_inv vals F M T fs)
    (fun k =>
      (∀ s T, k = scan_call.risen s T → ∀ o, (map_find T.totals o).getD 0
        = window_sum vals a.votes begin endt (s - a.W) s true o) ∧
      (∀ s T, k = scan_call.expired s T → ∀ o, (map_find T.totals o).getD 0
        = window_sum vals a.votes begin endt (s - a.W) s false o) ∧
      ∀ v, k ≠ scan_call.fault v)
    (fun F x M C T fs hsg hP => window_fall vals _ hnts F x M C T fs hsg hP)
    (fun F M e C T fs hsg hP _ _ =>
      ⟨(window_rise vals _ hss hnts hones F M e C T fs hsg hP).1, fun v hv => by
        rw [(window_rise vals _ hss hnts hones F M e C T fs hsg hP).2] at hv
        exact Option.noConfusion hv⟩)
    (fun F M C T fs s hsg hP hF hM hC _ =>
      ⟨fun s1 T1 h => scan_call.noConfusion h,
        fun s1 T1 h o => by
          injection h with h1 h2
          subst h1
          subst h2
          exact window_inv_totals vals a.votes begin endt hs hones F M C T fs hsg hP
            (s - a.W) s false hF (fun m hm => ⟨(hM m hm).1, Or.inl (hM m hm).2⟩)
            (fun c hc h => by
              rcases h with h | h
              · exact absurd (hC c hc) (not_le.2 h)
              · exact Bool.noConfusion h.1) o,
        fun v h => scan_call.noConfusion h⟩)
    (fun F M C T fs s hsg hP hF hM hC _ =>
      ⟨fun s1 T1 h o => by
          injection h with h1 h2
          subst h1
          subst h2
          exact window_inv_totals vals a.votes begin endt hs hones F M C T fs hsg hP
            (s - a.W) s true hF
            (fun m hm => ⟨(hM m hm).1, by
              rcases lt_or_eq_of_le (hM m hm).2 with h | h
              · exact Or.inl h
              · exact Or.inr ⟨rfl, h⟩⟩)
            (fun c hc h => by
              have := hC c hc
              rcases h with h | h
              · linarith
              · linarith [h.2]) o,
        fun s1 T1 h => scan_call.noConfusion h,
        fun v h => scan_call.noConfusion h⟩)
    tally.fresh
    ⟨sum_wf_fresh, rfl, fun v => ⟨fun h => absurd rfl h, fun _ e he => by simp at he⟩⟩
  refine ⟨(scan_c a.W endt vals (selected a.votes begin endt) tally.fresh).1, _, ?_, rfl,
    fun s T hk => (hq _ hk).1 s T rfl, fun s T hk => (hq _ hk).2.1 s T rfl,
    fun v hk => (hq _ hk).2.2 v rfl⟩
  rw [scan_eq a tally.fresh begin endt vals hW hb, scan_k_untag]

theorem rolling_tally_window_sum_witness :
    0 < (node_of 50 0 log_repeat).W ∧ log_sorted (node_of 50 0 log_repeat).votes ∧
    (∀ e ∈ (node_of 50 0 log_repeat).votes, e.1 ≠ time_point_default) ∧
    (∀ e1 ∈ (node_of 50 0 log_repeat).votes, ∀ e2 ∈ (node_of 50 0 log_repeat).votes,
      (0 : time_point) ≤ e1.1 → e1.1 ≤ 2000 → (0 : time_point) ≤ e2.1 → e2.1 ≤ 2000 →
      e1.2.1 = e2.2.1 → e1.2.2 = e2.2.2) ∧
    window_sum (uniform_validators 3) log_repeat 0 2000 (1010 - 50) 1010 true 1 = 1 ∧
    window_sum (uniform_validators 3) log_repeat 0 2000 (1060 - 50) 1060 false 1 = 1 ∧
    risen_times (scan_k 50 2000 (uniform_validators 3) (selected log_repeat 0 2000)
      tally.fresh) = [1000, 1010, 1020] ∧
    ∃ tl1 ks, (node_of 50 0 log_repeat).scan tally.fresh 0 2000 (uniform_validators 3)
        = some (tl1, ks.map scan_call.untag) ∧
      ks = scan_k (node_of 50 0 log_repeat).W 2000 (uniform_validators 3)
        (selected (node_of 50 0 log_repeat).votes 0 2000) tally.fresh ∧
      (∀ s T, scan_call.risen s T ∈ ks → ∀ o, (map_find T.totals o).getD 0
        = window_sum (uniform_validators 3) (node_of 50 0 log_repeat).votes 0 2000
            (s - (node_of 50 0 log_repeat).W) s true o) ∧
      (∀ s T, scan_call.expired s T ∈ ks → ∀ o, (map_find T.totals o).getD 0
        = window_sum (uniform_validators 3) (node_of 50 0 log_repeat).votes 0 2000
            (s - (node_of 50 0 log_repeat).W) s false o) ∧
      ∀ v, scan_call.fault v ∉ ks :=
  ⟨by decide, by unfold log_sorted; decide, by decide, by decide, by decide, by decide,
    by rfl,
    rolling_tally_window_sum (node_of 50 0 log_repeat) (uniform_validators 3) 0 2000
      (by decide) (by decide) (by unfold log_sorted; decide) (by decide) (by decide)⟩

/-- The log stays time-ordered under `insert`: `votes.emplace` keeps the multimap in key
order. -/
theorem log_insert_sorted (e : vote_event) :
    ∀ (l : List vote_event), log_sorted l → log_sorted (log_insert e l) := by
  intro l
  induction l with
  | nil => intro _; simp [log_insert, log_sorted]
  | cons x rest ih =>
    intro h
    simp only [log_insert]
    split_ifs with c
    · have h1 := ih (log_sorted_tail h)
      unfold log_sorted at h h1 ⊢
      rw [List.pairwise_cons] at h ⊢
      refine ⟨?_, h1⟩
      intro y hy
      have hmem : ∀ (l : List vote_event) (y : vote_event), y ∈ log_insert e l →
          y = e ∨ y ∈ l := by
        intro l
        induction l with
        | nil => intro y hy; simpa [log_insert] using hy
        | cons z r ihr =>
          intro y hy
          simp only [log_insert] at hy
          split_ifs at hy
          · rcases List.mem_cons.1 hy with hy | hy
            · exact Or.inr (hy ▸ List.mem_cons_self _ _)
            · rcases ihr y hy with h2 | h2
              · exact Or.inl h2
              · exact Or.inr (List.mem_cons_of_mem _ h2)
          · rcases List.mem_cons.1 hy with hy | hy
            · exact Or.inl hy
            · exact Or.inr hy
      rcases hmem rest y hy with rfl | hy
      · exact c
      · exact h.1 y hy
    · unfold log_sorted at h ⊢
      rw [List.pairwise_cons]
      refine ⟨?_, h⟩
      intro y hy
      have hlt : e.1 ≤ x.1 := le_of_lt (not_le.1 c)
      rcases List.mem_cons.1 hy with rfl | hy
      · exact hlt
      · exact le_trans hlt ((List.pairwise_cons.1 h).1 y hy)

/-! ## Frame of `reset`, `insert`, `tally` and `vote` -/

/-- C33 (`reset`).  `reset (o)` sets `last = o` and `time` to the default time point; the
window, the vote log and the parent set are as before, so a parent set that a confirmation
has cleared stays cleared and an intact one stays intact.  A second `reset` with the same
object changes nothing more. -/
theorem reset_frame (a : agreement) (o : object) :
    (a.reset o).last = o ∧ (a.reset o).time = time_point_default ∧
    (a.reset o).votes = a.votes ∧ (a.reset o).parents = a.parents ∧ (a.reset o).W = a.W ∧
    (a.parents = [] → (a.reset o).parents = []) ∧
    (a.parents ≠ [] → (a.reset o).parents ≠ []) ∧
    (a.reset o).reset o = a.reset o ∧
    a.reset o = ⟨a.W, a.votes, a.parents, time_point_default, o⟩ :=
  ⟨rfl, rfl, rfl, rfl, rfl, fun h => h, fun h => h, rfl, rfl⟩

theorem log_insert_perm (e : vote_event) :
    ∀ (l : List vote_event), (log_insert e l).Perm (e :: l) := by
  intro l
  induction l with
  | nil => exact List.Perm.refl _
  | cons x rest ih =>
    simp only [log_insert]
    split_ifs
    · exact ((List.Perm.cons x ih).trans (List.Perm.swap e x rest))
    · exact List.Perm.refl _

theorem log_insert_sublist (e : vote_event) :
    ∀ (l : List vote_event), l.Sublist (log_insert e l) := by
  intro l
  induction l with
  | nil => exact List.nil_sublist _
  | cons x rest ih =>
    simp only [log_insert]
    split_ifs
    · exact ih.cons₂ x
    · exact List.sublist_cons_self _ _

theorem set_time_votes (h : heap) (j : Nat) (now : time_point) :
    (set_time h j now).map agreement.votes = h.map agreement.votes := by
  apply List.ext_getElem?
  intro i
  rw [List.getElem?_map, List.getElem?_map, set_time_get]
  by_cases c : i = j
  · rw [if_pos c]; cases h[i]? <;> rfl
  · rw [if_neg c]

theorem set_last_votes (h : heap) (j : Nat) (o : object) :
    (set_last h j o).map agreement.votes = h.map agreement.votes := by
  apply List.ext_getElem?
  intro i
  rw [List.getElem?_map, List.getElem?_map, set_last_get]
  by_cases c : i = j
  · rw [if_pos c]; cases h[i]? <;> rfl
  · rw [if_neg c]

theorem mark_votes (h : heap) (self : Nat) (now : time_point) (h1 : heap)
    (hm : mark h self now = some h1) :
    h1.map agreement.votes = h.map agreement.votes := by
  unfold mark for_each_ancestor at hm
  rw [loop_eq_visit _ (fun i st => set_time_parents st.1 i now)] at hm
  cases hv : visit_loop (List.map agreement.parents (h, ()).1) (h.length + 1) [] [self] with
  | none => rw [hv] at hm; simp at hm
  | some vs =>
    rw [hv] at hm
    simp only [Option.map_some', Option.some.injEq] at hm
    rw [← hm]
    have key : ∀ (l : List Nat) (g : heap),
        (l.foldl (fun (s : heap × Unit) i => (set_time s.1 i now, s.2)) (g, ())).1.map
          agreement.votes = g.map agreement.votes := by
      intro l
      induction l with
      | nil => intro g; rfl
      | cons x l ih => intro g; simp only [List.foldl_cons]; rw [ih, set_time_votes]
    exact key vs h

theorem vote_votes (h : heap) (self : Nat) (vals : validators) (now : time_point)
    (r : heap × time_point × List (object × time_point) × List validator)
    (hv : vote h self vals now = some r) :
    r.1.map agreement.votes = h.map agreement.votes := by
  unfold vote at hv
  cases ha : h[self]? with
  | none => rw [ha] at hv; simp at hv
  | some a =>
    rw [ha] at hv
    simp only [] at hv
    cases hs : a.scan tally.fresh (now - a.W) now vals with
    | none => rw [hs] at hv; simp at hv
    | some x =>
      obtain ⟨tl, evs⟩ := x
      rw [hs] at hv
      simp only [] at hv
      split_ifs at hv with c1
      · cases hr : replaceable h self with
        | none => rw [hr] at hv; simp at hv
        | some w =>
          rw [hr] at hv
          simp only [] at hv
          split_ifs at hv with c2
          · cases hm : mark (set_last h self tl.max.2) self now with
            | none => rw [hm] at hv; simp at hv
            | some h2 =>
              rw [hm] at hv
              simp only [Option.some.injEq] at hv
              rw [← hv]
              exact (mark_votes _ self now h2 hm).trans (set_last_votes h self _)
          · simp only [Option.some.injEq] at hv
            rw [← hv]
      · cases hm : mark h self now with
        | none => rw [hm] at hv; simp at hv
        | some h2 =>
          rw [hm] at hv
          simp only [Option.some.injEq] at hv
          rw [← hv]
          exact mark_votes h self now h2 hm

theorem map_set_field {β : Type} (f : agreement → β) (h : heap) (i : Nat) (a b : agreement)
    (ha : h[i]? = some a) (hf : f b = f a) : (h.set i b).map f = h.map f := by
  apply List.ext_getElem?
  intro j
  rw [List.getElem?_map, List.getElem?_map, List.getElem?_set]
  by_cases c : i = j
  · subst c
    rw [if_pos rfl]
    have hlt : i < h.length := by
      by_contra hc
      rw [List.getElem?_eq_none (not_lt.1 hc)] at ha
      exact Option.noConfusion ha
    rw [if_pos hlt, ha]
    simp [hf]
  · rw [if_neg c]

/-- C32 (the vote log only grows).  `insert` adds its event to the log once: the new log is
the old one with the event placed in it, every old event is kept, in its order, and nothing
is merged; the other members of the node are as before.  A call of `tally` or `vote` on any
node leaves the log of every node as it was, and a call of `tally` changes neither `last`
nor `time` of any node. -/
theorem log_only_grows (h : heap) (c : node_call) (h1 : heap)
    (hc : apply_call h c = some h1) :
    (∀ (a : agreement) (item : object) (time : time_point) (v : validator),
      (a.insert item time v).votes.Perm ((time, v, item) :: a.votes) ∧
      (a.insert item time v).votes.length = a.votes.length + 1 ∧
      a.votes.Sublist (a.insert item time v).votes ∧
      (a.insert item time v).W = a.W ∧ (a.insert item time v).parents = a.parents ∧
      (a.insert item time v).time = a.time ∧ (a.insert item time v).last = a.last) ∧
    (∀ i item time v, c = node_call.insert i item time v →
      ∃ a, h[i]? = some a ∧ h1 = h.set i (a.insert item time v) ∧
        ∀ j, j ≠ i → h1[j]? = h[j]?) ∧
    ((∀ i item time v, c ≠ node_call.insert i item time v) →
      h1.map agreement.votes = h.map agreement.votes) ∧
    (∀ i b e vals hold, c = node_call.tally i b e vals hold →
      h1.map agreement.last = h.map agreement.last ∧
      h1.map agreement.time = h.map agreement.time) := by
  refine ⟨?_, ?_, ?_, ?_⟩
  · intro a item time v
    have hp := log_insert_perm (time, v, item) a.votes
    refine ⟨hp, ?_, log_insert_sublist _ _, rfl, rfl, rfl, rfl⟩
    have := hp.length_eq
    simpa using this
  · intro i item time v hci
    subst hci
    simp only [apply_call] at hc
    cases ha : h[i]? with
    | none => rw [ha] at hc; simp at hc
    | some a =>
      rw [ha] at hc
      simp only [Option.some.injEq] at hc
      refine ⟨a, rfl, hc.symm, ?_⟩
      intro j hj
      rw [← hc, List.getElem?_set, if_neg (fun h2 => hj h2.symm)]
  · intro hni
    cases c with
    | insert i item time v => exact absurd rfl (hni i item time v)
    | tally i b e vals hold =>
      simp only [apply_call] at hc
      cases ha : h[i]? with
      | none => rw [ha] at hc; simp at hc
      | some a =>
        rw [ha] at hc
        simp only [] at hc
        cases ht : a.tally b e vals hold with
        | none => rw [ht] at hc; simp at hc
        | some r =>
          rw [ht] at hc
          simp only [Option.some.injEq] at hc
          rw [← hc]
          exact map_set_field agreement.votes h i a r.1 ha
            (tally_frame a b e vals hold r ht).2.2.2.1
    | vote i vals now =>
      simp only [apply_call] at hc
      cases hv : vote h i vals now with
      | none => rw [hv] at hc; simp at hc
      | some r =>
        rw [hv] at hc
        simp only [Option.some.injEq] at hc
        rw [← hc]
        exact vote_votes h i vals now r hv
  · intro i b e vals hold hci
    subst hci
    simp only [apply_call] at hc
    cases ha : h[i]? with
    | none => rw [ha] at hc; simp at hc
    | some a =>
      rw [ha] at hc
      simp only [] at hc
      cases ht : a.tally b e vals hold with
      | none => rw [ht] at hc; simp at hc
      | some r =>
        rw [ht] at hc
        simp only [Option.some.injEq] at hc
        rw [← hc]
        obtain ⟨-, f2, f3, -, -⟩ := tally_frame a b e vals hold r ht
        exact ⟨map_set_field agreement.last h i a r.1 ha f3,
          map_set_field agreement.time h i a r.1 ha f2⟩

theorem log_only_grows_witness :
    apply_call [node_s4, agreement.mk_node 50 0 []]
        (node_call.tally 0 0 2000 (uniform_validators 4) 0)
      = some [node_s4_confirmed, agreement.mk_node 50 0 []] ∧
    [node_s4_confirmed, agreement.mk_node 50 0 []].map agreement.votes
      = [node_s4, agreement.mk_node 50 0 []].map agreement.votes ∧
    ([node_s4_confirmed, agreement.mk_node 50 0 []].map agreement.last
        = [node_s4, agreement.mk_node 50 0 []].map agreement.last ∧
      [node_s4_confirmed, agreement.mk_node 50 0 []].map agreement.time
        = [node_s4, agreement.mk_node 50 0 []].map agreement.time) ∧
    (node_s4.insert 0 1000 0).votes = [(1000, 0, 0), (1000, 1, 0), (1000, 2, 0), (1000, 0, 0)] ∧
    (node_s4.insert 0 1000 0).votes.Perm ((1000, 0, 0) :: node_s4.votes) :=
  ⟨by rfl,
    (log_only_grows [node_s4, agreement.mk_node 50 0 []]
      (node_call.tally 0 0 2000 (uniform_validators 4) 0)
      [node_s4_confirmed, agreement.mk_node 50 0 []] (by rfl)).2.2.1
      (fun _ _ _ _ h => node_call.noConfusion h),
    (log_only_grows [node_s4, agreement.mk_node 50 0 []]
      (node_call.tally 0 0 2000 (uniform_validators 4) 0)
      [node_s4_confirmed, agreement.mk_node 50 0 []] (by rfl)).2.2.2 0 0 2000
      (uniform_validators 4) 0 rfl,
    by rfl,
    ((log_only_grows [node_s4, agreement.mk_node 50 0 []]
      (node_call.tally 0 0 2000 (uniform_validators 4) 0)
      [node_s4_confirmed, agreement.mk_node 50 0 []] (by rfl)).1 node_s4 0 1000 0).1⟩

/-! ## Termination of the ancestor traversal -/

theorem pp_work_sub_marked (ps : List Nat) (m w : List Nat) (hw : ∀ x ∈ w, x ∈ m) :
    ∀ x ∈ (ps.foldl push_parent (m, w)).2, x ∈ (ps.foldl push_parent (m, w)).1 := by
  intro x hx
  rw [pp_marked_mem]
  rcases pp_work_mem_new ps m w x hx with h | h
  · exact Or.inl (hw x h)
  · exact Or.inr h.1

/-- Once every node on the stack is marked, no node is visited twice. -/
theorem visit_marked_nodup (g : List (List Nat)) :
    ∀ (fuel : Nat) (marked work vs : List Nat), visit_loop g fuel marked work = some vs →
      work.Nodup → (∀ x ∈ work, x ∈ marked) →
      vs.Nodup ∧ ∀ x ∈ vs, x ∈ work ∨ x ∉ marked := by
  intro fuel
  induction fuel with
  | zero =>
    intro marked work vs h _ _
    cases work with
    | nil =>
      simp only [visit_loop, Option.some.injEq] at h
      subst h
      exact ⟨List.nodup_nil, fun x hx => by simp at hx⟩
    | cons t r => simp [visit_loop] at h
  | succ k ih =>
    intro marked work vs h hn hm
    cases work with
    | nil =>
      simp only [visit_loop, Option.some.injEq] at h
      subst h
      exact ⟨List.nodup_nil, fun x hx => by simp at hx⟩
    | cons top rest =>
      simp only [visit_loop] at h
      cases hv : visit_loop g k
          (((g[top]?).getD []).foldl push_parent (marked, rest)).1
          (((g[top]?).getD []).foldl push_parent (marked, rest)).2 with
      | none => rw [hv] at h; simp at h
      | some vs1 =>
        rw [hv] at h
        simp only [Option.map_some', Option.some.injEq] at h
        subst h
        have hrest : ∀ x ∈ rest, x ∈ marked := fun x hx => hm x (List.mem_cons_of_mem _ hx)
        have htop : top ∈ marked := hm top (List.mem_cons_self _ _)
        have hn2 := List.nodup_cons.1 hn
        obtain ⟨i1, i2⟩ := ih _ _ _ hv
          (pp_work_nodup _ marked rest hn2.2 (fun x hx => Or.inl (hrest x hx)))
          (pp_work_sub_marked _ marked rest hrest)
        refine ⟨List.nodup_cons.2 ⟨?_, i1⟩, ?_⟩
        · intro hc
          rcases i2 top hc with h1 | h1
          · rcases pp_work_mem_new _ marked rest top h1 with h2 | h2
            · exact hn2.1 h2
            · exact h2.2 htop
          · exact h1 ((pp_marked_mem _ marked rest top).2 (Or.inl htop))
        · intro x hx
          rcases List.mem_cons.1 hx with rfl | hx
          · exact Or.inl (List.mem_cons_self _ _)
          · rcases i2 x hx with h1 | h1
            · rcases pp_work_mem_new _ marked rest x h1 with h2 | h2
              · exact Or.inl (List.mem_cons_of_mem _ h2)
              · exact Or.inr h2.2
            · exact Or.inr (fun hc => h1 ((pp_marked_mem _ marked rest x).2 (Or.inl hc)))

/-- The traversal from `self` visits `self` first and then no node twice. -/
theorem visit_from_self (g : List (List Nat)) (fuel : Nat) (self : Nat) (vs : List Nat)
    (h : visit_loop g fuel [] [self] = some vs) : ∃ vs1, vs = self :: vs1 ∧ vs1.Nodup := by
  cases fuel with
  | zero => simp [visit_loop] at h
  | succ k =>
    simp only [visit_loop] at h
    cases hv : visit_loop g k
        (((g[self]?).getD []).foldl push_parent ([], [])).1
        (((g[self]?).getD []).foldl push_parent ([], [])).2 with
    | none => rw [hv] at h; simp at h
    | some vs1 =>
      rw [hv] at h
      simp only [Option.map_some', Option.some.injEq] at h
      refine ⟨vs1, h.symm, ?_⟩
      exact (visit_marked_nodup g k _ _ _ hv
        (pp_work_nodup _ [] [] List.nodup_nil (fun x hx => by simp at hx))
        (pp_work_sub_marked _ [] [] (fun x hx => by simp at hx))).1

/-- C38 (the ancestor traversal terminates).  On every heap of nodes with valid parent
pointers, with or without cycles, `for_each_ancestor` from `self` ends: it applies `f`, in
the order `vs`, to exactly the nodes reachable from `self` through `parents`, to `self` at
most twice and to every other node at most once, for every `f` that leaves the parent sets
alone; on an acyclic graph it applies `f` exactly once to `self` and to each transitive
ancestor.  So `mark` and `replaceable` return, and so does `vote` when the window is
positive. -/
theorem ancestor_traversal (h : heap) (hwf : heap_wf h) (self : Nat) :
    ∃ vs, visit_loop (h.map agreement.parents) (h.length + 1) [] [self] = some vs ∧
      (∀ (α : Type) (f : Nat → heap × α → heap × α) (x : α),
        (∀ i st, (f i st).1.map agreement.parents = st.1.map agreement.parents) →
        for_each_ancestor h self f x = some (vs.foldl (fun s i => f i s) (h, x))) ∧
      (∀ i, i ∈ vs ↔ ancestor_or_self h self i) ∧
      (∀ i, i ≠ self → vs.count i ≤ 1) ∧ 1 ≤ vs.count self ∧ vs.count self ≤ 2 ∧
      (acyclic h → ∀ i, ancestor_or_self h self i → vs.count i = 1) ∧
      (∀ now, ∃ h1, mark h self now = some h1) ∧
      (∀ a, h[self]? = some a → (∃ w, replaceable h self = some w) ∧
        ∀ vals now, 0 < a.W → ∃ r, vote h self vals now = some r) := by
  obtain ⟨vs, h1, h2, h3⟩ := visit_heap h hwf self
  obtain ⟨vs1, e1, e2⟩ := visit_from_self _ _ self vs h1
  refine ⟨vs, h1, ?_, h2, ?_, ?_, ?_, ?_, ?_, ?_⟩
  · intro α f x hf
    exact for_each_ancestor_of_visit f hf h self x vs h1
  · intro i hi
    rw [e1, List.count_cons_of_ne hi]
    exact List.nodup_iff_count_le_one.1 e2 i
  · rw [e1, List.count_cons_self]
    omega
  · rw [e1, List.count_cons_self]
    have := List.nodup_iff_count_le_one.1 e2 self
    omega
  · intro hac i hi
    exact List.count_eq_one_of_mem (h3 hac) ((h2 i).2 hi)
  · intro now
    obtain ⟨g, hg, -⟩ := mark_spec h hwf self now
    exact ⟨g, hg⟩
  · intro a ha
    refine ⟨?_, ?_⟩
    · obtain ⟨w, hw, -⟩ := replaceable_spec h hwf self a ha
      exact ⟨w, hw⟩
    · intro vals now hW
      have hscan := scan_eq a tally.fresh (now - a.W) now vals hW (by linarith)
      rcases vote_cases h self vals now a _ _ ha hwf hscan with
        ⟨-, -, w, h2, -, -, -, hv⟩ | ⟨-, -, w, -, -, hv⟩ | ⟨-, h2, -, hv⟩
      · exact ⟨_, hv⟩
      · exact ⟨_, hv⟩
      · exact ⟨_, hv⟩

theorem ancestor_traversal_witness :
    heap_wf heap_cycle ∧
    visit_loop (heap_cycle.map agreement.parents) (heap_cycle.length + 1) [] [0]
      = some [0, 1, 0] ∧
    mark heap_cycle 0 1000
      = some [{ agreement.mk_node 50 0 [1] with time := 1000 },
          { agreement.mk_node 50 0 [0] with time := 1000 }] ∧
    ∃ vs, visit_loop (heap_cycle.map agreement.parents) (heap_cycle.length + 1) [] [0]
        = some vs ∧
      (∀ i, i ≠ 0 → vs.count i ≤ 1) ∧ vs.count 0 ≤ 2 ∧
      ∀ now, ∃ h1, mark heap_cycle 0 now = some h1 := by
  refine ⟨by decide, by rfl, by rfl, ?_⟩
  obtain ⟨vs, h1, -, -, h4, -, h6, -, h8, -⟩ := ancestor_traversal heap_cycle (by decide) 0
  exact ⟨vs, h1, h4, h6, h8⟩

/-! ## The window of `vote` -/

theorem expire_c_split (W : duration) (time : time_point) :
    ∀ (l : List vote_event) (tl : tally),
      ∃ p, l = p ++ (expire_c W time l tl).1 ∧ (∀ f ∈ p, f.1 ≤ time - W) ∧
        ∀ u, (expire_c W time l tl).1.head? = some u → time - W < u.1 := by
  intro l
  induction l with
  | nil => intro tl; exact ⟨[], rfl, fun f hf => by simp at hf, fun u hu => by simp [expire_c] at hu⟩
  | cons x rest ih =>
    obtain ⟨t1, v1, o1⟩ := x
    intro tl
    simp only [expire_c]
    by_cases c : t1 ≤ time - W
    · rw [if_pos c]
      obtain ⟨p, h1, h2, h3⟩ := ih (tl.fall t1 v1 o1)
      refine ⟨(t1, v1, o1) :: p, by rw [List.cons_append, ← h1], ?_, h3⟩
      intro f hf
      rcases List.mem_cons.1 hf with rfl | hf
      · exact c
      · exact h2 f hf
    · rw [if_neg c]
      refine ⟨[], rfl, fun f hf => by simp at hf, ?_⟩
      intro u hu
      simp only [List.head?_cons, Option.some.injEq] at hu
      subst hu
      exact not_le.1 c

/-- What the first loop of `scan` leaves for the second: the votes it has made fall are each
a window or more before some vote of the range, and the first vote it has left is less than a
window before the last vote of the range. -/
theorem rise_c_split (W : duration) (vals : validators) :
    ∀ (c l : List vote_event) (tl : tally),
      ∃ p, l = p ++ (rise_c W vals c l tl).1 ∧ (∀ f ∈ p, ∃ e ∈ c, f.1 ≤ e.1 - W) ∧
        ∀ e u, c.getLast? = some e → (rise_c W vals c l tl).1.head? = some u →
          e.1 - W < u.1 := by
  intro c
  induction c with
  | nil =>
    intro l tl
    exact ⟨[], rfl, fun f hf => by simp at hf, fun e u he => by simp at he⟩
  | cons x rest ih =>
    obtain ⟨t1, v1, o1⟩ := x
    intro l tl
    obtain ⟨p1, a1, a2, a3⟩ := expire_c_split W t1 l tl
    obtain ⟨p2, b1, b2, b3⟩ := ih (expire_c W t1 l tl).1
      ((expire_c W t1 l tl).2.1.rise t1 v1 o1 vals).1
    simp only [rise_c]
    refine ⟨p1 ++ p2, ?_, ?_, ?_⟩
    · rw [List.append_assoc, ← b1, ← a1]
    · intro f hf
      rcases List.mem_append.1 hf with hf | hf
      · exact ⟨(t1, v1, o1), List.mem_cons_self _ _, a2 f hf⟩
      · obtain ⟨e, he, hfe⟩ := b2 f hf
        exact ⟨e, List.mem_cons_of_mem _ he, hfe⟩
    · intro e u he hu
      cases rest with
      | nil =>
        simp only [List.getLast?_singleton, Option.some.injEq] at he
        subst he
        simp only [rise_c] at hu
        exact a3 u hu
      | cons y r2 =>
        rw [List.getLast?_cons_cons] at he
        exact b3 e u he hu

theorem drain_c_stop (W : duration) (endt : time_point) (l : List vote_event) (tl : tally)
    (h : ∀ u, l.head? = some u → endt ≤ u.1 + W) : drain_c W endt l tl = (tl, []) := by
  cases l with
  | nil => rfl
  | cons x rest =>
    obtain ⟨t1, v1, o1⟩ := x
    have := h (t1, v1, o1) rfl
    simp only [drain_c]
    rw [if_neg (not_lt.2 this)]

theorem active_total_closed_open (vals : validators) (f m : List vote_event)
    (ht : ∀ e ∈ m, e.1 ≠ time_point_default) :
    active_total (f.map (closed_slot vals) ++ m.map (open_slot vals))
      = (m.map (fun e => vals.weight e.2.1)).sum := by
  unfold active_total
  rw [List.map_append, List.sum_append, List.map_map, List.map_map]
  have h1 : ((f.map (fun e => stored (closed_slot vals e).2))).sum = 0 := by
    apply List.sum_eq_zero
    intro x hx
    obtain ⟨e, -, rfl⟩ := List.mem_map.1 hx
    simp [stored, closed_slot]
  have h2 : m.map (fun e => stored (open_slot vals e).2)
      = m.map (fun e => vals.weight e.2.1) := by
    apply List.map_congr_left
    intro e he
    simp [stored, open_slot, ht e he]
  show (f.map (fun e => stored (closed_slot vals e).2)).sum
    + (m.map (fun e => stored (open_slot vals e).2)).sum = _
  rw [h1, h2, zero_add]

theorem window_state_slot (vals : validators) (f m : List vote_event) (t : tally)
    (h : window_state vals f m t) (hnd : (voters (f ++ m)).Nodup) :
    (∀ e ∈ f, (t.slot_of e.2.1).2.1 = time_point_default) ∧
    (∀ e ∈ m, (t.slot_of e.2.1).2.1 = e.1) := by
  have hk : (t.votes.map Prod.fst).Nodup := by
    rw [h.2.2, keys_closed_open]
    exact hnd
  refine ⟨?_, ?_⟩
  · intro e he
    have hm : (closed_slot vals e) ∈ t.votes := by
      rw [h.2.2]
      exact List.mem_append_left _ (List.mem_map_of_mem _ he)
    have := map_find_of_mem t.votes e.2.1 (closed_slot vals e).2 hk hm
    simp [tally.slot_of, this, closed_slot]
  · intro e he
    have hm : (open_slot vals e) ∈ t.votes := by
      rw [h.2.2]
      exact List.mem_append_right _ (List.mem_map_of_mem _ he)
    have := map_find_of_mem t.votes e.2.1 (open_slot vals e).2 hk hm
    simp [tally.slot_of, this, open_slot]

theorem selected_sublist (votes : List vote_event) (begin endt : time_point) :
    (selected votes begin endt).Sublist votes :=
  (List.takeWhile_sublist _).trans (List.dropWhile_sublist _)

/-- The tally that `vote` builds, for a log in which every validator votes once: the votes of
`[now - W, now]` split into those that have fallen, a window or more before the last vote, and
those that are up. -/
theorem vote_scan_state (a : agreement) (vals : validators) (now : time_point)
    (hW : 0 < a.W) (hs : log_sorted a.votes)
    (hnt : ∀ e ∈ a.votes, e.1 ≠ time_point_default) (hnd : (voters a.votes).Nodup) :
    ∃ tl evs f m, a.scan tally.fresh (now - a.W) now vals = some (tl, evs) ∧
      selected a.votes (now - a.W) now = f ++ m ∧ window_state vals f m tl ∧
      tl.total = (m.map (fun e => vals.weight e.2.1)).sum ∧
      (∀ x ∈ f, ∃ e ∈ selected a.votes (now - a.W) now, x.1 ≤ e.1 - a.W) ∧
      (∀ e u, (selected a.votes (now - a.W) now).getLast? = some e → u ∈ m →
        e.1 - a.W < u.1) := by
  have hb : now - a.W ≤ now := by linarith
  have hss := log_sorted_selected a.votes (now - a.W) now hs
  have hsub := selected_sublist a.votes (now - a.W) now
  have hnts : ∀ e ∈ selected a.votes (now - a.W) now, e.1 ≠ time_point_default :=
    fun e he => hnt e (hsub.subset he)
  have hnds : (voters (selected a.votes (now - a.W) now)).Nodup :=
    List.Nodup.sublist (hsub.map _) hnd
  obtain ⟨f1, m1, r1, r2, r3, -, -⟩ := rise_ws a.W vals hW _ hnds hnts hss
    (selected a.votes (now - a.W) now) [] [] tally.fresh (by simp) (window_state_fresh vals)
  simp only [List.nil_append] at r2 r3
  obtain ⟨p, s1, s2, s3⟩ := rise_c_split a.W vals (selected a.votes (now - a.W) now)
    (selected a.votes (now - a.W) now) tally.fresh
  rw [r2] at s1 s3
  have hp : p = f1 := by
    have : f1 ++ m1 = p ++ m1 := by rw [← r1, ← s1]
    exact (List.append_cancel_right this).symm
  subst hp
  have hm1 : ∀ u ∈ m1, u ∈ selected a.votes (now - a.W) now := fun u hu => by
    rw [r1]; exact List.mem_append_right _ hu
  have hdr : drain_c a.W now m1 (rise_c a.W vals (selected a.votes (now - a.W) now)
      (selected a.votes (now - a.W) now) tally.fresh).2.1
      = ((rise_c a.W vals (selected a.votes (now - a.W) now)
        (selected a.votes (now - a.W) now) tally.fresh).2.1, []) := by
    apply drain_c_stop
    intro u hu
    have h1 := (mem_selected a.votes (now - a.W) now hs u
      (hm1 u (List.mem_of_mem_head? hu))).2.1
    linarith
  have hsc : (scan_c a.W now vals (selected a.votes (now - a.W) now) tally.fresh).1
      = (rise_c a.W vals (selected a.votes (now - a.W) now)
        (selected a.votes (now - a.W) now) tally.fresh).2.1 := by
    simp only [scan_c]
    rw [r2, hdr]
  have htot := (scan_c_inv (fun t => t.total_m = active_total t.votes) a.W now vals
    (selected a.votes (now - a.W) now)
    (fun tl e he hq => total_active_fall tl e.1 e.2.1 e.2.2 (hnts e he) hq)
    (fun tl e he hq => total_active_rise tl e.1 e.2.1 e.2.2 vals (hnts e he) hq)
    tally.fresh rfl).1
  rw [hsc] at htot
  refine ⟨(scan_c a.W now vals (selected a.votes (now - a.W) now) tally.fresh).1,
    (scan_c a.W now vals (selected a.votes (now - a.W) now) tally.fresh).2, p, m1,
    scan_eq a tally.fresh (now - a.W) now vals hW hb, r1, ?_, ?_, s2, ?_⟩
  · rw [hsc]
    exact r3
  · rw [hsc]
    show (rise_c a.W vals _ _ tally.fresh).2.1.total_m = _
    rw [htot, r3.2.2]
    exact active_total_closed_open vals p m1 (fun e he => hnts e (hm1 e he))
  · intro e u he hu
    have hsm : log_sorted m1 := log_sorted_of_append (r1 ▸ hss)
    cases hm : m1 with
    | nil => rw [hm] at hu; simp at hu
    | cons y rest =>
      have h1 := s3 e y he (by rw [hm]; rfl)
      rw [hm] at hu hsm
      rcases List.mem_cons.1 hu with rfl | hu
      · exact h1
      · exact lt_of_lt_of_le h1 (log_sorted_head_le hsm u hu)

/-- Window boundary of `vote`, with the sums computed in the integers.  For a positive
window and a time-ordered log with times
other than `time_point{}` in which every validator has at most one vote, the scan of
`[now - W, now]` into a fresh tally that `vote (now)` makes returns a tally whose `total ()`
is 0 if the log has no vote in `[now - W, now]`, and otherwise the summed weight of the votes
with a time `t` in `[now - W, now]` and `t > t_last - W`, where `t_last` is the latest vote
time in `[now - W, now]`; the votes counted are those whose validator has an active vote in
that tally.  A vote cast at exactly `now - W` is counted if and only if the log has no vote
at exactly `now`. -/
theorem vote_window_boundary (a : agreement) (vals : validators) (now : time_point)
    (hW : 0 < a.W) (hs : log_sorted a.votes)
    (hnt : ∀ e ∈ a.votes, e.1 ≠ time_point_default) (hnd : (voters a.votes).Nodup) :
    ∃ tl evs, a.scan tally.fresh (now - a.W) now vals = some (tl, evs) ∧
      ((∀ e ∈ a.votes, ¬ (now - a.W ≤ e.1 ∧ e.1 ≤ now)) → tl.total = 0) ∧
      (∀ t_last, (∃ e ∈ a.votes, now - a.W ≤ e.1 ∧ e.1 ≤ now ∧ e.1 = t_last) →
        (∀ e ∈ a.votes, now - a.W ≤ e.1 → e.1 ≤ now → e.1 ≤ t_last) →
        tl.total = ((a.votes.filter (fun e => decide ((now - a.W ≤ e.1 ∧ e.1 ≤ now) ∧
            t_last - a.W < e.1))).map (fun e => vals.weight e.2.1)).sum ∧
        ∀ e ∈ a.votes, now - a.W ≤ e.1 → e.1 ≤ now →
          ((tl.slot_of e.2.1).2.1 ≠ time_point_default ↔ t_last - a.W < e.1)) ∧
      (∀ e ∈ a.votes, e.1 = now - a.W →
        ((tl.slot_of e.2.1).2.1 ≠ time_point_default ↔ ∀ e2 ∈ a.votes, e2.1 ≠ now)) := by
  obtain ⟨tl, evs, f, m, hscan, hseg, hws, htot, hf, hm⟩ :=
    vote_scan_state a vals now hW hs hnt hnd
  have hss := log_sorted_selected a.votes (now - a.W) now hs
  have hmem := mem_selected_iff a.votes (now - a.W) now hs
  have hnds : (voters (f ++ m)).Nodup := by
    rw [← hseg]
    exact List.Nodup.sublist ((selected_sublist a.votes (now - a.W) now).map _) hnd
  obtain ⟨sl1, sl2⟩ := window_state_slot vals f m tl hws hnds
  have key : ∀ t_last, (∃ e ∈ a.votes, now - a.W ≤ e.1 ∧ e.1 ≤ now ∧ e.1 = t_last) →
      (∀ e ∈ a.votes, now - a.W ≤ e.1 → e.1 ≤ now → e.1 ≤ t_last) →
      (∀ y ∈ f, y.1 ≤ t_last - a.W) ∧ (∀ u ∈ m, t_last - a.W < u.1) := by
    rintro t_last ⟨e, he, e1, e2, e3⟩ hmax
    have hes : e ∈ selected a.votes (now - a.W) now := (hmem e).2 ⟨he, e1, e2⟩
    have hle : ∀ x ∈ selected a.votes (now - a.W) now, x.1 ≤ t_last := fun x hx =>
      hmax x ((hmem x).1 hx).1 ((hmem x).1 hx).2.1 ((hmem x).1 hx).2.2
    cases hl : (selected a.votes (now - a.W) now).getLast? with
    | none =>
      rw [List.getLast?_eq_none_iff] at hl
      rw [hl] at hes
      simp at hes
    | some x =>
      have hx : x ∈ selected a.votes (now - a.W) now := List.mem_of_getLast?_eq_some hl
      have h1 := log_sorted_le_last hss hl e hes
      have h2 := hle x hx
      have hxt : x.1 = t_last := by linarith
      refine ⟨?_, ?_⟩
      · intro y hy
        obtain ⟨e0, he0, h3⟩ := hf y hy
        have := hle e0 he0
        linarith
      · intro u hu
        have := hm x u hl hu
        linarith
  refine ⟨tl, evs, hscan, ?_, ?_, ?_⟩
  · intro hno
    have hnil : selected a.votes (now - a.W) now = [] := by
      apply List.eq_nil_iff_forall_not_mem.2
      intro e he
      exact hno e ((hmem e).1 he).1 ((hmem e).1 he).2
    rw [hseg] at hnil
    rw [htot, (List.append_eq_nil.1 hnil).2]
    rfl
  · intro t_last hex hmax
    obtain ⟨k1, k2⟩ := key t_last hex hmax
    refine ⟨?_, ?_⟩
    · have hfil : a.votes.filter (fun e => decide ((now - a.W ≤ e.1 ∧ e.1 ≤ now) ∧
          t_last - a.W < e.1)) = m := by
        have h1 : a.votes.filter (fun e => decide ((now - a.W ≤ e.1 ∧ e.1 ≤ now) ∧
            t_last - a.W < e.1))
            = (selected a.votes (now - a.W) now).filter
                (fun e => decide (t_last - a.W < e.1)) := by
          rw [selected_eq_filter a.votes (now - a.W) now hs, List.filter_filter]
          apply List.filter_congr
          intro e _
          simp only [Bool.decide_and, Bool.and_comm]
        rw [h1, hseg, List.filter_append]
        have h2 : f.filter (fun e => decide (t_last - a.W < e.1)) = [] := by
          rw [List.filter_eq_nil_iff]
          intro y hy
          simpa using k1 y hy
        have h3 : m.filter (fun e => decide (t_last - a.W < e.1)) = m := by
          rw [List.filter_eq_self]
          intro u hu
          simpa using k2 u hu
        rw [h2, h3, List.nil_append]
      rw [hfil]
      exact htot
    · intro e he e1 e2
      have hes : e ∈ selected a.votes (now - a.W) now := (hmem e).2 ⟨he, e1, e2⟩
      rw [hseg] at hes
      rcases List.mem_append.1 hes with h1 | h1
      · rw [sl1 e h1]
        exact ⟨fun h => absurd rfl h, fun h => absurd (k1 e h1) (not_le.2 h)⟩
      · rw [sl2 e h1]
        exact ⟨fun _ => k2 e h1, fun _ => hnt e he⟩
  · intro e he het
    have e1 : now - a.W ≤ e.1 := by rw [het]
    have e2 : e.1 ≤ now := by rw [het]; linarith
    have hes : e ∈ selected a.votes (now - a.W) now := (hmem e).2 ⟨he, e1, e2⟩
    cases hl : (selected a.votes (now - a.W) now).getLast? with
    | none =>
      rw [List.getLast?_eq_none_iff] at hl
      rw [hl] at hes
      simp at hes
    | some x =>
      have hx : x ∈ selected a.votes (now - a.W) now := List.mem_of_getLast?_eq_some hl
      obtain ⟨x1, x2, x3⟩ := (hmem x).1 hx
      obtain ⟨k1, k2⟩ := key x.1 ⟨x, x1, x2, x3, rfl⟩
        (fun y hy y1 y2 => log_sorted_le_last hss hl y ((hmem y).2 ⟨hy, y1, y2⟩))
      have hes2 := hes
      rw [hseg] at hes2
      constructor
      · intro hact e3 he3 h3
        have h4 : e3.1 ≤ x.1 := log_sorted_le_last hss hl e3
          ((hmem e3).2 ⟨he3, by rw [h3]; linarith, by rw [h3]⟩)
        rcases List.mem_append.1 hes2 with h1 | h1
        · exact hact (sl1 e h1)
        · have := k2 e h1
          linarith
      · intro hno
        have hlt : x.1 < now := lt_of_le_of_ne x3 (hno x x1)
        rcases List.mem_append.1 hes2 with h1 | h1
        · have := k1 e h1
          linarith
        · rw [sl2 e h1]
          exact hnt e he

theorem vote_window_boundary_witness :
    0 < (node_of 50 0 log_boundary).W ∧ log_sorted (node_of 50 0 log_boundary).votes ∧
    (∀ e ∈ (node_of 50 0 log_boundary).votes, e.1 ≠ time_point_default) ∧
    (voters (node_of 50 0 log_boundary).votes).Nodup ∧
    ((node_of 50 0 log_boundary).scan tally.fresh (1050 - 50) 1050 (uniform_validators 3)).map
      (fun r => r.1.total) = some 3 ∧
    ((node_of 50 0 log_boundary_now).scan tally.fresh (1050 - 50) 1050
      (uniform_validators 3)).map (fun r => r.1.total) = some 2 ∧
    ∃ tl evs, (node_of 50 0 log_boundary).scan tally.fresh (1050 - 50) 1050
        (uniform_validators 3) = some (tl, evs) ∧
      ((tl.slot_of 0).2.1 ≠ time_point_default ↔
        ∀ e2 ∈ (node_of 50 0 log_boundary).votes, e2.1 ≠ 1050) := by
  refine ⟨by decide, by unfold log_sorted; decide, by decide, by decide, by rfl, by rfl, ?_⟩
  obtain ⟨tl, evs, h1, -, -, h4⟩ := vote_window_boundary (node_of 50 0 log_boundary)
    (uniform_validators 3) 1050 (by decide) (by unfold log_sorted; decide) (by decide)
    (by decide)
  exact ⟨tl, evs, h1, h4 (1000, 0, 1) (by decide) (by decide)⟩

/-! ## Cursor safety of `scan` -/

theorem rank_before_le (st : object → Nat) {x y : weight × object} (h : rank_before st x y) :
    y.1 ≤ x.1 := by
  rcases h with h | h
  · exact le_of_lt h
  · exact le_of_eq h.1.symm

theorem rank_insert_before (st : object → Nat) (w : weight) (o : object) :
    ∀ (l : List (weight × object)), l.Pairwise (rank_before st) →
      (∀ x ∈ l, w ≤ x.1 → rank_before st x (w, o)) →
      (tally.rank_insert w o l).Pairwise (rank_before st) := by
  intro l
  induction l with
  | nil => intro _ _; simp [tally.rank_insert]
  | cons e rest ih =>
    obtain ⟨w1, o1⟩ := e
    intro hp h1
    rw [List.pairwise_cons] at hp
    simp only [tally.rank_insert]
    by_cases c : w ≤ w1
    · rw [if_pos c, List.pairwise_cons]
      refine ⟨?_, ih hp.2 (fun x hx => h1 x (List.mem_cons_of_mem _ hx))⟩
      intro z hz
      rcases List.mem_cons.1 ((rank_insert_perm w o rest).mem_iff.1 hz) with rfl | hz
      · exact h1 (w1, o1) (List.mem_cons_self _ _) c
      · exact hp.1 z hz
    · rw [if_neg c, List.pairwise_cons]
      refine ⟨?_, List.pairwise_cons.2 hp⟩
      intro x hx
      left
      show x.1 < w
      rcases List.mem_cons.1 hx with rfl | hx
      · exact not_le.1 c
      · exact lt_of_le_of_lt (rank_before_le st (hp.1 x hx)) (not_le.1 c)

theorem rank_erase_no_object (t : tally) (o : object) (h : rank_wf t) :
    ∀ x ∈ tally.rank_erase ((map_find t.totals_m o).getD 0) o t.rank, x.2 ≠ o := by
  intro x hx hxo
  have hnd := rank_objects_nodup t h
  by_cases hm : ((map_find t.totals_m o).getD 0, o) ∈ t.rank
  · have hp := rank_erase_perm _ _ _ hm
    have h1 : (t.rank.map Prod.snd).Perm
        (o :: (tally.rank_erase ((map_find t.totals_m o).getD 0) o t.rank).map Prod.snd) :=
      hp.map Prod.snd
    have h2 := h1.nodup_iff.1 hnd
    exact (List.nodup_cons.1 h2).1 (List.mem_map.2 ⟨x, hx, hxo⟩)
  · have hx1 : x ∈ t.rank := (rank_erase_sublist _ _ _).subset hx
    have h1 : map_find t.totals_m o = some x.1 := by
      rw [← rank_entry_iff t h, ← hxo]
      exact hx1
    apply hm
    rw [h1, Option.getD_some, ← hxo]
    exact hx1

theorem sort_rank_before (t : tally) (w : weight) (o : object)
    (op : weight → weight → weight) (st : object → Nat) (n : Nat) (hwf : rank_wf t)
    (hp : t.rank.Pairwise (rank_before st)) (hle : ∀ k, st k ≤ n) :
    (t.sort w o op).rank.Pairwise (rank_before (Function.update st o (n + 1))) := by
  have hno := rank_erase_no_object t o hwf
  have hst : ∀ x ∈ tally.rank_erase ((map_find t.totals_m o).getD 0) o t.rank,
      Function.update st o (n + 1) x.2 = st x.2 :=
    fun x hx => Function.update_noteq (hno x hx) _ _
  have hE : (tally.rank_erase ((map_find t.totals_m o).getD 0) o t.rank).Pairwise
      (rank_before (Function.update st o (n + 1))) := by
    have h1 := List.Pairwise.sublist (rank_erase_sublist ((map_find t.totals_m o).getD 0) o
      t.rank) hp
    refine h1.imp_of_mem ?_
    intro x y hx hy hxy
    unfold rank_before at hxy ⊢
    rw [hst x hx, hst y hy]
    exact hxy
  show (tally.rank_insert _ o _).Pairwise _
  refine rank_insert_before _ _ o _ hE ?_
  intro x hx hwx
  rcases lt_or_eq_of_le hwx with h | h
  · exact Or.inl h
  · refine Or.inr ⟨h.symm, ?_⟩
    show Function.update st o (n + 1) x.2 < Function.update st o (n + 1) o
    rw [hst x hx, Function.update_same]
    exact Nat.lt_succ_of_le (hle x.2)

theorem stamp_step_inv (s : tally × Nat × (object → Nat)) (c : tally_call)
    (h : rank_wf s.1 ∧ s.1.rank.Pairwise (rank_before s.2.2) ∧ ∀ k, s.2.2 k ≤ s.2.1) :
    rank_wf (stamp_step s c).1 ∧
      (stamp_step s c).1.rank.Pairwise (rank_before (stamp_step s c).2.2) ∧
      ∀ k, (stamp_step s c).2.2 k ≤ (stamp_step s c).2.1 := by
  obtain ⟨h1, h2, h3⟩ := h
  have hup : ∀ (o : object) (k : object),
      Function.update s.2.2 o (s.2.1 + 1) k ≤ s.2.1 + 1 := by
    intro o k
    by_cases c1 : k = o
    · rw [c1, Function.update_same]
    · rw [Function.update_noteq c1]
      exact Nat.le_succ_of_le (h3 k)
  refine ⟨rank_wf_apply s.1 c h1, ?_, ?_⟩
  · cases c with
    | rise time v o vals =>
      simp only [stamp_step, touched, apply_tally_call, tally.rise]
      split_ifs with c1 c2
      · exact sort_rank_before { s.1 with votes := map_set s.1.votes v (o, time, vals.weight v) }
          (vals.weight v) o _ s.2.2 s.2.1 h1 h2 h3
      · exact h2
      · exact h2
    | fall time v o =>
      simp only [stamp_step, touched, apply_tally_call, tally.fall]
      split_ifs with c1
      · exact sort_rank_before s.1 _ o _ s.2.2 s.2.1 h1 h2 h3
      · exact h2
  · intro k
    simp only [stamp_step]
    cases touched s.1 c with
    | none => exact Nat.le_succ_of_le (h3 k)
    | some o => exact hup o k

theorem stamped_run_inv (cs : List tally_call) :
    (stamped_run cs).1 = run_tally cs ∧ (stamped_run cs).2.1 = cs.length ∧
    rank_wf (stamped_run cs).1 ∧
    (stamped_run cs).1.rank.Pairwise (rank_before (stamped_run cs).2.2) ∧
    ∀ k, (stamped_run cs).2.2 k ≤ (stamped_run cs).2.1 := by
  have key : ∀ (l : List tally_call) (s : tally × Nat × (object → Nat)),
      (l.foldl stamp_step s).1 = l.foldl apply_tally_call s.1 ∧
      (l.foldl stamp_step s).2.1 = s.2.1 + l.length ∧
      ((rank_wf s.1 ∧ s.1.rank.Pairwise (rank_before s.2.2) ∧ ∀ k, s.2.2 k ≤ s.2.1) →
        rank_wf (l.foldl stamp_step s).1 ∧
        (l.foldl stamp_step s).1.rank.Pairwise (rank_before (l.foldl stamp_step s).2.2) ∧
        ∀ k, (l.foldl stamp_step s).2.2 k ≤ (l.foldl stamp_step s).2.1) := by
    intro l
    induction l with
    | nil => intro s; exact ⟨rfl, rfl, fun h => h⟩
    | cons c rest ih =>
      intro s
      simp only [List.foldl_cons, List.length_cons]
      obtain ⟨i1, i2, i3⟩ := ih (stamp_step s c)
      refine ⟨i1, ?_, fun h => i3 (stamp_step_inv s c h)⟩
      rw [i2]
      simp only [stamp_step]
      omega
  obtain ⟨k1, k2, k3⟩ := key cs (tally.fresh, 0, fun _ => 0)
  obtain ⟨k4, k5, k6⟩ := k3 ⟨rank_wf_fresh, by simp [tally.fresh], fun _ => Nat.le_refl _⟩
  exact ⟨k1, by simpa using k2, k4, k5, k6⟩

theorem last_write_append (cs : List tally_call) (c : tally_call) (o : object) :
    last_write (cs ++ [c]) o
      = if touched (run_tally cs) c = some o then cs.length + 1 else last_write cs o := by
  obtain ⟨h1, h2, -⟩ := stamped_run_inv cs
  unfold last_write stamped_run at *
  rw [List.foldl_append]
  simp only [List.foldl_cons, List.foldl_nil, stamp_step]
  rw [h1, h2]
  cases ht : touched (run_tally cs) c with
  | none => simp
  | some o1 =>
    by_cases c1 : o1 = o
    · subst c1
      simp
    · have c2 : ¬ (some o1 = some o) := fun h => c1 (Option.some.inj h)
      rw [if_neg c2]
      exact Function.update_noteq (fun h => c1 h.symm) _ _

theorem rank_insert_last (w : weight) (o : object) :
    ∀ (l : List (weight × object)), (∀ x ∈ l, x.1 = w) →
      tally.rank_insert w o l = l ++ [(w, o)] := by
  intro l
  induction l with
  | nil => intro _; rfl
  | cons e rest ih =>
    obtain ⟨w1, o1⟩ := e
    intro h
    have h1 : w1 = w := h (w1, o1) (List.mem_cons_self _ _)
    simp only [tally.rank_insert]
    rw [if_pos (le_of_eq h1.symm), ih (fun x hx => h x (List.mem_cons_of_mem _ hx))]
    rfl

/-- Rises of one weight `w`, by distinct validators for distinct objects, leave `rank` in the
order of the rises. -/
theorem rises_rank (vals : validators) (w : weight) :
    ∀ (rs done : List vote_event) (t : tally),
      t.rank = done.map (fun e => (w, e.2.2)) →
      (∀ k, k ∉ done.map (fun e => e.2.2) → map_find t.totals_m k = none) →
      (∀ v, v ∉ voters done → map_find t.votes v = none) →
      (voters (done ++ rs)).Nodup → ((done ++ rs).map (fun e => e.2.2)).Nodup →
      (∀ e ∈ rs, vals.weight e.2.1 = w) →
      ((rs.map (fun e => tally_call.rise e.1 e.2.1 e.2.2 vals)).foldl apply_tally_call t).rank
        = (done ++ rs).map (fun e => (w, e.2.2)) := by
  intro rs
  induction rs with
  | nil => intro done t h _ _ _ _ _; simpa using h
  | cons e rest ih =>
    obtain ⟨time, v, o⟩ := e
    intro done t hr ht hv hnv hno hw
    have hvn : v ∉ voters done := by
      intro hc
      have := List.nodup_append.1 (by simpa [voters] using hnv)
      exact this.2.2 (by simpa [voters] using hc) (by simp)
    have hon : o ∉ done.map (fun e => e.2.2) := by
      intro hc
      have := List.nodup_append.1 (by simpa using hno)
      exact this.2.2 (by simpa using hc) (by simp)
    have hslot : (t.slot_of v).2.1 = time_point_default := by
      simp [tally.slot_of, hv v hvn]
    have hwv : vals.weight v = w := hw (time, v, o) (List.mem_cons_self _ _)
    have hnot : ((0 : weight), o) ∉ t.rank := by
      rw [hr]
      intro hc
      obtain ⟨x, hx, hxe⟩ := List.mem_map.1 hc
      exact hon (List.mem_map.2 ⟨x, hx, (Prod.mk.inj hxe).2⟩)
    have hstep : (apply_tally_call t (tally_call.rise time v o vals)).rank
        = (done ++ [(time, v, o)]).map (fun e => (w, e.2.2)) := by
      simp only [apply_tally_call, tally.rise, if_pos hslot]
      show tally.rank_insert _ o (tally.rank_erase _ o t.rank) = _
      rw [ht o hon]
      simp only [Option.getD_none, zero_add]
      rw [rank_erase_of_not_mem _ _ _ hnot, hr, hwv, rank_insert_last w o _
        (fun x hx => by
          obtain ⟨y, -, hy⟩ := List.mem_map.1 hx
          rw [← hy])]
      simp
    have := ih (done ++ [(time, v, o)]) (apply_tally_call t (tally_call.rise time v o vals))
      hstep ?_ ?_ (by simpa using hnv) (by simpa using hno)
      (fun x hx => hw x (List.mem_cons_of_mem _ hx))
    · simpa using this
    · intro k hk
      simp only [List.map_append, List.map_cons, List.map_nil, List.mem_append,
        List.mem_singleton, not_or] at hk
      simp only [apply_tally_call, tally.rise, if_pos hslot]
      show map_find (map_set t.totals_m o _) k = none
      rw [map_find_map_set, if_neg (fun h => hk.2 h.symm)]
      exact ht k hk.1
    · intro u hu
      simp only [voters, List.map_append, List.map_cons, List.map_nil, List.mem_append,
        List.mem_singleton, not_or] at hu
      simp only [apply_tally_call, tally.rise, if_pos hslot]
      show map_find (map_set t.votes v _) u = none
      rw [map_find_map_set, if_neg (fun h => hu.2 h.symm)]
      exact hv u (by simpa [voters] using hu.1)

/-- C36 as stated fails when a vote of weight 0 is counted.  After the rises of weight 1 for
the objects `1` and `2`, both have the greatest total, 1, the total of object `1` having been
changed to 1 first, and `max ()` returns object `1`.  The rise for object `1` of a validator
that is not in the validator set, whose weight is 0, then changes no total, and `max ()`
returns object `2`. -/
theorem max_tie_zero_weight :
    (run_tally (calls_zero_weight.take 1)).totals = [(1, 1)] ∧
    (run_tally (calls_zero_weight.take 2)).totals = [(1, 1), (2, 1)] ∧
    (run_tally (calls_zero_weight.take 2)).max = (1, 1) ∧
    (fixed_validators [(0, 1), (1, 1)]).weight 9 = 0 ∧
    (run_tally calls_zero_weight).totals = [(1, 1), (2, 1)] ∧
    (run_tally calls_zero_weight).max = (1, 2) :=
  ⟨by rfl, by rfl, by rfl, by rfl, by rfl, by rfl⟩

/-- C36, as amended (deterministic tie-break of `max`).  After every sequence `cs` of `rise`
and `fall` calls on a fresh tally, `max ()` returns an entry of `totals ()` of the greatest
weight, and among the objects tied at that weight the one whose total was written least
recently: by an accepted `rise` or a matching `fall`, also one of weight 0, which writes the
value the total has.  `last_write cs o` is the number of the last call that wrote the total
of `o`.  In particular, after rises of one weight by distinct validators for pairwise
distinct objects on a fresh tally, `max ()` returns the object risen first, and in the test
`multi_value` the call `vote (now = 1050)` declares object `2`. -/
theorem max_tie_break (cs : List tally_call) :
    ((run_tally cs).totals ≠ [] →
      map_find (run_tally cs).totals (run_tally cs).max.2 = some (run_tally cs).max.1) ∧
    (∀ o w, map_find (run_tally cs).totals o = some w →
      w ≤ (run_tally cs).max.1 ∧
      (w = (run_tally cs).max.1 → o ≠ (run_tally cs).max.2 →
        last_write cs (run_tally cs).max.2 < last_write cs o)) ∧
    (∀ o, last_write [] o = 0) ∧
    (∀ c o, last_write (cs ++ [c]) o
      = if touched (run_tally cs) c = some o then cs.length + 1 else last_write cs o) ∧
    (∀ (vals : validators) (w : weight) (e : vote_event) (rs : List vote_event),
      (voters (e :: rs)).Nodup → ((e :: rs).map (fun x => x.2.2)).Nodup →
      (∀ x ∈ e :: rs, vals.weight x.2.1 = w) →
      (run_tally ((e :: rs).map (fun x => tally_call.rise x.1 x.2.1 x.2.2 vals))).max
        = (w, e.2.2)) ∧
    vote heap_multi_value 0 (uniform_validators 3) 1050
      = some ([⟨50, [(1001, 0, 2), (1001, 1, 3), (1001, 2, 4)], [1], 1050, 2⟩,
          ⟨50, [], [], 1050, 0⟩], 1100, [(2, 1050)], []) := by
  obtain ⟨h1, -, h3, h4, -⟩ := stamped_run_inv cs
  rw [h1] at h3 h4
  refine ⟨?_, ?_, fun _ => rfl, last_write_append cs, ?_, by rfl⟩
  · intro hne
    rcases max_spec (run_tally cs) h3 with ⟨-, h5, -⟩ | ⟨h5, -⟩
    · exact absurd h5 hne
    · exact h5
  · intro o w how
    have hmem : (w, o) ∈ (run_tally cs).rank := (rank_entry_iff _ h3 w o).2 how
    cases hr : (run_tally cs).rank with
    | nil => rw [hr] at hmem; simp at hmem
    | cons x rest =>
      have hmax : (run_tally cs).max = x := by simp [tally.max, hr]
      rw [hr] at hmem h4
      rw [hmax]
      rcases List.mem_cons.1 hmem with hx | hx
      · rw [← hx]
        exact ⟨le_refl _, fun _ hne => absurd rfl hne⟩
      · have := (List.pairwise_cons.1 h4).1 (w, o) hx
        rcases this with h | h
        · exact ⟨le_of_lt h, fun he _ => absurd he (ne_of_lt h)⟩
        · exact ⟨le_of_eq h.1.symm, fun _ _ => h.2⟩
  · intro vals w e rs hv ho hw
    have := rises_rank vals w (e :: rs) [] tally.fresh rfl (fun _ _ => rfl) (fun _ _ => rfl)
      (by simpa using hv) (by simpa using ho) hw
    have h5 : (run_tally ((e :: rs).map
        (fun x => tally_call.rise x.1 x.2.1 x.2.2 vals))).rank
        = (w, e.2.2) :: rs.map (fun x => (w, x.2.2)) := by
      unfold run_tally
      rw [this]
      rfl
    simp only [tally.max, h5]

theorem max_tie_break_witness :
    (run_tally calls_zero_weight).max = (1, 2) ∧
    last_write calls_zero_weight 2 = 2 ∧ last_write calls_zero_weight 1 = 3 ∧
    last_write calls_zero_weight (run_tally calls_zero_weight).max.2
      < last_write calls_zero_weight 1 ∧
    (run_tally ([(1001, 0, 2), (1001, 1, 3), (1001, 2, 4)].map
      (fun x => tally_call.rise x.1 x.2.1 x.2.2 (uniform_validators 3)))).max = (1, 2) :=
  ⟨by rfl, by rfl, by rfl,
    ((max_tie_break calls_zero_weight).2.1 1 1 (by rfl)).2 (by rfl) (by decide),
    (max_tie_break []).2.2.2.2.1 (uniform_validators 3) 1 (1001, 0, 2)
      [(1001, 1, 3), (1001, 2, 4)] (by decide) (by decide) (by decide)⟩

/-! ## The order of insertion -/

theorem rise_totals (t : tally) (time : time_point) (v : validator) (o : object)
    (vals : validators) (k : object) :
    map_find (t.rise time v o vals).1.totals_m k
      = if (t.slot_of v).2.1 = time_point_default ∧ o = k then
          some ((map_find t.totals_m o).getD 0 + vals.weight v)
        else map_find t.totals_m k := by
  simp only [tally.rise]
  by_cases c1 : (t.slot_of v).2.1 = time_point_default
  · rw [if_pos c1]
    show map_find (map_set t.totals_m o _) k = _
    rw [map_find_map_set]
    by_cases c2 : o = k
    · rw [if_pos c2, if_pos ⟨c1, c2⟩]
    · rw [if_neg c2, if_neg (fun h => c2 h.2)]
  · have hr : ¬((t.slot_of v).2.1 = time_point_default ∧ o = k) := fun h => c1 h.1
    rw [if_neg c1, if_neg hr]
    split_ifs <;> rfl

theorem fall_totals (t : tally) (time : time_point) (v : validator) (o : object)
    (k : object) :
    map_find (t.fall time v o).totals_m k
      = if (time = (t.slot_of v).2.1 ∧ o = (t.slot_of v).1) ∧ o = k then
          some ((map_find t.totals_m o).getD 0 - (t.slot_of v).2.2)
        else map_find t.totals_m k := by
  simp only [tally.fall]
  by_cases c1 : time = (t.slot_of v).2.1 ∧ o = (t.slot_of v).1
  · rw [if_pos c1]
    show map_find (map_set t.totals_m o _) k = _
    rw [map_find_map_set]
    by_cases c2 : o = k
    · rw [if_pos c2, if_pos ⟨c1, c2⟩]
    · rw [if_neg c2, if_neg (fun h => c2 h.2)]
  · have hr : ¬((time = (t.slot_of v).2.1 ∧ o = (t.slot_of v).1) ∧ o = k) := fun h => c1 h.1
    rw [if_neg c1, if_neg hr]

theorem tally_equiv_refl (t : tally) : tally_equiv t t := ⟨fun _ => rfl, fun _ => rfl⟩

theorem tally_equiv_trans {t1 t2 t3 : tally} (h1 : tally_equiv t1 t2)
    (h2 : tally_equiv t2 t3) : tally_equiv t1 t3 :=
  ⟨fun o => (h1.1 o).trans (h2.1 o), fun v => (h1.2 v).trans (h2.2 v)⟩

theorem rise_equiv (t1 t2 : tally) (time : time_point) (v : validator) (o : object)
    (vals : validators) (h : tally_equiv t1 t2) :
    tally_equiv (t1.rise time v o vals).1 (t2.rise time v o vals).1 := by
  refine ⟨fun k => ?_, fun u => ?_⟩
  · rw [rise_totals, rise_totals, h.1 o, h.1 k, h.2 v]
  · rw [rise_slot, rise_slot, h.2 v, h.2 u]

theorem fall_equiv (t1 t2 : tally) (time : time_point) (v : validator) (o : object)
    (h : tally_equiv t1 t2) :
    tally_equiv (t1.fall time v o) (t2.fall time v o) := by
  refine ⟨fun k => ?_, fun u => ?_⟩
  · rw [fall_totals, fall_totals, h.1 o, h.1 k, h.2 v]
  · rw [fall_slot, fall_slot, h.2 v, h.2 u]

theorem rise_rise_comm (t : tally) (vals : validators) (a b : vote_event)
    (hv : a.2.1 ≠ b.2.1) :
    tally_equiv ((t.rise a.1 a.2.1 a.2.2 vals).1.rise b.1 b.2.1 b.2.2 vals).1
      ((t.rise b.1 b.2.1 b.2.2 vals).1.rise a.1 a.2.1 a.2.2 vals).1 := by
  have hba : b.2.1 ≠ a.2.1 := fun h => hv h.symm
  refine ⟨fun k => ?_, fun u => ?_⟩
  · simp only [rise_totals, rise_slot, if_neg hv, if_neg hba]
    by_cases ca : (t.slot_of a.2.1).2.1 = time_point_default <;>
    by_cases cb : (t.slot_of b.2.1).2.1 = time_point_default <;>
    by_cases ka : a.2.2 = k <;> by_cases kb : b.2.2 = k <;>
    by_cases ab : a.2.2 = b.2.2 <;>
    simp_all [add_right_comm, Ne.symm]
  · simp only [rise_slot, if_neg hv, if_neg hba]
    by_cases ua : u = a.2.1 <;> by_cases ub : u = b.2.1 <;> simp_all

theorem cond_sub_comm (f : object → Option weight) (c1 c2 : Prop) [Decidable c1]
    [Decidable c2] (o1 o2 k : object) (w1 w2 : weight) :
    (if c2 ∧ o2 = k then
        some ((if c1 ∧ o1 = o2 then some ((f o1).getD 0 - w1) else f o2).getD 0 - w2)
      else if c1 ∧ o1 = k then some ((f o1).getD 0 - w1) else f k)
      = if c1 ∧ o1 = k then
          some ((if c2 ∧ o2 = o1 then some ((f o2).getD 0 - w2) else f o1).getD 0 - w1)
        else if c2 ∧ o2 = k then some ((f o2).getD 0 - w2) else f k := by
  by_cases h1 : c1 <;> by_cases h2 : c2 <;> by_cases k1 : o1 = k <;> by_cases k2 : o2 = k
  all_goals first
    | (subst k1; subst k2; simp [h1, h2, sub_right_comm])
    | (subst k1; simp [h1, h2, k2, Ne.symm k2])
    | (subst k2; simp [h1, h2, k1, Ne.symm k1])
    | simp [h1, h2, k1, k2]

theorem fall_fall_comm (t : tally) (a b : vote_event) (hv : a.2.1 ≠ b.2.1) :
    tally_equiv ((t.fall a.1 a.2.1 a.2.2).fall b.1 b.2.1 b.2.2)
      ((t.fall b.1 b.2.1 b.2.2).fall a.1 a.2.1 a.2.2) := by
  have hba : b.2.1 ≠ a.2.1 := fun h => hv h.symm
  refine ⟨fun k => ?_, fun u => ?_⟩
  · simp only [fall_totals, fall_slot, if_neg hv, if_neg hba]
    exact cond_sub_comm _ _ _ _ _ _ _ _
  · simp only [fall_slot, if_neg hv, if_neg hba]
    by_cases ua : u = a.2.1 <;> by_cases ub : u = b.2.1 <;> simp_all

theorem falls_cons (x : vote_event) (l : List vote_event) (t : tally) :
    falls (x :: l) t = falls l (t.fall x.1 x.2.1 x.2.2) := rfl

theorem rises_cons (vals : validators) (x : vote_event) (l : List vote_event) (t : tally) :
    rises vals (x :: l) t = rises vals l (t.rise x.1 x.2.1 x.2.2 vals).1 := rfl

theorem falls_append (l1 l2 : List vote_event) (t : tally) :
    falls (l1 ++ l2) t = falls l2 (falls l1 t) := by
  simp [falls, List.foldl_append]

theorem rises_append (vals : validators) (l1 l2 : List vote_event) (t : tally) :
    rises vals (l1 ++ l2) t = rises vals l2 (rises vals l1 t) := by
  simp [rises, List.foldl_append]

theorem falls_perm {l1 l2 : List vote_event} (hp : l1.Perm l2) :
    (∀ a ∈ l1, ∀ b ∈ l1, a.2.1 = b.2.1 → a = b) →
    ∀ t1 t2, tally_equiv t1 t2 → tally_equiv (falls l1 t1) (falls l2 t2) := by
  induction hp with
  | nil => intro _ t1 t2 h; exact h
  | cons x _ ih =>
    intro hc t1 t2 h
    rw [falls_cons, falls_cons]
    exact ih (fun a ha b hb => hc a (List.mem_cons_of_mem _ ha) b (List.mem_cons_of_mem _ hb))
      _ _ (fall_equiv _ _ _ _ _ h)
  | swap x y l =>
    intro hc t1 t2 h
    rw [falls_cons, falls_cons, falls_cons, falls_cons]
    have hl : ∀ s1 s2, tally_equiv s1 s2 → tally_equiv (falls l s1) (falls l s2) := by
      intro s1 s2 hs
      induction l generalizing s1 s2 with
      | nil => exact hs
      | cons z l ihl =>
        rw [falls_cons, falls_cons]
        exact ihl (fun a ha b hb => hc a (by simp at ha ⊢; tauto) b (by simp at hb ⊢; tauto))
          _ _ (fall_equiv _ _ _ _ _ hs)
    apply hl
    by_cases c : y.2.1 = x.2.1
    · have : y = x := hc y (by simp) x (by simp) c
      subst this
      exact fall_equiv _ _ _ _ _ (fall_equiv _ _ _ _ _ h)
    · exact tally_equiv_trans (fall_fall_comm t1 y x c)
        (fall_equiv _ _ _ _ _ (fall_equiv _ _ _ _ _ h))
  | trans p1 _ ih1 ih2 =>
    intro hc t1 t2 h
    exact tally_equiv_trans (ih1 hc t1 t1 (tally_equiv_refl t1))
      (ih2 (fun a ha b hb => hc a (p1.mem_iff.2 ha) b (p1.mem_iff.2 hb)) t1 t2 h)

theorem rises_perm (vals : validators) {l1 l2 : List vote_event} (hp : l1.Perm l2) :
    (∀ a ∈ l1, ∀ b ∈ l1, a.2.1 = b.2.1 → a = b) →
    ∀ t1 t2, tally_equiv t1 t2 → tally_equiv (rises vals l1 t1) (rises vals l2 t2) := by
  induction hp with
  | nil => intro _ t1 t2 h; exact h
  | cons x _ ih =>
    intro hc t1 t2 h
    rw [rises_cons, rises_cons]
    exact ih (fun a ha b hb => hc a (List.mem_cons_of_mem _ ha) b (List.mem_cons_of_mem _ hb))
      _ _ (rise_equiv _ _ _ _ _ _ h)
  | swap x y l =>
    intro hc t1 t2 h
    rw [rises_cons, rises_cons, rises_cons, rises_cons]
    have hl : ∀ s1 s2, tally_equiv s1 s2 →
        tally_equiv (rises vals l s1) (rises vals l s2) := by
      intro s1 s2 hs
      induction l generalizing s1 s2 with
      | nil => exact hs
      | cons z l ihl =>
        rw [rises_cons, rises_cons]
        exact ihl (fun a ha b hb => hc a (by simp at ha ⊢; tauto) b (by simp at hb ⊢; tauto))
          _ _ (rise_equiv _ _ _ _ _ _ hs)
    apply hl
    by_cases c : y.2.1 = x.2.1
    · have : y = x := hc y (by simp) x (by simp) c
      subst this
      exact rise_equiv _ _ _ _ _ _ (rise_equiv _ _ _ _ _ _ h)
    · exact tally_equiv_trans (rise_rise_comm t1 vals y x c)
        (rise_equiv _ _ _ _ _ _ (rise_equiv _ _ _ _ _ _ h))
  | trans p1 _ ih1 ih2 =>
    intro hc t1 t2 h
    exact tally_equiv_trans (ih1 hc t1 t1 (tally_equiv_refl t1))
      (ih2 (fun a ha b hb => hc a (p1.mem_iff.2 ha) b (p1.mem_iff.2 hb)) t1 t2 h)

theorem flat_cons (a : time_point × List vote_event) (gs : List (time_point × List vote_event)) :
    flat (a :: gs) = a.2 ++ flat gs := by
  simp [flat]

theorem grouped_tail {a : time_point × List vote_event}
    {gs : List (time_point × List vote_event)} (h : grouped (a :: gs)) : grouped gs :=
  ⟨(List.pairwise_cons.1 h.1).2, fun b hb => h.2 b (List.mem_cons_of_mem _ hb)⟩

theorem boundary_flat {a : time_point × List vote_event}
    {gs : List (time_point × List vote_event)} (h : grouped (a :: gs)) :
    boundary (flat gs) a.1 = true := by
  cases gs with
  | nil => rfl
  | cons b gs1 =>
    have hb := h.2 b (by simp)
    have hlt : a.1 < b.1 := (List.pairwise_cons.1 h.1).1 b (by simp)
    rw [flat_cons]
    cases hb2 : b.2 with
    | nil => exact absurd hb2 hb.1
    | cons e r =>
      have he : e.1 = b.1 := hb.2 e (by rw [hb2]; simp)
      simp only [List.cons_append, boundary, decide_eq_true_eq]
      intro h
      rw [he] at h
      exact absurd h (ne_of_gt hlt)

theorem boundary_same (x : vote_event) (l : List vote_event) (t : time_point) (h : x.1 = t) :
    boundary (x :: l) t = false := by
  simp [boundary, h]

theorem expire_c_group (W : duration) (time tg : time_point) (rest : List vote_event)
    (hb : boundary rest tg = true) (hle : tg ≤ time - W) :
    ∀ (g : List vote_event) (T : tally), g ≠ [] → (∀ e ∈ g, e.1 = tg) →
      expire_c W time (g ++ rest) T
        = ((expire_c W time rest (falls g T)).1, (expire_c W time rest (falls g T)).2.1,
            event.edge (tg + W) (falls g T) :: (expire_c W time rest (falls g T)).2.2) := by
  intro g
  induction g with
  | nil => intro T h; exact absurd rfl h
  | cons x g ih =>
    intro T _ hu
    obtain ⟨t1, v1, o1⟩ := x
    have h1 : t1 = tg := hu (t1, v1, o1) (by simp)
    subst h1
    simp only [List.cons_append, expire_c, List.append_eq]
    rw [if_pos hle]
    cases g with
    | nil =>
      simp only [List.nil_append, hb, edge_if, if_true, List.singleton_append, falls_cons]
      rfl
    | cons y g1 =>
      have hy : y.1 = t1 := hu y (by simp)
      have := ih (T.fall t1 v1 o1) (by simp) (fun e he => hu e (List.mem_cons_of_mem _ he))
      have hbs : boundary (y :: g1 ++ rest) t1 = false := boundary_same y (g1 ++ rest) t1 hy
      rw [this, hbs]
      simp only [edge_if, Bool.false_eq_true, if_false, List.nil_append, falls_cons]

theorem drain_c_group (W : duration) (endt tg : time_point) (rest : List vote_event)
    (hb : boundary rest tg = true) (hle : tg + W < endt) :
    ∀ (g : List vote_event) (T : tally), g ≠ [] → (∀ e ∈ g, e.1 = tg) →
      drain_c W endt (g ++ rest) T
        = ((drain_c W endt rest (falls g T)).1,
            event.edge (tg + W) (falls g T) :: (drain_c W endt rest (falls g T)).2) := by
  intro g
  induction g with
  | nil => intro T h; exact absurd rfl h
  | cons x g ih =>
    intro T _ hu
    obtain ⟨t1, v1, o1⟩ := x
    have h1 : t1 = tg := hu (t1, v1, o1) (by simp)
    subst h1
    simp only [List.cons_append, drain_c, List.append_eq]
    rw [if_pos hle]
    cases g with
    | nil =>
      simp only [List.nil_append, hb, edge_if, if_true, List.singleton_append, falls_cons]
      rfl
    | cons y g1 =>
      have hy : y.1 = t1 := hu y (by simp)
      have := ih (T.fall t1 v1 o1) (by simp) (fun e he => hu e (List.mem_cons_of_mem _ he))
      have hbs : boundary (y :: g1 ++ rest) t1 = false := boundary_same y (g1 ++ rest) t1 hy
      rw [this, hbs]
      simp only [edge_if, Bool.false_eq_true, if_false, List.nil_append, falls_cons]

theorem drain_c_stop_head (W : duration) (endt : time_point) (l : List vote_event) (T : tally)
    (h : ∀ e, l.head? = some e → ¬ e.1 + W < endt) : drain_c W endt l T = (T, []) := by
  cases l with
  | nil => rfl
  | cons e rest =>
    obtain ⟨t1, v1, o1⟩ := e
    have := h (t1, v1, o1) rfl
    simp only [drain_c]
    rw [if_neg this]

theorem expire_c_again (W : duration) (time : time_point) (l : List vote_event)
    (T T1 : tally) :
    expire_c W time (expire_c W time l T).1 T1 = ((expire_c W time l T).1, T1, []) := by
  obtain ⟨_, _, _, h⟩ := expire_c_split W time l T
  exact expire_c_noop W time _ T1 h

theorem rise_c_group (W : duration) (vals : validators) (tg : time_point)
    (rest : List vote_event) (hb : boundary rest tg = true) :
    ∀ (g lower : List vote_event) (T : tally), g ≠ [] → (∀ e ∈ g, e.1 = tg) →
      (rise_c W vals (g ++ rest) lower T).1
          = (rise_c W vals rest (expire_c W tg lower T).1
              (rises vals g (expire_c W tg lower T).2.1)).1 ∧
        (rise_c W vals (g ++ rest) lower T).2.1
          = (rise_c W vals rest (expire_c W tg lower T).1
              (rises vals g (expire_c W tg lower T).2.1)).2.1 ∧
        edges_of (rise_c W vals (g ++ rest) lower T).2.2
          = edges_of (expire_c W tg lower T).2.2
            ++ (tg, rises vals g (expire_c W tg lower T).2.1)
              :: edges_of (rise_c W vals rest (expire_c W tg lower T).1
                  (rises vals g (expire_c W tg lower T).2.1)).2.2 := by
  intro g
  induction g with
  | nil => intro _ T h; exact absurd rfl h
  | cons x g ih =>
    intro lower T _ hu
    obtain ⟨t1, v1, o1⟩ := x
    have h1 : t1 = tg := hu (t1, v1, o1) (by simp)
    subst h1
    simp only [List.cons_append, rise_c, List.append_eq]
    cases g with
    | nil =>
      simp only [List.nil_append, hb, edge_if, if_true, edges_of_append, edges_of_fault_if,
        List.append_nil, edges_of, List.singleton_append, rises_cons, List.append_assoc]
      exact ⟨rfl, rfl, rfl⟩
    | cons y g1 =>
      have hy : y.1 = t1 := hu y (by simp)
      obtain ⟨i1, i2, i3⟩ := ih (expire_c W t1 lower T).1
        ((expire_c W t1 lower T).2.1.rise t1 v1 o1 vals).1 (by simp)
        (fun e he => hu e (List.mem_cons_of_mem _ he))
      simp only [expire_c_again] at i1 i2 i3
      have hbs : boundary (y :: g1 ++ rest) t1 = false := boundary_same y (g1 ++ rest) t1 hy
      rw [hbs]
      simp only [edge_if, Bool.false_eq_true, if_false, edges_of_append, edges_of_fault_if,
        List.append_nil, rises_cons, List.append_assoc]
      refine ⟨i1, i2, ?_⟩
      rw [i3]
      rfl

theorem flat_head {a : time_point × List vote_event}
    {gs : List (time_point × List vote_event)} (h : grouped (a :: gs)) :
    ∀ e, (flat (a :: gs)).head? = some e → e.1 = a.1 := by
  intro e he
  have ha := h.2 a (by simp)
  rw [flat_cons] at he
  cases h2 : a.2 with
  | nil => exact absurd h2 ha.1
  | cons x r =>
    rw [h2] at he
    simp only [List.cons_append, List.head?_cons, Option.some.injEq] at he
    subst he
    exact ha.2 x (by rw [h2]; simp)

theorem grouped_nil : grouped [] := ⟨List.Pairwise.nil, fun a ha => by simp at ha⟩

theorem log_equiv_nil : log_equiv [] [] :=
  ⟨[], [], rfl, rfl, List.Forall₂.nil, grouped_nil, grouped_nil⟩

theorem expire_sim_groups (W : duration) (time : time_point)
    {gs1 gs2 : List (time_point × List vote_event)} (hr : List.Forall₂ group_rel gs1 gs2) :
    grouped gs1 → grouped gs2 → ∀ T1 T2, tally_equiv T1 T2 →
      log_equiv (expire_c W time (flat gs1) T1).1 (expire_c W time (flat gs2) T2).1 ∧
      tally_equiv (expire_c W time (flat gs1) T1).2.1 (expire_c W time (flat gs2) T2).2.1 ∧
      List.Forall₂ same_edge (edges_of (expire_c W time (flat gs1) T1).2.2)
        (edges_of (expire_c W time (flat gs2) T2).2.2) := by
  induction hr with
  | nil => intro _ _ T1 T2 h; exact ⟨log_equiv_nil, h, List.Forall₂.nil⟩
  | cons hab htail ih =>
    rename_i a b l1 l2
    intro g1 g2 T1 T2 h
    by_cases c : a.1 ≤ time - W
    · have cb : b.1 ≤ time - W := hab.1 ▸ c
      have e1 := expire_c_group W time a.1 (flat l1) (boundary_flat g1) c a.2 T1
        (g1.2 a (by simp)).1 (g1.2 a (by simp)).2
      have e2 := expire_c_group W time b.1 (flat l2) (boundary_flat g2) cb b.2 T2
        (g2.2 b (by simp)).1 (g2.2 b (by simp)).2
      have hf := falls_perm hab.2.1 hab.2.2 T1 T2 h
      obtain ⟨i1, i2, i3⟩ := ih (grouped_tail g1) (grouped_tail g2) _ _ hf
      rw [flat_cons, flat_cons, e1, e2]
      refine ⟨i1, i2, ?_⟩
      simp only [edges_of]
      exact List.Forall₂.cons ⟨by rw [hab.1], hf.1⟩ i3
    · have cb : ¬ b.1 ≤ time - W := hab.1 ▸ c
      rw [expire_c_noop W time (flat (a :: l1)) T1
          (fun e he => by rw [flat_head g1 e he]; exact not_le.1 c),
        expire_c_noop W time (flat (b :: l2)) T2
          (fun e he => by rw [flat_head g2 e he]; exact not_le.1 cb)]
      exact ⟨⟨a :: l1, b :: l2, rfl, rfl, List.Forall₂.cons hab htail, g1, g2⟩, h,
        List.Forall₂.nil⟩

theorem expire_sim (W : duration) (time : time_point) (l1 l2 : List vote_event)
    (T1 T2 : tally) (hl : log_equiv l1 l2) (h : tally_equiv T1 T2) :
    log_equiv (expire_c W time l1 T1).1 (expire_c W time l2 T2).1 ∧
      tally_equiv (expire_c W time l1 T1).2.1 (expire_c W time l2 T2).2.1 ∧
      List.Forall₂ same_edge (edges_of (expire_c W time l1 T1).2.2)
        (edges_of (expire_c W time l2 T2).2.2) := by
  obtain ⟨gs1, gs2, rfl, rfl, hr, g1, g2⟩ := hl
  exact expire_sim_groups W time hr g1 g2 T1 T2 h

theorem drain_sim_groups (W : duration) (endt : time_point)
    {gs1 gs2 : List (time_point × List vote_event)} (hr : List.Forall₂ group_rel gs1 gs2) :
    grouped gs1 → grouped gs2 → ∀ T1 T2, tally_equiv T1 T2 →
      tally_equiv (drain_c W endt (flat gs1) T1).1 (drain_c W endt (flat gs2) T2).1 ∧
      List.Forall₂ same_edge (edges_of (drain_c W endt (flat gs1) T1).2)
        (edges_of (drain_c W endt (flat gs2) T2).2) := by
  induction hr with
  | nil => intro _ _ T1 T2 h; exact ⟨h, List.Forall₂.nil⟩
  | cons hab htail ih =>
    rename_i a b l1 l2
    intro g1 g2 T1 T2 h
    by_cases c : a.1 + W < endt
    · have cb : b.1 + W < endt := hab.1 ▸ c
      have e1 := drain_c_group W endt a.1 (flat l1) (boundary_flat g1) c a.2 T1
        (g1.2 a (by simp)).1 (g1.2 a (by simp)).2
      have e2 := drain_c_group W endt b.1 (flat l2) (boundary_flat g2) cb b.2 T2
        (g2.2 b (by simp)).1 (g2.2 b (by simp)).2
      have hf := falls_perm hab.2.1 hab.2.2 T1 T2 h
      obtain ⟨i1, i2⟩ := ih (grouped_tail g1) (grouped_tail g2) _ _ hf
      rw [flat_cons, flat_cons, e1, e2]
      refine ⟨i1, ?_⟩
      simp only [edges_of]
      exact List.Forall₂.cons ⟨by rw [hab.1], hf.1⟩ i2
    · have cb : ¬ b.1 + W < endt := hab.1 ▸ c
      rw [drain_c_stop_head W endt (flat (a :: l1)) T1
          (fun e he => by rw [flat_head g1 e he]; exact c),
        drain_c_stop_head W endt (flat (b :: l2)) T2
          (fun e he => by rw [flat_head g2 e he]; exact cb)]
      exact ⟨h, List.Forall₂.nil⟩

theorem rise_sim_groups (W : duration) (vals : validators)
    {cs1 cs2 : List (time_point × List vote_event)} (hr : List.Forall₂ group_rel cs1 cs2) :
    grouped cs1 → grouped cs2 → ∀ l1 l2 T1 T2, log_equiv l1 l2 → tally_equiv T1 T2 →
      log_equiv (rise_c W vals (flat cs1) l1 T1).1 (rise_c W vals (flat cs2) l2 T2).1 ∧
      tally_equiv (rise_c W vals (flat cs1) l1 T1).2.1 (rise_c W vals (flat cs2) l2 T2).2.1 ∧
      List.Forall₂ same_edge (edges_of (rise_c W vals (flat cs1) l1 T1).2.2)
        (edges_of (rise_c W vals (flat cs2) l2 T2).2.2) := by
  induction hr with
  | nil => intro _ _ l1 l2 T1 T2 hl h; exact ⟨hl, h, List.Forall₂.nil⟩
  | cons hab htail ih =>
    rename_i a b c1 c2
    intro g1 g2 l1 l2 T1 T2 hl h
    obtain ⟨x1, x2, x3⟩ := expire_sim W a.1 l1 l2 T1 T2 hl h
    obtain ⟨p1, p2, p3⟩ := rise_c_group W vals a.1 (flat c1) (boundary_flat g1) a.2 l1 T1
      (g1.2 a (by simp)).1 (g1.2 a (by simp)).2
    obtain ⟨q1, q2, q3⟩ := rise_c_group W vals b.1 (flat c2) (boundary_flat g2) b.2 l2 T2
      (g2.2 b (by simp)).1 (g2.2 b (by simp)).2
    rw [← hab.1] at q1 q2 q3
    have hf := rises_perm vals hab.2.1 hab.2.2 _ _ x2
    obtain ⟨i1, i2, i3⟩ := ih (grouped_tail g1) (grouped_tail g2) _ _ _ _ x1 hf
    rw [flat_cons, flat_cons, p1, p2, p3, q1, q2, q3]
    exact ⟨i1, i2, List.rel_append x3 (List.Forall₂.cons ⟨rfl, hf.1⟩ i3)⟩

theorem scan_sim (W : duration) (endt : time_point) (vals : validators)
    (l1 l2 : List vote_event) (T1 T2 : tally) (hl : log_equiv l1 l2)
    (h : tally_equiv T1 T2) :
    tally_equiv (scan_c W endt vals l1 T1).1 (scan_c W endt vals l2 T2).1 ∧
      List.Forall₂ same_edge (edges_of (scan_c W endt vals l1 T1).2)
        (edges_of (scan_c W endt vals l2 T2).2) := by
  obtain ⟨gs1, gs2, e1, e2, hr, g1, g2⟩ := hl
  have hl2 : log_equiv l1 l2 := ⟨gs1, gs2, e1, e2, hr, g1, g2⟩
  have hs := rise_sim_groups W vals hr g1 g2 l1 l2 T1 T2 hl2 h
  rw [← e1, ← e2] at hs
  obtain ⟨i1, i2, i3⟩ := hs
  obtain ⟨m1, m2, k1, k2, mr, n1, n2⟩ := i1
  obtain ⟨j1, j2⟩ := drain_sim_groups W endt mr n1 n2 _ _ i2
  rw [← k1, ← k2] at j1 j2
  simp only [scan_c, edges_of_append]
  exact ⟨j1, List.rel_append i3 j2⟩

theorem sorted_split (l : List vote_event) (hs : log_sorted l) (t : time_point) :
    l = l.filter (fun e => decide (e.1 ≤ t)) ++ l.filter (fun e => !decide (e.1 ≤ t)) := by
  have hp : l.Pairwise (fun x y : vote_event =>
      decide (x.1 ≤ t) = false → decide (y.1 ≤ t) = false) := by
    refine List.Pairwise.imp ?_ hs
    intro a b hab ha
    simp only [decide_eq_false_iff_not, not_le] at ha ⊢
    exact lt_of_lt_of_le ha hab
  rw [← takeWhile_eq_filter_sorted _ l hp, ← dropWhile_eq_filter_sorted _ l hp,
    List.takeWhile_append_dropWhile]

theorem mem_flat {gs : List (time_point × List vote_event)} {b : time_point × List vote_event}
    {e : vote_event} (hb : b ∈ gs) (he : e ∈ b.2) : e ∈ flat gs := by
  simp only [flat, List.mem_flatten, List.mem_map]
  exact ⟨b.2, ⟨b, hb, rfl⟩, he⟩

theorem grouped_cons (t : time_point) (g r : List vote_event)
    (gs : List (time_point × List vote_event)) (hg : g ≠ []) (hu : ∀ e ∈ g, e.1 = t)
    (hr : ∀ e ∈ r, t < e.1) (hf : r = flat gs) (h : grouped gs) : grouped ((t, g) :: gs) := by
  refine ⟨List.pairwise_cons.2 ⟨fun b hb => ?_, h.1⟩, fun a ha => ?_⟩
  · have hb2 := h.2 b hb
    cases h2 : b.2 with
    | nil => exact absurd h2 hb2.1
    | cons e _ =>
      have he : e ∈ b.2 := by rw [h2]; simp
      have := hr e (by rw [hf]; exact mem_flat hb he)
      rw [hb2.2 e he] at this
      exact this
  · rcases List.mem_cons.1 ha with rfl | h1
    · exact ⟨hg, hu⟩
    · exact h.2 a h1

theorem log_equiv_of_perm :
    ∀ (n : Nat) (l1 l2 : List vote_event), l1.length ≤ n → log_sorted l1 → log_sorted l2 →
      l1.Perm l2 → one_object_per_time l1 → log_equiv l1 l2 := by
  intro n
  induction n with
  | zero =>
    intro l1 l2 hn _ _ hp _
    have h1 : l1 = [] := List.length_eq_zero.1 (Nat.le_zero.1 hn)
    subst h1
    have h2 := List.Perm.nil_eq hp
    subst h2
    exact log_equiv_nil
  | succ n ih =>
    intro l1 l2 hn s1 s2 hp ho
    cases l1 with
    | nil =>
      have h2 := List.Perm.nil_eq hp
      subst h2
      exact log_equiv_nil
    | cons x r =>
      have hmin : ∀ e ∈ x :: r, x.1 ≤ e.1 := by
        intro e he
        rcases List.mem_cons.1 he with rfl | h1
        · exact le_refl _
        · exact (List.pairwise_cons.1 s1).1 e h1
      have hsub1 : ∀ e ∈ (x :: r).filter (fun e => !decide (e.1 ≤ x.1)), e ∈ x :: r :=
        fun e he => (List.mem_filter.1 he).1
      have d1 := sorted_split (x :: r) s1 x.1
      have d2 := sorted_split l2 s2 x.1
      have hr1 : ((x :: r).filter (fun e => !decide (e.1 ≤ x.1))).length ≤ n := by
        have : (x :: r).filter (fun e => !decide (e.1 ≤ x.1))
            = r.filter (fun e => !decide (e.1 ≤ x.1)) := by
          simp [List.filter_cons]
        rw [this]
        exact le_trans (List.length_filter_le _ _) (Nat.le_of_succ_le_succ hn)
      obtain ⟨gs1, gs2, f1, f2, fr, fg1, fg2⟩ := ih _ _ hr1
        (List.Pairwise.sublist (List.filter_sublist _) s1)
        (List.Pairwise.sublist (List.filter_sublist _) s2)
        (List.Perm.filter _ hp)
        (fun a ha b hb => ho a (hsub1 a ha) b (hsub1 b hb))
      have hu1 : ∀ e ∈ (x :: r).filter (fun e => decide (e.1 ≤ x.1)), e.1 = x.1 := by
        intro e he
        have h1 := List.mem_filter.1 he
        exact le_antisymm (by simpa using h1.2) (hmin e h1.1)
      have hu2 : ∀ e ∈ l2.filter (fun e => decide (e.1 ≤ x.1)), e.1 = x.1 := by
        intro e he
        have h1 := List.mem_filter.1 he
        exact le_antisymm (by simpa using h1.2) (hmin e (hp.mem_iff.2 h1.1))
      have hx1 : x ∈ (x :: r).filter (fun e => decide (e.1 ≤ x.1)) :=
        List.mem_filter.2 ⟨by simp, by simp⟩
      have hx2 : x ∈ l2.filter (fun e => decide (e.1 ≤ x.1)) :=
        List.mem_filter.2 ⟨hp.mem_iff.1 (by simp), by simp⟩
      have hlt : ∀ (l : List vote_event), ∀ e ∈ l.filter (fun e => !decide (e.1 ≤ x.1)),
          x.1 < e.1 := by
        intro l e he
        have h1 := (List.mem_filter.1 he).2
        simpa using h1
      refine ⟨(x.1, (x :: r).filter (fun e => decide (e.1 ≤ x.1))) :: gs1,
        (x.1, l2.filter (fun e => decide (e.1 ≤ x.1))) :: gs2, ?_, ?_,
        List.Forall₂.cons ⟨rfl, List.Perm.filter _ hp, ?_⟩ fr, ?_, ?_⟩
      · rw [flat_cons, ← f1]; exact d1
      · rw [flat_cons, ← f2]; exact d2
      · intro a ha b hb hab
        have ha1 := (List.mem_filter.1 ha).1
        have hb1 := (List.mem_filter.1 hb).1
        have ht : a.1 = b.1 := (hu1 a ha).trans (hu1 b hb).symm
        exact Prod.ext ht (Prod.ext hab (ho a ha1 b hb1 ht hab))
      · exact grouped_cons x.1 _ _ gs1 (List.ne_nil_of_mem hx1) hu1 (hlt _) f1 fg1
      · exact grouped_cons x.1 _ _ gs2 (List.ne_nil_of_mem hx2) hu2 (hlt _) f2 fg2

theorem insert_all_W (es : List (object × time_point × validator)) :
    ∀ (a : agreement), (insert_all a es).W = a.W := by
  induction es with
  | nil => intro a; rfl
  | cons e es ih => intro a; exact ih (a.insert e.1 e.2.1 e.2.2)

theorem insert_all_sorted (es : List (object × time_point × validator)) :
    ∀ (a : agreement), log_sorted a.votes → log_sorted (insert_all a es).votes := by
  induction es with
  | nil => intro a h; exact h
  | cons e es ih =>
    intro a h
    exact ih (a.insert e.1 e.2.1 e.2.2) (log_insert_sorted _ _ h)

theorem insert_all_perm (es : List (object × time_point × validator)) :
    ∀ (a : agreement), (insert_all a es).votes.Perm (es.map entry ++ a.votes) := by
  induction es with
  | nil => intro a; exact List.Perm.refl _
  | cons e es ih =>
    intro a
    have h1 := ih (a.insert e.1 e.2.1 e.2.2)
    have h2 : (a.insert e.1 e.2.1 e.2.2).votes.Perm (entry e :: a.votes) :=
      log_insert_perm _ _
    exact (h1.trans (List.Perm.append_left _ h2)).trans List.perm_middle

theorem bounds_cases (votes : List vote_event) (begin endt : time_point) (h : endt < begin) :
    lower_bound votes begin = upper_bound votes endt ∨
      (lower_bound votes begin).length < (upper_bound votes endt).length := by
  induction votes with
  | nil => exact Or.inl rfl
  | cons x r ih =>
    by_cases c1 : x.1 ≤ endt
    · have c2 : x.1 < begin := lt_of_le_of_lt c1 h
      simpa [lower_bound, upper_bound, List.dropWhile_cons, c1, c2] using ih
    · by_cases c2 : x.1 < begin
      · right
        have hl : (List.dropWhile (fun e : vote_event => decide (e.1 < begin)) r).length
            ≤ r.length := (List.dropWhile_sublist _).length_le
        simp only [lower_bound, upper_bound, List.dropWhile_cons, c1, c2, decide_True,
          decide_False, if_true, Bool.false_eq_true, if_false, List.length_cons]
        omega
      · left
        simp [lower_bound, upper_bound, List.dropWhile_cons, c1, c2]

theorem scan_rise_past (W : duration) (vals : validators) (stop : List vote_event) :
    ∀ (current lower : List vote_event) (tl : tally), current.length < stop.length →
      scan_rise W vals stop current lower tl = none := by
  intro current
  induction current with
  | nil =>
    intro lower tl h
    simp only [scan_rise]
    rw [if_neg (by simp only [List.length_nil] at h; omega)]
  | cons x rest ih =>
    intro lower tl h
    obtain ⟨time, v, o⟩ := x
    simp only [List.length_cons] at h
    simp only [scan_rise]
    rw [if_neg (by omega)]
    cases scan_expire W time stop lower tl with
    | none => rfl
    | some r1 =>
      obtain ⟨lower1, tl1, evs1⟩ := r1
      dsimp only
      cases group_end stop rest time with
      | none => rfl
      | some b =>
        dsimp only
        rw [ih lower1 _ (by omega)]

theorem scan_rise_at_stop (W : duration) (vals : validators) (stop lower : List vote_event)
    (tl : tally) : scan_rise W vals stop stop lower tl = some (lower, tl, []) := by
  cases stop with
  | nil => simp [scan_rise]
  | cons x rest =>
    obtain ⟨time, v, o⟩ := x
    simp [scan_rise]

theorem scan_drain_at_stop (W : duration) (endt : time_point) (stop : List vote_event)
    (tl : tally) : scan_drain W endt stop stop tl = some (tl, []) := by
  cases stop with
  | nil => simp [scan_drain]
  | cons x rest =>
    obtain ⟨time, v, o⟩ := x
    simp [scan_drain]

theorem scan_reversed (a : agreement) (tl : tally) (begin endt : time_point)
    (vals : validators) (h : endt < begin) :
    a.scan tl begin endt vals
      = if (lower_bound a.votes begin).length = (upper_bound a.votes endt).length then
          some (tl, [])
        else none := by
  simp only [agreement.scan]
  rcases bounds_cases a.votes begin endt h with c | c
  · rw [c, if_pos rfl, scan_rise_at_stop]
    dsimp only
    rw [scan_drain_at_stop]
    rfl
  · rw [if_neg (ne_of_lt c), scan_rise_past a.W vals _ _ _ tl c]

theorem bound_lengths_perm {l1 l2 : List vote_event} (s1 : log_sorted l1) (s2 : log_sorted l2)
    (hp : l1.Perm l2) (t : time_point) :
    (lower_bound l1 t).length = (lower_bound l2 t).length ∧
      (upper_bound l1 t).length = (upper_bound l2 t).length := by
  have q1 : ∀ l : List vote_event, log_sorted l → l.Pairwise (fun x y : vote_event =>
      decide (x.1 < t) = false → decide (y.1 < t) = false) := by
    intro l hs
    refine List.Pairwise.imp ?_ hs
    intro x y hxy hx
    simp only [decide_eq_false_iff_not, not_lt] at hx ⊢
    exact le_trans hx hxy
  have q2 : ∀ l : List vote_event, log_sorted l → l.Pairwise (fun x y : vote_event =>
      decide (x.1 ≤ t) = false → decide (y.1 ≤ t) = false) := by
    intro l hs
    refine List.Pairwise.imp ?_ hs
    intro x y hxy hx
    simp only [decide_eq_false_iff_not, not_le] at hx ⊢
    exact lt_of_lt_of_le hx hxy
  unfold lower_bound upper_bound
  rw [dropWhile_eq_filter_sorted _ l1 (q1 l1 s1), dropWhile_eq_filter_sorted _ l2 (q1 l2 s2),
    dropWhile_eq_filter_sorted _ l1 (q2 l1 s1), dropWhile_eq_filter_sorted _ l2 (q2 l2 s2)]
  exact ⟨(List.Perm.filter _ hp).length_eq, (List.Perm.filter _ hp).length_eq⟩

theorem scan_perm (a b : agreement) (hW : a.W = b.W) (hpos : 0 < a.W)
    (sa : log_sorted a.votes) (sb : log_sorted b.votes) (hp : a.votes.Perm b.votes)
    (ho : one_object_per_time a.votes) (begin endt : time_point) (vals : validators) :
    (begin ≤ endt → ∃ r1 r2, a.scan tally.fresh begin endt vals = some r1 ∧
        b.scan tally.fresh begin endt vals = some r2 ∧
        List.Forall₂ same_edge (edges_of r1.2) (edges_of r2.2)) ∧
      (endt < begin → a.scan tally.fresh begin endt vals = b.scan tally.fresh begin endt vals ∧
        ∀ r, a.scan tally.fresh begin endt vals = some r → r.2 = []) := by
  constructor
  · intro hbe
    refine ⟨_, _, scan_eq a _ begin endt vals hpos hbe,
      scan_eq b _ begin endt vals (hW ▸ hpos) hbe, ?_⟩
    rw [← hW]
    refine (scan_sim a.W endt vals _ _ _ _ ?_ (tally_equiv_refl _)).2
    have f1 := selected_eq_filter a.votes begin endt sa
    have f2 := selected_eq_filter b.votes begin endt sb
    refine log_equiv_of_perm _ _ _ (le_refl _) (log_sorted_selected _ _ _ sa)
      (log_sorted_selected _ _ _ sb) ?_ ?_
    · rw [f1, f2]; exact List.Perm.filter _ hp
    · rw [f1]
      intro x hx y hy
      exact ho x (List.mem_filter.1 hx).1 y (List.mem_filter.1 hy).1
  · intro hlt
    obtain ⟨l1, _⟩ := bound_lengths_perm sa sb hp begin
    obtain ⟨_, u1⟩ := bound_lengths_perm sa sb hp endt
    rw [scan_reversed a _ begin endt vals hlt, scan_reversed b _ begin endt vals hlt, l1, u1]
    refine ⟨rfl, fun r hr => ?_⟩
    split_ifs at hr
    simp only [Option.some.injEq] at hr
    rw [← hr]

/-- C31 (insertion order does not matter): two nodes with the same positive window `W` whose
time-ordered logs hold the same votes receive the same multiset of vote events through
`insert`, in any two orders; if no validator has votes for two different objects at one time,
then both logs hold the same votes again, and for every `begin <= end` and every validator
set the scans of the two nodes on fresh tallies both return and emit edge for edge the same
time and the same totals (read as a map from object to weight).  For `end < begin` the two
scans behave alike as well: both are undefined, or both return without any call. -/
theorem insertion_order (a b : agreement) (es1 es2 : List (object × time_point × validator))
    (hW : a.W = b.W) (hpos : 0 < a.W) (sa : log_sorted a.votes) (sb : log_sorted b.votes)
    (hab : a.votes.Perm b.votes) (hp : es1.Perm es2)
    (ho : one_object_per_time (insert_all a es1).votes)
    (begin endt : time_point) (vals : validators) :
    (insert_all a es1).votes.Perm (es1.map entry ++ a.votes) ∧
    (insert_all a es1).votes.Perm (insert_all b es2).votes ∧
    (begin ≤ endt → ∃ r1 r2,
      (insert_all a es1).scan tally.fresh begin endt vals = some r1 ∧
      (insert_all b es2).scan tally.fresh begin endt vals = some r2 ∧
      List.Forall₂ same_edge (edges_of r1.2) (edges_of r2.2)) ∧
    (endt < begin →
      (insert_all a es1).scan tally.fresh begin endt vals
        = (insert_all b es2).scan tally.fresh begin endt vals ∧
      ∀ r, (insert_all a es1).scan tally.fresh begin endt vals = some r → r.2 = []) := by
  have p1 := insert_all_perm es1 a
  have p2 := insert_all_perm es2 b
  have p3 : (insert_all a es1).votes.Perm (insert_all b es2).votes :=
    p1.trans ((List.Perm.append (hp.map entry) hab).trans p2.symm)
  have hw : (insert_all a es1).W = (insert_all b es2).W := by
    rw [insert_all_W, insert_all_W, hW]
  have h := scan_perm (insert_all a es1) (insert_all b es2) hw
    (by rw [insert_all_W]; exact hpos) (insert_all_sorted es1 a sa) (insert_all_sorted es2 b sb)
    p3 ho begin endt vals
  exact ⟨p1, p3, h.1, h.2⟩

theorem insertion_order_witness :
    (insert_all (agreement.mk_node 50 0 [1]) inserts_reverse).votes
      = [(1000, 1, 0), (1000, 2, 0), (1049, 0, 0)] ∧
    (insert_all (agreement.mk_node 50 0 [1]) inserts_forward).votes
      = [(1000, 2, 0), (1000, 1, 0), (1049, 0, 0)] ∧
    one_object_per_time (insert_all (agreement.mk_node 50 0 [1]) inserts_reverse).votes ∧
    ∃ r1 r2,
      (insert_all (agreement.mk_node 50 0 [1]) inserts_reverse).scan tally.fresh 0 2000
          (uniform_validators 4) = some r1 ∧
      (insert_all (agreement.mk_node 50 0 [1]) inserts_forward).scan tally.fresh 0 2000
          (uniform_validators 4) = some r2 ∧
      List.Forall₂ same_edge (edges_of r1.2) (edges_of r2.2) :=
  ⟨by rfl, by rfl, by decide,
    (insertion_order (agreement.mk_node 50 0 [1]) (agreement.mk_node 50 0 [1])
      inserts_reverse inserts_forward rfl (by decide) List.Pairwise.nil List.Pairwise.nil
      (List.Perm.refl _) (by decide) (by decide) 0 2000 (uniform_validators 4)).2.2.1
      (by decide)⟩

/-! ## The arithmetic of `unsigned` -/

theorem weight_mod_pos : 0 < weight_mod := by decide

theorem wrap_nonneg (x : Int) : 0 ≤ wrap x := Int.emod_nonneg _ (ne_of_gt weight_mod_pos)

theorem wrap_lt (x : Int) : wrap x < weight_mod := Int.emod_lt_of_pos _ weight_mod_pos

theorem wrap_of_range {x : Int} (h0 : 0 ≤ x) (h1 : x < weight_mod) : wrap x = x :=
  Int.emod_eq_of_lt h0 h1

theorem wrap_zero : wrap 0 = 0 := by simp [wrap]

theorem wrap_wrap (x : Int) : wrap (wrap x) = wrap x := by simp [wrap]

theorem wrap_add_left (a b : Int) : wrap (wrap a + b) = wrap (a + b) := by
  simp only [wrap]
  exact Int.emod_add_emod a weight_mod b

theorem wrap_add_right (a b : Int) : wrap (a + wrap b) = wrap (a + b) := by
  simp only [wrap]
  exact Int.add_emod_emod a b weight_mod

theorem wrap_sub_left (a b : Int) : wrap (wrap a - b) = wrap (a - b) := by
  rw [sub_eq_add_neg, sub_eq_add_neg, wrap_add_left]

theorem wrap_sum_map (l : List Int) : wrap ((l.map wrap).sum) = wrap l.sum := by
  induction l with
  | nil => rfl
  | cons x l ih =>
    simp only [List.map_cons, List.sum_cons]
    rw [wrap_add_left, ← wrap_add_right, ih, wrap_add_right]

theorem map_find_map_val {κ : Type} [DecidableEq κ] (f : Int → Int) (l : List (κ × Int))
    (k : κ) : map_find (l.map (fun e => (e.1, f e.2))) k = (map_find l k).map f := by
  induction l with
  | nil => rfl
  | cons e l ih =>
    obtain ⟨k1, v1⟩ := e
    simp only [List.map_cons, map_find]
    split_ifs
    · rfl
    · exact ih

theorem map_set_map_val {κ : Type} [DecidableEq κ] (f : Int → Int) (l : List (κ × Int))
    (k : κ) (x : Int) :
    map_set (l.map (fun e => (e.1, f e.2))) k (f x)
      = (map_set l k x).map (fun e => (e.1, f e.2)) := by
  induction l with
  | nil => rfl
  | cons e l ih =>
    obtain ⟨k1, v1⟩ := e
    simp only [List.map_cons, map_set]
    split_ifs
    · rfl
    · simp only [List.map_cons, ih]

theorem tally_sim_fresh : tally_sim tally.fresh tally.fresh :=
  ⟨rfl, rfl, rfl, rank_wf_fresh⟩

theorem tally_sim_slot {tw ti : tally} (h : tally_sim tw ti) (v : validator) :
    tw.slot_of v = ti.slot_of v := by
  simp only [tally.slot_of, h.1]

theorem tally_sim_find {tw ti : tally} (h : tally_sim tw ti) (o : object) :
    map_find tw.totals_m o = (map_find ti.totals_m o).map wrap := by
  rw [h.2.1, map_find_map_val]

theorem tally_sim_total_of {tw ti : tally} (h : tally_sim tw ti) (o : object) :
    (map_find tw.totals_m o).getD 0 = wrap ((map_find ti.totals_m o).getD 0) := by
  rw [tally_sim_find h]
  cases map_find ti.totals_m o with
  | none => exact wrap_zero.symm
  | some x => rfl

theorem tally_sim_sort_add {tw ti : tally} (h : tally_sim tw ti) (w : weight) (o : object) :
    tally_sim (tw.sort w o plus_w) (ti.sort w o (fun a b => a + b)) := by
  refine ⟨h.1, ?_, ?_, rank_wf_sort tw w o plus_w h.2.2.2⟩
  · show map_set tw.totals_m o (plus_w ((map_find tw.totals_m o).getD 0) w)
      = (map_set ti.totals_m o ((map_find ti.totals_m o).getD 0 + w)).map _
    rw [tally_sim_total_of h, plus_w, wrap_add_left, h.2.1, map_set_map_val]
  · show plus_w tw.total_m w = wrap (ti.total_m + w)
    rw [h.2.2.1, plus_w, wrap_add_left]

theorem tally_sim_sort_sub {tw ti : tally} (h : tally_sim tw ti) (w : weight) (o : object) :
    tally_sim (tw.sort w o minus_w) (ti.sort w o (fun a b => a - b)) := by
  refine ⟨h.1, ?_, ?_, rank_wf_sort tw w o minus_w h.2.2.2⟩
  · show map_set tw.totals_m o (minus_w ((map_find tw.totals_m o).getD 0) w)
      = (map_set ti.totals_m o ((map_find ti.totals_m o).getD 0 - w)).map _
    rw [tally_sim_total_of h, minus_w, wrap_sub_left, h.2.1, map_set_map_val]
  · show minus_w tw.total_m w = wrap (ti.total_m - w)
    rw [h.2.2.1, minus_w, wrap_sub_left]

theorem tally_sim_votes {tw ti : tally} (h : tally_sim tw ti)
    (V : List (validator × slot)) :
    tally_sim { tw with votes := V } { ti with votes := V } :=
  ⟨rfl, h.2.1, h.2.2.1, h.2.2.2⟩

theorem fall_w_sim {tw ti : tally} (h : tally_sim tw ti) (time : time_point) (v : validator)
    (o : object) : tally_sim (tw.fall_w time v o) (ti.fall time v o) := by
  simp only [tally.fall_w, tally.fall, tally_sim_slot h]
  split_ifs
  · have h1 := tally_sim_sort_sub h (ti.slot_of v).2.2 o
    have h2 := tally_sim_votes h1 (map_set (ti.sort (ti.slot_of v).2.2 o (fun a b => a - b)).votes v
      ((ti.slot_of v).1, time_point_default, (ti.slot_of v).2.2))
    have h3 : (tw.sort (ti.slot_of v).2.2 o minus_w).votes
        = (ti.sort (ti.slot_of v).2.2 o (fun a b => a - b)).votes := h1.1
    rw [h3]
    exact h2
  · have h2 := tally_sim_votes h (map_set ti.votes v (ti.slot_of v))
    rw [h.1]
    exact h2

theorem rise_w_sim {tw ti : tally} (h : tally_sim tw ti) (time : time_point) (v : validator)
    (o : object) (vals : validators) :
    tally_sim (tw.rise_w time v o vals).1 (ti.rise time v o vals).1 ∧
      (tw.rise_w time v o vals).2 = (ti.rise time v o vals).2 := by
  simp only [tally.rise_w, tally.rise, tally_sim_slot h, h.1]
  split_ifs
  · exact ⟨tally_sim_sort_add (tally_sim_votes h _) _ _, rfl⟩
  · exact ⟨tally_sim_votes h _, rfl⟩
  · exact ⟨tally_sim_votes h _, rfl⟩

/-! ## The scan on `unsigned` weights follows the scan on integers -/

theorem call_sim_expired (b : Bool) (s : time_point) {tw ti : tally} (h : tally_sim tw ti) :
    List.Forall₂ call_sim (call_if b (scan_call.expired s tw))
      (call_if b (scan_call.expired s ti)) := by
  cases b
  · exact List.Forall₂.nil
  · exact List.Forall₂.cons ⟨rfl, h⟩ List.Forall₂.nil

theorem call_sim_risen (b : Bool) (s : time_point) {tw ti : tally} (h : tally_sim tw ti) :
    List.Forall₂ call_sim (call_if b (scan_call.risen s tw))
      (call_if b (scan_call.risen s ti)) := by
  cases b
  · exact List.Forall₂.nil
  · exact List.Forall₂.cons ⟨rfl, h⟩ List.Forall₂.nil

theorem call_sim_fault_k (f : Option validator) :
    List.Forall₂ call_sim (fault_k f) (fault_k f) := by
  cases f
  · exact List.Forall₂.nil
  · exact List.Forall₂.cons rfl List.Forall₂.nil

theorem scan_expire_w_sim (W : duration) (time : time_point) (stop : List vote_event) :
    ∀ (l : List vote_event) (tw ti : tally), tally_sim tw ti → (∃ e ∈ l, time - W < e.1) →
      ∃ tw1 ks, scan_expire_w W time stop (l ++ stop) tw
          = some ((expire_c W time l ti).1 ++ stop, tw1, ks) ∧
        tally_sim tw1 (expire_c W time l ti).2.1 ∧
        List.Forall₂ call_sim ks (expire_k W time l ti) := by
  intro l
  induction l with
  | nil => intro tw ti _ h; simp at h
  | cons e rest ih =>
    obtain ⟨t1, v1, o1⟩ := e
    intro tw ti hs h
    rw [List.cons_append]
    simp only [scan_expire_w, expire_c, expire_k]
    by_cases c : t1 ≤ time - W
    · have h' : ∃ e ∈ rest, time - W < e.1 := by
        obtain ⟨e, he, hlt⟩ := h
        rcases List.mem_cons.1 he with rfl | he
        · exact absurd c (not_le.2 hlt)
        · exact ⟨e, he, hlt⟩
      obtain ⟨tw1, ks, i1, i2, i3⟩ := ih (tw.fall_w t1 v1 o1) (ti.fall t1 v1 o1)
        (fall_w_sim hs t1 v1 o1) h'
      rw [if_pos c, if_pos c, if_pos c, group_end_append, i1]
      exact ⟨tw1, _, rfl, i2,
        List.rel_append (call_sim_expired _ _ (fall_w_sim hs t1 v1 o1)) i3⟩
    · rw [if_neg c, if_neg c, if_neg c]
      exact ⟨tw, [], rfl, hs, List.Forall₂.nil⟩

theorem scan_rise_w_sim (W : duration) (vals : validators) (stop : List vote_event)
    (hW : 0 < W) :
    ∀ (c pfx : List vote_event) (tw ti : tally), tally_sim tw ti →
      ∃ tw1 ks, scan_rise_w W vals stop (c ++ stop) (pfx ++ c ++ stop) tw
          = some ((rise_c W vals c (pfx ++ c) ti).1 ++ stop, tw1, ks) ∧
        tally_sim tw1 (rise_c W vals c (pfx ++ c) ti).2.1 ∧
        List.Forall₂ call_sim ks (rise_k W vals c (pfx ++ c) ti) := by
  intro c
  induction c with
  | nil =>
    intro pfx tw ti hs
    simp only [List.nil_append, List.append_nil, rise_c, rise_k]
    refine ⟨tw, [], ?_, hs, List.Forall₂.nil⟩
    cases stop with
    | nil => simp [scan_rise_w]
    | cons s st => simp [scan_rise_w]
  | cons e rest ih =>
    obtain ⟨time, v, o⟩ := e
    intro pfx tw ti hs
    have hx : ∃ e ∈ pfx ++ (time, v, o) :: rest, time - W < e.1 :=
      ⟨(time, v, o), by simp, by simp; linarith⟩
    have hsuf := expire_c_suffix W time pfx ((time, v, o) :: rest) ti
      (by intro e he; simp at he; subst he; simp; linarith)
    obtain ⟨p, hp, -⟩ := hsuf
    obtain ⟨tw1, ks1, x1, x2, x3⟩ := scan_expire_w_sim W time stop _ tw ti hs hx
    obtain ⟨r1, r2⟩ := rise_w_sim x2 time v o vals
    have hi := ih (p ++ [(time, v, o)]) (tw1.rise_w time v o vals).1
      ((expire_c W time (pfx ++ (time, v, o) :: rest) ti).2.1.rise time v o vals).1 r1
    obtain ⟨tw2, ks2, y1, y2, y3⟩ := hi
    rw [List.cons_append]
    simp only [scan_rise_w, rise_c, rise_k]
    have hlen : ¬ ((rest ++ stop).length + 1 = stop.length) := by simp; omega
    rw [if_neg hlen, x1, group_end_append]
    simp only []
    rw [hp]
    simp only [List.append_assoc, List.singleton_append, List.cons_append,
      List.nil_append] at y1 y2 y3 ⊢
    rw [y1]
    refine ⟨tw2, _, rfl, y2, ?_⟩
    rw [r2]
    exact List.rel_append x3 (List.rel_append (call_sim_fault_k _)
      (List.rel_append (call_sim_risen _ _ r1) y3))

theorem scan_drain_w_sim (W : duration) (endt : time_point) (stop : List vote_event) :
    ∀ (l : List vote_event) (tw ti : tally), tally_sim tw ti →
      ∃ tw1 ks, scan_drain_w W endt stop (l ++ stop) tw = some (tw1, ks) ∧
        tally_sim tw1 (drain_c W endt l ti).1 ∧
        List.Forall₂ call_sim ks (drain_k W endt l ti) := by
  intro l
  induction l with
  | nil =>
    intro tw ti hs
    refine ⟨tw, [], ?_, hs, List.Forall₂.nil⟩
    cases stop with
    | nil => simp [scan_drain_w]
    | cons s st =>
      obtain ⟨t1, v1, o1⟩ := s
      simp [scan_drain_w]
  | cons e rest ih =>
    obtain ⟨t1, v1, o1⟩ := e
    intro tw ti hs
    rw [List.cons_append]
    simp only [scan_drain_w, drain_c, drain_k]
    have hlen : ¬ ((rest ++ stop).length + 1 = stop.length) := by simp; omega
    rw [if_neg hlen]
    by_cases c : t1 + W < endt
    · obtain ⟨tw1, ks, i1, i2, i3⟩ := ih (tw.fall_w t1 v1 o1) (ti.fall t1 v1 o1)
        (fall_w_sim hs t1 v1 o1)
      rw [if_pos c, if_pos c, if_pos c, group_end_append, i1]
      exact ⟨tw1, _, rfl, i2,
        List.rel_append (call_sim_expired _ _ (fall_w_sim hs t1 v1 o1)) i3⟩
    · rw [if_neg c, if_neg c, if_neg c]
      exact ⟨tw, [], rfl, hs, List.Forall₂.nil⟩

/-- With a positive window and `begin <= end` the scan on `unsigned` weights returns; it
makes the calls of the scan on integers, at the same call sites, on tallies that go
together. -/
theorem scan_w_sim (a : agreement) (tw ti : tally) (begin endt : time_point)
    (vals : validators) (hW : 0 < a.W) (hb : begin ≤ endt) (hs : tally_sim tw ti) :
    ∃ tw1 ks, a.scan_w tw begin endt vals = some (tw1, ks) ∧
      tally_sim tw1 (scan_c a.W endt vals (selected a.votes begin endt) ti).1 ∧
      List.Forall₂ call_sim ks (scan_k a.W endt vals (selected a.votes begin endt) ti) := by
  simp only [agreement.scan_w]
  rw [lower_bound_eq a.votes begin endt hb]
  obtain ⟨tw1, ks1, x1, x2, x3⟩ := scan_rise_w_sim a.W vals (upper_bound a.votes endt) hW
    (selected a.votes begin endt) [] tw ti hs
  simp only [List.nil_append] at x1 x2 x3
  rw [x1]
  simp only []
  obtain ⟨tw2, ks2, y1, y2, y3⟩ := scan_drain_w_sim a.W endt (upper_bound a.votes endt)
    (rise_c a.W vals (selected a.votes begin endt) (selected a.votes begin endt) ti).1
    tw1 _ x2
  rw [y1]
  exact ⟨tw2, _, rfl, y2, List.rel_append x3 y3⟩

theorem call_sim_mem {ksw ks : List scan_call} (h : List.Forall₂ call_sim ksw ks) :
    ∀ kw ∈ ksw, ∃ k ∈ ks, call_sim kw k := by
  induction h with
  | nil => intro kw hk; simp at hk
  | cons hab _ ih =>
    intro kw hk
    rcases List.mem_cons.1 hk with rfl | hk
    · exact ⟨_, List.mem_cons_self _ _, hab⟩
    · obtain ⟨k, hk1, hk2⟩ := ih kw hk
      exact ⟨k, List.mem_cons_of_mem _ hk1, hk2⟩

theorem call_sim_risen_inv {s : time_point} {tw : tally} {k : scan_call}
    (h : call_sim (scan_call.risen s tw) k) : ∃ ti, k = scan_call.risen s ti ∧ tally_sim tw ti := by
  cases k with
  | expired s1 ti => exact absurd h (by simp [call_sim])
  | risen s1 ti =>
    obtain ⟨h1, h2⟩ := h
    subst h1
    exact ⟨ti, rfl, h2⟩
  | fault v => exact absurd h (by simp [call_sim])

theorem call_sim_expired_inv {s : time_point} {tw : tally} {k : scan_call}
    (h : call_sim (scan_call.expired s tw) k) :
    ∃ ti, k = scan_call.expired s ti ∧ tally_sim tw ti := by
  cases k with
  | expired s1 ti =>
    obtain ⟨h1, h2⟩ := h
    subst h1
    exact ⟨ti, rfl, h2⟩
  | risen s1 ti => exact absurd h (by simp [call_sim])
  | fault v => exact absurd h (by simp [call_sim])

theorem call_sim_fault_inv {v : validator} {k : scan_call}
    (h : call_sim (scan_call.fault v) k) : k = scan_call.fault v := by
  cases k with
  | expired s1 ti => exact absurd h (by simp [call_sim])
  | risen s1 ti => exact absurd h (by simp [call_sim])
  | fault v1 =>
    have h1 : v = v1 := h
    rw [h1]

theorem edges_sim {ksw ks : List scan_call} (h : List.Forall₂ call_sim ksw ks) :
    List.Forall₂ (fun x y : time_point × tally => x.1 = y.1 ∧ tally_sim x.2 y.2)
      (edges_of (ksw.map scan_call.untag)) (edges_of (ks.map scan_call.untag)) := by
  induction h with
  | nil => exact List.Forall₂.nil
  | @cons kw k lw l hab _ ih =>
    cases kw with
    | expired s tw =>
      obtain ⟨ti, rfl, hs⟩ := call_sim_expired_inv hab
      exact List.Forall₂.cons ⟨rfl, hs⟩ ih
    | risen s tw =>
      obtain ⟨ti, rfl, hs⟩ := call_sim_risen_inv hab
      exact List.Forall₂.cons ⟨rfl, hs⟩ ih
    | fault v =>
      rw [call_sim_fault_inv hab]
      exact ih

theorem faults_sim {ksw ks : List scan_call} (h : List.Forall₂ call_sim ksw ks) :
    faults_of (ksw.map scan_call.untag) = faults_of (ks.map scan_call.untag) := by
  induction h with
  | nil => rfl
  | @cons kw k lw l hab _ ih =>
    cases kw with
    | expired s tw =>
      obtain ⟨ti, rfl, -⟩ := call_sim_expired_inv hab
      exact ih
    | risen s tw =>
      obtain ⟨ti, rfl, -⟩ := call_sim_risen_inv hab
      exact ih
    | fault v =>
      rw [call_sim_fault_inv hab]
      simp only [List.map_cons, scan_call.untag, faults_of, ih]

theorem tally_w_eq_foldl (a : agreement) (begin endt : time_point) (vals : validators)
    (hold : duration) (tl : tally) (ks : List scan_call)
    (hscan : a.scan_w tally.fresh begin endt vals = some (tl, ks)) :
    a.tally_w begin endt vals hold =
      some ({ a with parents := ((edges_of (ks.map scan_call.untag)).foldl (sample vals hold)
          (sampler_init a)).parents },
        ((edges_of (ks.map scan_call.untag)).foldl (sample vals hold)
          (sampler_init a)).confirmed, faults_of (ks.map scan_call.untag)) := by
  simp only [agreement.tally_w, hscan, foldl_on_event]
  simp [sampler_init]

theorem tally_sim_in_range {tw ti : tally} (h : tally_sim tw ti) :
    ∀ e ∈ tw.totals_m, 0 ≤ e.2 ∧ e.2 < weight_mod := by
  intro e he
  rw [h.2.1, List.mem_map] at he
  obtain ⟨x, -, rfl⟩ := he
  exact ⟨wrap_nonneg _, wrap_lt _⟩

theorem tally_sim_rank_nonneg {tw ti : tally} (h : tally_sim tw ti) :
    ∀ e ∈ tw.rank, 0 ≤ e.1 := by
  intro e he
  have h1 := (rank_entry_iff tw h.2.2.2 e.1 e.2).1 he
  exact (tally_sim_in_range h (e.2, e.1) (map_find_mem _ _ _ h1)).1

/-- On `unsigned` weights `max ()` returns a total, and no total is greater. -/
theorem max_unsigned {tw ti : tally} (h : tally_sim tw ti) :
    (map_find tw.totals_m tw.max.2).getD 0 = tw.max.1 ∧
      ∀ o, (map_find tw.totals_m o).getD 0 ≤ tw.max.1 := by
  rcases max_spec tw h.2.2.2 with ⟨-, h2, h3⟩ | ⟨h2, h3⟩
  · rw [h3, h2]
    exact ⟨rfl, fun o => le_refl _⟩
  · refine ⟨by rw [h2]; rfl, ?_⟩
    intro o
    cases hf : map_find tw.totals_m o with
    | none =>
      show (0 : Int) ≤ tw.max.1
      exact (tally_sim_in_range h (tw.max.2, tw.max.1) (map_find_mem _ _ _ h2)).1
    | some w => exact h3 o w hf

theorem foldl_tally_sim :
    ∀ (cs : List tally_call) (tw ti : tally), tally_sim tw ti →
      tally_sim (cs.foldl apply_tally_call_w tw) (cs.foldl apply_tally_call ti) := by
  intro cs
  induction cs with
  | nil => intro tw ti h; exact h
  | cons c cs ih =>
    intro tw ti h
    simp only [List.foldl_cons]
    apply ih
    cases c with
    | rise time v o vals => exact (rise_w_sim h time v o vals).1
    | fall time v o => exact fall_w_sim h time v o

theorem run_tally_w_sim (cs : List tally_call) : tally_sim (run_tally_w cs) (run_tally cs) :=
  foldl_tally_sim cs _ _ tally_sim_fresh

theorem sum_map_wrap_nonneg (l : List Int) : 0 ≤ (l.map wrap).sum := by
  induction l with
  | nil => exact le_refl _
  | cons x l ih =>
    simp only [List.map_cons, List.sum_cons]
    exact add_nonneg (wrap_nonneg x) ih

/-! ## Claims on the tally, the weight type being `unsigned` -/

/-- C17 as stated fails when the sum leaves the range of the weight type.  After the rise of
validator 0, of weight 4294967295, for object `1`, validator 1, of weight 1, has no active
vote; its rise for object `1` at time 1000 takes `totals[1]` and `total ()` from 4294967295
to 0, not to 4294967296. -/
theorem rise_wraps :
    ((run_tally_w (calls_wrap.take 1)).slot_of 1).2.1 = time_point_default ∧
    (map_find (run_tally_w (calls_wrap.take 1)).totals 1).getD 0 = 4294967295 ∧
    (run_tally_w (calls_wrap.take 1)).total = 4294967295 ∧
    validators_wrap.weight 1 = 1 ∧
    ((run_tally_w (calls_wrap.take 1)).rise_w 1000 1 1 validators_wrap).2 = none ∧
    (map_find ((run_tally_w (calls_wrap.take 1)).rise_w 1000 1 1 validators_wrap).1.totals
      1).getD 0 = 0 ∧
    ((run_tally_w (calls_wrap.take 1)).rise_w 1000 1 1 validators_wrap).1.total = 0 :=
  ⟨by rfl, by rfl, by rfl, by rfl, by rfl, by rfl, by rfl⟩

/-- C17, as amended (rise of a new vote).  If validator `v` has no active vote and `time` is
not the default time point, `rise (time, v, o, validators, fault)` does not invoke `fault`,
stores `(o, time, weight (v))` as the active vote of `v`, increases `totals[o]` and
`total ()` by `validators.weight (v)` in the arithmetic of the weight type `unsigned`, that
is modulo `2^32`, and leaves the total of every other object unchanged.  When the sum is in
the range of the type, the increase is by exactly `validators.weight (v)`. -/
theorem rise_new_vote_unsigned (t : tally) (time : time_point) (v : validator) (o : object)
    (vals : validators) (hv : (t.slot_of v).2.1 = time_point_default)
    (ht : time ≠ time_point_default) :
    (t.rise_w time v o vals).2 = none ∧
    map_find (t.rise_w time v o vals).1.votes v = some (o, time, vals.weight v) ∧
    ((t.rise_w time v o vals).1.slot_of v).2.1 ≠ time_point_default ∧
    (map_find (t.rise_w time v o vals).1.totals o).getD 0
      = ((map_find t.totals o).getD 0 + vals.weight v) % 4294967296 ∧
    (t.rise_w time v o vals).1.total = (t.total + vals.weight v) % 4294967296 ∧
    (0 ≤ (map_find t.totals o).getD 0 + vals.weight v →
      (map_find t.totals o).getD 0 + vals.weight v < 4294967296 →
      (map_find (t.rise_w time v o vals).1.totals o).getD 0
        = (map_find t.totals o).getD 0 + vals.weight v) ∧
    (0 ≤ t.total + vals.weight v → t.total + vals.weight v < 4294967296 →
      (t.rise_w time v o vals).1.total = t.total + vals.weight v) ∧
    ∀ o1, o1 ≠ o → map_find (t.rise_w time v o vals).1.totals o1 = map_find t.totals o1 := by
  have key : t.rise_w time v o vals
      = (({ t with votes := map_set t.votes v (o, time, vals.weight v) } : tally).sort
          (vals.weight v) o plus_w, none) := by
    simp only [tally.rise_w, if_pos hv]
  rw [key]
  have hvotes : map_find (map_set t.votes v (o, time, vals.weight v)) v
      = some (o, time, vals.weight v) := by
    rw [map_find_map_set, if_pos rfl]
  have h1 : (map_find (map_set t.totals_m o
      (plus_w ((map_find t.totals_m o).getD 0) (vals.weight v))) o).getD 0
      = ((map_find t.totals_m o).getD 0 + vals.weight v) % 4294967296 := by
    rw [map_find_map_set, if_pos rfl]
    rfl
  refine ⟨rfl, hvotes, ?_, h1, rfl, ?_, ?_, ?_⟩
  · show ((map_find (map_set t.votes v (o, time, vals.weight v)) v).getD
      (0, time_point_default, 0)).2.1 ≠ time_point_default
    rw [hvotes]
    exact ht
  · intro a0 a1
    exact h1.trans (Int.emod_eq_of_lt a0 a1)
  · intro a0 a1
    exact Int.emod_eq_of_lt a0 a1
  · intro o1 ho
    show map_find (map_set t.totals_m o
      (plus_w ((map_find t.totals_m o).getD 0) (vals.weight v))) o1 = map_find t.totals_m o1
    rw [map_find_map_set, if_neg (Ne.symm ho)]

theorem rise_new_vote_unsigned_witness :
    (tally.fresh.slot_of 0).2.1 = time_point_default ∧
    (tally.fresh.rise_w 1000 0 1 (uniform_validators 3)).1.totals = [(1, 1)] ∧
    (tally.fresh.rise_w 1000 0 1 (uniform_validators 3)).2 = none ∧
    (tally.fresh.rise_w 1000 0 1 (uniform_validators 3)).1.total
      = tally.fresh.total + (uniform_validators 3).weight 0 :=
  ⟨by rfl, by rfl,
    (rise_new_vote_unsigned tally.fresh 1000 0 1 (uniform_validators 3) (by rfl)
      (by decide)).1,
    (rise_new_vote_unsigned tally.fresh 1000 0 1 (uniform_validators 3) (by rfl)
      (by decide)).2.2.2.2.2.2.1 (by decide) (by decide)⟩

/-- C15 as stated fails when the sum of the totals leaves the range of the weight type.
After the rises of validator 0, of weight 4294967295, for object `1` and of validator 1, of
weight 1, for object `2`, the values of `totals ()` are 4294967295 and 1, with the sum
4294967296, and `total ()` is 0. -/
theorem total_sum_wraps :
    (run_tally_w calls_wrap_two).totals = [(1, 4294967295), (2, 1)] ∧
    ((run_tally_w calls_wrap_two).totals.map Prod.snd).sum = 4294967296 ∧
    (run_tally_w calls_wrap_two).total = 0 :=
  ⟨by rfl, by rfl, by rfl⟩

/-- C15, as amended (tally consistency).  After any sequence of `rise` and `fall` calls on a
fresh tally, the weight type being `unsigned`, `rank` and `totals` have the same number of
entries, every entry `(w, o)` of `rank` has `totals[o] = w`, each object occurs once in
`rank`, every total is a value of the type, and `total ()` is the sum of the values of
`totals ()` modulo `2^32`, so the sum itself when that is below `2^32`.  Both assertions of
`sort` hold in every call of `sort` made in this state. -/
theorem tally_consistency_unsigned (cs : List tally_call) :
    (run_tally_w cs).rank.length = (run_tally_w cs).totals.length ∧
    (∀ e ∈ (run_tally_w cs).rank, map_find (run_tally_w cs).totals e.2 = some e.1) ∧
    ((run_tally_w cs).rank.map Prod.snd).Nodup ∧
    (∀ e ∈ (run_tally_w cs).totals, 0 ≤ e.2 ∧ e.2 < 4294967296) ∧
    (run_tally_w cs).total = (((run_tally_w cs).totals.map Prod.snd).sum) % 4294967296 ∧
    (((run_tally_w cs).totals.map Prod.snd).sum < 4294967296 →
      (run_tally_w cs).total = ((run_tally_w cs).totals.map Prod.snd).sum) ∧
    (∀ w o op, sort_assert_size (run_tally_w cs) w o op) ∧
    (∀ o, sort_assert_found (run_tally_w cs) o) := by
  have hs := run_tally_w_sim cs
  have hrk := hs.2.2.2
  have hi := (tally_consistency cs).2.2.2.1
  have hsum : ((run_tally_w cs).totals_m.map Prod.snd)
      = ((run_tally cs).totals_m.map Prod.snd).map wrap := by
    rw [hs.2.1, List.map_map, List.map_map]
    rfl
  have htot : (run_tally_w cs).total_m
      = wrap (((run_tally_w cs).totals_m.map Prod.snd).sum) := by
    rw [hs.2.2.1, hsum, wrap_sum_map]
    exact congrArg wrap hi
  refine ⟨?_, ?_, rank_objects_nodup _ hrk, tally_sim_in_range hs, htot, ?_, ?_, ?_⟩
  · have := hrk.1.length_eq
    rw [List.length_map] at this
    exact this
  · intro e he
    exact (rank_entry_iff _ hrk e.1 e.2).1 he
  · intro hlt
    refine htot.trans (wrap_of_range ?_ hlt)
    show 0 ≤ ((run_tally_w cs).totals_m.map Prod.snd).sum
    rw [hsum]
    exact sum_map_wrap_nonneg _
  · intro w o op
    exact sort_assert_size_of _ w o op hrk
  · intro o
    exact sort_assert_found_of _ o hrk (tally_sim_rank_nonneg hs)

/-- C16 as stated fails when a sum leaves the range of the weight type.  After the rises of
validator 0, of weight 4294967295, and of validator 1, of weight 1, for object `1` at time
1000, both votes are active, the stored weights have the sum 4294967296, and `total ()` and
`totals[1]` are 0, less than the stored weight 1 of validator 1. -/
theorem active_sum_wraps :
    (∀ c ∈ calls_wrap, call_time c ≠ time_point_default) ∧
    (run_tally_w calls_wrap).votes = [(0, (1, 1000, 4294967295)), (1, (1, 1000, 1))] ∧
    active_total (run_tally_w calls_wrap).votes = 4294967296 ∧
    active_weight (run_tally_w calls_wrap).votes 1 = 4294967296 ∧
    (run_tally_w calls_wrap).total = 0 ∧
    (map_find (run_tally_w calls_wrap).totals 1).getD 0 = 0 :=
  ⟨by decide, by rfl, by rfl, by rfl, by rfl, by rfl⟩

/-- C16, as amended (one active vote per validator).  After any sequence of `rise` and `fall`
calls on a fresh tally whose time arguments all differ from the default time point, the
weight type being `unsigned`, `total ()` is the sum of the stored weights of the validators
that have an active vote, modulo `2^32`, `totals[o]` is that sum over the validators whose
active vote names `o`, modulo `2^32`, and every validator has one entry, so none is counted
twice.  If the stored weights are not negative and the sum for `o` is below `2^32`,
`totals[o]` is at least the stored weight of every validator active on `o`; and `empty ()`
implies that `total ()` is `0` and every value of `totals ()` is `0`. -/
theorem one_vote_per_validator_unsigned (cs : List tally_call)
    (hnt : ∀ c ∈ cs, call_time c ≠ time_point_default) :
    (run_tally_w cs).total = (active_total (run_tally_w cs).votes) % 4294967296 ∧
    (∀ o, (map_find (run_tally_w cs).totals o).getD 0
      = (active_weight (run_tally_w cs).votes o) % 4294967296) ∧
    ((run_tally_w cs).votes.map Prod.fst).Nodup ∧
    ((∀ e ∈ (run_tally_w cs).votes, 0 ≤ e.2.2.2) →
      ∀ v s, map_find (run_tally_w cs).votes v = some s → s.2.1 ≠ time_point_default →
        active_weight (run_tally_w cs).votes s.1 < 4294967296 →
        s.2.2 ≤ (map_find (run_tally_w cs).totals s.1).getD 0) ∧
    ((run_tally_w cs).empty = true →
      (run_tally_w cs).total = 0 ∧ ∀ e ∈ (run_tally_w cs).totals, e.2 = 0) := by
  have hs := run_tally_w_sim cs
  obtain ⟨i1, i2, i3, i4, i5⟩ := one_vote_per_validator cs hnt
  have hv : (run_tally_w cs).votes = (run_tally cs).votes := hs.1
  have htot : ∀ o, (map_find (run_tally_w cs).totals_m o).getD 0
      = wrap (active_weight (run_tally_w cs).votes o) := by
    intro o
    rw [tally_sim_total_of hs, hv]
    exact congrArg wrap (i2 o)
  refine ⟨?_, htot, by rw [hv]; exact i3, ?_, ?_⟩
  · show (run_tally_w cs).total_m = wrap (active_total (run_tally_w cs).votes)
    rw [hs.2.2.1, hv]
    exact congrArg wrap i1
  · intro hpos v s hf hopen hlt
    rw [hv] at hpos hf hlt
    have h1 := i4 hpos v s hf hopen
    have h2 : (map_find (run_tally cs).totals s.1).getD 0
        = active_weight (run_tally cs).votes s.1 := i2 s.1
    have h3 : 0 ≤ s.2.2 := hpos (v, s) (map_find_mem _ _ _ hf)
    show s.2.2 ≤ (map_find (run_tally_w cs).totals_m s.1).getD 0
    rw [htot, hv, wrap_of_range (by rw [← h2]; exact le_trans h3 h1) hlt, ← h2]
    exact h1
  · intro hem
    have hem1 : (run_tally cs).empty = true := by
      simp only [tally.empty] at hem ⊢
      rw [← hv]
      exact hem
    obtain ⟨e1, e2⟩ := i5 hem1
    refine ⟨?_, ?_⟩
    · show (run_tally_w cs).total_m = 0
      rw [hs.2.2.1]
      have : (run_tally cs).total_m = 0 := e1
      rw [this]
      exact wrap_zero
    · intro e he
      have he1 : e ∈ (run_tally_w cs).totals_m := he
      rw [hs.2.1, List.mem_map] at he1
      obtain ⟨x, hx, rfl⟩ := he1
      show wrap x.2 = 0
      rw [e2 x hx]
      exact wrap_zero

theorem one_vote_per_validator_unsigned_witness :
    (∀ c ∈ calls_insert_different.take 2, call_time c ≠ time_point_default) ∧
    (run_tally_w (calls_insert_different.take 2)).total = 2 ∧
    (run_tally_w (calls_insert_different.take 2)).total
      = (active_total (run_tally_w (calls_insert_different.take 2)).votes) % 4294967296 ∧
    (∀ o, (map_find (run_tally_w (calls_insert_different.take 2)).totals o).getD 0
      = (active_weight (run_tally_w (calls_insert_different.take 2)).votes o)
        % 4294967296) :=
  ⟨by decide, by rfl,
    (one_vote_per_validator_unsigned (calls_insert_different.take 2) (by decide)).1,
    (one_vote_per_validator_unsigned (calls_insert_different.take 2) (by decide)).2.1⟩

/-! ## Claims on the scan, the weight type being `unsigned` -/

/-- C26 as stated fails when a window sum leaves the range of the weight type.  Validators 0
and 1, of the weights 4294967295 and 1, vote for object `1` at time 1000: the window sum of
object `1` at the edge after the rises at 1000 is 4294967296, and the edge carries the total
0 for object `1`. -/
theorem window_sum_wraps :
    0 < node_wrap.W ∧ log_sorted node_wrap.votes ∧
    (∀ e ∈ node_wrap.votes, e.1 ≠ time_point_default) ∧
    window_sum validators_wrap node_wrap.votes 0 2000 (1000 - node_wrap.W) 1000 true 1
      = 4294967296 ∧
    node_wrap.scan_w tally.fresh 0 2000 validators_wrap
      = some (⟨[(0, 1)], [(1, 0)], [(0, (1, 0, 4294967295)), (1, (1, 0, 1))], 0⟩,
          [scan_call.risen 1000
            ⟨[(0, 1)], [(1, 0)], [(0, (1, 1000, 4294967295)), (1, (1, 1000, 1))], 0⟩,
           scan_call.expired 1050
            ⟨[(0, 1)], [(1, 0)], [(0, (1, 0, 4294967295)), (1, (1, 0, 1))], 0⟩]) :=
  ⟨by decide, by unfold log_sorted; decide, by decide, by rfl, by rfl⟩

/-- C26, as amended (the rolling tally is the naive window sum).  For a positive window, a
fresh tally, a time-ordered log with times other than `time_point{}` in which no validator
votes for two objects within `[begin, end]`, and `begin <= end`, `scan` returns and calls
`fault` at no time.  At every call of `edge` made after the rises at a time `s`, each object
`o` has for total (0 if it has no entry) the summed weight of the distinct validators that
have a vote for `o` with a time in `(s - W, s]` and in `[begin, end]`, taken modulo `2^32` as
the weight type `unsigned` does, so the sum itself when it is in the range of the type; at
every call of `edge` made after the falls at a time `s` the same holds with the window
`(s - W, s)`. -/
theorem rolling_tally_unsigned (a : agreement) (vals : validators)
    (begin endt : time_point) (hW : 0 < a.W) (hb : begin ≤ endt) (hs : log_sorted a.votes)
    (hnt : ∀ e ∈ a.votes, e.1 ≠ time_point_default)
    (hone : ∀ e1 ∈ a.votes, ∀ e2 ∈ a.votes, begin ≤ e1.1 → e1.1 ≤ endt → begin ≤ e2.1 →
      e2.1 ≤ endt → e1.2.1 = e2.2.1 → e1.2.2 = e2.2.2) :
    ∃ tl1 ks, a.scan_w tally.fresh begin endt vals = some (tl1, ks) ∧
      (∀ s T, scan_call.risen s T ∈ ks → ∀ o,
        (map_find T.totals o).getD 0
          = (window_sum vals a.votes begin endt (s - a.W) s true o) % 4294967296 ∧
        (0 ≤ window_sum vals a.votes begin endt (s - a.W) s true o →
          window_sum vals a.votes begin endt (s - a.W) s true o < 4294967296 →
          (map_find T.totals o).getD 0
            = window_sum vals a.votes begin endt (s - a.W) s true o)) ∧
      (∀ s T, scan_call.expired s T ∈ ks → ∀ o,
        (map_find T.totals o).getD 0
          = (window_sum vals a.votes begin endt (s - a.W) s false o) % 4294967296 ∧
        (0 ≤ window_sum vals a.votes begin endt (s - a.W) s false o →
          window_sum vals a.votes begin endt (s - a.W) s false o < 4294967296 →
          (map_find T.totals o).getD 0
            = window_sum vals a.votes begin endt (s - a.W) s false o)) ∧
      ∀ v, scan_call.fault v ∉ ks := by
  obtain ⟨_, ki, -, hk, p1, p2, p3⟩ :=
    rolling_tally_window_sum a vals begin endt hW hb hs hnt hone
  obtain ⟨tw, ks, q1, -, q3⟩ := scan_w_sim a tally.fresh tally.fresh begin endt vals hW hb
    tally_sim_fresh
  rw [← hk] at q3
  refine ⟨tw, ks, q1, ?_, ?_, ?_⟩
  · intro s T hT o
    obtain ⟨k, hk1, hk2⟩ := call_sim_mem q3 _ hT
    obtain ⟨ti, rfl, hsim⟩ := call_sim_risen_inv hk2
    have h1 : (map_find T.totals_m o).getD 0
        = wrap (window_sum vals a.votes begin endt (s - a.W) s true o) := by
      rw [tally_sim_total_of hsim]
      exact congrArg wrap (p1 s ti hk1 o)
    exact ⟨h1, fun a0 a1 => h1.trans (wrap_of_range a0 a1)⟩
  · intro s T hT o
    obtain ⟨k, hk1, hk2⟩ := call_sim_mem q3 _ hT
    obtain ⟨ti, rfl, hsim⟩ := call_sim_expired_inv hk2
    have h1 : (map_find T.totals_m o).getD 0
        = wrap (window_sum vals a.votes begin endt (s - a.W) s false o) := by
      rw [tally_sim_total_of hsim]
      exact congrArg wrap (p2 s ti hk1 o)
    exact ⟨h1, fun a0 a1 => h1.trans (wrap_of_range a0 a1)⟩
  · intro v hv
    obtain ⟨k, hk1, hk2⟩ := call_sim_mem q3 _ hv
    rw [call_sim_fault_inv hk2] at hk1
    exact p3 v hk1

theorem rolling_tally_unsigned_witness :
    0 < (node_of 50 0 log_repeat).W ∧ log_sorted (node_of 50 0 log_repeat).votes ∧
    window_sum (uniform_validators 3) log_repeat 0 2000 (1010 - 50) 1010 true 1 = 1 ∧
    window_sum (uniform_validators 3) log_repeat 0 2000 (1060 - 50) 1060 false 1 = 1 ∧
    ((node_of 50 0 log_repeat).scan_w tally.fresh 0 2000 (uniform_validators 3)).map
        (fun r => risen_times r.2) = some [1000, 1010, 1020] ∧
    ∃ tl1 ks, (node_of 50 0 log_repeat).scan_w tally.fresh 0 2000 (uniform_validators 3)
        = some (tl1, ks) ∧
      (∀ s T, scan_call.risen s T ∈ ks → ∀ o,
        (map_find T.totals o).getD 0
          = (window_sum (uniform_validators 3) (node_of 50 0 log_repeat).votes 0 2000
              (s - (node_of 50 0 log_repeat).W) s true o) % 4294967296 ∧
        (0 ≤ window_sum (uniform_validators 3) (node_of 50 0 log_repeat).votes 0 2000
              (s - (node_of 50 0 log_repeat).W) s true o →
          window_sum (uniform_validators 3) (node_of 50 0 log_repeat).votes 0 2000
              (s - (node_of 50 0 log_repeat).W) s true o < 4294967296 →
          (map_find T.totals o).getD 0
            = window_sum (uniform_validators 3) (node_of 50 0 log_repeat).votes 0 2000
              (s - (node_of 50 0 log_repeat).W) s true o)) ∧
      (∀ s T, scan_call.expired s T ∈ ks → ∀ o,
        (map_find T.totals o).getD 0
          = (window_sum (uniform_validators 3) (node_of 50 0 log_repeat).votes 0 2000
              (s - (node_of 50 0 log_repeat).W) s false o) % 4294967296 ∧
        (0 ≤ window_sum (uniform_validators 3) (node_of 50 0 log_repeat).votes 0 2000
              (s - (node_of 50 0 log_repeat).W) s false o →
          window_sum (uniform_validators 3) (node_of 50 0 log_repeat).votes 0 2000
              (s - (node_of 50 0 log_repeat).W) s false o < 4294967296 →
          (map_find T.totals o).getD 0
            = window_sum (uniform_validators 3) (node_of 50 0 log_repeat).votes 0 2000
              (s - (node_of 50 0 log_repeat).W) s false o)) ∧
      ∀ v, scan_call.fault v ∉ ks :=
  ⟨by decide, by unfold log_sorted; decide, by decide, by decide, by rfl,
    rolling_tally_unsigned (node_of 50 0 log_repeat) (uniform_validators 3) 0 2000
      (by decide) (by decide) (by unfold log_sorted; decide) (by decide) (by decide)⟩

/-- C35 as stated fails when the summed weight leaves the range of the weight type.
Validators 0 and 1, of the weights 4294967295 and 1, vote at time 1000; for `now = 1000` both
votes are in `[now - W, now]` and later than `t_last - W`, their summed weight is 4294967296,
and the tally that the scan of `vote` builds has `total ()` 0, which is below the quorum
667. -/
theorem vote_window_wraps :
    0 < node_wrap.W ∧ log_sorted node_wrap.votes ∧
    (∀ e ∈ node_wrap.votes, e.1 ≠ time_point_default) ∧ (voters node_wrap.votes).Nodup ∧
    ((node_wrap.votes.filter (fun e => decide (((1000 : time_point) - node_wrap.W ≤ e.1 ∧
        e.1 ≤ 1000) ∧ (1000 : time_point) - node_wrap.W < e.1))).map
      (fun e => validators_wrap.weight e.2.1)).sum = 4294967296 ∧
    (node_wrap.scan_w tally.fresh (1000 - node_wrap.W) 1000 validators_wrap).map
      (fun r => r.1.total) = some 0 ∧
    validators_wrap.quorum = 667 :=
  ⟨by decide, by unfold log_sorted; decide, by decide, by decide, by rfl, by rfl, by rfl⟩

/-- C35, as amended (window boundary of `vote`).  For a positive window and a time-ordered
log with times other than `time_point{}` in which every validator has at most one vote, the
scan of `[now - W, now]` into a fresh tally that `vote (now)` makes returns a tally whose
`total ()` is 0 if the log has no vote in `[now - W, now]`, and otherwise the summed weight,
taken modulo `2^32` as the weight type `unsigned` does (so the sum itself when it is in the
range of the type), of the votes with a time `t` in `[now - W, now]` and `t > t_last - W`,
where `t_last` is the latest vote time in `[now - W, now]`; the votes counted are those whose
validator has an active vote in that tally.  A vote cast at exactly `now - W` is counted if
and only if the log has no vote at exactly `now`. -/
theorem vote_window_unsigned (a : agreement) (vals : validators) (now : time_point)
    (hW : 0 < a.W) (hs : log_sorted a.votes)
    (hnt : ∀ e ∈ a.votes, e.1 ≠ time_point_default) (hnd : (voters a.votes).Nodup) :
    ∃ tl ks, a.scan_w tally.fresh (now - a.W) now vals = some (tl, ks) ∧
      ((∀ e ∈ a.votes, ¬ (now - a.W ≤ e.1 ∧ e.1 ≤ now)) → tl.total = 0) ∧
      (∀ t_last, (∃ e ∈ a.votes, now - a.W ≤ e.1 ∧ e.1 ≤ now ∧ e.1 = t_last) →
        (∀ e ∈ a.votes, now - a.W ≤ e.1 → e.1 ≤ now → e.1 ≤ t_last) →
        tl.total = (((a.votes.filter (fun e => decide ((now - a.W ≤ e.1 ∧ e.1 ≤ now) ∧
            t_last - a.W < e.1))).map (fun e => vals.weight e.2.1)).sum) % 4294967296 ∧
        (0 ≤ ((a.votes.filter (fun e => decide ((now - a.W ≤ e.1 ∧ e.1 ≤ now) ∧
            t_last - a.W < e.1))).map (fun e => vals.weight e.2.1)).sum →
          ((a.votes.filter (fun e => decide ((now - a.W ≤ e.1 ∧ e.1 ≤ now) ∧
            t_last - a.W < e.1))).map (fun e => vals.weight e.2.1)).sum < 4294967296 →
          tl.total = ((a.votes.filter (fun e => decide ((now - a.W ≤ e.1 ∧ e.1 ≤ now) ∧
            t_last - a.W < e.1))).map (fun e => vals.weight e.2.1)).sum) ∧
        ∀ e ∈ a.votes, now - a.W ≤ e.1 → e.1 ≤ now →
          ((tl.slot_of e.2.1).2.1 ≠ time_point_default ↔ t_last - a.W < e.1)) ∧
      (∀ e ∈ a.votes, e.1 = now - a.W →
        ((tl.slot_of e.2.1).2.1 ≠ time_point_default ↔ ∀ e2 ∈ a.votes, e2.1 ≠ now)) := by
  obtain ⟨tl, evs, hscan, p1, p2, p3⟩ := vote_window_boundary a vals now hW hs hnt hnd
  have hle : now - a.W ≤ now := by linarith
  rw [scan_eq a tally.fresh (now - a.W) now vals hW hle] at hscan
  have htl : (scan_c a.W now vals (selected a.votes (now - a.W) now) tally.fresh).1 = tl :=
    congrArg Prod.fst (Option.some.inj hscan)
  obtain ⟨tw, ks, q1, q2, -⟩ := scan_w_sim a tally.fresh tally.fresh (now - a.W) now vals hW
    hle tally_sim_fresh
  rw [htl] at q2
  refine ⟨tw, ks, q1, ?_, ?_, ?_⟩
  · intro hno
    show tw.total_m = 0
    have h1 : tl.total_m = 0 := p1 hno
    rw [q2.2.2.1, h1]
    exact wrap_zero
  · intro t_last hex hmax
    obtain ⟨r1, r2⟩ := p2 t_last hex hmax
    have h1 : tw.total_m = wrap (((a.votes.filter (fun e => decide ((now - a.W ≤ e.1 ∧
        e.1 ≤ now) ∧ t_last - a.W < e.1))).map (fun e => vals.weight e.2.1)).sum) := by
      rw [q2.2.2.1]
      exact congrArg wrap r1
    refine ⟨h1, fun a0 a1 => h1.trans (wrap_of_range a0 a1), ?_⟩
    intro e he e1 e2
    rw [tally_sim_slot q2]
    exact r2 e he e1 e2
  · intro e he het
    rw [tally_sim_slot q2]
    exact p3 e he het

theorem vote_window_unsigned_witness :
    0 < (node_of 50 0 log_boundary).W ∧ log_sorted (node_of 50 0 log_boundary).votes ∧
    ((node_of 50 0 log_boundary).scan_w tally.fresh (1050 - 50) 1050
        (uniform_validators 4)).map (fun r => r.1.total) = some 3 ∧
    ((node_of 50 0 log_boundary_now).scan_w tally.fresh (1050 - 50) 1050
        (uniform_validators 4)).map (fun r => r.1.total) = some 2 ∧
    ∃ tl ks, (node_of 50 0 log_boundary).scan_w tally.fresh
        (1050 - (node_of 50 0 log_boundary).W) 1050 (uniform_validators 4) = some (tl, ks) ∧
      ((∀ e ∈ (node_of 50 0 log_boundary).votes,
        ¬ (1050 - (node_of 50 0 log_boundary).W ≤ e.1 ∧ e.1 ≤ 1050)) → tl.total = 0) :=
  ⟨by decide, by unfold log_sorted; decide, by rfl, by rfl,
    (vote_window_unsigned (node_of 50 0 log_boundary) (uniform_validators 4) 1050
      (by decide) (by unfold log_sorted; decide) (by decide) (by decide)).imp
      (fun _ h => h.imp (fun _ h1 => ⟨h1.1, h1.2.1⟩))⟩

/-! ## Claims on `agreement::tally`, the weight type being `unsigned` -/

theorem same_time_totals (W : duration) (endt t : time_point) (vals : validators)
    (hW : 0 < W) (seg : List vote_event) (hne : seg ≠ []) (hall : ∀ e ∈ seg, e.1 = t)
    (ht : t ≠ time_point_default) (hnd : (voters seg).Nodup) (he : t + W < endt) :
    ∃ T1 T2, edges_of (scan_c W endt vals seg tally.fresh).2 = [(t, T1), (t + W, T2)] ∧
      (∀ o, (map_find T1.totals_m o).getD 0 = summed vals seg o) ∧
      ∀ o, (map_find T2.totals_m o).getD 0 = 0 := by
  have hnt : ∀ e ∈ seg, e.1 ≠ time_point_default := fun e h1 => by rw [hall e h1]; exact ht
  obtain ⟨T1, T2, hed, hws⟩ := scan_c_same_time_edges W endt t vals hW seg hne hall ht hnd he
  have hr := rise_c_same_time W vals t hW seg seg tally.fresh hall
    (fun e h1 => hall e (List.mem_of_mem_head? h1))
  have hT2 : T2 = (drain_c W endt seg (rise_c W vals seg seg tally.fresh).2.1).1 := by
    have h1 := drain_c_same_time_edge W endt t he seg
      (rise_c W vals seg seg tally.fresh).2.1 hne hall
    have h2 : edges_of (scan_c W endt vals seg tally.fresh).2
        = edges_of (rise_c W vals seg seg tally.fresh).2.2 ++
          edges_of (drain_c W endt seg (rise_c W vals seg seg tally.fresh).2.1).2 := by
      simp only [scan_c, edges_of_append, hr.1]
    rw [hed, h1] at h2
    have h3 := congrArg List.getLast? h2
    rw [List.getLast?_append_of_ne_nil _ (by simp)] at h3
    simp only [List.getLast?_cons_cons, List.getLast?_singleton, Option.some.injEq,
      Prod.mk.injEq, true_and] at h3
    exact h3
  have hr2 := rise_noexp_ws W vals seg [] tally.fresh (by simpa using hnd)
    (by simpa using hnt) (window_state_fresh vals)
    (by
      intro e h1 x hx
      have hx1 : x ∈ seg := List.mem_of_mem_head? (by simpa using hx)
      rw [hall e h1, hall x hx1]
      linarith)
  simp only [List.nil_append] at hr2
  have hwsf := drain_ws_final W endt vals seg hnd hnt seg [] _ (by simp) hr2.2.1
    (fun e h1 => by rw [hall e h1]; exact he)
  rw [← hT2] at hwsf
  refine ⟨T1, T2, hed, fun o => window_state_total vals [] seg T1 hws hnt o, ?_⟩
  intro o
  have := window_state_total vals seg [] T2 hwsf (by simp) o
  rw [summed_nil] at this
  exact this

/-- The `confirm` calls of `tally` on `unsigned` weights for a log of votes of one time. -/
theorem same_time_confirmed (a : agreement) (vals : validators) (begin endt t : time_point)
    (hold : duration) (hW : 0 < a.W) (ht : t ≠ time_point_default)
    (hall : ∀ e ∈ a.votes, e.1 = t) (hnd : (voters a.votes).Nodup)
    (hb : begin ≤ t) (he : t + a.W < endt) (hh : hold ≤ a.W) (hne : a.votes ≠ []) :
    ∃ r, ∃ Tw1 : tally, a.tally_w begin endt vals hold = some r ∧
      r.2.1 = (if vals.quorum ≤ Tw1.max.1 then [(Tw1.max.2, 0)] else []) ∧
      Tw1.max.1 = wrap (summed vals a.votes Tw1.max.2) ∧
      ∀ o, wrap (summed vals a.votes o) ≤ Tw1.max.1 := by
  have hle : begin ≤ endt := by linarith
  have hsel : selected a.votes begin endt = a.votes :=
    selected_eq_self a.votes begin endt
      (fun e h1 => by rw [hall e h1]; exact ⟨hb, by linarith⟩)
  obtain ⟨tw, ks, q1, -, q3⟩ := scan_w_sim a tally.fresh tally.fresh begin endt vals hW hle
    tally_sim_fresh
  rw [hsel] at q3
  obtain ⟨T1, T2, hed, h1, h2⟩ := same_time_totals a.W endt t vals hW a.votes hne hall ht hnd he
  have hE := edges_sim q3
  rw [scan_k_untag, hed] at hE
  rw [tally_w_eq_foldl a begin endt vals hold tw ks q1]
  generalize edges_of (ks.map scan_call.untag) = L at hE
  cases hE with
  | cons x1 hE1 =>
    cases hE1 with
    | cons x2 hE2 =>
      cases hE2
      rename_i e1 e2
      have m1 := max_unsigned x1.2
      have m2 := max_unsigned x2.2
      have z2 : e2.2.max.1 = 0 := by
        rw [← m2.1, tally_sim_total_of x2.2, h2]
        exact wrap_zero
      have t1 : ∀ o, (map_find e1.2.totals_m o).getD 0 = wrap (summed vals a.votes o) := by
        intro o
        rw [tally_sim_total_of x1.2, h1]
      refine ⟨_, e1.2, rfl, ?_, by rw [← m1.1, t1], fun o => by rw [← t1]; exact m1.2 o⟩
      simp only [List.foldl_cons, List.foldl_nil]
      rw [sample_pair vals hold (sampler_init a) rfl, z2]
      have x11 : e1.1 = t := x1.1
      have x21 : e2.1 = t + a.W := x2.1
      have hhold : hold ≤ e2.1 - e1.1 := by rw [x11, x21]; linarith
      simp only [hhold, and_true]
      rfl

/-- C3 as stated fails when the summed weight leaves the range of the weight type.
Validators 0 and 1, of the weights 4294967295 and 1, vote for object `1` at time 1000; the
summed weight of object `1` is 4294967296, which is at least the quorum 667, and `tally`
invokes `confirm` at no time: the total of object `1` at the edge 1000 is 0. -/
theorem same_time_quorum_wraps :
    0 < node_wrap.W ∧ 0 < validators_wrap.quorum ∧ (∀ e ∈ node_wrap.votes, e.1 = 1000) ∧
    (voters node_wrap.votes).Nodup ∧
    summed validators_wrap node_wrap.votes 1 = 4294967296 ∧ validators_wrap.quorum = 667 ∧
    node_wrap.tally_w 0 2000 validators_wrap 0 = some (node_wrap, [], []) :=
  ⟨by decide, by decide, by decide, by decide, by rfl, by rfl, by rfl⟩

/-- C3, as amended (same-time quorum).  For `W > 0` and a log whose votes all carry one time
`t`, not the default time point, from pairwise distinct validators, with `begin ≤ t`,
`t + W < end`, `hold ≤ W` and a positive quorum, `tally` returns, and it invokes `confirm` if
and only if some object has a summed weight, taken modulo `2^32` as the weight type
`unsigned` does, of at least the quorum; when every summed weight is in the range of the
type, if and only if some object has a summed weight of at least the quorum.  It invokes
`confirm` at most once, and the confirmed object is voted for in the log and no object has a
greater summed weight, so taken. -/
theorem same_time_quorum_unsigned (a : agreement) (vals : validators)
    (begin endt t : time_point) (hold : duration) (hW : 0 < a.W) (hq : 0 < vals.quorum)
    (ht : t ≠ time_point_default) (hall : ∀ e ∈ a.votes, e.1 = t)
    (hnd : (voters a.votes).Nodup) (hb : begin ≤ t) (he : t + a.W < endt)
    (hh : hold ≤ a.W) :
    ∃ r, a.tally_w begin endt vals hold = some r ∧
      (r.2.1 ≠ [] ↔ ∃ o, vals.quorum ≤ (summed vals a.votes o) % 4294967296) ∧
      ((∀ o, 0 ≤ summed vals a.votes o ∧ summed vals a.votes o < 4294967296) →
        (r.2.1 ≠ [] ↔ ∃ o, vals.quorum ≤ summed vals a.votes o)) ∧
      r.2.1.length ≤ 1 ∧
      ∀ c ∈ r.2.1, (∃ e ∈ a.votes, e.2.2 = c.1) ∧
        ∀ o, (summed vals a.votes o) % 4294967296
          ≤ (summed vals a.votes c.1) % 4294967296 := by
  have key : ∃ r, a.tally_w begin endt vals hold = some r ∧
      (r.2.1 ≠ [] ↔ ∃ o, vals.quorum ≤ wrap (summed vals a.votes o)) ∧
      r.2.1.length ≤ 1 ∧
      ∀ c ∈ r.2.1, (∃ e ∈ a.votes, e.2.2 = c.1) ∧
        ∀ o, wrap (summed vals a.votes o) ≤ wrap (summed vals a.votes c.1) := by
    by_cases hne : a.votes = []
    · have hle : begin ≤ endt := by linarith
      obtain ⟨tw, ks, q1, -, q3⟩ := scan_w_sim a tally.fresh tally.fresh begin endt vals hW
        hle tally_sim_fresh
      have hsel : selected a.votes begin endt = [] := by rw [hne]; rfl
      rw [hsel] at q3
      have hks : ks = [] := by
        cases q3
        rfl
      subst hks
      rw [tally_w_eq_foldl a begin endt vals hold tw [] q1]
      refine ⟨_, rfl, ?_, by simp [edges_of, sampler_init], ?_⟩
      · constructor
        · intro h
          exact absurd (by simp [edges_of, sampler_init]) h
        · rintro ⟨o, ho⟩
          rw [hne, summed_nil, wrap_zero] at ho
          exact absurd ho (not_le.2 hq)
      · intro c hc
        simp [edges_of, sampler_init] at hc
    · obtain ⟨r, Tw1, h1, h2, h3, h4⟩ := same_time_confirmed a vals begin endt t hold hW ht
        hall hnd hb he hh hne
      refine ⟨r, h1, ?_⟩
      rw [h2]
      by_cases hQ : vals.quorum ≤ Tw1.max.1
      · simp only [if_pos hQ]
        refine ⟨⟨fun _ => ⟨Tw1.max.2, by rw [← h3]; exact hQ⟩, fun _ => by simp⟩, by simp, ?_⟩
        intro c hc
        simp only [List.mem_singleton] at hc
        subst hc
        refine ⟨summed_ne_zero vals a.votes Tw1.max.2 ?_, ?_⟩
        · intro hz
          rw [hz, wrap_zero] at h3
          rw [h3] at hQ
          exact absurd hQ (not_le.2 hq)
        · intro o
          show wrap (summed vals a.votes o) ≤ wrap (summed vals a.votes Tw1.max.2)
          rw [← h3]
          exact h4 o
      · simp only [if_neg hQ]
        refine ⟨⟨fun h => absurd rfl h, ?_⟩, by simp, by simp⟩
        rintro ⟨o, ho⟩
        exact absurd (le_trans ho (h4 o)) hQ
  obtain ⟨r, k1, k2, k3, k4⟩ := key
  refine ⟨r, k1, k2, ?_, k3, k4⟩
  intro hr
  rw [k2]
  constructor
  · rintro ⟨o, ho⟩
    rw [wrap_of_range (hr o).1 (hr o).2] at ho
    exact ⟨o, ho⟩
  · rintro ⟨o, ho⟩
    exact ⟨o, by rw [wrap_of_range (hr o).1 (hr o).2]; exact ho⟩

theorem same_time_quorum_unsigned_witness :
    0 < node_s4.W ∧ 0 < (uniform_validators 3).quorum ∧
    (∀ e ∈ node_s4.votes, e.1 = 1000) ∧ (voters node_s4.votes).Nodup ∧
    summed (uniform_validators 3) node_s4.votes 0 = 3 ∧ (uniform_validators 3).quorum = 3 ∧
    node_s4.tally_w 0 2000 (uniform_validators 3) 50 = some (node_s4_confirmed, [(0, 0)], []) ∧
    ∃ r, node_s4.tally_w 0 2000 (uniform_validators 3) 50 = some r ∧
      (r.2.1 ≠ [] ↔
        ∃ o, (uniform_validators 3).quorum
          ≤ (summed (uniform_validators 3) node_s4.votes o) % 4294967296) :=
  ⟨by decide, by decide, by decide, by decide, by rfl, by rfl, by rfl,
    (same_time_quorum_unsigned node_s4 (uniform_validators 3) 0 2000 1000 50 (by decide)
      (by decide) (by decide) (by decide) (by decide) (by decide) (by decide)
      (by decide)).imp (fun _ h => ⟨h.1, h.2.1⟩)⟩

/-- C5, as amended.  The weight passed to `confirm` is the weight that `max ()` returns at
the edge at which `confirm` is invoked: the edge callback either records no call or records
the held object with the weight of the maximum of the current edge.  For votes all at one
non-default time `t` from pairwise distinct validators that all name object `o`, of a total
weight that, taken modulo `2^32` as the weight type `unsigned` does, is at least the quorum
(positive), with `W > 0`, `begin ≤ t`, `t + W < end` and `hold ≤ W`, `tally` invokes
`confirm (o, 0)` exactly once: at the confirming edge `t + W` all votes have expired. -/
theorem confirm_weight_unsigned (a : agreement) (vals : validators)
    (begin endt t : time_point) (hold : duration) (o : object) (hW : 0 < a.W)
    (hq : 0 < vals.quorum) (ht : t ≠ time_point_default)
    (hall : ∀ e ∈ a.votes, e.1 = t ∧ e.2.2 = o) (hnd : (voters a.votes).Nodup)
    (hsum : vals.quorum ≤ (summed vals a.votes o) % 4294967296)
    (hb : begin ≤ t) (he : t + a.W < endt) (hh : hold ≤ a.W) :
    (∀ (s : sampler) (time : time_point) (tl : tally),
      (hold_sampler vals hold s time tl).confirmed = s.confirmed ∨
      (hold_sampler vals hold s time tl).confirmed = s.confirmed ++ [(s.obj, tl.max.1)]) ∧
    ∃ r, a.tally_w begin endt vals hold = some r ∧ r.2.1 = [(o, 0)] := by
  constructor
  · intro s time tl
    rw [hold_sampler_confirmed]
    split_ifs
    · exact Or.inr rfl
    · exact Or.inl rfl
  have hsum1 : vals.quorum ≤ wrap (summed vals a.votes o) := hsum
  have hne : a.votes ≠ [] := by
    intro h
    rw [h, summed_nil, wrap_zero] at hsum1
    exact absurd hsum1 (not_le.2 hq)
  obtain ⟨r, Tw1, h1, h2, h3, h4⟩ := same_time_confirmed a vals begin endt t hold hW ht
    (fun e h => (hall e h).1) hnd hb he hh hne
  have hQ : vals.quorum ≤ Tw1.max.1 := le_trans hsum1 (h4 o)
  have hobj : Tw1.max.2 = o := by
    have hz : summed vals a.votes Tw1.max.2 ≠ 0 := by
      intro hz
      rw [hz, wrap_zero] at h3
      rw [h3] at hQ
      exact absurd hQ (not_le.2 hq)
    obtain ⟨e, he1, he2⟩ := summed_ne_zero vals a.votes Tw1.max.2 hz
    rw [← he2]
    exact (hall e he1).2
  refine ⟨r, h1, ?_⟩
  rw [h2, if_pos hQ, hobj]

theorem confirm_weight_unsigned_witness :
    0 < node_s4.W ∧ 0 < (uniform_validators 4).quorum ∧
    (∀ e ∈ node_s4.votes, e.1 = 1000 ∧ e.2.2 = 0) ∧ (voters node_s4.votes).Nodup ∧
    (uniform_validators 4).quorum
      ≤ (summed (uniform_validators 4) node_s4.votes 0) % 4294967296 ∧
    ∃ r, node_s4.tally_w 0 2000 (uniform_validators 4) 0 = some r ∧ r.2.1 = [(0, 0)] :=
  ⟨by decide, by decide, by decide, by decide, by decide,
    (confirm_weight_unsigned node_s4 (uniform_validators 4) 0 2000 1000 0 0 (by decide)
      (by decide) (by decide) (by decide) (by decide) (by decide) (by decide) (by decide)
      (by decide)).2⟩

end nano
